import Mathlib

/-!
# archlint: the architecture-graph analyzer

A shallow embedding of `internal/model/model.go` and `internal/analyzer/go.go`
and the properties of the graph that `GoAnalyzer.Analyze` returns, followed by
the embeddings of the tracer package (`pkg/tracer`) and of the return check of
the tracer lint (`internal/linter`), each introduced where its definitions
start.

Conventions of the embedding

* Go strings are Lean `String`s; the functions of the Go `strings` and
  `path/filepath` packages that the analyzer calls are defined below by
  structural recursion on the character list.  Paths are clean, absolute and
  slash separated, as `filepath.Abs` and `filepath.Walk` produce them.
* A Go `map[string]*T` is a `GoMap T`: an association list in which each key
  occurs once.  Go ranges over a map in an unspecified order; the embedding
  ranges in insertion order, and the properties proved below are about
  membership, counting, distinctness and permutations, so that none of them
  depends on the order in which a map is ranged over.
* The external parser (`go/parser`) is not embedded: a source file comes with
  the result `parser.ParseFile` gives for it, a syntax tree (`File`) or an
  error text.
* The calls to the `tracer` package are instrumentation and are left out.
-/

namespace Archlint

/-! ## The Go `strings` functions used by the analyzer -/

namespace strings

/-- Go `strings.HasPrefix`. -/
def HasPrefix (s pre : String) : Bool := pre.data.isPrefixOf s.data

/-- Go `strings.HasSuffix`. -/
def HasSuffix (s suf : String) : Bool := suf.data.isSuffixOf s.data

/-- Go `strings.TrimPrefix`. -/
def TrimPrefix (s pre : String) : String :=
  if HasPrefix s pre then ⟨s.data.drop pre.data.length⟩ else s

/-- Go `strings.TrimSuffix`. -/
def TrimSuffix (s suf : String) : String :=
  if HasSuffix s suf then ⟨s.data.take (s.data.length - suf.data.length)⟩ else s

/-- Does `sub` occur in the character list as a contiguous block. -/
def containsAux (sub : List Char) : List Char → Bool
  | [] => sub.isPrefixOf []
  | c :: cs => sub.isPrefixOf (c :: cs) || containsAux sub cs

/-- Go `strings.Contains`. -/
def Contains (s sub : String) : Bool := containsAux sub.data s.data

/-- Go `strings.Trim`: all leading and trailing characters of the cutset removed. -/
def Trim (s cutset : String) : String :=
  ⟨((s.data.dropWhile (fun c => cutset.data.contains c)).reverse.dropWhile
      (fun c => cutset.data.contains c)).reverse⟩

/-- Go `unicode.IsSpace`. -/
def isSpace (c : Char) : Bool :=
  let n := c.toNat
  (9 ≤ n && n ≤ 13) || n = 32 || n = 0x85 || n = 0xA0 || n = 0x1680 ||
  (0x2000 ≤ n && n ≤ 0x200a) || n = 0x2028 || n = 0x2029 || n = 0x202f ||
  n = 0x205f || n = 0x3000

/-- Go `strings.TrimSpace`. -/
def TrimSpace (s : String) : String :=
  ⟨((s.data.dropWhile isSpace).reverse.dropWhile isSpace).reverse⟩

/-- The pieces of a character list between the occurrences of `sep`. -/
def splitChars (sep : Char) : List Char → List (List Char)
  | [] => [[]]
  | c :: cs =>
    if c = sep then [] :: splitChars sep cs
    else
      match splitChars sep cs with
      | [] => [[c]]
      | h :: t => (c :: h) :: t

/-- Go `strings.Split` with a one-character separator. -/
def Split (s : String) (sep : Char) : List String :=
  (splitChars sep s.data).map String.mk

end strings

/-! ## The Go `path/filepath` functions used by the analyzer -/

namespace filepath

/-- The characters before the last separator of a path, `none` when the path
has no separator. -/
def dirChars : List Char → Option (List Char)
  | [] => none
  | c :: cs =>
    match dirChars cs with
    | some d => some (c :: d)
    | none => if c = '/' then some [] else none

/-- Go `filepath.Dir` on a clean path: all but the last element. -/
def Dir (path : String) : String :=
  match dirChars path.data with
  | none => "."
  | some [] => "/"
  | some d => ⟨d⟩

/-- Go `filepath.Join` of a clean path, other than the root `/` of the file
system, and one element. -/
def Join (path name : String) : String := path ++ "/" ++ name

/-- The elements left of two paths after their common leading elements. -/
def dropCommon : List (List Char) → List (List Char) → List (List Char) × List (List Char)
  | b :: bs, t :: ts => if b = t then dropCommon bs ts else (b :: bs, t :: ts)
  | bs, ts => (bs, ts)

/-- The elements joined by separators. -/
def joinElems : List (List Char) → List Char
  | [] => []
  | [e] => e
  | e :: es => e ++ '/' :: joinElems es

/-- Go `filepath.Rel` on two clean absolute paths: `.` for equal paths,
otherwise one `..` for each remaining element of the base followed by the
remaining elements of the target. -/
def Rel (basepath targpath : String) : String :=
  if targpath = basepath then "."
  else
    let r := dropCommon (strings.splitChars '/' basepath.data)
      (strings.splitChars '/' targpath.data)
    ⟨joinElems (r.1.map (fun _ => ['.', '.']) ++ r.2)⟩

end filepath

/-! ## `internal/model/model.go` -/

/-- A component of the architecture graph. -/
structure Node where
  ID : String
  Title : String
  Entity : String
  deriving DecidableEq, Repr

/-- A link between components of the architecture graph. -/
structure Edge where
  From : String
  To : String
  Method : String
  Type_ : String
  deriving DecidableEq, Repr

/-- An architecture graph: components and links. -/
structure Graph where
  Nodes : List Node
  Edges : List Edge
  deriving DecidableEq, Repr

/-! ## Go maps with string keys -/

/-- A Go `map[string]*T`, as an association list. -/
abbrev GoMap (α : Type) := List (String × α)

namespace GoMap

variable {α : Type}

/-- The value stored under a key: `m[k]` with its presence flag. -/
def get? : GoMap α → String → Option α
  | [], _ => none
  | (k', v) :: m, k => if k' = k then some v else get? m k

/-- Whether a key is present: `_, exists := m[k]`. -/
def contains (m : GoMap α) (k : String) : Bool := (m.get? k).isSome

/-- The assignment `m[k] = v`: replaces the value of a present key, adds an
absent one. -/
def insert : GoMap α → String → α → GoMap α
  | [], k, v => [(k, v)]
  | (k', v') :: m, k, v => if k' = k then (k, v) :: m else (k', v') :: insert m k v

/-- The keys of the map. -/
def keys (m : GoMap α) : List String := m.map Prod.fst

end GoMap

/-! ## The syntax trees handed over by the parser (`go/ast`) -/

/-- A type expression (`ast.Expr` in type position).  A struct type carries
its field list (`Fields.List`): the names and the type of each entry, an
embedded field having no name.  `arrayType` stands for slices and arrays,
`indexExpr` for an instantiated generic type, `otherExpr` for any shape
that is not listed. -/
inductive Expr where
  | ident (name : String)
  | selectorExpr (x : Expr) (sel : String)
  | starExpr (x : Expr)
  | arrayType (elt : Expr)
  | mapType (key value : Expr)
  | chanType (value : Expr)
  | funcType
  | indexExpr (x index : Expr)
  | parenExpr (x : Expr)
  | structType (fields : List (List String × Expr))
  | interfaceType
  | otherExpr
  deriving Repr

/-- One entry of a field list (`ast.Field`): the declared names and the type.
An embedded field has no name. -/
structure Field where
  Names : List String
  Type_ : Expr
  deriving Repr

/-- A type declaration `Name Type` (`ast.TypeSpec`) with the line it is on. -/
structure TypeSpec where
  Name : String
  Type_ : Expr
  Line : Nat
  deriving Repr

/-- An entry of a general declaration (`ast.Spec`). -/
inductive Spec where
  | typeSpec (s : TypeSpec)
  | importSpec
  | valueSpec
  deriving Repr

/-- The keyword of a general declaration (`token.Token`). -/
inductive Token where
  | IMPORT
  | CONST
  | TYPE
  | VAR
  deriving DecidableEq, Repr

/-- A general declaration (`ast.GenDecl`). -/
structure GenDecl where
  Tok : Token
  Specs : List Spec
  deriving Repr

/-- A node of a function body as `ast.Inspect` meets it.  Identifiers,
selector expressions and call expressions are kept apart; every other node
(block, statement, function literal, operator, ...) is `other` with its
children in the order `ast.Inspect` visits them. -/
inductive AstNode where
  | ident (name : String)
  | selectorExpr (x : AstNode) (sel : String)
  | callExpr (fn : AstNode) (args : List AstNode) (line : Nat)
  | other (children : List AstNode)
  deriving Repr

/-- A function or method declaration (`ast.FuncDecl`).  `Recv` is the list of
the receiver field list, empty for a function; `Body` is absent for a
declaration without body. -/
structure FuncDecl where
  Recv : List Field
  Name : String
  Body : Option AstNode
  Line : Nat

/-- A top-level declaration (`ast.Decl`). -/
inductive Decl where
  | genDecl (d : GenDecl)
  | funcDecl (d : FuncDecl)
  | badDecl

/-- A parsed source file (`ast.File`): package name, the literal of each import
path in order (quotes included), the top-level declarations. -/
structure File where
  Name : String
  Imports : List String
  Decls : List Decl

/-! ## `internal/analyzer/go.go`: the symbol tables -/

/-- Information about a Go package. -/
structure PackageInfo where
  Name : String
  Path : String
  Dir : String
  Imports : List String
  deriving DecidableEq, Repr

/-- Information about a struct field. -/
structure FieldInfo where
  Name : String
  TypeName : String
  TypePkg : String
  deriving DecidableEq, Repr

/-- Information about a type declaration. -/
structure TypeInfo where
  Name : String
  Package : String
  Kind : String
  File : String
  Line : Nat
  Fields : List FieldInfo
  Embeds : List String
  Implements : List String
  deriving DecidableEq, Repr

/-- Information about a function or method call. -/
structure CallInfo where
  Target : String
  IsMethod : Bool
  Receiver : String
  Line : Nat
  deriving DecidableEq, Repr

/-- Information about a function. -/
structure FunctionInfo where
  Name : String
  Package : String
  File : String
  Line : Nat
  Calls : List CallInfo
  deriving DecidableEq, Repr

/-- Information about a method. -/
structure MethodInfo where
  Name : String
  Receiver : String
  Package : String
  File : String
  Line : Nat
  Calls : List CallInfo
  deriving DecidableEq, Repr

/-- The analyzer: four symbol tables, the accumulated nodes and edges, the
analysis root and the module path. -/
structure GoAnalyzer where
  packages : GoMap PackageInfo
  types : GoMap TypeInfo
  functions : GoMap FunctionInfo
  methods : GoMap MethodInfo
  nodes : List Node
  edges : List Edge
  baseDir : String
  modulePath : String
  deriving DecidableEq, Repr

/-- Creates a new analyzer: empty tables, no nodes, no edges. -/
def NewGoAnalyzer : GoAnalyzer :=
  { packages := [], types := [], functions := [], methods := [],
    nodes := [], edges := [], baseDir := "", modulePath := "" }

/-! ## Symbol extraction -/

/-- The first line of the module descriptor that, trimmed, starts with
`module `; its remainder, trimmed.  The empty string when there is none. -/
def moduleLine : List String → String
  | [] => ""
  | line :: rest =>
    let line := strings.TrimSpace line
    if strings.HasPrefix line "module " then
      strings.TrimSpace (strings.TrimPrefix line "module ")
    else moduleLine rest

/-- The module path declared by `go.mod` at the analysis root; `goMod` is the
content of the file, `none` when it cannot be read. -/
def detectModulePath (goMod : Option String) : String :=
  match goMod with
  | none => ""
  | some data => moduleLine (strings.Split data '\n')

/-- The table of standard-library prefixes of `isStdLib`. -/
def stdlibPrefixes : List String :=
  [ "archive/", "bufio", "bytes", "compress/", "container/",
    "context", "crypto/", "database/", "debug/", "embed",
    "encoding/", "errors", "expvar", "flag", "fmt",
    "go/", "hash/", "html/", "image/", "index/",
    "io", "log", "math/", "mime/", "net/",
    "os", "path/", "plugin", "reflect", "regexp",
    "runtime/", "sort", "strconv", "strings", "sync",
    "syscall", "testing", "text/", "time", "unicode/",
    "unsafe" ]

/-- Whether an import path is taken for a standard-library package. -/
def isStdLib (importPath : String) : Bool :=
  if !strings.Contains importPath "." then true
  else
    stdlibPrefixes.any (fun pre =>
      strings.HasPrefix importPath pre || importPath == strings.TrimSuffix pre "/")

/-- The builtin functions that `collectCalls` does not record. -/
def isBuiltin (name : String) : Bool :=
  [ "make", "new", "len", "cap", "append", "copy", "delete", "close",
    "panic", "recover", "print", "println", "complex", "real", "imag" ].contains name

/-- The short name and the package of a type expression; pointers, slices,
arrays and map values are unwrapped, other shapes give two empty strings. -/
def resolveTypeName : Expr → String → String × String
  | .ident name, currentPkg => (name, currentPkg)
  | .selectorExpr (.ident x) sel, _ => (sel, x)
  | .starExpr x, currentPkg => resolveTypeName x currentPkg
  | .arrayType elt, currentPkg => resolveTypeName elt currentPkg
  | .mapType _ value, currentPkg => resolveTypeName value currentPkg
  | _, _ => ("", "")

/-- One struct field: an embedded field adds its type name to `Embeds`, a
named field adds one `FieldInfo` for each of its names. -/
def parseStructField (field : Field) (typeInfo : TypeInfo) (pkgPath : String) : TypeInfo :=
  let r := resolveTypeName field.Type_ pkgPath
  if field.Names.length = 0 then
    { typeInfo with Embeds := typeInfo.Embeds ++ [r.1] }
  else
    { typeInfo with
      Fields := typeInfo.Fields ++
        field.Names.map (fun name => { Name := name, TypeName := r.1, TypePkg := r.2 }) }

/-- The entry built for one type declaration. -/
def parseTypeSpec (typeSpec : TypeSpec) (pkgPath filename : String) : TypeInfo :=
  let typeInfo : TypeInfo :=
    { Name := typeSpec.Name, Package := pkgPath, Kind := "", File := filename,
      Line := typeSpec.Line, Fields := [], Embeds := [], Implements := [] }
  match typeSpec.Type_ with
  | .structType fields =>
    fields.foldl (fun ti field =>
      parseStructField { Names := field.1, Type_ := field.2 } ti pkgPath)
      { typeInfo with Kind := "struct" }
  | .interfaceType => { typeInfo with Kind := "interface" }
  | _ => typeInfo

/-- A general declaration: each type declaration of a `type` declaration is
stored in the type table under `pkgPath.Name`. -/
def parseGenDecl (a : GoAnalyzer) (decl : GenDecl) (pkgPath filename : String) : GoAnalyzer :=
  if decl.Tok ≠ Token.TYPE then a
  else
    decl.Specs.foldl (fun a spec =>
      match spec with
      | .typeSpec typeSpec =>
        { a with types := (a.types.insert (pkgPath ++ "." ++ typeSpec.Name)
            (parseTypeSpec typeSpec pkgPath filename)) }
      | _ => a) a

/-- The receiver type name: an identifier or a pointer to an identifier, the
empty string for any other shape. -/
def getReceiverName : Expr → String
  | .ident name => name
  | .starExpr (.ident name) => name
  | _ => ""

/-- The call-site recorded for a call expression with callee `fn`, if any. -/
def classifyCall (fn : AstNode) (line : Nat) : List CallInfo :=
  match fn with
  | .ident name =>
    if !isBuiltin name then
      [{ Target := name, IsMethod := false, Receiver := "", Line := line }]
    else []
  | .selectorExpr (.ident x) sel =>
    [{ Target := sel, IsMethod := true, Receiver := x, Line := line }]
  | _ => []

mutual
/-- The call-sites of a body, in the order `ast.Inspect` meets the call
expressions. -/
def collectCalls : AstNode → List CallInfo
  | .ident _ => []
  | .selectorExpr x _ => collectCalls x
  | .callExpr fn args line => classifyCall fn line ++ (collectCalls fn ++ collectCallsList args)
  | .other children => collectCallsList children
/-- The call-sites of a list of sibling nodes. -/
def collectCallsList : List AstNode → List CallInfo
  | [] => []
  | n :: ns => collectCalls n ++ collectCallsList ns
end

/-- The call-sites of an optional body (`decl.Body != nil`). -/
def bodyCalls : Option AstNode → List CallInfo
  | none => []
  | some body => collectCalls body

/-- A function declaration: with a receiver it is stored in the method table
under `pkgPath.Receiver.Name`, without one in the function table under
`pkgPath.Name`. -/
def parseFuncDecl (a : GoAnalyzer) (decl : FuncDecl) (pkgPath filename : String) : GoAnalyzer :=
  match decl.Recv with
  | recv0 :: _ =>
    let receiver := getReceiverName recv0.Type_
    let methodID := pkgPath ++ "." ++ receiver ++ "." ++ decl.Name
    let methodInfo : MethodInfo :=
      { Name := decl.Name, Receiver := receiver, Package := pkgPath, File := filename,
        Line := decl.Line, Calls := bodyCalls decl.Body }
    { a with methods := a.methods.insert methodID methodInfo }
  | [] =>
    let funcID := pkgPath ++ "." ++ decl.Name
    let funcInfo : FunctionInfo :=
      { Name := decl.Name, Package := pkgPath, File := filename,
        Line := decl.Line, Calls := bodyCalls decl.Body }
    { a with functions := a.functions.insert funcID funcInfo }

/-- The package identity of a file: the module path, followed by `/` and the
directory relative to the analysis root unless that is `.` or empty. -/
def filePkgPath (a : GoAnalyzer) (filename : String) : String :=
  let dir := filepath.Dir filename
  let relDir := filepath.Rel a.baseDir dir
  if relDir ≠ "." ∧ relDir ≠ "" then a.modulePath ++ "/" ++ relDir else a.modulePath

/-- The package entry of `pkgPath` is created if there is none yet. -/
def ensurePackage (a : GoAnalyzer) (pkgPath name dir : String) : GoAnalyzer :=
  if a.packages.contains pkgPath then a
  else
    let pkg : PackageInfo := { Name := name, Path := pkgPath, Dir := dir, Imports := [] }
    { a with packages := a.packages.insert pkgPath pkg }

/-- One import of a file: unless it is taken for a standard-library package,
its path (the literal without the quotes) is appended to the imports of the
package. -/
def addImport (a : GoAnalyzer) (pkgPath imp : String) : GoAnalyzer :=
  let impPath := strings.Trim imp "\""
  if !isStdLib impPath then
    match a.packages.get? pkgPath with
    | some pkg =>
      let pkg : PackageInfo := { pkg with Imports := pkg.Imports ++ [impPath] }
      { a with packages := a.packages.insert pkgPath pkg }
    | none => a
  else a

/-- One top-level declaration of a file. -/
def parseDecl (a : GoAnalyzer) (decl : Decl) (pkgPath filename : String) : GoAnalyzer :=
  match decl with
  | .genDecl d => parseGenDecl a d pkgPath filename
  | .funcDecl d => parseFuncDecl a d pkgPath filename
  | .badDecl => a

/-- A parsed file is entered into the symbol tables. -/
def parseFileNode (a : GoAnalyzer) (filename : String) (node : File) : GoAnalyzer :=
  let dir := filepath.Dir filename
  let pkgPath := filePkgPath a filename
  let a := ensurePackage a pkgPath node.Name dir
  let a := node.Imports.foldl (fun a imp => addImport a pkgPath imp) a
  node.Decls.foldl (fun a decl => parseDecl a decl pkgPath filename) a

/-- One source file: `parsed` is what the parser returns for it.  A parse
error is returned with the file name and leaves the tables as they are. -/
def parseFile (a : GoAnalyzer) (filename : String) (parsed : Except String File) :
    GoAnalyzer × Option String :=
  match parsed with
  | .error err => (a, some ("failed to parse file " ++ filename ++ ": " ++ err))
  | .ok node => (parseFileNode a filename node, none)

/-! ## Walking the source tree -/

/-- An entry of the file tree below the analysis root, as `filepath.Walk`
meets it: a file with the result the parser gives for it, a directory with
the error of reading it (if any) and its entries in lexical order, or a name
whose `Lstat` fails. -/
inductive FsEntry where
  | file (name : String) (parsed : Except String File)
  | dir (name : String) (readErr : Option String) (children : List FsEntry)
  | lstatErr (name : String) (err : String)

/-- The name of an entry (`info.Name()`). -/
def FsEntry.Name : FsEntry → String
  | .file name _ => name
  | .dir name _ _ => name
  | .lstatErr name _ => name

/-- Whether an entry is a directory (`info.IsDir()`). -/
def FsEntry.IsDir : FsEntry → Bool
  | .dir _ _ _ => true
  | _ => false

/-- The result of parsing an entry; only asked for files. -/
def FsEntry.parsed : FsEntry → Except String File
  | .file _ parsed => parsed
  | _ => .error "not a file"

/-- What a walk function returns: `nil`, `filepath.SkipDir`, or an error. -/
inductive WalkResult where
  | ok
  | skipDir
  | error (msg : String)
  deriving DecidableEq, Repr

/-- The walk function of the analyzer: an error of the walk is returned, the
directories `vendor`, `node_modules`, `.git` and `bin` are skipped, a file is
parsed when its path ends in `.go` but not in `_test.go`. -/
def walkFunc (a : GoAnalyzer) (path : String) (info : FsEntry) (err : Option String) :
    GoAnalyzer × WalkResult :=
  match err with
  | some e => (a, .error e)
  | none =>
    if info.IsDir then
      let name := info.Name
      if name = "vendor" ∨ name = "node_modules" ∨ name = ".git" ∨ name = "bin" then
        (a, .skipDir)
      else (a, .ok)
    else if !strings.HasSuffix path ".go" then (a, .ok)
    else if strings.HasSuffix path "_test.go" then (a, .ok)
    else
      match parseFile a path info.parsed with
      | (a, some parseErr) => (a, .error parseErr)
      | (a, none) => (a, .ok)

mutual
/-- The recursive descent of `filepath.Walk` below one entry, for a walk
function `walkFn` acting on a state. -/
def walk {σ : Type} (walkFn : σ → String → FsEntry → Option String → σ × WalkResult)
    (s : σ) (path : String) : FsEntry → σ × WalkResult
  | .file name parsed => walkFn s path (.file name parsed) none
  | .lstatErr name err => walkFn s path (.lstatErr name err) (some err)
  | .dir name readErr children =>
    let r := walkFn s path (.dir name readErr children) readErr
    if readErr.isSome ∨ r.2 ≠ .ok then r
    else walkList walkFn r.1 path children
/-- The loop of `filepath.Walk` over the entries of a directory: an error
stops the walk, `SkipDir` returned for a directory only skips it. -/
def walkList {σ : Type} (walkFn : σ → String → FsEntry → Option String → σ × WalkResult)
    (s : σ) (path : String) : List FsEntry → σ × WalkResult
  | [] => (s, .ok)
  | e :: es =>
    let r := walk walkFn s (filepath.Join path e.Name) e
    match r.2 with
    | .ok => walkList walkFn r.1 path es
    | .skipDir => if e.IsDir then walkList walkFn r.1 path es else r
    | .error msg => (r.1, .error msg)
end

/-- Go `filepath.Walk`: `SkipDir` at the root is no error. -/
def Walk {σ : Type} (walkFn : σ → String → FsEntry → Option String → σ × WalkResult)
    (s : σ) (root : String) (tree : FsEntry) : σ × Option String :=
  let r := walk walkFn s root tree
  match r.2 with
  | .error msg => (r.1, some msg)
  | _ => (r.1, none)

/-- The walk function that only lists what `walkFunc` parses: the path and
the syntax tree of each file handed to the parser, until the walk stops. -/
def listFunc (l : List (String × File)) (path : String) (info : FsEntry)
    (err : Option String) : List (String × File) × WalkResult :=
  match err with
  | some e => (l, .error e)
  | none =>
    if info.IsDir then
      let name := info.Name
      if name = "vendor" ∨ name = "node_modules" ∨ name = ".git" ∨ name = "bin" then
        (l, .skipDir)
      else (l, .ok)
    else if !strings.HasSuffix path ".go" then (l, .ok)
    else if strings.HasSuffix path "_test.go" then (l, .ok)
    else
      match info.parsed with
      | .error perr => (l, .error ("failed to parse file " ++ path ++ ": " ++ perr))
      | .ok node => (l ++ [(path, node)], .ok)

/-- The analysed files of a tree: path and syntax tree of every file that the
walk from `root` parses, in the order of the walk. -/
def analysedFiles (root : String) (tree : FsEntry) : List (String × File) :=
  (walk listFunc [] root tree).1

/-! ## Building the graph -/

/-- The node of a package entry. -/
def packageNode (e : String × PackageInfo) : Node :=
  { ID := e.1, Title := e.2.Name, Entity := "package" }

/-- The node of a type entry. -/
def typeNode (e : String × TypeInfo) : Node :=
  { ID := e.1, Title := e.2.Name,
    Entity := if e.2.Kind = "interface" then "interface" else "struct" }

/-- The node of a function entry. -/
def functionNode (e : String × FunctionInfo) : Node :=
  { ID := e.1, Title := e.2.Name, Entity := "function" }

/-- The node of a method entry. -/
def methodNode (e : String × MethodInfo) : Node :=
  { ID := e.1, Title := e.2.Name, Entity := "method" }

/-- One node for each package. -/
def buildPackageNodes (a : GoAnalyzer) : GoAnalyzer :=
  { a with nodes := a.nodes ++ a.packages.map packageNode }

/-- One node for each type: `interface` for an interface, `struct` otherwise. -/
def buildTypeNodes (a : GoAnalyzer) : GoAnalyzer :=
  { a with nodes := a.nodes ++ a.types.map typeNode }

/-- One node for each function. -/
def buildFunctionNodes (a : GoAnalyzer) : GoAnalyzer :=
  { a with nodes := a.nodes ++ a.functions.map functionNode }

/-- One node for each method. -/
def buildMethodNodes (a : GoAnalyzer) : GoAnalyzer :=
  { a with nodes := a.nodes ++ a.methods.map methodNode }

/-- The import edges of one package: one for each import that starts with the
module path. -/
def importEdgesOf (modulePath path : String) (pkg : PackageInfo) : List Edge :=
  (pkg.Imports.filter (fun imp => strings.HasPrefix imp modulePath)).map (fun imp =>
    { From := path, To := imp, Method := "", Type_ := "import" })

/-- An import edge for each import of each package that starts with the
module path. -/
def buildImportEdges (a : GoAnalyzer) : GoAnalyzer :=
  { a with edges := a.edges ++ a.packages.flatMap (fun e => importEdgesOf a.modulePath e.1 e.2) }

/-- The contains edge of a method, if the type `Package.Receiver` is in the
type table. -/
def methodContainsEdge (types : GoMap TypeInfo) (id : String) (methodInfo : MethodInfo) :
    List Edge :=
  let typeID := methodInfo.Package ++ "." ++ methodInfo.Receiver
  if types.contains typeID then [{ From := typeID, To := id, Method := "", Type_ := "contains" }]
  else []

/-- The contains edges: package to type, package to function, type to method. -/
def buildContainsEdges (a : GoAnalyzer) : GoAnalyzer :=
  { a with edges := a.edges ++
      (a.types.map (fun e =>
        ({ From := e.2.Package, To := e.1, Method := "", Type_ := "contains" } : Edge)) ++
      (a.functions.map (fun e =>
        ({ From := e.2.Package, To := e.1, Method := "", Type_ := "contains" } : Edge)) ++
       a.methods.flatMap (fun e => methodContainsEdge a.types e.1 e.2))) }

/-- The target of a call: the function `currentPkg.Target` for a call that
is not a method call, if there is such a function; the empty string otherwise. -/
def resolveCallTarget (a : GoAnalyzer) (call : CallInfo) (currentPkg : String) : String :=
  if !call.IsMethod then
    let funcID := currentPkg ++ "." ++ call.Target
    if a.functions.contains funcID then funcID else ""
  else ""

/-- The calls edges of the call-sites of one function or method `id`. -/
def callEdgesOf (a : GoAnalyzer) (id pkg : String) (calls : List CallInfo) : List Edge :=
  calls.flatMap (fun call =>
    let target := resolveCallTarget a call pkg
    if target ≠ "" then [{ From := id, To := target, Method := call.Target, Type_ := "calls" }]
    else [])

/-- The calls edges of all functions, then of all methods. -/
def buildCallEdges (a : GoAnalyzer) : GoAnalyzer :=
  { a with edges := a.edges ++
      (a.functions.flatMap (fun e => callEdgesOf a e.1 e.2.Package e.2.Calls) ++
       a.methods.flatMap (fun e => callEdgesOf a e.1 e.2.Package e.2.Calls)) }

/-- The names of the predeclared types that get no type-dependency edge. -/
def primitives (name : String) : Bool :=
  [ "bool", "string", "int", "int8", "int16", "int32", "int64", "uint",
    "uint8", "uint16", "uint32", "uint64", "uintptr", "byte", "rune", "float32",
    "float64", "complex64", "complex128", "error" ].contains name

/-- The embeds edges of one type. -/
def embedEdgesOf (types : GoMap TypeInfo) (id : String) (typeInfo : TypeInfo) : List Edge :=
  typeInfo.Embeds.flatMap (fun embed =>
    if primitives embed then []
    else
      let embedID := typeInfo.Package ++ "." ++ embed
      if types.contains embedID then
        [{ From := id, To := embedID, Method := "", Type_ := "embeds" }]
      else [])

/-- The uses edges of one type. -/
def useEdgesOf (types : GoMap TypeInfo) (id : String) (typeInfo : TypeInfo) : List Edge :=
  typeInfo.Fields.flatMap (fun field =>
    if primitives field.TypeName then []
    else
      let depID := if field.TypePkg = typeInfo.Package then
        typeInfo.Package ++ "." ++ field.TypeName else ""
      if depID ≠ "" ∧ types.contains depID then
        [{ From := id, To := depID, Method := "", Type_ := "uses" }]
      else [])

/-- The embeds and uses edges of every type. -/
def buildTypeDependencyEdges (a : GoAnalyzer) : GoAnalyzer :=
  { a with edges := a.edges ++
      a.types.flatMap (fun e => embedEdgesOf a.types e.1 e.2 ++ useEdgesOf a.types e.1 e.2) }

/-- The eight passes of the graph builder, in order. -/
def buildGraph (a : GoAnalyzer) : GoAnalyzer :=
  buildTypeDependencyEdges (buildCallEdges (buildContainsEdges (buildImportEdges
    (buildMethodNodes (buildFunctionNodes (buildTypeNodes (buildPackageNodes a)))))))

/-- What `Analyze` reads from its environment for the directory it is given:
the result of `filepath.Abs`, the content of `go.mod` at the root (`none`
when it cannot be read) and the file tree at the root. -/
structure FileSystem where
  abs : Except String String
  goMod : Option String
  root : FsEntry

/-- Analyzes the source tree and returns the architecture graph, or an
error; the analyzer is returned with the state the call leaves it in. -/
def Analyze (a : GoAnalyzer) (fs : FileSystem) : GoAnalyzer × Except String Graph :=
  match fs.abs with
  | .error err => (a, .error ("failed to get absolute path: " ++ err))
  | .ok absDir =>
    let a := { a with baseDir := absDir }
    let a := { a with modulePath := detectModulePath fs.goMod }
    match Walk walkFunc a absDir fs.root with
    | (a, some err) => (a, .error ("failed to walk directory: " ++ err))
    | (a, none) =>
      let a := buildGraph a
      (a, .ok { Nodes := a.nodes, Edges := a.edges })

/-! ## Notions used to state the properties -/

/-- A name without a dot.  Every identifier the Go scanner produces is one. -/
def dotFree (s : String) : Bool := !s.data.contains '.'

mutual
/-- Every identifier and selector name of a body is dot-free. -/
def AstNode.identsDotFree : AstNode → Bool
  | .ident name => dotFree name
  | .selectorExpr x sel => x.identsDotFree && dotFree sel
  | .callExpr fn args _ => fn.identsDotFree && identsDotFreeList args
  | .other children => identsDotFreeList children
/-- Every identifier and selector name of a list of nodes is dot-free. -/
def identsDotFreeList : List AstNode → Bool
  | [] => true
  | n :: ns => n.identsDotFree && identsDotFreeList ns
end

mutual
/-- Every identifier and selector name of a type expression is dot-free. -/
def Expr.identsDotFree : Expr → Bool
  | .ident name => dotFree name
  | .selectorExpr x sel => x.identsDotFree && dotFree sel
  | .starExpr x => x.identsDotFree
  | .arrayType elt => elt.identsDotFree
  | .mapType key value => key.identsDotFree && value.identsDotFree
  | .chanType value => value.identsDotFree
  | .funcType => true
  | .indexExpr x index => x.identsDotFree && index.identsDotFree
  | .parenExpr x => x.identsDotFree
  | .structType fields => fieldsDotFree fields
  | .interfaceType => true
  | .otherExpr => true
/-- Every identifier of the types of a field list is dot-free. -/
def fieldsDotFree : List (List String × Expr) → Bool
  | [] => true
  | (_, t) :: fields => t.identsDotFree && fieldsDotFree fields
end

/-- The declared name and the identifiers of a specification are dot-free. -/
def Spec.wf : Spec → Bool
  | .typeSpec s => dotFree s.Name && s.Type_.identsDotFree
  | _ => true

/-- The declared names and the identifiers of the body of a declaration are
dot-free. -/
def Decl.wf : Decl → Bool
  | .genDecl d => d.Specs.all Spec.wf
  | .funcDecl d =>
    dotFree d.Name &&
      (match d.Body with
       | none => true
       | some body => body.identsDotFree)
  | .badDecl => true

/-- A syntax tree as the parser builds it: its identifiers are dot-free. -/
def File.wf (f : File) : Bool := f.Decls.all Decl.wf

/-- The analyzer after the given files have been entered, in order. -/
def parseFiles (a : GoAnalyzer) (files : List (String × File)) : GoAnalyzer :=
  files.foldl (fun a p => parseFileNode a p.1 p.2) a

/-- The fresh analyzer as `Analyze` sets it up before the walk. -/
def startAnalyzer (absDir modulePath : String) : GoAnalyzer :=
  { NewGoAnalyzer with baseDir := absDir, modulePath := modulePath }

/-- A function entry is stored under `Package.Name`, its name and the targets
of its bare calls are dot-free. -/
def FuncOk (e : String × FunctionInfo) : Prop :=
  e.1 = e.2.Package ++ "." ++ e.2.Name ∧ dotFree e.2.Name = true ∧
    ∀ c ∈ e.2.Calls, c.IsMethod = false → dotFree c.Target = true

/-- A type entry is stored under `Package.Name`; its name, the names of its
embedded types and the type names of its fields are dot-free. -/
def TypeOk (e : String × TypeInfo) : Prop :=
  e.1 = e.2.Package ++ "." ++ e.2.Name ∧ dotFree e.2.Name = true ∧
    (∀ n ∈ e.2.Embeds, dotFree n = true) ∧ (∀ f ∈ e.2.Fields, dotFree f.TypeName = true)

/-- A method entry is stored under `Package.Receiver.Name` and the targets of
its bare calls are dot-free. -/
def MethOk (e : String × MethodInfo) : Prop :=
  e.1 = e.2.Package ++ "." ++ e.2.Receiver ++ "." ++ e.2.Name ∧
    ∀ c ∈ e.2.Calls, c.IsMethod = false → dotFree c.Target = true

/-- The keys of each of the four tables are pairwise distinct. -/
def KeysNodup (a : GoAnalyzer) : Prop :=
  a.packages.keys.Nodup ∧ a.types.keys.Nodup ∧ a.functions.keys.Nodup ∧ a.methods.keys.Nodup

/-- Every entry of the type, function and method tables is well formed. -/
def SymbolsOk (a : GoAnalyzer) : Prop :=
  (∀ e ∈ a.types, TypeOk e) ∧ (∀ e ∈ a.functions, FuncOk e) ∧ (∀ e ∈ a.methods, MethOk e)

/-- The first path segment of an import path: the text before the first `/`. -/
def firstSegment (importPath : String) : String :=
  ⟨importPath.data.takeWhile (fun c => c ≠ '/')⟩

/-- An import path matches the table of standard-library prefixes. -/
def matchesStdlibTable (importPath : String) : Bool :=
  stdlibPrefixes.any (fun pre =>
    strings.HasPrefix importPath pre || importPath == strings.TrimSuffix pre "/")

/-- The import filter in the words of the specification: discarded when the
first path segment has no dot or the path matches the prefix table. -/
def isStdLibSpec (importPath : String) : Bool :=
  !strings.Contains (firstSegment importPath) "." || matchesStdlibTable importPath

/-- The package identity that a directory gets when the module path is
empty, from its path relative to the root. -/
def emptyPrefixIdentity (relDir : String) : String :=
  if relDir ≠ "." ∧ relDir ≠ "" then "/" ++ relDir else ""

/-- The calls edge of a resolved call-site `c` of the function or method `id`
of package `pkg`. -/
def callEdge (id pkg : String) (c : CallInfo) : Edge :=
  { From := id, To := pkg ++ "." ++ c.Target, Method := c.Target, Type_ := "calls" }

/-- The edges of the five edge passes, for the tables of `a`: import edges,
contains edges, calls edges, then the embeds and uses edges. -/
def passEdges (a : GoAnalyzer) : List Edge :=
  a.packages.flatMap (fun e => importEdgesOf a.modulePath e.1 e.2) ++
  ((a.types.map (fun e =>
      ({ From := e.2.Package, To := e.1, Method := "", Type_ := "contains" } : Edge)) ++
    (a.functions.map (fun e =>
      ({ From := e.2.Package, To := e.1, Method := "", Type_ := "contains" } : Edge)) ++
     a.methods.flatMap (fun e => methodContainsEdge a.types e.1 e.2))) ++
  ((a.functions.flatMap (fun e => callEdgesOf a e.1 e.2.Package e.2.Calls) ++
    a.methods.flatMap (fun e => callEdgesOf a e.1 e.2.Package e.2.Calls)) ++
   a.types.flatMap (fun e => embedEdgesOf a.types e.1 e.2 ++ useEdgesOf a.types e.1 e.2)))

/-! ### A tree in which ids of different tables coincide

The directory `a` declares the type `T` with the method `M`; the directory
`a.T` declares the functions `M` and `N`, and `N` calls `M`. -/

/-- The file `a/t.go`: `type T struct{}` and `func (T) M() {}`. -/
def clashFileA : File :=
  { Name := "a", Imports := [],
    Decls :=
      [ .genDecl { Tok := .TYPE, Specs := [.typeSpec { Name := "T", Type_ := .structType [], Line := 3 }] },
        .funcDecl { Recv := [{ Names := [], Type_ := .ident "T" }], Name := "M",
                    Body := some (.other []), Line := 5 } ] }

/-- The file `a.T/f.go`: `func M() {}` and `func N() { M() }`. -/
def clashFileB : File :=
  { Name := "t", Imports := [],
    Decls :=
      [ .funcDecl { Recv := [], Name := "M", Body := some (.other []), Line := 3 },
        .funcDecl { Recv := [], Name := "N",
                    Body := some (.other [.callExpr (.ident "M") [] 6]), Line := 5 } ] }

/-- The tree with the two directories, below the root `/r` with module `m`. -/
def clashFs : FileSystem :=
  { abs := .ok "/r",
    goMod := some "module m\n",
    root := .dir "r" none
      [ .dir "a" none [.file "t.go" (.ok clashFileA)],
        .dir "a.T" none [.file "f.go" (.ok clashFileB)] ] }

/-! ### A small module

The module `example.com/m` with the directory `shapes` and its file
`shapes.go`: the struct `Shape` embeds `Base` and has the fields `Center` of
type `Origin` and `Name` of type `string`; the function `Area` calls the
function `helper`; the method `Describe` of `*Shape` calls `fmt.Println`. -/

/-- The file `shapes/shapes.go`. -/
def shapesFile : File :=
  { Name := "shapes",
    Imports := ["\"fmt\"", "\"example.com/m/util\"", "\"github.com/other/lib\""],
    Decls :=
      [ .genDecl { Tok := .IMPORT, Specs := [.importSpec, .importSpec, .importSpec] },
        .genDecl { Tok := .TYPE, Specs := [.typeSpec { Name := "Base", Type_ := .structType [], Line := 9 }] },
        .genDecl { Tok := .TYPE, Specs := [.typeSpec { Name := "Origin", Type_ := .structType [], Line := 11 }] },
        .genDecl { Tok := .TYPE, Specs := [.typeSpec
          { Name := "Shape",
            Type_ := .structType
              [ ([], .ident "Base"),
                (["Center"], .ident "Origin"),
                (["Name"], .ident "string") ],
            Line := 13 }] },
        .funcDecl { Recv := [], Name := "Area",
                    Body := some (.other [.other [.callExpr (.ident "helper") [] 20]]), Line := 19 },
        .funcDecl { Recv := [], Name := "helper", Body := some (.other [.other []]), Line := 23 },
        .funcDecl { Recv := [{ Names := ["s"], Type_ := .starExpr (.ident "Shape") }],
                    Name := "Describe",
                    Body := some (.other [.other [.callExpr (.selectorExpr (.ident "fmt") "Println")
                      [.selectorExpr (.ident "s") "Name"] 28]]),
                    Line := 27 } ] }

/-- The tree of the module `example.com/m` below the root `/r`. -/
def shapesFs : FileSystem :=
  { abs := .ok "/r",
    goMod := some "module example.com/m\n\ngo 1.21\n",
    root := .dir "r" none
      [ .file "go.mod" (.error "not a Go source file"),
        .dir "shapes" none
          [ .file "shapes.go" (.ok shapesFile),
            .file "shapes_test.go" (.error "not parsed") ] ] }

/-- A tree without module descriptor: one file in the root, one in `sub`. -/
def noModFs : FileSystem :=
  { abs := .ok "/r",
    goMod := none,
    root := .dir "r" none
      [ .file "main.go" (.ok { Name := "main", Imports := [], Decls := [] }),
        .dir "sub" none [.file "s.go" (.ok { Name := "sub", Imports := [], Decls := [] })] ] }

/-! ### Notions for the symbol extractor and the walker -/

/-- The import paths of a file that are retained: the literals without their
quotes, those taken for standard-library packages left out. -/
def retainedImports (node : File) : List String :=
  (node.Imports.map (fun imp => strings.Trim imp "\"")).filter (fun p => !isStdLib p)

/-- A second file of the directory `shapes` of the module `shapesFs`. -/
def shapesExtraFile : File :=
  { Name := "shapes_extra",
    Imports := ["\"os\"", "\"example.com/m/geo\""],
    Decls := [] }

/-- The shapes that `resolveTypeName` handles: a plain identifier, a name
qualified by an identifier, a pointer, a slice or array, a map. -/
def Expr.handled : Expr → Bool
  | .ident _ => true
  | .selectorExpr (.ident _) _ => true
  | .starExpr _ => true
  | .arrayType _ => true
  | .mapType _ _ => true
  | _ => false

/-- A wrapper around a type: pointer, slice or array, map with a key type. -/
inductive Wrapper where
  | pointer
  | slice
  | mapOf (key : Expr)

/-- The type expression with one wrapper around it. -/
def Wrapper.apply : Wrapper → Expr → Expr
  | .pointer, t => .starExpr t
  | .slice, t => .arrayType t
  | .mapOf key, t => .mapType key t

/-- The type expression with the wrappers around it, the first one outermost. -/
def wrapAll : List Wrapper → Expr → Expr
  | [], t => t
  | w :: ws, t => w.apply (wrapAll ws t)

/-- The file `temp.go`: `type Celsius float64` and a type `Reading` that has
a field of that type. -/
def tempFile : File :=
  { Name := "temp", Imports := [],
    Decls :=
      [ .genDecl { Tok := .TYPE, Specs := [.typeSpec { Name := "Celsius", Type_ := .ident "float64", Line := 3 }] },
        .genDecl { Tok := .TYPE, Specs := [.typeSpec
          { Name := "Reading", Type_ := .structType [(["Value"], .ident "Celsius")], Line := 5 }] } ] }

/-- The module `m` with the single file `temp.go` in its root. -/
def tempFs : FileSystem :=
  { abs := .ok "/r",
    goMod := some "module m\n",
    root := .dir "r" none [.file "temp.go" (.ok tempFile)] }

/-- A path that `walkFunc` hands to the parser: it ends in `.go` and not in
`_test.go`. -/
def isSourcePath (path : String) : Bool :=
  strings.HasSuffix path ".go" && !strings.HasSuffix path "_test.go"

/-- A directory name that `walkFunc` skips. -/
def prunedName (name : String) : Bool :=
  name = "vendor" || name = "node_modules" || name = ".git" || name = "bin"

/-- What can stop the walk: an error of the traversal itself (a directory
that cannot be read, a name whose `Lstat` fails), or a source file that the
parser rejects. -/
inductive WalkIssue where
  | traversal (msg : String)
  | parse (filename cause : String)
  deriving DecidableEq, Repr

/-- The error of an issue: a traversal error as it is, a parse failure with
the file name and the cause. -/
def WalkIssue.message : WalkIssue → String
  | .traversal msg => msg
  | .parse filename cause => "failed to parse file " ++ filename ++ ": " ++ cause

/-- Whether an issue is a parse failure. -/
def WalkIssue.isParse : WalkIssue → Bool
  | .parse _ _ => true
  | .traversal _ => false

mutual
/-- The issues of a tree in the order of the walk: below every directory that
is not pruned, every traversal error and every source file that fails to
parse. -/
def walkIssues (path : String) : FsEntry → List WalkIssue
  | .file _ parsed =>
    if isSourcePath path then
      match parsed with
      | .error cause => [.parse path cause]
      | .ok _ => []
    else []
  | .lstatErr _ err => [.traversal err]
  | .dir name readErr children =>
    match readErr with
    | some err => [.traversal err]
    | none => if prunedName name then [] else walkIssuesList path children
/-- The issues of the entries of a directory. -/
def walkIssuesList (path : String) : List FsEntry → List WalkIssue
  | [] => []
  | e :: es => walkIssues (filepath.Join path e.Name) e ++ walkIssuesList path es
end

/-- A tree in which the file `b.go` fails to parse after `a.go` was parsed,
with a test file, a pruned directory and a further failing file around it. -/
def brokenFs : FileSystem :=
  { abs := .ok "/r",
    goMod := some "module m\n",
    root := .dir "r" none
      [ .file "a.go" (.ok { Name := "m", Imports := [], Decls := [] }),
        .file "a_test.go" (.error "expected declaration"),
        .file "b.go" (.error "3:1: expected declaration, found x"),
        .dir "vendor" none [.file "v.go" (.error "1:1: expected package")],
        .file "c.go" (.error "1:1: expected package") ] }

/-- What the walk below an entry returns, given the issues of the entry: the
error of the first issue if there is one; otherwise no error, and
`SkipDir` only for a directory. -/
def walkResultOk (issues : List WalkIssue) (e : FsEntry) (r : WalkResult) : Prop :=
  match issues with
  | i :: _ => r = .error i.message
  | [] => r = .ok ∨ (r = .skipDir ∧ e.IsDir = true)

/-- What the loop over the entries of a directory returns. -/
def walkListResultOk (issues : List WalkIssue) (r : WalkResult) : Prop :=
  match issues with
  | i :: _ => r = .error i.message
  | [] => r = .ok

/-- The uses edge of a field of the type `id` of package `pkg`. -/
def useEdge (id pkg : String) (field : FieldInfo) : Edge :=
  { From := id, To := pkg ++ "." ++ field.TypeName, Method := "", Type_ := "uses" }

/-- The condition under which a field of a type of package `pkg` gets a uses
edge: its type name is not primitive, its resolved package is `pkg`, and
`pkg.TypeName` is a key of the type table. -/
def usesField (types : GoMap TypeInfo) (pkg : String) (field : FieldInfo) : Bool :=
  !primitives field.TypeName && decide (field.TypePkg = pkg) &&
    types.contains (pkg ++ "." ++ field.TypeName)

/-- A single-identifier module `geo`: the file in its root imports the
package `geo` of another module, declares its own `Point`, and the struct
`Line` with a field of the imported type `geo.Point`. -/
def geoFile : File :=
  { Name := "main",
    Imports := ["\"github.com/other/geo\""],
    Decls :=
      [ .genDecl { Tok := .IMPORT, Specs := [.importSpec] },
        .genDecl { Tok := .TYPE, Specs := [.typeSpec { Name := "Point", Type_ := .structType [], Line := 5 }] },
        .genDecl { Tok := .TYPE, Specs := [.typeSpec
          { Name := "Line",
            Type_ := .structType [(["Start"], .selectorExpr (.ident "geo") "Point")],
            Line := 7 }] } ] }

/-- The tree of the module `geo` below the root `/r`. -/
def geoFs : FileSystem :=
  { abs := .ok "/r",
    goMod := some "module geo\n",
    root := .dir "r" none [.file "main.go" (.ok geoFile)] }

/-! ### Scenario A

A package of a single file that declares a record with one embedded field and
two typed fields, possibly one further type, and two free functions. -/

/-- The parameters of scenario A. -/
structure ScenarioA where
  pkgName : String
  pkgImports : List String
  record : String
  embedded : Expr
  field1 : String × Expr
  field2 : String × Expr
  other : Option TypeSpec
  caller : String
  callee : String
  callerBody : Option AstNode
  calleeBody : Option AstNode

/-- The declaration of the record of scenario A: the embedded field, then
the two typed fields. -/
def ScenarioA.recordSpec (s : ScenarioA) : TypeSpec :=
  { Name := s.record,
    Type_ := .structType
      [([], s.embedded), ([s.field1.1], s.field1.2), ([s.field2.1], s.field2.2)],
    Line := 3 }

/-- The declarations of the file of scenario A: the record, the further type
if there is one, the two functions. -/
def ScenarioA.decls (s : ScenarioA) : List Decl :=
  [ .genDecl { Tok := .TYPE, Specs := [.typeSpec s.recordSpec] } ] ++
  (match s.other with
   | some ts => [.genDecl { Tok := .TYPE, Specs := [.typeSpec ts] }]
   | none => []) ++
  [ .funcDecl { Recv := [], Name := s.caller, Body := s.callerBody, Line := 20 },
    .funcDecl { Recv := [], Name := s.callee, Body := s.calleeBody, Line := 30 } ]

/-- The file of scenario A. -/
def ScenarioA.file (s : ScenarioA) : File :=
  { Name := s.pkgName, Imports := s.pkgImports, Decls := s.decls }

/-- The tree of scenario A: the directory `dname` at `absDir` with the one
file `fname`, and the module descriptor `goMod`. -/
def ScenarioA.fs (s : ScenarioA) (absDir dname fname : String) (goMod : Option String) :
    FileSystem :=
  { abs := .ok absDir, goMod := goMod, root := .dir dname none [.file fname (.ok s.file)] }

/-- The package identity of the file of scenario A. -/
def ScenarioA.pkg (absDir fname : String) (goMod : Option String) : String :=
  filePkgPath (startAnalyzer absDir (detectModulePath goMod)) (filepath.Join absDir fname)

/-- A call-site of scenario A that is a bare call of one of the two functions. -/
def ScenarioA.bare (s : ScenarioA) (c : CallInfo) : Bool :=
  !c.IsMethod && (decide (c.Target = s.caller) || decide (c.Target = s.callee))

/-- The short name under which the embedded field of the record is stored. -/
def ScenarioA.embeddedName (s : ScenarioA) (pk : String) : String :=
  (resolveTypeName s.embedded pk).1

/-- Scenario A with the record `Client` that embeds the type `http.Client` of
another package: the embedded type is not declared in the file. -/
def clientScenario : ScenarioA :=
  { pkgName := "api",
    pkgImports := ["\"net/http\""],
    record := "Client",
    embedded := .selectorExpr (.ident "http") "Client",
    field1 := ("Base", .ident "string"),
    field2 := ("Retries", .ident "int"),
    other := none,
    caller := "New",
    callee := "defaults",
    callerBody := some (.other [.callExpr (.ident "defaults") [] 21]),
    calleeBody := some (.other []) }

/-- Scenario A with the record `Shape` that embeds the record `Base` declared
in the same file. -/
def baseScenario : ScenarioA :=
  { pkgName := "shapes",
    pkgImports := [],
    record := "Shape",
    embedded := .ident "Base",
    field1 := ("Name", .ident "string"),
    field2 := ("Sides", .ident "int"),
    other := some { Name := "Base", Type_ := .structType [(["ID"], .ident "int")], Line := 10 },
    caller := "Area",
    callee := "helper",
    callerBody := some (.other [.callExpr (.ident "helper") [] 21]),
    calleeBody := some (.other []) }

/-! ### A record that embeds a type of another package

The directory `store` of the module `example.com/app`: the file declares its
own `Config` and the record `Service`, which embeds the type `config.Config`
of the imported package `example.com/app/config`. -/

/-- The file `store/store.go`. -/
def storeFile : File :=
  { Name := "store",
    Imports := ["\"example.com/app/config\""],
    Decls :=
      [ .genDecl { Tok := .IMPORT, Specs := [.importSpec] },
        .genDecl { Tok := .TYPE, Specs := [.typeSpec { Name := "Config", Type_ := .structType [], Line := 5 }] },
        .genDecl { Tok := .TYPE, Specs := [.typeSpec
          { Name := "Service",
            Type_ := .structType [([], .selectorExpr (.ident "config") "Config")],
            Line := 7 }] } ] }

/-- The tree of the module `example.com/app` below the root `/r`. -/
def storeFs : FileSystem :=
  { abs := .ok "/r",
    goMod := some "module example.com/app\n",
    root := .dir "r" none [.dir "store" none [.file "store.go" (.ok storeFile)]] }

/-! ### Notions for the call collector -/

mutual
/-- The call expressions of a body in pre-order, each with its callee and its
line: a call expression comes before the call expressions of its callee and of
its arguments; blocks, statements and function literals (`other`) are entered. -/
def callExprs : AstNode → List (AstNode × Nat)
  | .ident _ => []
  | .selectorExpr x _ => callExprs x
  | .callExpr fn args line => (fn, line) :: (callExprs fn ++ callExprsList args)
  | .other children => callExprsList children
/-- The call expressions of a list of sibling nodes. -/
def callExprsList : List AstNode → List (AstNode × Nat)
  | [] => []
  | n :: ns => callExprs n ++ callExprsList ns
end

/-- The call-site that a call expression with the callee `fn` stands for: a
free-function call-site for a bare identifier that is no builtin name, a
method-style call-site for a selector on a simple identifier, none otherwise. -/
def callSite (fn : AstNode) (line : Nat) : Option CallInfo :=
  match fn with
  | .ident name =>
    if isBuiltin name then none
    else some { Target := name, IsMethod := false, Receiver := "", Line := line }
  | .selectorExpr (.ident x) sel =>
    some { Target := sel, IsMethod := true, Receiver := x, Line := line }
  | _ => none

/-- A body with calls in a nested block and in a function literal: the call
`run(len(xs))` in an `if` block, the call `s.log.Print()` on a selector chain,
and the call `fmt.Println(helper())` inside a function literal. -/
def nestedBody : AstNode :=
  .other
    [ .other [.other [.callExpr (.ident "run") [.callExpr (.ident "len") [.ident "xs"] 4] 4]],
      .other [.callExpr (.selectorExpr (.selectorExpr (.ident "s") "log") "Print") [] 6],
      .other [.other [.other
        [.callExpr (.selectorExpr (.ident "fmt") "Println") [.callExpr (.ident "helper") [] 9] 9]]] ]

/-! ### A record with fields of unhandled shapes

The file `hub.go` of the module `m`: the record `Hub` embeds the instantiated
generic type `Base[int]` and has the field `events` of a channel type and the
fields `done` and `quit` of a function type. -/

/-- The file `hub.go`. -/
def hubFile : File :=
  { Name := "hub", Imports := [],
    Decls :=
      [ .genDecl { Tok := .TYPE, Specs := [.typeSpec
          { Name := "Hub",
            Type_ := .structType
              [ ([], .indexExpr (.ident "Base") (.ident "int")),
                (["events"], .chanType (.ident "Event")),
                (["done", "quit"], .funcType) ],
            Line := 3 }] } ] }

/-- The module `m` with the single file `hub.go` in its root. -/
def hubFs : FileSystem :=
  { abs := .ok "/r",
    goMod := some "module m\n",
    root := .dir "r" none [.file "hub.go" (.ok hubFile)] }

/-! ### Notions for the type table -/

/-- The identities of the type declarations of a list of specifications. -/
def specTypeKeys (pk : String) (specs : List Spec) : List String :=
  specs.filterMap (fun spec =>
    match spec with
    | .typeSpec ts => some (pk ++ "." ++ ts.Name)
    | _ => none)

/-- The identities of the type declarations of a top-level declaration. -/
def declTypeKeys (pk : String) : Decl → List String
  | .genDecl d => if d.Tok ≠ Token.TYPE then [] else specTypeKeys pk d.Specs
  | _ => []

/-- The identities of the type declarations of a file, in source order. -/
def fileTypeKeys (pk : String) (node : File) : List String :=
  node.Decls.flatMap (declTypeKeys pk)

/-- The identities of the type declarations encountered in a list of files,
one for each declaration, in the order they are processed. -/
def declaredTypeKeys (a : GoAnalyzer) (files : List (String × File)) : List String :=
  files.flatMap (fun p => fileTypeKeys (filePkgPath a p.1) p.2)

/-- The keys after an assignment to the key `k`. -/
def addKey (ks : List String) (k : String) : List String :=
  if k ∈ ks then ks else ks ++ [k]

/-! ### A directory with two variants of one type

The directory `netx` of the module `m` has the files `conn_linux.go` and
`conn_windows.go`; each declares the record `Conn`, with a different field. -/

/-- The file `netx/conn_linux.go`. -/
def connLinuxFile : File :=
  { Name := "netx", Imports := [],
    Decls :=
      [ .genDecl { Tok := .TYPE, Specs := [.typeSpec
          { Name := "Conn", Type_ := .structType [(["fd"], .ident "int")], Line := 5 }] } ] }

/-- The file `netx/conn_windows.go`. -/
def connWindowsFile : File :=
  { Name := "netx", Imports := [],
    Decls :=
      [ .genDecl { Tok := .TYPE, Specs := [.typeSpec
          { Name := "Conn", Type_ := .structType [(["handle"], .ident "uintptr")], Line := 5 }] } ] }

/-- The tree of the module `m` below the root `/r`. -/
def connFs : FileSystem :=
  { abs := .ok "/r",
    goMod := some "module m\n",
    root := .dir "r" none
      [ .dir "netx" none
          [ .file "conn_linux.go" (.ok connLinuxFile),
            .file "conn_windows.go" (.ok connWindowsFile) ] ] }

/-! ### Notions for the import lists -/

/-- The retained imports of the files of the package `key` among the given
files, one entry for each import of each file, in the order of processing. -/
def retainedOf (a : GoAnalyzer) (key : String) (files : List (String × File)) : List String :=
  (files.filter (fun p => decide (filePkgPath a p.1 = key))).flatMap
    (fun p => retainedImports p.2)

/-- The import list stored for the package `key`, empty when there is no
entry. -/
def storedImports (a : GoAnalyzer) (key : String) : List String :=
  match a.packages.get? key with
  | some pkg => pkg.Imports
  | none => []

/-- The import edge from the package `path` to the import `imp`. -/
def importEdge (path imp : String) : Edge :=
  { From := path, To := imp, Method := "", Type_ := "import" }

/-! ### A package of two files with a common import

The directory `api` of the module `example.com/m` has the files `a.go` and
`b.go`; both import `example.com/m/util`. -/

/-- The tree of the module `example.com/m` below the root `/r`. -/
def sharedImportFs : FileSystem :=
  { abs := .ok "/r",
    goMod := some "module example.com/m\n",
    root := .dir "r" none
      [ .dir "api" none
          [ .file "a.go" (.ok { Name := "api", Imports := ["\"example.com/m/util\""], Decls := [] }),
            .file "b.go" (.ok { Name := "api", Imports := ["\"fmt\"", "\"example.com/m/util\""],
                                Decls := [] }) ] ] }

/-! ## The tracer package: component patterns and context ids

Embedding of the pure functions of `pkg/tracer/context_generator.go`.  The
libraries `regexp` and `unicode` are not embedded: the outcome of compiling and
matching a regular expression, and the lower-case mapping of the characters
outside ASCII, are parameters.  `sort.Strings` orders strings by their bytes;
for the UTF-8 encoding that is the order of the character codes used here. -/

namespace strings

/-- Go `strings.ReplaceAll` for a one-character `old`, the only way the tracer
calls it. -/
def ReplaceAll (s : String) (old : Char) (new : String) : String :=
  ⟨s.data.flatMap (fun c => if c = old then new.data else [c])⟩

/-- The lower-case form of an ASCII character. -/
def asciiLower (c : Char) : Char :=
  if 'A' ≤ c ∧ c ≤ 'Z' then Char.ofNat (c.toNat + 32) else c

/-- Go `strings.ToLower`: ASCII letters by the ASCII rule, every other
character by the table `unicodeLower` of the `unicode` package. -/
def ToLower (unicodeLower : Char → Char) (s : String) : String :=
  ⟨s.data.map (fun c => if c.toNat < 128 then asciiLower c else unicodeLower c)⟩

/-- The strict order of Go strings on character lists. -/
def lessChars : List Char → List Char → Bool
  | [], [] => false
  | [], _ :: _ => true
  | _ :: _, [] => false
  | a :: as, b :: bs =>
    if a.toNat < b.toNat then true
    else if b.toNat < a.toNat then false
    else lessChars as bs

/-- Go `s < t` on strings. -/
def Less (s t : String) : Bool := lessChars s.data t.data

/-- One step of the sort: `x` put before the first element that is not
smaller. -/
def insertSorted (x : String) : List String → List String
  | [] => [x]
  | y :: ys => if Less y x then y :: insertSorted x ys else x :: y :: ys

/-- Go `sort.Strings`, as the list in ascending order. -/
def sortStrings : List String → List String
  | [] => []
  | x :: xs => insertSorted x (sortStrings xs)

end strings

namespace tracer

/-- Go `MatchComponentPattern`.  `regexMatch re s` stands for compiling the
regular expression `re` and matching `s` against it, false when it does not
compile. -/
def MatchComponentPattern (regexMatch : String → String → Bool)
    (componentID pattern : String) : Bool :=
  if !strings.Contains pattern "*" then componentID == pattern
  else if strings.HasSuffix pattern ".**" then
    let pre := strings.TrimSuffix pattern ".**"
    strings.HasPrefix componentID (pre ++ ".")
  else if strings.HasSuffix pattern ".*" then
    let pre := strings.TrimSuffix pattern ".*"
    if !strings.HasPrefix componentID (pre ++ ".") then false
    else
      let rest := strings.TrimPrefix componentID (pre ++ ".")
      !strings.Contains rest "."
  else
    let regexPattern := strings.ReplaceAll pattern '.' "\\."
    let regexPattern := strings.ReplaceAll regexPattern '*' "[^.]*"
    regexMatch ("^" ++ regexPattern ++ "$") componentID

/-- The set built by `ExpandComponentPatterns`, as a Go map. -/
def expandSet (regexMatch : String → String → Bool) (patterns allComponents : List String) :
    GoMap Bool :=
  patterns.foldl (fun result pattern =>
    if !strings.Contains pattern "*" then result.insert pattern true
    else
      allComponents.foldl (fun result comp =>
        if MatchComponentPattern regexMatch comp pattern then result.insert comp true
        else result) result) []

/-- Go `ExpandComponentPatterns`. -/
def ExpandComponentPatterns (regexMatch : String → String → Bool)
    (patterns allComponents : List String) : List String :=
  strings.sortStrings (expandSet regexMatch patterns allComponents).keys

/-- Go `camelToSnake`: an underscore before every capital ASCII letter but the
first character, the letter itself in lower case. -/
def camelToSnakeChars (first : Bool) : List Char → List Char
  | [] => []
  | r :: rs =>
    (if 'A' ≤ r ∧ r ≤ 'Z' then
      (if first then [] else ['_']) ++ [Char.ofNat (r.toNat + 32)]
     else [r]) ++ camelToSnakeChars false rs

/-- Go `camelToSnake`. -/
def camelToSnake (s : String) : String := ⟨camelToSnakeChars true s.data⟩

/-- Go `sanitizeContextID`. -/
def sanitizeContextID (unicodeLower : Char → Char) (testName : String) : String :=
  strings.ToLower unicodeLower (camelToSnake testName)

end tracer

/-! ## The tracer package: recording, saving and loading a trace

Embedding of `pkg/tracer/trace.go` and of `LoadTrace`.  The package variables
`currentTrace` and `callDepth` are the state; the mutexes serialise the calls
and are left out; `time.Now()` is the argument `now` of each operation.  The
libraries `encoding/json`, `time` and `os` are not embedded: a file holds a
JSON document as a value (object, array, string, number), `Marshal` builds the
document from the struct tags, `Unmarshal` reads the fields back by their keys,
and the RFC 3339 text of a time is represented by the instant it denotes. -/

namespace tracer

/-- A `time.Time`: the wall-clock instant and the monotonic reading, which
only values returned by `time.Now()` carry. -/
structure Time where
  wall : Nat
  mono : Option Nat
  deriving DecidableEq, Repr

/-- The zero `time.Time`. -/
def zeroTime : Time := { wall := 0, mono := none }

/-- A function call event (`Call`). -/
structure Call where
  Event : String
  Function : String
  Timestamp : Time
  Error : String
  Depth : Int
  deriving DecidableEq, Repr

/-- A test execution trace (`Trace`). -/
structure Trace where
  TestName : String
  StartTime : Time
  EndTime : Time
  Calls : List Call
  deriving DecidableEq, Repr

/-- The package variables `currentTrace` and `callDepth`. -/
structure State where
  currentTrace : Option Trace
  callDepth : Int
  deriving DecidableEq, Repr

/-- Go `StartTrace`. -/
def StartTrace (testName : String) (now : Time) (_ : State) : State :=
  { currentTrace := some { TestName := testName, StartTime := now, EndTime := zeroTime,
                           Calls := [] },
    callDepth := 0 }

/-- Go `StopTrace`: the new state and the trace returned. -/
def StopTrace (s : State) : State × Option Trace :=
  ({ currentTrace := none, callDepth := 0 }, s.currentTrace)

/-- Go `Enter`. -/
def Enter (fn : String) (now : Time) (s : State) : State :=
  match s.currentTrace with
  | none => s
  | some t =>
    { currentTrace := some { t with Calls := t.Calls ++
        [{ Event := "enter", Function := fn, Timestamp := now, Error := "",
           Depth := s.callDepth }] },
      callDepth := s.callDepth + 1 }

/-- Go `ExitSuccess`. -/
def ExitSuccess (fn : String) (now : Time) (s : State) : State :=
  match s.currentTrace with
  | none => s
  | some t =>
    let callDepth := s.callDepth - 1
    let callDepth := if callDepth < 0 then 0 else callDepth
    { currentTrace := some { t with Calls := t.Calls ++
        [{ Event := "exit_success", Function := fn, Timestamp := now, Error := "",
           Depth := callDepth }] },
      callDepth := callDepth }

/-- Go `ExitError`; `err` is the text of the error, `none` for a nil error. -/
def ExitError (fn : String) (err : Option String) (now : Time) (s : State) : State :=
  match s.currentTrace with
  | none => s
  | some t =>
    let callDepth := s.callDepth - 1
    let callDepth := if callDepth < 0 then 0 else callDepth
    let errMsg := match err with
      | some e => e
      | none => ""
    { currentTrace := some { t with Calls := t.Calls ++
        [{ Event := "exit_error", Function := fn, Timestamp := now, Error := errMsg,
           Depth := callDepth }] },
      callDepth := callDepth }

/-- Go `Exit`. -/
def Exit (fn : String) (err : Option String) (now : Time) (s : State) : State :=
  if err ≠ none then ExitError fn err now s else ExitSuccess fn now s

/-- A JSON document. -/
inductive Json where
  | null
  | num (n : Int)
  | str (s : String)
  | time (wall : Nat)
  | arr (items : List Json)
  | obj (members : List (String × Json))

/-- What a file holds: a JSON document, or text that is no JSON. -/
inductive FileData where
  | json (doc : Json)
  | text (raw : String)

/-- The files on disk. -/
abbrev Disk : Type := GoMap FileData

/-- The document `json.Marshal` builds for a `Call`: `error` has the option
`omitempty`. -/
def marshalCall (c : Call) : Json :=
  .obj ([("event", .str c.Event), ("function", .str c.Function),
         ("timestamp", .time c.Timestamp.wall)] ++
        (if c.Error = "" then [] else [("error", .str c.Error)]) ++
        [("depth", .num c.Depth)])

/-- The document `json.Marshal` builds for a `Trace`; the unexported mutex is
no part of it. -/
def marshalTrace (t : Trace) : Json :=
  .obj [("test_name", .str t.TestName), ("start_time", .time t.StartTime.wall),
        ("end_time", .time t.EndTime.wall), ("calls", .arr (t.Calls.map marshalCall))]

/-- `Unmarshal` into a string field: absent and `null` leave the zero value. -/
def unmarshalString : Option Json → Except String String
  | none => .ok ""
  | some .null => .ok ""
  | some (.str s) => .ok s
  | some _ => .error "json: cannot unmarshal into Go value of type string"

/-- `Unmarshal` into an `int` field. -/
def unmarshalInt : Option Json → Except String Int
  | none => .ok 0
  | some .null => .ok 0
  | some (.num n) => .ok n
  | some _ => .error "json: cannot unmarshal into Go value of type int"

/-- `Unmarshal` into a `time.Time` field: the value read has no monotonic
reading. -/
def unmarshalTime : Option Json → Except String Time
  | none => .ok zeroTime
  | some .null => .ok zeroTime
  | some (.time wall) => .ok { wall := wall, mono := none }
  | some _ => .error "parsing time: cannot parse as RFC 3339"

/-- `Unmarshal` into a `Call`. -/
def unmarshalCall : Json → Except String Call
  | .null => .ok { Event := "", Function := "", Timestamp := zeroTime, Error := "", Depth := 0 }
  | .obj members => do
    let event ← unmarshalString (members.lookup "event")
    let function ← unmarshalString (members.lookup "function")
    let timestamp ← unmarshalTime (members.lookup "timestamp")
    let error ← unmarshalString (members.lookup "error")
    let depth ← unmarshalInt (members.lookup "depth")
    pure { Event := event, Function := function, Timestamp := timestamp, Error := error,
           Depth := depth }
  | _ => .error "json: cannot unmarshal into Go value of type tracer.Call"

/-- `Unmarshal` of the elements of an array into `Call`s: the first element
that fails gives the error. -/
def unmarshalCallList : List Json → Except String (List Call)
  | [] => .ok []
  | item :: items =>
    match unmarshalCall item with
    | .error err => .error err
    | .ok c =>
      match unmarshalCallList items with
      | .error err => .error err
      | .ok cs => .ok (c :: cs)

/-- `Unmarshal` into a `[]Call` field. -/
def unmarshalCalls : Option Json → Except String (List Call)
  | none => .ok []
  | some .null => .ok []
  | some (.arr items) => unmarshalCallList items
  | some _ => .error "json: cannot unmarshal into Go value of type []tracer.Call"

/-- `Unmarshal` into a `Trace`. -/
def unmarshalTrace : Json → Except String Trace
  | .null => .ok { TestName := "", StartTime := zeroTime, EndTime := zeroTime, Calls := [] }
  | .obj members => do
    let testName ← unmarshalString (members.lookup "test_name")
    let startTime ← unmarshalTime (members.lookup "start_time")
    let endTime ← unmarshalTime (members.lookup "end_time")
    let calls ← unmarshalCalls (members.lookup "calls")
    pure { TestName := testName, StartTime := startTime, EndTime := endTime, Calls := calls }
  | _ => .error "json: cannot unmarshal into Go value of type tracer.Trace"

/-- Go `(*Trace).Save`: the end time is set, the document is written.
`writeErr` is the error of `os.WriteFile`, if any.  Returns the trace as
updated, the disk, and the error. -/
def Trace.Save (t : Trace) (filename : String) (now : Time) (writeErr : Option String)
    (disk : Disk) : Trace × Disk × Option String :=
  let t := { t with EndTime := now }
  let data := marshalTrace t
  match writeErr with
  | some err => (t, disk, some ("failed to write trace file: " ++ err))
  | none => (t, disk.insert filename (.json data), none)

/-- Go `Save`: saves the current trace. -/
def Save (filename : String) (now : Time) (writeErr : Option String) (s : State)
    (disk : Disk) : State × Disk × Option String :=
  match s.currentTrace with
  | none => (s, disk, some "no active trace")
  | some trace =>
    let r := trace.Save filename now writeErr disk
    ({ s with currentTrace := some r.1 }, r.2.1, r.2.2)

/-- Go `LoadTrace`. -/
def LoadTrace (filename : String) (disk : Disk) : Except String Trace :=
  match disk.get? filename with
  | none => .error "failed to read file: no such file or directory"
  | some (.text _) => .error "failed to parse JSON: invalid character"
  | some (.json data) =>
    match unmarshalTrace data with
    | .error err => .error ("failed to parse JSON: " ++ err)
    | .ok trace => .ok trace

/-- An event recorded on a trace. -/
inductive Op where
  | enter (fn : String)
  | exitSuccess (fn : String)
  | exitError (fn : String) (err : Option String)
  deriving DecidableEq, Repr

/-- The operation of the package that records the event. -/
def Op.apply : Op → Time → State → State
  | .enter fn, now, s => Enter fn now s
  | .exitSuccess fn, now, s => ExitSuccess fn now s
  | .exitError fn err, now, s => ExitError fn err now s

/-- The events applied in order, each at its time. -/
def record (s : State) (ops : List (Op × Time)) : State :=
  ops.foldl (fun s p => p.1.apply p.2 s) s

/-- The event name, function and error text that an event is recorded with. -/
def Op.expected : Op → String × String × String
  | .enter fn => ("enter", fn, "")
  | .exitSuccess fn => ("exit_success", fn, "")
  | .exitError fn (some e) => ("exit_error", fn, e)
  | .exitError fn none => ("exit_error", fn, "")

/-- What the round trip is about: event, function, error text and depth. -/
def Call.view (c : Call) : String × String × String × Int :=
  (c.Event, c.Function, c.Error, c.Depth)

end tracer

/-! ## The tracer lint: returns

Embedding of the return check of `internal/linter/tracerlint.go`.  A function
body is a tree of statements; expressions are kept only where the lint looks
at them, in an expression statement.  A function literal is an expression:
`ast.Inspect` is told not to enter it and `findPrevInBlock` never looks into
expressions, so the statements inside function literals are no part of the
tree.  A return statement is identified by its position, as the pointer
comparison `stmt == target` identifies it by its node. -/

namespace linter

/-- A statement of a function body (`ast.Stmt`).  `clause comm body` is a
`CommClause` when `comm` is true and a `CaseClause` otherwise; `other` is any
statement without nested statements outside function literals (assignment,
declaration, `go`, `defer`, branch, ...). -/
inductive Stmt where
  | exprStmt (x : AstNode)
  | returnStmt (pos : Nat)
  | blockStmt (list : List Stmt)
  | ifStmt (body : List Stmt)
  | ifElseStmt (body : List Stmt) (els : Stmt)
  | forStmt (body : List Stmt)
  | rangeStmt (body : List Stmt)
  | switchStmt (body : List Stmt)
  | typeSwitchStmt (body : List Stmt)
  | selectStmt (body : List Stmt)
  | clause (comm : Bool) (body : List Stmt)
  | labeledStmt (stmt : Stmt)
  | other

/-- Go `isTracerCall`: an expression statement that calls `tracer.methodName`. -/
def isTracerCall (stmt : Stmt) (methodName : String) : Bool :=
  match stmt with
  | .exprStmt (.callExpr (.selectorExpr (.ident name) sel) _ _) =>
    name == "tracer" && sel == methodName
  | _ => false

/-- Go `isTracerExitCall`. -/
def isTracerExitCall (stmt : Stmt) : Bool :=
  isTracerCall stmt "ExitSuccess" || isTracerCall stmt "ExitError" || isTracerCall stmt "Exit"

/-- The comparison `stmt == target` for the return statement at `target`. -/
def isTarget (stmt : Stmt) (target : Nat) : Bool :=
  match stmt with
  | .returnStmt pos => pos == target
  | _ => false

mutual
/-- Go `findPrevInBlock`: `prev` is the statement before the list, `none` at
the start of the block (`i == 0`). -/
def findPrevInBlock (prev : Option Stmt) : List Stmt → Nat → Option Stmt
  | [], _ => none
  | stmt :: rest, target =>
    if isTarget stmt target && prev.isSome then prev
    else
      match findPrevNested stmt target with
      | some found => some found
      | none => findPrevInBlock (some stmt) rest target
/-- The type switch of `findPrevInBlock` on one statement. -/
def findPrevNested : Stmt → Nat → Option Stmt
  | .ifStmt body, target => findPrevInBlock none body target
  | .ifElseStmt body (.blockStmt list), target =>
    match findPrevInBlock none body target with
    | some found => some found
    | none => findPrevInBlock none list target
  | .ifElseStmt body _, target => findPrevInBlock none body target
  | .forStmt body, target => findPrevInBlock none body target
  | .rangeStmt body, target => findPrevInBlock none body target
  | .switchStmt body, target => findPrevInClauses false body target
  | .typeSwitchStmt body, target => findPrevInClauses false body target
  | .selectStmt body, target => findPrevInClauses true body target
  | .blockStmt list, target => findPrevInBlock none list target
  | _, _ => none
/-- The loop over the clauses of a switch (`comm` false) or select (`comm`
true) body. -/
def findPrevInClauses (comm : Bool) : List Stmt → Nat → Option Stmt
  | [], _ => none
  | .clause c body :: rest, target =>
    if c = comm then
      match findPrevInBlock none body target with
      | some found => some found
      | none => findPrevInClauses comm rest target
    else findPrevInClauses comm rest target
  | _ :: rest, target => findPrevInClauses comm rest target
end

mutual
/-- The return statements that `ast.Inspect` visits below a statement, in the
order of the visit. -/
def visitedReturns : Stmt → List Nat
  | .returnStmt pos => [pos]
  | .blockStmt list => visitedReturnsList list
  | .ifStmt body => visitedReturnsList body
  | .ifElseStmt body els => visitedReturnsList body ++ visitedReturns els
  | .forStmt body => visitedReturnsList body
  | .rangeStmt body => visitedReturnsList body
  | .switchStmt body => visitedReturnsList body
  | .typeSwitchStmt body => visitedReturnsList body
  | .selectStmt body => visitedReturnsList body
  | .clause _ body => visitedReturnsList body
  | .labeledStmt stmt => visitedReturns stmt
  | .exprStmt _ => []
  | .other => []
/-- The return statements visited in a list of statements. -/
def visitedReturnsList : List Stmt → List Nat
  | [] => []
  | stmt :: rest => visitedReturns stmt ++ visitedReturnsList rest
end

/-- Go `checkReturns`: the positions of the reported return statements, in
the order of the reports. -/
def checkReturns (body : List Stmt) : List Nat :=
  (visitedReturnsList body).filter (fun target =>
    match findPrevInBlock none body target with
    | none => true
    | some prevStmt => !isTracerExitCall prevStmt)

/-- A function declaration as the lint looks at it: the lines of its doc
comment, if any, and its body, if any. -/
structure FuncDecl where
  Doc : Option (List String)
  Body : Option (List Stmt)

/-- Go `isExcluded`. -/
def isExcluded (excludePackages : List String) (filename : String) : Bool :=
  if strings.Contains filename "go-build" then true
  else if strings.HasSuffix filename "_test.go" then true
  else excludePackages.any (fun pkg => strings.Contains filename pkg)

/-- Go `hasSkipTracerComment`. -/
def hasSkipTracerComment (fn : FuncDecl) : Bool :=
  match fn.Doc with
  | none => false
  | some comments => comments.any (fun text => strings.Contains text "@skip-tracer")

/-- The return reports of `run` for one function declaration of a file. -/
def returnReports (excludePackages : List String) (filename : String) (fn : FuncDecl) :
    List Nat :=
  if isExcluded excludePackages filename then []
  else
    match fn.Body with
    | none => []
    | some body => if hasSkipTracerComment fn then [] else checkReturns body

/-! ### Notions used to state the rule -/

mutual
/-- The return statements below a statement, each with the statement that
immediately precedes it in its enclosing block (`none` for the first statement
of a block); `prev` is the statement before this one. -/
def returnsOfStmt (prev : Option Stmt) : Stmt → List (Nat × Option Stmt)
  | .returnStmt pos => [(pos, prev)]
  | .blockStmt list => returnsOfBlock none list
  | .ifStmt body => returnsOfBlock none body
  | .ifElseStmt body els => returnsOfBlock none body ++ returnsOfStmt none els
  | .forStmt body => returnsOfBlock none body
  | .rangeStmt body => returnsOfBlock none body
  | .switchStmt body => returnsOfBlock none body
  | .typeSwitchStmt body => returnsOfBlock none body
  | .selectStmt body => returnsOfBlock none body
  | .clause _ body => returnsOfBlock none body
  | .labeledStmt stmt => returnsOfStmt prev stmt
  | .exprStmt _ => []
  | .other => []
/-- The return statements of a block with their preceding statements. -/
def returnsOfBlock (prev : Option Stmt) : List Stmt → List (Nat × Option Stmt)
  | [] => []
  | stmt :: rest => returnsOfStmt prev stmt ++ returnsOfBlock (some stmt) rest
end

mutual
/-- The nestings that `findPrevInBlock` descends into: blocks, `if` with or
without an `else` block, `for`, `range`, `switch`, type switch and `select`
with their clauses.  An `else if` chain and a labeled statement are not among
them. -/
def reached : Stmt → Bool
  | .blockStmt list => reachedList list
  | .ifStmt body => reachedList body
  | .ifElseStmt body (.blockStmt list) => reachedList body && reachedList list
  | .ifElseStmt _ _ => false
  | .forStmt body => reachedList body
  | .rangeStmt body => reachedList body
  | .switchStmt body => reachedClauses false body
  | .typeSwitchStmt body => reachedClauses false body
  | .selectStmt body => reachedClauses true body
  | .clause _ _ => false
  | .labeledStmt _ => false
  | .returnStmt _ => true
  | .exprStmt _ => true
  | .other => true
/-- Every statement of a block is of a reached kind. -/
def reachedList : List Stmt → Bool
  | [] => true
  | stmt :: rest => reached stmt && reachedList rest
/-- The body of a switch or select: clauses of its kind with reached bodies. -/
def reachedClauses (comm : Bool) : List Stmt → Bool
  | [] => true
  | .clause c body :: rest => decide (c = comm) && reachedList body && reachedClauses comm rest
  | _ :: _ => false
end

/-- Whether a return with the preceding statement `prev` is reported by the
rule: it has no preceding statement, or that is no tracer exit call. -/
def unguarded (prev : Option Stmt) : Bool :=
  match prev with
  | none => true
  | some stmt => !isTracerExitCall stmt

/-- The call statement `tracer.name(...)`. -/
def tracerCallStmt (name : String) : Stmt :=
  .exprStmt (.callExpr (.selectorExpr (.ident "tracer") name) [] 0)

end linter

namespace linter

/-- A body whose only return follows a call of `tracer.Exit`:
`tracer.Enter(..); err := run(); tracer.Exit(.., err); return err`. -/
def exitBody : List Stmt :=
  [tracerCallStmt "Enter", .other, tracerCallStmt "Exit", .returnStmt 7]

/-- A body with an `else if` chain, every return right after a tracer exit
call:
`tracer.Enter(..); if a { tracer.ExitSuccess(..); return } else if b {
tracer.ExitError(..); return }; tracer.ExitSuccess(..); return`. -/
def elseIfBody : List Stmt :=
  [ tracerCallStmt "Enter",
    .ifElseStmt [tracerCallStmt "ExitSuccess", .returnStmt 4]
      (.ifStmt [tracerCallStmt "ExitError", .returnStmt 7]),
    tracerCallStmt "ExitSuccess",
    .returnStmt 10 ]

/-- A body with returns in an `if` with an `else` block, in a loop and in a
switch: the return at 5 follows `tracer.ExitSuccess`, the return at 8 is the
first statement of the `else` block, the return at 12 follows a statement that
is no tracer call, the return at 16 follows `tracer.ExitError`, the last one
follows `tracer.ExitSuccess`. -/
def nestedReturnsBody : List Stmt :=
  [ tracerCallStmt "Enter",
    .ifElseStmt [tracerCallStmt "ExitSuccess", .returnStmt 5] (.blockStmt [.returnStmt 8]),
    .forStmt [.other, .returnStmt 12],
    .switchStmt [.clause false [tracerCallStmt "ExitError", .returnStmt 16], .clause false []],
    tracerCallStmt "ExitSuccess",
    .returnStmt 20 ]

end linter

/-! ### Notions for the endpoints of edges -/

/-- Every type, function and method entry has a package that is a key of the
package table. -/
def PackagesOk (a : GoAnalyzer) : Prop :=
  (∀ e ∈ a.types, e.2.Package ∈ a.packages.keys) ∧
  (∀ e ∈ a.functions, e.2.Package ∈ a.packages.keys) ∧
  (∀ e ∈ a.methods, e.2.Package ∈ a.packages.keys)

/-- The ids of the nodes of a graph. -/
def nodeIDs (g : Graph) : List String := g.Nodes.map Node.ID

/-- The ids of the package nodes of a graph. -/
def packageNodeIDs (g : Graph) : List String :=
  (g.Nodes.filter (fun n => decide (n.Entity = "package"))).map Node.ID

/-- The edge types other than `import`. -/
def innerEdgeType (t : String) : Prop :=
  t = "contains" ∨ t = "calls" ∨ t = "uses" ∨ t = "embeds"

/-! ### A tree without module descriptor whose files have imports

The root file imports `fmt`, `github.com/x/y` and `gopkg.in/yaml.v3`, the file
of `sub` imports `os` and `github.com/x/y`. -/

/-- The tree below the root `/r`; there is no `go.mod`. -/
def bareFs : FileSystem :=
  { abs := .ok "/r",
    goMod := none,
    root := .dir "r" none
      [ .file "main.go" (.ok
          { Name := "main",
            Imports := ["\"fmt\"", "\"github.com/x/y\"", "\"gopkg.in/yaml.v3\""],
            Decls := [.genDecl { Tok := .IMPORT,
                                 Specs := [.importSpec, .importSpec, .importSpec] }] }),
        .dir "sub" none
          [ .file "s.go" (.ok
              { Name := "sub",
                Imports := ["\"os\"", "\"github.com/x/y\""],
                Decls := [.genDecl { Tok := .IMPORT,
                                     Specs := [.importSpec, .importSpec] }] }) ] ] }

/-! ## The tracer package: call depth and nesting

The operations of `trace.go` as a transition system on the package state, and
the sequences of events in which every exit closes the most recent open enter:
these are the events of a forest of invocations.  `callDepth` is a Go `int`;
while a trace is active it is bounded by the number of recorded calls, without
a trace it is 0, so it never reaches the limit of the type and is an `Int`
here. -/

namespace tracer

/-- A call of one of the operations of the package. -/
inductive Action where
  | startTrace (testName : String)
  | stopTrace
  | enter (fn : String)
  | exitSuccess (fn : String)
  | exitError (fn : String) (err : Option String)
  | exit (fn : String) (err : Option String)
  deriving DecidableEq, Repr

/-- The operation, carried out at the time `now`. -/
def Action.apply : Action → Time → State → State
  | .startTrace testName, now, s => StartTrace testName now s
  | .stopTrace, _, s => (StopTrace s).1
  | .enter fn, now, s => Enter fn now s
  | .exitSuccess fn, now, s => ExitSuccess fn now s
  | .exitError fn err, now, s => ExitError fn err now s
  | .exit fn err, now, s => Exit fn err now s

/-- The package variables when the program starts: no trace, depth 0. -/
def initState : State := { currentTrace := none, callDepth := 0 }

/-- The operations carried out in order, each at its time. -/
def run (s : State) (acts : List (Action × Time)) : State :=
  acts.foldl (fun s p => p.1.apply p.2 s) s

/-- How an invocation ends: with `ExitSuccess fn` or with `ExitError fn err`
(`Exit fn err` is one of the two). -/
inductive Closing where
  | success (fn : String)
  | failure (fn : String) (err : Option String)
  deriving DecidableEq, Repr

/-- The exit event of a closing. -/
def Closing.op : Closing → Op
  | .success fn => .exitSuccess fn
  | .failure fn err => .exitError fn err

/-- An invocation of a traced function: `Enter fn` at the time `entered`, the
invocations made before it returns, and the exit at the time `closed`. -/
inductive Invocation where
  | mk (fn : String) (entered : Time) (inner : List Invocation) (closing : Closing)
      (closed : Time)

mutual
/-- The events of an invocation, in order: its enter, the events of the
invocations inside, its exit. -/
def Invocation.events : Invocation → List (Op × Time)
  | .mk fn entered inner closing closed =>
    (Op.enter fn, entered) :: (eventsList inner ++ [(closing.op, closed)])
/-- The events of a sequence of invocations that follow one another. -/
def eventsList : List Invocation → List (Op × Time)
  | [] => []
  | i :: rest => i.events ++ eventsList rest
end

/-- The exit record of a closing at depth `d`. -/
def Closing.call (d : Int) (closed : Time) : Closing → Call
  | .success fn =>
    { Event := "exit_success", Function := fn, Timestamp := closed, Error := "", Depth := d }
  | .failure fn (some e) =>
    { Event := "exit_error", Function := fn, Timestamp := closed, Error := e, Depth := d }
  | .failure fn none =>
    { Event := "exit_error", Function := fn, Timestamp := closed, Error := "", Depth := d }

mutual
/-- The records of an invocation whose enter record has depth `d`: the exit
record has depth `d` too, the invocations inside have depth `d + 1`. -/
def Invocation.calls (d : Int) : Invocation → List Call
  | .mk fn entered inner closing closed =>
    { Event := "enter", Function := fn, Timestamp := entered, Error := "", Depth := d } ::
      (callsList (d + 1) inner ++ [closing.call d closed])
/-- The records of a sequence of invocations that all have depth `d`. -/
def callsList (d : Int) : List Invocation → List Call
  | [] => []
  | i :: rest => i.calls d ++ callsList d rest
end

/-- The invocation `outer` calls `inner` twice; the second call fails. -/
def sampleForest : List Invocation :=
  [ .mk "svc.Outer" ⟨10, some 1⟩
      [ .mk "svc.Inner" ⟨11, some 2⟩ [] (.success "svc.Inner") ⟨12, some 3⟩,
        .mk "svc.Inner" ⟨13, some 4⟩ [] (.failure "svc.Inner" (some "boom")) ⟨14, some 5⟩ ]
      (.success "svc.Outer") ⟨15, some 6⟩,
    .mk "svc.Other" ⟨16, some 7⟩ [] (.success "svc.Other") ⟨17, some 8⟩ ]

end tracer

namespace tracer

/-- The depth invariant of the package state: the call depth is not negative;
without a trace it is 0; with a trace it is at most the number of recorded
calls, and no recorded call has a negative depth. -/
def DepthOk (s : State) : Prop :=
  0 ≤ s.callDepth ∧
  match s.currentTrace with
  | none => s.callDepth = 0
  | some t => s.callDepth ≤ (t.Calls.length : Int) ∧ ∀ c ∈ t.Calls, 0 ≤ c.Depth

end tracer

/-! ## The tracer package: sequence diagrams

Embedding of `buildSequenceDiagram`, `generatePlantUML`, `sanitizeAlias` and
`shortName` of `pkg/tracer/context_generator.go`.  The loop of
`buildSequenceDiagram` is a fold over the calls of the trace; its state is the
diagram under construction, the set of aliases seen and the call stack, whose
top is the last element. -/

namespace tracer

/-- A call in the sequence diagram (`SequenceCall`). -/
structure SequenceCall where
  From : String
  To : String
  Success : Bool
  Error : String
  deriving DecidableEq, Repr

/-- A PlantUML sequence diagram (`SequenceDiagram`). -/
structure SequenceDiagram where
  TestName : String
  Participants : List String
  Calls : List SequenceCall
  deriving DecidableEq, Repr

/-- Go `sanitizeAlias`. -/
def sanitizeAlias (name : String) : String :=
  let result := strings.ReplaceAll name '.' "_"
  let result := strings.ReplaceAll result '/' "_"
  strings.ReplaceAll result '-' "_"

/-- Go `shortName`: the text after the last dot. -/
def shortName (name : String) : String :=
  let parts := strings.Split name '.'
  if parts.length > 0 then parts.getD (parts.length - 1) "" else name

/-- The variables of the loop of `buildSequenceDiagram`. -/
structure DiagramState where
  diagram : SequenceDiagram
  participantSet : GoMap Bool
  callStack : List String

/-- The first half of the loop body: an alias that is not in the set is put
into it and its participant entry `alias|shortName` is appended. -/
def registerParticipant (st : DiagramState) (call : Call) : DiagramState :=
  let short := shortName call.Function
  let alias_ := sanitizeAlias call.Function
  if !((st.participantSet.get? alias_).getD false) then
    { st with
      participantSet := st.participantSet.insert alias_ true,
      diagram := { st.diagram with
        Participants := st.diagram.Participants ++ [alias_ ++ "|" ++ short] } }
  else st

/-- The second half of the loop body, the switch on the event: an enter
pushes the alias; an exit appends a call from the element below the top of the
stack to the top when the stack has more than one element, and pops. -/
def switchEvent (st : DiagramState) (call : Call) : DiagramState :=
  let alias_ := sanitizeAlias call.Function
  if call.Event = "enter" then
    { st with callStack := st.callStack ++ [alias_] }
  else if call.Event = "exit_success" ∨ call.Event = "exit_error" then
    let st :=
      if st.callStack.length > 1 then
        { st with diagram := { st.diagram with
            Calls := st.diagram.Calls ++
              [{ From := st.callStack.getD (st.callStack.length - 2) "",
                 To := st.callStack.getD (st.callStack.length - 1) "",
                 Success := decide (call.Event = "exit_success"),
                 Error := call.Error }] } }
      else st
    if st.callStack.length > 0 then
      { st with callStack := st.callStack.take (st.callStack.length - 1) }
    else st
  else st

/-- The loop body of `buildSequenceDiagram`. -/
def diagramStep (st : DiagramState) (call : Call) : DiagramState :=
  switchEvent (registerParticipant st call) call

/-- Go `buildSequenceDiagram`. -/
def buildSequenceDiagram (trace : Trace) : SequenceDiagram :=
  (trace.Calls.foldl diagramStep
    { diagram := { TestName := trace.TestName, Participants := [], Calls := [] },
      participantSet := [],
      callStack := [] }).diagram

/-- Go `generatePlantUML`.  A participant entry is cut at its `|`; an entry
without a second part, which `buildSequenceDiagram` never produces, would
stop the program and is given the empty name here. -/
def generatePlantUML (diagram : SequenceDiagram) : String :=
  "@startuml\n" ++ ("title " ++ diagram.TestName ++ "\n\n") ++
  String.join (diagram.Participants.map (fun p =>
    let parts := strings.Split p '|'
    "participant \"" ++ parts.getD 1 "" ++ "\" as " ++ parts.getD 0 "" ++ "\n")) ++
  "\n" ++
  String.join (diagram.Calls.map (fun call =>
    if call.Success then call.From ++ " -> " ++ call.To ++ "\n"
    else call.From ++ " -> " ++ call.To ++ ": <color:red>error</color>\n")) ++
  "\n@enduml\n"

/-- Go `GenerateSequenceDiagram`; `writeErr` is the error of `os.WriteFile`,
if any.  Returns the disk and the error. -/
def GenerateSequenceDiagram (trace : Trace) (outputFile : String)
    (writeErr : Option String) (disk : Disk) : Disk × Option String :=
  let diagram := buildSequenceDiagram trace
  let puml := generatePlantUML diagram
  match writeErr with
  | some err => (disk, some ("failed to write diagram: " ++ err))
  | none => (disk.insert outputFile (.text puml), none)

/-! ### Well-nested traces

A trace is well nested when each exit event closes the most recent enter event
that is still open: its calls are those of a forest, each tree an enter
record, the trees of the invocations inside, and the exit record. -/

/-- An invocation in a trace: the enter record, the invocations inside, the
exit record. -/
inductive CallTree where
  | node (entered : Call) (inner : List CallTree) (closed : Call)

mutual
/-- The records of an invocation, in the order of the trace. -/
def CallTree.calls : CallTree → List Call
  | .node entered inner closed => entered :: (callsOfTrees inner ++ [closed])
/-- The records of invocations that follow one another. -/
def callsOfTrees : List CallTree → List Call
  | [] => []
  | t :: rest => t.calls ++ callsOfTrees rest
end

mutual
/-- The first record of every invocation is an enter event, the last one an
exit event. -/
def CallTree.wellNested : CallTree → Bool
  | .node entered inner closed =>
    decide (entered.Event = "enter") &&
    (decide (closed.Event = "exit_success") || decide (closed.Event = "exit_error")) &&
    wellNestedList inner
/-- All invocations of a forest are well nested. -/
def wellNestedList : List CallTree → Bool
  | [] => true
  | t :: rest => t.wellNested && wellNestedList rest
end

mutual
/-- The sequence calls expected of an invocation, `parent` being the alias of
the enclosing invocation: those of the invocations inside, then its own call
from the parent, if it has one; success means that the exit event is
`exit_success`. -/
def CallTree.sequenceCalls (parent : Option String) : CallTree → List SequenceCall
  | .node entered inner closed =>
    sequenceCallsOfTrees (some (sanitizeAlias entered.Function)) inner ++
    (match parent with
     | some p => [{ From := p, To := sanitizeAlias entered.Function,
                    Success := decide (closed.Event = "exit_success"),
                    Error := closed.Error }]
     | none => [])
/-- The sequence calls expected of invocations with the same parent. -/
def sequenceCallsOfTrees (parent : Option String) : List CallTree → List SequenceCall
  | [] => []
  | t :: rest => t.sequenceCalls parent ++ sequenceCallsOfTrees parent rest
end

mutual
/-- The number of invocations of a tree. -/
def CallTree.size : CallTree → Nat
  | .node _ inner _ => 1 + sizeOfTrees inner
/-- The number of invocations of a forest. -/
def sizeOfTrees : List CallTree → Nat
  | [] => 0
  | t :: rest => t.size + sizeOfTrees rest
end

/-- The calls that are the first of their alias, in order. -/
def firstAppearances : List Call → List Call
  | [] => []
  | c :: cs =>
    c :: (firstAppearances cs).filter
      (fun x => decide (sanitizeAlias x.Function ≠ sanitizeAlias c.Function))

/-- The participant entry of a call: `alias|shortName`. -/
def participantEntry (c : Call) : String :=
  sanitizeAlias c.Function ++ "|" ++ shortName c.Function

mutual
/-- The tree of records of an invocation recorded at depth `d`. -/
def Invocation.tree (d : Int) : Invocation → CallTree
  | .mk fn entered inner closing closed =>
    .node { Event := "enter", Function := fn, Timestamp := entered, Error := "", Depth := d }
      (treesOf (d + 1) inner) (closing.call d closed)
/-- The trees of records of invocations recorded at depth `d`. -/
def treesOf (d : Int) : List Invocation → List CallTree
  | [] => []
  | i :: rest => i.tree d :: treesOf d rest
end

end tracer

namespace strings

/-- Go `strings.Join`. -/
def Join : List String → String → String
  | [], _ => ""
  | [e], _ => e
  | e :: e' :: es, sep => e ++ sep ++ Join (e' :: es) sep

end strings

namespace filepath

/-- Go `filepath.Base`: the last element of the path, trailing separators
removed first; `.` for the empty path, `/` for a path of separators only. -/
def Base (path : String) : String :=
  if path = "" then "."
  else
    let p := (path.data.reverse.dropWhile (fun c => c = '/')).reverse
    let p := (p.reverse.takeWhile (fun c => c ≠ '/')).reverse
    if p = [] then "/" else ⟨p⟩

end filepath

/-! ## The tracer package: contexts

Embedding of `GenerateContextsFromTraces`, `GenerateContextFromTrace`,
`humanizeTestName` and `toHierarchicalComponentID` of
`pkg/tracer/context_generator.go`.  The result of `filepath.Glob` is the
argument `glob`, the error of `os.WriteFile` for a path the argument
`writeErr`. -/

namespace tracer

/-- UML diagram configuration (`UMLConfig`). -/
structure UMLConfig where
  Before : String
  After : String
  File : String
  deriving DecidableEq, Repr

/-- A DocHub context (`Context`). -/
structure Context where
  Title : String
  Location : String
  Presentation : String
  ExtraLinks : Bool
  Components : List String
  UML : Option UMLConfig
  deriving DecidableEq, Repr

/-- The loop of `humanizeTestName`: a space before every capital ASCII letter
but the first character. -/
def humanizeChars (first : Bool) : List Char → List Char
  | [] => []
  | r :: rs =>
    (if first = false ∧ 'A' ≤ r ∧ r ≤ 'Z' then [' '] else []) ++ r :: humanizeChars false rs

/-- Go `humanizeTestName`. -/
def humanizeTestName (testName : String) : String :=
  let name := strings.TrimPrefix testName "Test"
  strings.TrimSpace ⟨humanizeChars true name.data⟩

/-- Go `toHierarchicalComponentID`. -/
def toHierarchicalComponentID (functionName : String) : String :=
  let parts := strings.Split functionName '.'
  strings.Join (parts.map camelToSnake) "."

/-- The set of component ids that `GenerateContextFromTrace` collects. -/
def componentsMap (calls : List Call) : GoMap Bool :=
  calls.foldl (fun m call =>
    if call.Event = "enter" then m.insert (toHierarchicalComponentID call.Function) true
    else m) []

/-- Go `GenerateContextFromTrace`. -/
def GenerateContextFromTrace (trace : Trace) : Except String Context :=
  let components := strings.sortStrings (componentsMap trace.Calls).keys
  .ok { Title := humanizeTestName trace.TestName,
        Location := "Tests/" ++ humanizeTestName trace.TestName,
        Presentation := "plantuml",
        ExtraLinks := false,
        Components := components,
        UML := none }

/-- The loop of `GenerateContextsFromTraces` over the trace files. -/
def generateContexts (unicodeLower : Char → Char) (traceDir : String)
    (writeErr : String → Option String) :
    List String → GoMap Context → Disk → Disk × Except String (GoMap Context)
  | [], contexts, disk => (disk, .ok contexts)
  | file :: files, contexts, disk =>
    match LoadTrace file disk with
    | .error err => (disk, .error ("failed to load trace " ++ file ++ ": " ++ err))
    | .ok trace =>
      match GenerateContextFromTrace trace with
      | .error err =>
        (disk, .error ("failed to generate context from " ++ file ++ ": " ++ err))
      | .ok ctx =>
        let baseName := strings.TrimSuffix (filepath.Base file) ".json"
        let pumlFile := filepath.Join traceDir (baseName ++ ".puml")
        match GenerateSequenceDiagram trace pumlFile (writeErr pumlFile) disk with
        | (disk, some err) =>
          (disk, .error ("failed to generate diagram for " ++ file ++ ": " ++ err))
        | (disk, none) =>
          let ctx := { ctx with UML := some { Before := "", After := "", File := pumlFile } }
          let contextID := "tests." ++ sanitizeContextID unicodeLower trace.TestName
          generateContexts unicodeLower traceDir writeErr files
            (contexts.insert contextID ctx) disk

/-- Go `GenerateContextsFromTraces`: the disk afterwards, and the contexts or
the error. -/
def GenerateContextsFromTraces (unicodeLower : Char → Char) (traceDir : String)
    (glob : Except String (List String)) (writeErr : String → Option String) (disk : Disk) :
    Disk × Except String (GoMap Context) :=
  match glob with
  | .error err => (disk, .error ("failed to glob trace files: " ++ err))
  | .ok files =>
    if files.length = 0 then (disk, .error ("no trace files found in " ++ traceDir))
    else generateContexts unicodeLower traceDir writeErr files [] disk

/-- A directory `/out` with the saved traces of the tests `Test` and
`TestProcessOrder`. -/
def sampleTraceDisk : Disk :=
  [ ("/out/a.json", .json (marshalTrace
      { TestName := "Test", StartTime := ⟨1, none⟩, EndTime := ⟨5, none⟩,
        Calls := callsList 0 sampleForest })),
    ("/out/b.json", .json (marshalTrace
      { TestName := "TestProcessOrder", StartTime := ⟨6, none⟩, EndTime := ⟨9, none⟩,
        Calls := [] })) ]

end tracer

/-! ## The regular expressions of the pattern fallback

`MatchComponentPattern` hands a pattern that has a star and does not end in
`.*` or `.**` to the `regexp` library, as the expression `^…$` in which every
dot of the pattern is written `\.` and every star `[^.]*`.  For a pattern
whose other characters have no meaning of their own in a regular expression,
the expression is a sequence of literal characters and of runs `[^.]*`;
`globRegex` is the matching of `regexp` on these expressions.  It rejects
every other expression, which says nothing about what the library does with
them. -/

namespace tracer

/-- A piece of such an expression: a literal character, or `[^.]*`. -/
inductive RegexItem where
  | lit (c : Char)
  | noDots
  deriving DecidableEq, Repr

/-- The matching of `[^.]*` followed by the rest `k`: the run takes some
characters other than the dot, the rest matches what is left. -/
def matchNoDots (k : List Char → Bool) : List Char → Bool
  | [] => k []
  | c :: cs => k (c :: cs) || (c != '.' && matchNoDots k cs)

/-- The matching of a sequence of pieces against a whole text. -/
def matchItems : List RegexItem → List Char → Bool
  | [], s => s.isEmpty
  | .lit c :: items, s =>
    match s with
    | [] => false
    | x :: xs => x == c && matchItems items xs
  | .noDots :: items, s => matchNoDots (matchItems items) s

/-- The characters with a meaning of their own in a regular expression. -/
def regexMeta (c : Char) : Bool :=
  ['\\', '.', '+', '*', '?', '(', ')', '|', '[', ']', '\x7b', '\x7d', '^', '$'].contains c

/-- The pieces of the text of an expression after its `^`, up to the closing
`$`; `none` for a text of another form. -/
def parseItems : List Char → Option (List RegexItem)
  | [] => none
  | c :: rest =>
    if c = '$' then (if rest = [] then some [] else none)
    else if c = '\\' then
      match rest with
      | '.' :: rest' => (parseItems rest').map (fun items => RegexItem.lit '.' :: items)
      | _ => none
    else if c = '[' then
      match rest with
      | '^' :: '.' :: ']' :: '*' :: rest' =>
        (parseItems rest').map (fun items => RegexItem.noDots :: items)
      | _ => none
    else if regexMeta c then none
    else (parseItems rest).map (fun items => RegexItem.lit c :: items)

/-- The `regexp` library on the expressions built from plain patterns:
compiling `re` and matching `s`. -/
def globRegex (re s : String) : Bool :=
  match re.data with
  | '^' :: body =>
    match parseItems body with
    | some items => matchItems items s.data
    | none => false
  | _ => false

/-- The piece that the fallback writes for a pattern character. -/
def patternItem (c : Char) : RegexItem :=
  if c = '*' then .noDots else .lit c

/-- A pattern whose characters other than the dot and the star have no
meaning of their own in a regular expression. -/
def plainPattern (pattern : String) : Bool :=
  pattern.data.all (fun c => c = '.' || c = '*' || !regexMeta c)

end tracer

namespace linter

mutual
/-- The return statements below a statement that lie in a block nested
through `if`, `else` blocks, `for`, `range`, the clauses of `switch`, type
switch and `select`, and plain blocks, each with the statement that
immediately precedes it in its enclosing block (`none` for the first statement
of a block); `prev` is the statement before this one.  The returns below an
`else` that is no block (an `else if`) and below a labeled statement are not
among them. -/
def coveredOfStmt (prev : Option Stmt) : Stmt → List (Nat × Option Stmt)
  | .returnStmt pos => [(pos, prev)]
  | .blockStmt list => coveredOfBlock none list
  | .ifStmt body => coveredOfBlock none body
  | .ifElseStmt body (.blockStmt list) => coveredOfBlock none body ++ coveredOfBlock none list
  | .ifElseStmt body _ => coveredOfBlock none body
  | .forStmt body => coveredOfBlock none body
  | .rangeStmt body => coveredOfBlock none body
  | .switchStmt body => coveredOfClauses false body
  | .typeSwitchStmt body => coveredOfClauses false body
  | .selectStmt body => coveredOfClauses true body
  | _ => []
/-- The covered return statements of a block with their preceding statements. -/
def coveredOfBlock (prev : Option Stmt) : List Stmt → List (Nat × Option Stmt)
  | [] => []
  | stmt :: rest => coveredOfStmt prev stmt ++ coveredOfBlock (some stmt) rest
/-- The covered return statements of the clauses of a switch (`comm` false) or
select (`comm` true) body. -/
def coveredOfClauses (comm : Bool) : List Stmt → List (Nat × Option Stmt)
  | [] => []
  | .clause c body :: rest =>
    (if c = comm then coveredOfBlock none body else []) ++ coveredOfClauses comm rest
  | _ :: rest => coveredOfClauses comm rest
end

end linter


/-! ## Facts about strings and paths -/

theorem dot_data (a b : String) : (a ++ "." ++ b).data = a.data ++ '.' :: b.data := by
  simp [String.data_append]

theorem dotFree_iff (s : String) : dotFree s = true ↔ '.' ∉ s.data := by
  simp [dotFree]

theorem append_cons_cancel {α : Type} {a : α} :
    ∀ {l₁ l₂ n m : List α}, a ∉ n → a ∉ m → l₁ ++ a :: n = l₂ ++ a :: m → l₁ = l₂ ∧ n = m
  | [], [], _, _, _, _, h => by simpa using h
  | [], b :: l₂, n, m, hn, _, h => by
    simp only [List.nil_append, List.cons_append, List.cons.injEq] at h
    exact absurd (h.2 ▸ List.mem_append_right l₂ (List.mem_cons_self a m)) hn
  | c :: l₁, [], n, m, _, hm, h => by
    simp only [List.nil_append, List.cons_append, List.cons.injEq] at h
    exact absurd (h.2 ▸ List.mem_append_right l₁ (List.mem_cons_self a n)) hm
  | c :: l₁, d :: l₂, n, m, hn, hm, h => by
    simp only [List.cons_append, List.cons.injEq] at h
    obtain ⟨h1, h2⟩ := append_cons_cancel hn hm h.2
    exact ⟨by rw [h.1, h1], h2⟩

/-- A key `pkg.name` with a dot-free name determines both parts. -/
theorem dot_key_inj {p q n m : String} (hn : dotFree n = true) (hm : dotFree m = true)
    (h : p ++ "." ++ n = q ++ "." ++ m) : p = q ∧ n = m := by
  rw [dotFree_iff] at hn hm
  have h1 : p.data ++ '.' :: n.data = q.data ++ '.' :: m.data := by
    rw [← dot_data, ← dot_data, h]
  obtain ⟨h2, h3⟩ := append_cons_cancel hn hm h1
  exact ⟨String.ext h2, String.ext h3⟩

theorem dot_key_ne_empty (p n : String) : p ++ "." ++ n ≠ "" := by
  intro h
  have := congrArg String.data h
  rw [dot_data] at this
  simp at this

theorem dot_key_left_cancel {p n m : String} (h : p ++ "." ++ n = p ++ "." ++ m) : n = m := by
  have := congrArg String.data h
  rw [dot_data, dot_data] at this
  exact String.ext (by simpa using this)

/-! ## Facts about Go maps -/

namespace GoMap

variable {α : Type}

theorem get?_insert (m : GoMap α) (k k' : String) (v : α) :
    (m.insert k v).get? k' = if k = k' then some v else m.get? k' := by
  induction m with
  | nil => simp [insert, get?]
  | cons e m ih =>
    obtain ⟨k₀, v₀⟩ := e
    by_cases h : k₀ = k
    · subst h
      by_cases h' : k₀ = k' <;> simp [insert, get?, h']
    · by_cases h' : k₀ = k'
      · subst h'
        simp [insert, get?, h, Ne.symm h]
      · simp [insert, get?, h, h', ih]

theorem keys_insert (m : GoMap α) (k : String) (v : α) :
    (m.insert k v).keys = if k ∈ m.keys then m.keys else m.keys ++ [k] := by
  induction m with
  | nil => simp [insert, keys]
  | cons e m ih =>
    obtain ⟨k₀, v₀⟩ := e
    by_cases h : k₀ = k
    · subst h
      simp [insert, keys]
    · have ih' : List.map Prod.fst (insert m k v) =
          if k ∈ List.map Prod.fst m then List.map Prod.fst m else List.map Prod.fst m ++ [k] := ih
      simp only [insert, keys, h, if_false, List.map_cons, List.mem_cons, Ne.symm h, false_or, ih']
      split <;> simp

theorem mem_keys_insert (m : GoMap α) (k k' : String) (v : α) :
    k' ∈ (m.insert k v).keys ↔ k' = k ∨ k' ∈ m.keys := by
  rw [keys_insert]
  split
  · constructor
    · exact Or.inr
    · rintro (h | h)
      · subst h; assumption
      · exact h
  · simp [or_comm]

theorem nodup_keys_insert (m : GoMap α) (k : String) (v : α) (h : m.keys.Nodup) :
    (m.insert k v).keys.Nodup := by
  rw [keys_insert]
  split
  · exact h
  · rename_i hk
    rw [List.nodup_append]
    refine ⟨h, List.nodup_singleton k, ?_⟩
    intro x hx hx'
    simp at hx'
    subst hx'
    exact hk hx

theorem mem_insert (m : GoMap α) (k : String) (v : α) (e : String × α)
    (h : e ∈ m.insert k v) : e = (k, v) ∨ e ∈ m := by
  induction m with
  | nil => simp [insert] at h; exact Or.inl h
  | cons e₀ m ih =>
    obtain ⟨k₀, v₀⟩ := e₀
    by_cases hk : k₀ = k
    · subst hk
      simp only [insert, if_true, List.mem_cons] at h
      rcases h with h | h
      · exact Or.inl h
      · exact Or.inr (List.mem_cons_of_mem _ h)
    · simp only [insert, hk, if_false, List.mem_cons] at h
      rcases h with h | h
      · subst h; exact Or.inr (List.mem_cons_self _ _)
      · rcases ih h with h | h
        · exact Or.inl h
        · exact Or.inr (List.mem_cons_of_mem _ h)

theorem contains_iff (m : GoMap α) (k : String) : m.contains k = true ↔ k ∈ m.keys := by
  induction m with
  | nil => simp [contains, get?, keys]
  | cons e m ih =>
    obtain ⟨k₀, v₀⟩ := e
    by_cases h : k₀ = k
    · subst h; simp [contains, get?, keys]
    · simp only [contains, get?, h, if_false, keys, List.map_cons, List.mem_cons, Ne.symm h,
        false_or]
      exact ih

theorem get?_eq_some_of_mem (m : GoMap α) (h : m.keys.Nodup) (k : String) (v : α)
    (hm : (k, v) ∈ m) : m.get? k = some v := by
  induction m with
  | nil => simp at hm
  | cons e m ih =>
    obtain ⟨k₀, v₀⟩ := e
    simp only [keys, List.map_cons, List.nodup_cons] at h
    rcases List.mem_cons.1 hm with h1 | h1
    · cases h1; simp [get?]
    · have : k₀ ≠ k := by
        rintro rfl
        exact h.1 (List.mem_map_of_mem Prod.fst h1)
      simp only [get?, this, if_false]
      exact ih h.2 h1

theorem mem_of_get?_eq_some (m : GoMap α) (k : String) (v : α)
    (h : m.get? k = some v) : (k, v) ∈ m := by
  induction m with
  | nil => simp [get?] at h
  | cons e m ih =>
    obtain ⟨k₀, v₀⟩ := e
    by_cases hk : k₀ = k
    · subst hk
      simp [get?] at h
      subst h
      exact List.mem_cons_self _ _
    · simp only [get?, hk, if_false] at h
      exact List.mem_cons_of_mem _ (ih h)

end GoMap


/-! ## The walk and the list of analysed files -/

theorem parseFiles_append (a : GoAnalyzer) (l₁ l₂ : List (String × File)) :
    parseFiles a (l₁ ++ l₂) = parseFiles (parseFiles a l₁) l₂ := by
  simp [parseFiles, List.foldl_append]

/-- The walk function of the analyzer and the listing walk function take the
same decisions, and the analyzer is the fold of the listed files. -/
theorem walkFunc_sim (a₀ : GoAnalyzer) (l : List (String × File)) (path : String)
    (info : FsEntry) (err : Option String) :
    walkFunc (parseFiles a₀ l) path info err =
      (parseFiles a₀ (listFunc l path info err).1, (listFunc l path info err).2) := by
  unfold walkFunc listFunc
  cases err with
  | some e => rfl
  | none =>
    simp only
    split
    · split <;> rfl
    · split
      · rfl
      · split
        · rfl
        · cases h : info.parsed with
          | error perr => simp [parseFile]
          | ok node => simp [parseFile, parseFiles_append, parseFiles]

mutual
theorem walk_sim (a₀ : GoAnalyzer) (l : List (String × File)) (path : String) :
    (e : FsEntry) → walk walkFunc (parseFiles a₀ l) path e =
      (parseFiles a₀ (walk listFunc l path e).1, (walk listFunc l path e).2)
  | .file name parsed => by
    simp only [walk]
    exact walkFunc_sim a₀ l path _ _
  | .lstatErr name err => by
    simp only [walk]
    exact walkFunc_sim a₀ l path _ _
  | .dir name readErr children => by
    simp only [walk]
    rw [walkFunc_sim a₀ l path]
    simp only
    split
    · rfl
    · exact walkList_sim a₀ _ path children
theorem walkList_sim (a₀ : GoAnalyzer) (l : List (String × File)) (path : String) :
    (es : List FsEntry) → walkList walkFunc (parseFiles a₀ l) path es =
      (parseFiles a₀ (walkList listFunc l path es).1, (walkList listFunc l path es).2)
  | [] => by simp [walkList]
  | e :: es => by
    simp only [walkList]
    rw [walk_sim a₀ l _ e]
    simp only
    split
    · exact walkList_sim a₀ _ path es
    · split
      · exact walkList_sim a₀ _ path es
      · rfl
    · rfl
end


/-! ## `Analyze` on a fresh analyzer -/

/-- The tables after the walk of a fresh analyzer. -/
theorem Walk_fresh (absDir modulePath : String) (tree : FsEntry) :
    Walk walkFunc (startAnalyzer absDir modulePath) absDir tree =
      (parseFiles (startAnalyzer absDir modulePath) (analysedFiles absDir tree),
        (Walk listFunc [] absDir tree).2) := by
  have h := walk_sim (startAnalyzer absDir modulePath) [] absDir tree
  simp only [parseFiles, List.foldl_nil] at h
  simp only [Walk, h, analysedFiles, parseFiles]
  split <;> rfl

theorem Analyze_fresh_ok (fs : FileSystem) (g : Graph)
    (h : (Analyze NewGoAnalyzer fs).2 = .ok g) :
    ∃ absDir, fs.abs = .ok absDir ∧
      (Walk listFunc [] absDir fs.root).2 = none ∧
      (Analyze NewGoAnalyzer fs).1 =
        buildGraph (parseFiles (startAnalyzer absDir (detectModulePath fs.goMod))
          (analysedFiles absDir fs.root)) ∧
      g = { Nodes := (Analyze NewGoAnalyzer fs).1.nodes,
            Edges := (Analyze NewGoAnalyzer fs).1.edges } := by
  unfold Analyze at h ⊢
  cases habs : fs.abs with
  | error err => rw [habs] at h; simp at h
  | ok absDir =>
    rw [habs] at h
    refine ⟨absDir, rfl, ?_⟩
    have hw := Walk_fresh absDir (detectModulePath fs.goMod) fs.root
    simp only [startAnalyzer] at hw
    simp only [hw] at h ⊢
    cases hr : (Walk listFunc [] absDir fs.root).2 with
    | some err => rw [hr] at h; simp at h
    | none =>
      rw [hr] at h
      simp only [Except.ok.injEq] at h
      simp [startAnalyzer, h.symm]

theorem Analyze_fresh_of_walk (fs : FileSystem) (absDir : String) (habs : fs.abs = .ok absDir)
    (hw : (Walk listFunc [] absDir fs.root).2 = none) :
    ∃ g, (Analyze NewGoAnalyzer fs).2 = .ok g := by
  unfold Analyze
  rw [habs]
  have h := Walk_fresh absDir (detectModulePath fs.goMod) fs.root
  simp only [startAnalyzer] at h
  simp only [h, hw]
  exact ⟨_, rfl⟩


/-! ## The passes of the graph builder -/

theorem buildGraph_tables (a : GoAnalyzer) :
    (buildGraph a).packages = a.packages ∧ (buildGraph a).types = a.types ∧
    (buildGraph a).functions = a.functions ∧ (buildGraph a).methods = a.methods ∧
    (buildGraph a).modulePath = a.modulePath ∧ (buildGraph a).baseDir = a.baseDir := by
  simp [buildGraph, buildTypeDependencyEdges, buildCallEdges, buildContainsEdges,
    buildImportEdges, buildMethodNodes, buildFunctionNodes, buildTypeNodes, buildPackageNodes]

theorem buildGraph_nodes (a : GoAnalyzer) :
    (buildGraph a).nodes = a.nodes ++ (a.packages.map packageNode ++ (a.types.map typeNode ++
      (a.functions.map functionNode ++ a.methods.map methodNode))) := by
  simp [buildGraph, buildTypeDependencyEdges, buildCallEdges, buildContainsEdges,
    buildImportEdges, buildMethodNodes, buildFunctionNodes, buildTypeNodes, buildPackageNodes,
    packageNode, typeNode, functionNode, methodNode]

theorem callEdgesOf_eq (a : GoAnalyzer) (id pkg : String) (calls : List CallInfo) :
    callEdgesOf a id pkg calls =
      (calls.filter (fun c => !c.IsMethod && a.functions.contains (pkg ++ "." ++ c.Target))).map
        (callEdge id pkg) := by
  induction calls with
  | nil => simp [callEdgesOf]
  | cons c cs ih =>
    simp only [callEdgesOf, List.flatMap_cons] at ih ⊢
    rw [ih]
    simp only [resolveCallTarget, List.filter_cons]
    cases hm : c.IsMethod
    · by_cases hc : a.functions.contains (pkg ++ "." ++ c.Target) = true
      · simp [hc, dot_key_ne_empty, callEdge]
      · simp [hc]
    · simp

theorem buildGraph_edges (a : GoAnalyzer) : (buildGraph a).edges = a.edges ++ passEdges a := by
  simp [buildGraph, buildTypeDependencyEdges, buildCallEdges, buildContainsEdges,
    buildImportEdges, buildMethodNodes, buildFunctionNodes, buildTypeNodes, buildPackageNodes,
    passEdges, callEdgesOf, resolveCallTarget]


/-! ## What entering a file does to the tables -/

theorem foldl_inv {α β : Type} (P : β → Prop) (f : β → α → β) :
    ∀ (l : List α) (b : β), (∀ b x, x ∈ l → P b → P (f b x)) → P b → P (l.foldl f b)
  | [], _, _, hb => hb
  | x :: l, b, h, hb =>
    foldl_inv P f l (f b x) (fun b y hy => h b y (List.mem_cons_of_mem _ hy))
      (h b x (List.mem_cons_self _ _) hb)

theorem ensurePackage_fields (a : GoAnalyzer) (pk name dir : String) :
    (ensurePackage a pk name dir).types = a.types ∧
    (ensurePackage a pk name dir).functions = a.functions ∧
    (ensurePackage a pk name dir).methods = a.methods ∧
    (ensurePackage a pk name dir).nodes = a.nodes ∧
    (ensurePackage a pk name dir).edges = a.edges ∧
    (ensurePackage a pk name dir).baseDir = a.baseDir ∧
    (ensurePackage a pk name dir).modulePath = a.modulePath := by
  unfold ensurePackage
  split <;> simp

theorem addImport_fields (a : GoAnalyzer) (pk imp : String) :
    (addImport a pk imp).types = a.types ∧
    (addImport a pk imp).functions = a.functions ∧
    (addImport a pk imp).methods = a.methods ∧
    (addImport a pk imp).nodes = a.nodes ∧
    (addImport a pk imp).edges = a.edges ∧
    (addImport a pk imp).baseDir = a.baseDir ∧
    (addImport a pk imp).modulePath = a.modulePath := by
  unfold addImport
  simp only
  split
  · split <;> simp
  · simp

theorem parseGenDecl_fields (a : GoAnalyzer) (d : GenDecl) (pk fn : String) :
    (parseGenDecl a d pk fn).packages = a.packages ∧
    (parseGenDecl a d pk fn).functions = a.functions ∧
    (parseGenDecl a d pk fn).methods = a.methods ∧
    (parseGenDecl a d pk fn).nodes = a.nodes ∧
    (parseGenDecl a d pk fn).edges = a.edges ∧
    (parseGenDecl a d pk fn).baseDir = a.baseDir ∧
    (parseGenDecl a d pk fn).modulePath = a.modulePath := by
  unfold parseGenDecl
  split
  · simp
  · refine foldl_inv (fun b : GoAnalyzer => b.packages = a.packages ∧ b.functions = a.functions ∧
      b.methods = a.methods ∧ b.nodes = a.nodes ∧ b.edges = a.edges ∧
      b.baseDir = a.baseDir ∧ b.modulePath = a.modulePath) _ d.Specs a ?_ (by simp)
    intro b x _ hb
    split <;> simpa using hb

theorem parseFuncDecl_fields (a : GoAnalyzer) (d : FuncDecl) (pk fn : String) :
    (parseFuncDecl a d pk fn).packages = a.packages ∧
    (parseFuncDecl a d pk fn).types = a.types ∧
    (parseFuncDecl a d pk fn).nodes = a.nodes ∧
    (parseFuncDecl a d pk fn).edges = a.edges ∧
    (parseFuncDecl a d pk fn).baseDir = a.baseDir ∧
    (parseFuncDecl a d pk fn).modulePath = a.modulePath := by
  unfold parseFuncDecl
  split <;> simp

theorem parseDecl_fields (a : GoAnalyzer) (d : Decl) (pk fn : String) :
    (parseDecl a d pk fn).packages = a.packages ∧
    (parseDecl a d pk fn).nodes = a.nodes ∧
    (parseDecl a d pk fn).edges = a.edges ∧
    (parseDecl a d pk fn).baseDir = a.baseDir ∧
    (parseDecl a d pk fn).modulePath = a.modulePath := by
  cases d with
  | genDecl d =>
    have h := parseGenDecl_fields a d pk fn
    exact ⟨h.1, h.2.2.2.1, h.2.2.2.2.1, h.2.2.2.2.2.1, h.2.2.2.2.2.2⟩
  | funcDecl d =>
    have h := parseFuncDecl_fields a d pk fn
    exact ⟨h.1, h.2.2.1, h.2.2.2.1, h.2.2.2.2.1, h.2.2.2.2.2⟩
  | badDecl => simp [parseDecl]

/-- Entering a file changes neither the nodes and edges nor the root and the
module path. -/
theorem parseFileNode_scalars (a : GoAnalyzer) (fn : String) (node : File) :
    (parseFileNode a fn node).nodes = a.nodes ∧ (parseFileNode a fn node).edges = a.edges ∧
    (parseFileNode a fn node).baseDir = a.baseDir ∧
    (parseFileNode a fn node).modulePath = a.modulePath := by
  unfold parseFileNode
  simp only
  refine foldl_inv (fun b : GoAnalyzer => b.nodes = a.nodes ∧ b.edges = a.edges ∧ b.baseDir = a.baseDir ∧
    b.modulePath = a.modulePath) _ node.Decls _ ?_ ?_
  · intro b d _ hb
    have h := parseDecl_fields b d (filePkgPath a fn) fn
    exact ⟨h.2.1.trans hb.1, h.2.2.1.trans hb.2.1, h.2.2.2.1.trans hb.2.2.1,
      h.2.2.2.2.trans hb.2.2.2⟩
  · refine foldl_inv (fun b : GoAnalyzer => b.nodes = a.nodes ∧ b.edges = a.edges ∧ b.baseDir = a.baseDir ∧
      b.modulePath = a.modulePath) _ node.Imports _ ?_ ?_
    · intro b imp _ hb
      have h := addImport_fields b (filePkgPath a fn) imp
      exact ⟨h.2.2.2.1.trans hb.1, h.2.2.2.2.1.trans hb.2.1, h.2.2.2.2.2.1.trans hb.2.2.1,
        h.2.2.2.2.2.2.trans hb.2.2.2⟩
    · have h := ensurePackage_fields a (filePkgPath a fn) node.Name (filepath.Dir fn)
      exact ⟨h.2.2.2.1, h.2.2.2.2.1, h.2.2.2.2.2.1, h.2.2.2.2.2.2⟩

theorem parseFiles_scalars (a : GoAnalyzer) (files : List (String × File)) :
    (parseFiles a files).nodes = a.nodes ∧ (parseFiles a files).edges = a.edges ∧
    (parseFiles a files).baseDir = a.baseDir ∧
    (parseFiles a files).modulePath = a.modulePath := by
  unfold parseFiles
  refine foldl_inv (fun b : GoAnalyzer => b.nodes = a.nodes ∧ b.edges = a.edges ∧ b.baseDir = a.baseDir ∧
    b.modulePath = a.modulePath) _ files a ?_ (by simp)
  intro b p _ hb
  have h := parseFileNode_scalars b p.1 p.2
  exact ⟨h.1.trans hb.1, h.2.1.trans hb.2.1, h.2.2.1.trans hb.2.2.1, h.2.2.2.trans hb.2.2.2⟩


/-- The method entry that `parseFuncDecl` stores for a declaration with
receiver type `recv`. -/
theorem parseFuncDecl_method (a : GoAnalyzer) (d : FuncDecl) (pk fn : String) (r : Field)
    (rs : List Field) (h : d.Recv = r :: rs) :
    parseFuncDecl a d pk fn =
      { a with methods := (a.methods.insert
          (pk ++ "." ++ getReceiverName r.Type_ ++ "." ++ d.Name)
          { Name := d.Name, Receiver := getReceiverName r.Type_, Package := pk, File := fn,
            Line := d.Line, Calls := bodyCalls d.Body }) } := by
  unfold parseFuncDecl
  rw [h]

theorem parseFuncDecl_function (a : GoAnalyzer) (d : FuncDecl) (pk fn : String)
    (h : d.Recv = []) :
    parseFuncDecl a d pk fn =
      { a with functions := (a.functions.insert (pk ++ "." ++ d.Name)
          { Name := d.Name, Package := pk, File := fn, Line := d.Line,
            Calls := bodyCalls d.Body }) } := by
  unfold parseFuncDecl
  rw [h]

/-- Induction principle for one declaration: a property that every single
table assignment of `parseDecl` preserves holds afterwards. -/
theorem parseDecl_induct (P : GoAnalyzer → Prop) (d : Decl) (pk fn : String)
    (htype : ∀ (b : GoAnalyzer) (gd : GenDecl) (ts : TypeSpec), d = .genDecl gd →
      Spec.typeSpec ts ∈ gd.Specs → P b →
      P { b with types := (b.types.insert (pk ++ "." ++ ts.Name) (parseTypeSpec ts pk fn)) })
    (hfunc : ∀ (b : GoAnalyzer) (fd : FuncDecl), d = .funcDecl fd → fd.Recv = [] → P b →
      P { b with functions := (b.functions.insert (pk ++ "." ++ fd.Name)
          { Name := fd.Name, Package := pk, File := fn, Line := fd.Line,
            Calls := bodyCalls fd.Body }) })
    (hmeth : ∀ (b : GoAnalyzer) (fd : FuncDecl) (r : Field) (rs : List Field),
      d = .funcDecl fd → fd.Recv = r :: rs → P b →
      P { b with methods := (b.methods.insert
          (pk ++ "." ++ getReceiverName r.Type_ ++ "." ++ fd.Name)
          { Name := fd.Name, Receiver := getReceiverName r.Type_, Package := pk, File := fn,
            Line := fd.Line, Calls := bodyCalls fd.Body }) })
    (a : GoAnalyzer) (h0 : P a) : P (parseDecl a d pk fn) := by
  cases d with
  | badDecl => exact h0
  | genDecl gd =>
    simp only [parseDecl, parseGenDecl]
    split
    · exact h0
    · refine foldl_inv P _ gd.Specs a ?_ h0
      intro b x hx hb
      split
      · rename_i ts
        exact htype b gd ts rfl hx hb
      · exact hb
  | funcDecl fd =>
    simp only [parseDecl]
    cases hr : fd.Recv with
    | nil =>
      rw [parseFuncDecl_function a fd pk fn hr]
      exact hfunc a fd rfl hr h0
    | cons r rs =>
      rw [parseFuncDecl_method a fd pk fn r rs hr]
      exact hmeth a fd r rs rfl hr h0

/-- Induction principle for one file: a property that every single table
assignment of `parseFileNode` preserves holds afterwards. -/
theorem parseFileNode_induct (P : GoAnalyzer → Prop) (a₀ : GoAnalyzer) (fn : String)
    (node : File)
    (hnew : ∀ b : GoAnalyzer, b.packages.contains (filePkgPath a₀ fn) = false → P b →
      P { b with packages := (b.packages.insert (filePkgPath a₀ fn)
          { Name := node.Name, Path := filePkgPath a₀ fn, Dir := filepath.Dir fn,
            Imports := [] }) })
    (himp : ∀ (b : GoAnalyzer) (imp : String) (pkg : PackageInfo), imp ∈ node.Imports →
      isStdLib (strings.Trim imp "\"") = false →
      b.packages.get? (filePkgPath a₀ fn) = some pkg → P b →
      P { b with packages := (b.packages.insert (filePkgPath a₀ fn)
          { pkg with Imports := pkg.Imports ++ [strings.Trim imp "\""] }) })
    (htype : ∀ (b : GoAnalyzer) (gd : GenDecl) (ts : TypeSpec), Decl.genDecl gd ∈ node.Decls →
      Spec.typeSpec ts ∈ gd.Specs → P b →
      P { b with types := (b.types.insert (filePkgPath a₀ fn ++ "." ++ ts.Name)
          (parseTypeSpec ts (filePkgPath a₀ fn) fn)) })
    (hfunc : ∀ (b : GoAnalyzer) (fd : FuncDecl), Decl.funcDecl fd ∈ node.Decls →
      fd.Recv = [] → P b →
      P { b with functions := (b.functions.insert (filePkgPath a₀ fn ++ "." ++ fd.Name)
          { Name := fd.Name, Package := filePkgPath a₀ fn, File := fn, Line := fd.Line,
            Calls := bodyCalls fd.Body }) })
    (hmeth : ∀ (b : GoAnalyzer) (fd : FuncDecl) (r : Field) (rs : List Field),
      Decl.funcDecl fd ∈ node.Decls → fd.Recv = r :: rs → P b →
      P { b with methods := (b.methods.insert
          (filePkgPath a₀ fn ++ "." ++ getReceiverName r.Type_ ++ "." ++ fd.Name)
          { Name := fd.Name, Receiver := getReceiverName r.Type_,
            Package := filePkgPath a₀ fn, File := fn,
            Line := fd.Line, Calls := bodyCalls fd.Body }) })
    (h0 : P a₀) : P (parseFileNode a₀ fn node) := by
  unfold parseFileNode
  simp only
  refine foldl_inv P _ node.Decls _ ?_ ?_
  · intro b d hd hb
    refine parseDecl_induct P d _ fn ?_ ?_ ?_ b hb
    · intro b gd ts hgd hts hb
      exact htype b gd ts (hgd ▸ hd) hts hb
    · intro b fd hfd hr hb
      exact hfunc b fd (hfd ▸ hd) hr hb
    · intro b fd r rs hfd hr hb
      exact hmeth b fd r rs (hfd ▸ hd) hr hb
  · refine foldl_inv P _ node.Imports _ ?_ ?_
    · intro b imp himp' hb
      unfold addImport
      simp only
      cases hstd : isStdLib (strings.Trim imp "\"")
      · simp only [Bool.not_false, if_true]
        cases hget : b.packages.get? (filePkgPath a₀ fn) with
        | none => exact hb
        | some pkg => exact himp b imp pkg himp' hstd hget hb
      · simpa using hb
    · unfold ensurePackage
      cases hc : a₀.packages.contains (filePkgPath a₀ fn)
      · simp only [Bool.false_eq_true, if_false]
        exact hnew a₀ hc h0
      · simpa using h0

theorem parseFiles_induct (P : GoAnalyzer → Prop) (files : List (String × File))
    (hstep : ∀ (b : GoAnalyzer) (p : String × File), p ∈ files → P b →
      P (parseFileNode b p.1 p.2))
    (a : GoAnalyzer) (h0 : P a) : P (parseFiles a files) :=
  foldl_inv P _ files a hstep h0


/-! ## Invariants of the tables -/

theorem foldl_establish {α β : Type} (P : β → Prop) (f : β → α → β) (x : α)
    (hest : ∀ b, P (f b x)) (hpres : ∀ b y, P b → P (f b y)) :
    ∀ (l : List α) (b : β), x ∈ l → P (l.foldl f b)
  | y :: l, b, h => by
    rcases List.mem_cons.1 h with h | h
    · subst h
      exact foldl_inv P f l _ (fun b y _ hb => hpres b y hb) (hest b)
    · exact foldl_establish P f x hest hpres l (f b y) h

theorem keysNodup_parseFileNode (a : GoAnalyzer) (fn : String) (node : File)
    (h : KeysNodup a) : KeysNodup (parseFileNode a fn node) := by
  refine parseFileNode_induct KeysNodup a fn node ?_ ?_ ?_ ?_ ?_ h
  · intro b _ hb
    exact ⟨GoMap.nodup_keys_insert _ _ _ hb.1, hb.2⟩
  · intro b imp pkg _ _ _ hb
    exact ⟨GoMap.nodup_keys_insert _ _ _ hb.1, hb.2⟩
  · intro b gd ts _ _ hb
    exact ⟨hb.1, GoMap.nodup_keys_insert _ _ _ hb.2.1, hb.2.2⟩
  · intro b fd _ _ hb
    exact ⟨hb.1, hb.2.1, GoMap.nodup_keys_insert _ _ _ hb.2.2.1, hb.2.2.2⟩
  · intro b fd r rs _ _ hb
    exact ⟨hb.1, hb.2.1, hb.2.2.1, GoMap.nodup_keys_insert _ _ _ hb.2.2.2⟩

theorem keysNodup_parseFiles (a : GoAnalyzer) (files : List (String × File))
    (h : KeysNodup a) : KeysNodup (parseFiles a files) :=
  parseFiles_induct KeysNodup files (fun b p _ hb => keysNodup_parseFileNode b p.1 p.2 hb) a h

theorem keysNodup_start (absDir modulePath : String) :
    KeysNodup (startAnalyzer absDir modulePath) := by
  simp [KeysNodup, startAnalyzer, NewGoAnalyzer, GoMap.keys]

mutual
theorem collectCalls_dotFree : (n : AstNode) → n.identsDotFree = true →
    ∀ c ∈ collectCalls n, c.IsMethod = false → dotFree c.Target = true
  | .ident _, _, c, hc, _ => by simp [collectCalls] at hc
  | .selectorExpr x _, h, c, hc, hm => by
    simp only [AstNode.identsDotFree, Bool.and_eq_true] at h
    simp only [collectCalls] at hc
    exact collectCalls_dotFree x h.1 c hc hm
  | .callExpr fn args line, h, c, hc, hm => by
    simp only [AstNode.identsDotFree, Bool.and_eq_true] at h
    simp only [collectCalls, List.mem_append] at hc
    rcases hc with hc | hc | hc
    · cases fn with
      | ident name =>
        simp only [classifyCall] at hc
        split at hc
        · simp only [List.mem_singleton] at hc
          subst hc
          simpa [AstNode.identsDotFree] using h.1
        · simp at hc
      | selectorExpr x sel =>
        cases x <;> simp [classifyCall] at hc
        subst hc
        simp at hm
      | callExpr _ _ _ => simp [classifyCall] at hc
      | other _ => simp [classifyCall] at hc
    · exact collectCalls_dotFree fn h.1 c hc hm
    · exact collectCallsList_dotFree args h.2 c hc hm
  | .other children, h, c, hc, hm => by
    simp only [AstNode.identsDotFree] at h
    simp only [collectCalls] at hc
    exact collectCallsList_dotFree children h c hc hm
theorem collectCallsList_dotFree : (ns : List AstNode) → identsDotFreeList ns = true →
    ∀ c ∈ collectCallsList ns, c.IsMethod = false → dotFree c.Target = true
  | [], _, c, hc, _ => by simp [collectCallsList] at hc
  | n :: ns, h, c, hc, hm => by
    simp only [identsDotFreeList, Bool.and_eq_true] at h
    simp only [collectCallsList, List.mem_append] at hc
    rcases hc with hc | hc
    · exact collectCalls_dotFree n h.1 c hc hm
    · exact collectCallsList_dotFree ns h.2 c hc hm
end

theorem bodyCalls_dotFree (fd : FuncDecl) (h : Decl.wf (.funcDecl fd) = true) :
    ∀ c ∈ bodyCalls fd.Body, c.IsMethod = false → dotFree c.Target = true := by
  simp only [Decl.wf, Bool.and_eq_true] at h
  cases hb : fd.Body with
  | none => simp [bodyCalls]
  | some body =>
    rw [hb] at h
    simpa [bodyCalls] using collectCalls_dotFree body h.2

theorem resolveTypeName_dotFree : (e : Expr) → (pk : String) → e.identsDotFree = true →
    dotFree (resolveTypeName e pk).1 = true
  | .ident name, _, h => by simpa [resolveTypeName, Expr.identsDotFree] using h
  | .selectorExpr x sel, _, h => by
    simp only [Expr.identsDotFree, Bool.and_eq_true] at h
    cases x <;> simp [resolveTypeName, h.2] <;> rfl
  | .starExpr x, pk, h => by
    simp only [Expr.identsDotFree] at h
    simpa [resolveTypeName] using resolveTypeName_dotFree x pk h
  | .arrayType elt, pk, h => by
    simp only [Expr.identsDotFree] at h
    simpa [resolveTypeName] using resolveTypeName_dotFree elt pk h
  | .mapType key value, pk, h => by
    simp only [Expr.identsDotFree, Bool.and_eq_true] at h
    simpa [resolveTypeName] using resolveTypeName_dotFree value pk h.2
  | .chanType _, _, _ => by simp [resolveTypeName]; rfl
  | .funcType, _, _ => by simp [resolveTypeName]; rfl
  | .indexExpr _ _, _, _ => by simp [resolveTypeName]; rfl
  | .parenExpr _, _, _ => by simp [resolveTypeName]; rfl
  | .structType _, _, _ => by simp [resolveTypeName]; rfl
  | .interfaceType, _, _ => by simp [resolveTypeName]; rfl
  | .otherExpr, _, _ => by simp [resolveTypeName]; rfl

theorem fieldsDotFree_mem : (fields : List (List String × Expr)) →
    fieldsDotFree fields = true → ∀ f ∈ fields, f.2.identsDotFree = true
  | [], _, f, hf => by simp at hf
  | (names, t) :: fields, h, f, hf => by
    simp only [fieldsDotFree, Bool.and_eq_true] at h
    rcases List.mem_cons.1 hf with hf | hf
    · subst hf
      exact h.1
    · exact fieldsDotFree_mem fields h.2 f hf

theorem parseTypeSpec_ok (ts : TypeSpec) (pk fn : String) (hn : dotFree ts.Name = true)
    (ht : ts.Type_.identsDotFree = true) :
    TypeOk (pk ++ "." ++ ts.Name, parseTypeSpec ts pk fn) := by
  have key : ∀ ti : TypeInfo, (ti.Name = ts.Name ∧ ti.Package = pk ∧
      (∀ n ∈ ti.Embeds, dotFree n = true) ∧ (∀ f ∈ ti.Fields, dotFree f.TypeName = true)) →
      TypeOk (pk ++ "." ++ ts.Name, ti) := by
    intro ti h
    exact ⟨by simp [h.1, h.2.1], by simpa [h.1] using hn, h.2.2.1, h.2.2.2⟩
  apply key
  unfold parseTypeSpec
  simp only
  split
  · rename_i fields hfields
    rw [hfields] at ht
    simp only [Expr.identsDotFree] at ht
    have ht := fieldsDotFree_mem fields ht
    refine foldl_inv (fun ti : TypeInfo => ti.Name = ts.Name ∧ ti.Package = pk ∧
      (∀ n ∈ ti.Embeds, dotFree n = true) ∧ (∀ f ∈ ti.Fields, dotFree f.TypeName = true))
      _ fields _ ?_ (by simp)
    intro ti field hfield hti
    have hr := resolveTypeName_dotFree field.2 pk (ht field hfield)
    unfold parseStructField
    simp only
    split
    · refine ⟨hti.1, hti.2.1, ?_, hti.2.2.2⟩
      intro n hn'
      rcases List.mem_append.1 hn' with h | h
      · exact hti.2.2.1 n h
      · simp only [List.mem_singleton] at h
        rw [h]; exact hr
    · refine ⟨hti.1, hti.2.1, hti.2.2.1, ?_⟩
      intro f hf
      rcases List.mem_append.1 hf with h | h
      · exact hti.2.2.2 f h
      · simp only [List.mem_map] at h
        obtain ⟨_, _, rfl⟩ := h
        exact hr
  · simp
  · simp

theorem symbolsOk_parseFileNode (a : GoAnalyzer) (fn : String) (node : File)
    (hwf : node.wf = true) (h : SymbolsOk a) : SymbolsOk (parseFileNode a fn node) := by
  simp only [File.wf, List.all_eq_true] at hwf
  refine parseFileNode_induct SymbolsOk a fn node ?_ ?_ ?_ ?_ ?_ h
  · intro b _ hb
    exact hb
  · intro b imp pkg _ _ _ hb
    exact hb
  · intro b gd ts hgd hts hb
    refine ⟨?_, hb.2⟩
    intro e he
    rcases GoMap.mem_insert _ _ _ _ he with he | he
    · subst he
      have h1 := hwf _ hgd
      simp only [Decl.wf, List.all_eq_true] at h1
      have h2 := h1 _ hts
      simp only [Spec.wf] at h2
      simp only [Bool.and_eq_true] at h2
      exact parseTypeSpec_ok ts (filePkgPath a fn) fn h2.1 h2.2
    · exact hb.1 e he
  · intro b fd hfd _ hb
    refine ⟨hb.1, ?_, hb.2.2⟩
    intro e he
    rcases GoMap.mem_insert _ _ _ _ he with he | he
    · subst he
      have h1 := hwf _ hfd
      refine ⟨rfl, ?_, bodyCalls_dotFree fd h1⟩
      simp only [Decl.wf, Bool.and_eq_true] at h1
      exact h1.1
    · exact hb.2.1 e he
  · intro b fd r rs hfd _ hb
    refine ⟨hb.1, hb.2.1, ?_⟩
    intro e he
    rcases GoMap.mem_insert _ _ _ _ he with he | he
    · subst he
      exact ⟨rfl, bodyCalls_dotFree fd (hwf _ hfd)⟩
    · exact hb.2.2 e he

theorem symbolsOk_parseFiles (a : GoAnalyzer) (files : List (String × File))
    (hwf : ∀ p ∈ files, p.2.wf = true) (h : SymbolsOk a) : SymbolsOk (parseFiles a files) :=
  parseFiles_induct SymbolsOk files
    (fun b p hp hb => symbolsOk_parseFileNode b p.1 p.2 (hwf p hp) hb) a h

theorem symbolsOk_start (absDir modulePath : String) :
    SymbolsOk (startAnalyzer absDir modulePath) := by
  simp [SymbolsOk, startAnalyzer, NewGoAnalyzer]


/-! ## The graph of a fresh analyzer -/

theorem passEdges_congr (a b : GoAnalyzer) (hp : a.packages = b.packages)
    (ht : a.types = b.types) (hf : a.functions = b.functions) (hm : a.methods = b.methods)
    (hmod : a.modulePath = b.modulePath) : passEdges a = passEdges b := by
  simp [passEdges, callEdgesOf, resolveCallTarget, hp, ht, hf, hm, hmod]

/-- The graph that `Analyze` returns on a fresh analyzer, in terms of the
tables the call leaves behind. -/
theorem Analyze_fresh_graph (fs : FileSystem) (g : Graph)
    (h : (Analyze NewGoAnalyzer fs).2 = .ok g) :
    g.Nodes = (Analyze NewGoAnalyzer fs).1.packages.map packageNode ++
      ((Analyze NewGoAnalyzer fs).1.types.map typeNode ++
      ((Analyze NewGoAnalyzer fs).1.functions.map functionNode ++
        (Analyze NewGoAnalyzer fs).1.methods.map methodNode)) ∧
    g.Edges = passEdges (Analyze NewGoAnalyzer fs).1 ∧
    KeysNodup (Analyze NewGoAnalyzer fs).1 := by
  obtain ⟨absDir, _, _, ha, hg⟩ := Analyze_fresh_ok fs g h
  have hsc := parseFiles_scalars (startAnalyzer absDir (detectModulePath fs.goMod))
    (analysedFiles absDir fs.root)
  have hkn := keysNodup_parseFiles _ (analysedFiles absDir fs.root)
    (keysNodup_start absDir (detectModulePath fs.goMod))
  have htab := buildGraph_tables (parseFiles (startAnalyzer absDir (detectModulePath fs.goMod))
    (analysedFiles absDir fs.root))
  rw [hg, ha]
  refine ⟨?_, ?_, ?_⟩
  · rw [buildGraph_nodes, hsc.1, htab.1, htab.2.1, htab.2.2.1, htab.2.2.2.1]
    simp [startAnalyzer, NewGoAnalyzer]
  · simp only
    rw [buildGraph_edges, hsc.2.1]
    simp only [startAnalyzer, NewGoAnalyzer, List.nil_append]
    exact (passEdges_congr _ _ htab.1 htab.2.1 htab.2.2.1 htab.2.2.2.1 htab.2.2.2.2.1).symm
  · unfold KeysNodup at hkn ⊢
    rw [htab.1, htab.2.1, htab.2.2.1, htab.2.2.2.1]
    exact hkn

/-- The tables that `Analyze` leaves behind on a fresh analyzer are those of
the analysed files, entered in order. -/
theorem Analyze_fresh_tables (fs : FileSystem) (g : Graph)
    (h : (Analyze NewGoAnalyzer fs).2 = .ok g) :
    ∃ absDir, fs.abs = .ok absDir ∧ (Walk listFunc [] absDir fs.root).2 = none ∧
      (Analyze NewGoAnalyzer fs).1.packages =
        (parseFiles (startAnalyzer absDir (detectModulePath fs.goMod))
          (analysedFiles absDir fs.root)).packages ∧
      (Analyze NewGoAnalyzer fs).1.types =
        (parseFiles (startAnalyzer absDir (detectModulePath fs.goMod))
          (analysedFiles absDir fs.root)).types ∧
      (Analyze NewGoAnalyzer fs).1.functions =
        (parseFiles (startAnalyzer absDir (detectModulePath fs.goMod))
          (analysedFiles absDir fs.root)).functions ∧
      (Analyze NewGoAnalyzer fs).1.methods =
        (parseFiles (startAnalyzer absDir (detectModulePath fs.goMod))
          (analysedFiles absDir fs.root)).methods ∧
      (Analyze NewGoAnalyzer fs).1.modulePath = detectModulePath fs.goMod ∧
      (Analyze NewGoAnalyzer fs).1.baseDir = absDir := by
  obtain ⟨absDir, habs, hw, ha, _⟩ := Analyze_fresh_ok fs g h
  have hsc := parseFiles_scalars (startAnalyzer absDir (detectModulePath fs.goMod))
    (analysedFiles absDir fs.root)
  have htab := buildGraph_tables (parseFiles (startAnalyzer absDir (detectModulePath fs.goMod))
    (analysedFiles absDir fs.root))
  refine ⟨absDir, habs, hw, ?_⟩
  rw [ha]
  refine ⟨htab.1, htab.2.1, htab.2.2.1, htab.2.2.2.1, ?_, ?_⟩
  · rw [htab.2.2.2.2.1, hsc.2.2.2]; rfl
  · rw [htab.2.2.2.2.2, hsc.2.2.1]; rfl


/-! ## Node identities -/

theorem filter_map_all {α : Type} (f : α → Node) (p : Node → Bool) (l : List α)
    (h : ∀ x, p (f x) = true) : (l.map f).filter p = l.map f := by
  rw [List.filter_eq_self]
  intro n hn
  obtain ⟨x, _, rfl⟩ := List.mem_map.1 hn
  exact h x

theorem filter_map_none {α : Type} (f : α → Node) (p : Node → Bool) (l : List α)
    (h : ∀ x, p (f x) = false) : (l.map f).filter p = [] := by
  rw [List.filter_eq_nil_iff]
  intro n hn
  obtain ⟨x, _, rfl⟩ := List.mem_map.1 hn
  simp [h x]

theorem typeNode_entity (e : String × TypeInfo) :
    (typeNode e).Entity = "struct" ∨ (typeNode e).Entity = "interface" := by
  unfold typeNode
  simp only
  split
  · exact Or.inr rfl
  · exact Or.inl rfl

theorem map_ID_packageNode (m : GoMap PackageInfo) :
    (m.map packageNode).map Node.ID = m.keys := by
  simp [GoMap.keys, packageNode]

theorem map_ID_typeNode (m : GoMap TypeInfo) : (m.map typeNode).map Node.ID = m.keys := by
  simp [GoMap.keys, typeNode]

theorem map_ID_functionNode (m : GoMap FunctionInfo) :
    (m.map functionNode).map Node.ID = m.keys := by
  simp [GoMap.keys, functionNode]

theorem map_ID_methodNode (m : GoMap MethodInfo) :
    (m.map methodNode).map Node.ID = m.keys := by
  simp [GoMap.keys, methodNode]

/-- C1, the claim as stated fails: in the tree `clashFs` the package `a.T` and
the type `T` of package `a` both get the node id `m/a.T` (and the function `M`
of `a.T` and the method `T.M` of `a` both get `m/a.T.M`), so the node ids of
the returned graph are not pairwise distinct. -/
theorem node_ids_not_distinct :
    ∃ g, (Analyze NewGoAnalyzer clashFs).2 = .ok g ∧ ¬ (g.Nodes.map Node.ID).Nodup :=
  ⟨_, rfl, by decide⟩

/-- C1, amended: for every analysed tree, the nodes that the graph returned
by `Analyze` on a fresh analyzer has for one symbol table (the package nodes,
the struct and interface nodes, the function nodes, the method nodes) have
pairwise distinct ids; and all node ids of the graph are pairwise distinct
exactly when no string is a key of two different symbol tables. -/
theorem node_ids_distinct_per_table (fs : FileSystem) (g : Graph)
    (h : (Analyze NewGoAnalyzer fs).2 = .ok g) :
    ((g.Nodes.filter (fun n => n.Entity = "package")).map Node.ID).Nodup ∧
    ((g.Nodes.filter (fun n => n.Entity = "struct" ∨ n.Entity = "interface")).map
      Node.ID).Nodup ∧
    ((g.Nodes.filter (fun n => n.Entity = "function")).map Node.ID).Nodup ∧
    ((g.Nodes.filter (fun n => n.Entity = "method")).map Node.ID).Nodup ∧
    ((g.Nodes.map Node.ID).Nodup ↔
      (Analyze NewGoAnalyzer fs).1.packages.keys.Disjoint (Analyze NewGoAnalyzer fs).1.types.keys ∧
      (Analyze NewGoAnalyzer fs).1.packages.keys.Disjoint
        (Analyze NewGoAnalyzer fs).1.functions.keys ∧
      (Analyze NewGoAnalyzer fs).1.packages.keys.Disjoint
        (Analyze NewGoAnalyzer fs).1.methods.keys ∧
      (Analyze NewGoAnalyzer fs).1.types.keys.Disjoint
        (Analyze NewGoAnalyzer fs).1.functions.keys ∧
      (Analyze NewGoAnalyzer fs).1.types.keys.Disjoint (Analyze NewGoAnalyzer fs).1.methods.keys ∧
      (Analyze NewGoAnalyzer fs).1.functions.keys.Disjoint
        (Analyze NewGoAnalyzer fs).1.methods.keys) := by
  obtain ⟨hn, _, hk⟩ := Analyze_fresh_graph fs g h
  generalize (Analyze NewGoAnalyzer fs).1 = a at hn hk ⊢
  obtain ⟨hkp, hkt, hkf, hkm⟩ := hk
  rw [hn]
  refine ⟨?_, ?_, ?_, ?_, ?_⟩
  · rw [List.filter_append, List.filter_append, List.filter_append,
      filter_map_all packageNode _ _ (by intro x; simp [packageNode]),
      filter_map_none typeNode _ _ (by
        intro x; rcases typeNode_entity x with h | h <;> simp [h]),
      filter_map_none functionNode _ _ (by intro x; simp [functionNode]),
      filter_map_none methodNode _ _ (by intro x; simp [methodNode])]
    simpa [map_ID_packageNode] using hkp
  · rw [List.filter_append, List.filter_append, List.filter_append,
      filter_map_none packageNode _ _ (by intro x; simp [packageNode]),
      filter_map_all typeNode _ _ (by
        intro x; rcases typeNode_entity x with h | h <;> simp [h]),
      filter_map_none functionNode _ _ (by intro x; simp [functionNode]),
      filter_map_none methodNode _ _ (by intro x; simp [methodNode])]
    simpa [map_ID_typeNode] using hkt
  · rw [List.filter_append, List.filter_append, List.filter_append,
      filter_map_none packageNode _ _ (by intro x; simp [packageNode]),
      filter_map_none typeNode _ _ (by
        intro x; rcases typeNode_entity x with h | h <;> simp [h]),
      filter_map_all functionNode _ _ (by intro x; simp [functionNode]),
      filter_map_none methodNode _ _ (by intro x; simp [methodNode])]
    simpa [map_ID_functionNode] using hkf
  · rw [List.filter_append, List.filter_append, List.filter_append,
      filter_map_none packageNode _ _ (by intro x; simp [packageNode]),
      filter_map_none typeNode _ _ (by
        intro x; rcases typeNode_entity x with h | h <;> simp [h]),
      filter_map_none functionNode _ _ (by intro x; simp [functionNode]),
      filter_map_all methodNode _ _ (by intro x; simp [methodNode])]
    simpa [map_ID_methodNode] using hkm
  · rw [List.map_append, List.map_append, List.map_append, map_ID_packageNode,
      map_ID_typeNode, map_ID_functionNode, map_ID_methodNode]
    simp only [List.nodup_append, List.disjoint_append_right, hkp, hkt, hkf, hkm, true_and]
    tauto

/-- C1, amended, at the tree `clashFs`: the ids of the function nodes are
pairwise distinct although the ids of all nodes are not. -/
theorem node_ids_distinct_per_table_witness :
    ∃ g, (Analyze NewGoAnalyzer clashFs).2 = .ok g ∧
      ((g.Nodes.filter (fun n => n.Entity = "function")).map Node.ID).Nodup :=
  ⟨_, rfl, (node_ids_distinct_per_table clashFs _ rfl).2.2.1⟩


/-! ## The edges of each pass -/

theorem mem_importEdgesOf (modulePath path : String) (pkg : PackageInfo) (e : Edge) :
    e ∈ importEdgesOf modulePath path pkg ↔
      ∃ imp ∈ pkg.Imports, strings.HasPrefix imp modulePath = true ∧
        e = { From := path, To := imp, Method := "", Type_ := "import" } := by
  simp only [importEdgesOf, List.mem_map, List.mem_filter]
  constructor
  · rintro ⟨imp, ⟨h1, h2⟩, rfl⟩
    exact ⟨imp, h1, h2, rfl⟩
  · rintro ⟨imp, h1, h2, rfl⟩
    exact ⟨imp, ⟨h1, h2⟩, rfl⟩

theorem mem_methodContainsEdge (types : GoMap TypeInfo) (id : String) (m : MethodInfo)
    (e : Edge) :
    e ∈ methodContainsEdge types id m ↔
      types.contains (m.Package ++ "." ++ m.Receiver) = true ∧
        e = { From := m.Package ++ "." ++ m.Receiver, To := id, Method := "",
              Type_ := "contains" } := by
  unfold methodContainsEdge
  simp only
  split
  · rename_i h
    simp [h]
  · rename_i h
    simp [h]

theorem mem_callEdgesOf (a : GoAnalyzer) (id pkg : String) (calls : List CallInfo) (e : Edge) :
    e ∈ callEdgesOf a id pkg calls ↔
      ∃ c ∈ calls, c.IsMethod = false ∧ a.functions.contains (pkg ++ "." ++ c.Target) = true ∧
        e = callEdge id pkg c := by
  rw [callEdgesOf_eq]
  simp only [List.mem_map, List.mem_filter, Bool.and_eq_true, Bool.not_eq_true']
  constructor
  · rintro ⟨c, ⟨h1, h2, h3⟩, rfl⟩
    exact ⟨c, h1, h2, h3, rfl⟩
  · rintro ⟨c, h1, h2, h3, rfl⟩
    exact ⟨c, ⟨h1, h2, h3⟩, rfl⟩

theorem mem_embedEdgesOf (types : GoMap TypeInfo) (id : String) (ti : TypeInfo) (e : Edge) :
    e ∈ embedEdgesOf types id ti ↔
      ∃ n ∈ ti.Embeds, primitives n = false ∧ types.contains (ti.Package ++ "." ++ n) = true ∧
        e = { From := id, To := ti.Package ++ "." ++ n, Method := "", Type_ := "embeds" } := by
  simp only [embedEdgesOf, List.mem_flatMap]
  constructor
  · rintro ⟨n, hn, he⟩
    cases hp : primitives n
    · simp only [hp, Bool.false_eq_true, if_false] at he
      by_cases hc : types.contains (ti.Package ++ "." ++ n) = true
      · simp only [hc, if_true, List.mem_singleton] at he
        exact ⟨n, hn, hp, hc, he⟩
      · simp [hc] at he
    · simp [hp] at he
  · rintro ⟨n, hn, hp, hc, rfl⟩
    exact ⟨n, hn, by simp [hp, hc]⟩

theorem mem_useEdgesOf (types : GoMap TypeInfo) (id : String) (ti : TypeInfo) (e : Edge) :
    e ∈ useEdgesOf types id ti ↔
      ∃ f ∈ ti.Fields, primitives f.TypeName = false ∧ f.TypePkg = ti.Package ∧
        types.contains (ti.Package ++ "." ++ f.TypeName) = true ∧
        e = { From := id, To := ti.Package ++ "." ++ f.TypeName, Method := "",
              Type_ := "uses" } := by
  simp only [useEdgesOf, List.mem_flatMap]
  constructor
  · rintro ⟨f, hf, he⟩
    cases hp : primitives f.TypeName
    · simp only [hp, Bool.false_eq_true, if_false] at he
      by_cases hpk : f.TypePkg = ti.Package
      · simp only [hpk, if_true, ne_eq, dot_key_ne_empty, not_false_eq_true, true_and] at he
        by_cases hc : types.contains (ti.Package ++ "." ++ f.TypeName) = true
        · simp only [hc, if_true, List.mem_singleton] at he
          exact ⟨f, hf, hp, hpk, hc, he⟩
        · simp [hc] at he
      · simp [hpk] at he
    · simp [hp] at he
  · rintro ⟨f, hf, hp, hpk, hc, rfl⟩
    exact ⟨f, hf, by simp [hp, hpk, hc, dot_key_ne_empty]⟩

/-- Where an edge of the edge passes comes from. -/
theorem mem_passEdges (a : GoAnalyzer) (e : Edge) :
    e ∈ passEdges a ↔
      (∃ p ∈ a.packages, e ∈ importEdgesOf a.modulePath p.1 p.2) ∨
      (∃ t ∈ a.types,
        e = { From := t.2.Package, To := t.1, Method := "", Type_ := "contains" }) ∨
      (∃ f ∈ a.functions,
        e = { From := f.2.Package, To := f.1, Method := "", Type_ := "contains" }) ∨
      (∃ m ∈ a.methods, e ∈ methodContainsEdge a.types m.1 m.2) ∨
      (∃ f ∈ a.functions, e ∈ callEdgesOf a f.1 f.2.Package f.2.Calls) ∨
      (∃ m ∈ a.methods, e ∈ callEdgesOf a m.1 m.2.Package m.2.Calls) ∨
      (∃ t ∈ a.types, e ∈ embedEdgesOf a.types t.1 t.2) ∨
      (∃ t ∈ a.types, e ∈ useEdgesOf a.types t.1 t.2) := by
  simp only [passEdges, List.mem_append, List.mem_flatMap, List.mem_map]
  constructor
  · rintro (h | (h | h | h) | (h | h) | ⟨t, ht, h | h⟩)
    · exact Or.inl h
    · obtain ⟨t, ht, rfl⟩ := h
      exact Or.inr (Or.inl ⟨t, ht, rfl⟩)
    · obtain ⟨f, hf, rfl⟩ := h
      exact Or.inr (Or.inr (Or.inl ⟨f, hf, rfl⟩))
    · exact Or.inr (Or.inr (Or.inr (Or.inl h)))
    · exact Or.inr (Or.inr (Or.inr (Or.inr (Or.inl h))))
    · exact Or.inr (Or.inr (Or.inr (Or.inr (Or.inr (Or.inl h)))))
    · exact Or.inr (Or.inr (Or.inr (Or.inr (Or.inr (Or.inr (Or.inl ⟨t, ht, h⟩))))))
    · exact Or.inr (Or.inr (Or.inr (Or.inr (Or.inr (Or.inr (Or.inr ⟨t, ht, h⟩))))))
  · rintro (h | h | h | h | h | h | h | h)
    · exact Or.inl h
    · obtain ⟨t, ht, rfl⟩ := h
      exact Or.inr (Or.inl (Or.inl ⟨t, ht, rfl⟩))
    · obtain ⟨f, hf, rfl⟩ := h
      exact Or.inr (Or.inl (Or.inr (Or.inl ⟨f, hf, rfl⟩)))
    · exact Or.inr (Or.inl (Or.inr (Or.inr h)))
    · exact Or.inr (Or.inr (Or.inl (Or.inl h)))
    · exact Or.inr (Or.inr (Or.inl (Or.inr h)))
    · obtain ⟨t, ht, h⟩ := h
      exact Or.inr (Or.inr (Or.inr ⟨t, ht, Or.inl h⟩))
    · obtain ⟨t, ht, h⟩ := h
      exact Or.inr (Or.inr (Or.inr ⟨t, ht, Or.inr h⟩))

/-- The calls edges of the graph come from the calls pass. -/
theorem mem_passEdges_calls (a : GoAnalyzer) (e : Edge) (he : e ∈ passEdges a)
    (ht : e.Type_ = "calls") :
    (∃ f ∈ a.functions, e ∈ callEdgesOf a f.1 f.2.Package f.2.Calls) ∨
    (∃ m ∈ a.methods, e ∈ callEdgesOf a m.1 m.2.Package m.2.Calls) := by
  rcases (mem_passEdges a e).1 he with h | h | h | h | h | h | h | h
  · obtain ⟨p, _, h⟩ := h
    obtain ⟨_, _, _, rfl⟩ := (mem_importEdgesOf _ _ _ _).1 h
    simp at ht
  · obtain ⟨_, _, rfl⟩ := h
    simp at ht
  · obtain ⟨_, _, rfl⟩ := h
    simp at ht
  · obtain ⟨m, _, h⟩ := h
    obtain ⟨_, rfl⟩ := (mem_methodContainsEdge _ _ _ _).1 h
    simp at ht
  · exact Or.inl h
  · exact Or.inr h
  · obtain ⟨t, _, h⟩ := h
    obtain ⟨_, _, _, _, rfl⟩ := (mem_embedEdgesOf _ _ _ _).1 h
    simp at ht
  · obtain ⟨t, _, h⟩ := h
    obtain ⟨_, _, _, _, _, rfl⟩ := (mem_useEdgesOf _ _ _ _).1 h
    simp at ht

theorem Analyze_fresh_symbolsOk (fs : FileSystem) (g : Graph)
    (h : (Analyze NewGoAnalyzer fs).2 = .ok g)
    (hwf : ∀ absDir, fs.abs = .ok absDir → ∀ p ∈ analysedFiles absDir fs.root, p.2.wf = true) :
    SymbolsOk (Analyze NewGoAnalyzer fs).1 := by
  obtain ⟨absDir, habs, _, hp, ht, hf, hm, _, _⟩ := Analyze_fresh_tables fs g h
  have hs := symbolsOk_parseFiles _ (analysedFiles absDir fs.root) (hwf absDir habs)
    (symbolsOk_start absDir (detectModulePath fs.goMod))
  unfold SymbolsOk at hs ⊢
  rw [ht, hf, hm]
  exact hs


/-! ## Call edges -/

/-- A call-site that is resolved in package `pkg` names a function of `pkg`. -/
theorem resolved_callee (a : GoAnalyzer) (hs : SymbolsOk a) (pkg : String) (c : CallInfo)
    (hc : dotFree c.Target = true)
    (hcon : a.functions.contains (pkg ++ "." ++ c.Target) = true) :
    ∃ callee, (pkg ++ "." ++ c.Target, callee) ∈ a.functions ∧ callee.Package = pkg ∧
      callee.Name = c.Target := by
  unfold GoMap.contains at hcon
  cases hget : a.functions.get? (pkg ++ "." ++ c.Target) with
  | none => simp [hget] at hcon
  | some callee =>
    have hmem := GoMap.mem_of_get?_eq_some _ _ _ hget
    obtain ⟨hkey, hname, _⟩ := hs.2.1 _ hmem
    obtain ⟨h1, h2⟩ := dot_key_inj hc hname hkey
    exact ⟨callee, hmem, h1.symm, h2.symm⟩

/-- C2, the claim as stated fails: in the tree `clashFs` the function `N` of
package `a.T` calls the function `M` of its package, and the `to` of that calls
edge, `m/a.T.M`, is also the id of a Method node (the method `M` of type `T`
of package `a`). -/
theorem calls_edge_to_method_id :
    ∃ g, (Analyze NewGoAnalyzer clashFs).2 = .ok g ∧
      ∃ e ∈ g.Edges, e.Type_ = "calls" ∧
        ∃ n ∈ g.Nodes, n.ID = e.To ∧ n.Entity = "method" :=
  ⟨_, rfl, { From := "m/a.T.N", To := "m/a.T.M", Method := "M", Type_ := "calls" },
    by decide, rfl, { ID := "m/a.T.M", Title := "M", Entity := "method" }, by decide, rfl, rfl⟩

/-- C2, amended: for every edge of type calls in the graph of a fresh
analyzer, its `to` is a key of the function table and the id of a Function
node titled with the call target, and the package of that function equals the
package of the function or method entry stored under its `from`: no calls edge
crosses a package boundary.  The `to` is never taken from the method table; it
is the id of a Method node only when that string is also a function key. -/
theorem calls_edges_same_package (fs : FileSystem) (g : Graph)
    (h : (Analyze NewGoAnalyzer fs).2 = .ok g)
    (hwf : ∀ absDir, fs.abs = .ok absDir → ∀ p ∈ analysedFiles absDir fs.root, p.2.wf = true)
    (e : Edge) (he : e ∈ g.Edges) (ht : e.Type_ = "calls") :
    ∃ callee, (e.To, callee) ∈ (Analyze NewGoAnalyzer fs).1.functions ∧
      functionNode (e.To, callee) ∈ g.Nodes ∧ callee.Name = e.Method ∧
      ((∃ f, (e.From, f) ∈ (Analyze NewGoAnalyzer fs).1.functions ∧
          callee.Package = f.Package) ∨
       (∃ m, (e.From, m) ∈ (Analyze NewGoAnalyzer fs).1.methods ∧
          callee.Package = m.Package)) ∧
      ((Analyze NewGoAnalyzer fs).1.functions.keys.Disjoint
          (Analyze NewGoAnalyzer fs).1.methods.keys →
        ∀ n ∈ g.Nodes, n.ID = e.To → n.Entity ≠ "method") := by
  obtain ⟨hn, hedges, _⟩ := Analyze_fresh_graph fs g h
  have hs := Analyze_fresh_symbolsOk fs g h hwf
  generalize (Analyze NewGoAnalyzer fs).1 = a at hn hedges hs ⊢
  rw [hedges] at he
  have key : ∀ (id pkg : String) (calls : List CallInfo),
      (∀ c ∈ calls, c.IsMethod = false → dotFree c.Target = true) →
      e ∈ callEdgesOf a id pkg calls →
      ∃ callee, (e.To, callee) ∈ a.functions ∧ callee.Name = e.Method ∧ e.From = id ∧
        callee.Package = pkg := by
    intro id pkg calls hcalls hmem
    obtain ⟨c, hc, hm, hcon, rfl⟩ := (mem_callEdgesOf _ _ _ _ _).1 hmem
    obtain ⟨callee, h1, h2, h3⟩ := resolved_callee a hs pkg c (hcalls c hc hm) hcon
    exact ⟨callee, h1, h3, rfl, h2⟩
  have fin : ∀ callee, (e.To, callee) ∈ a.functions →
      functionNode (e.To, callee) ∈ g.Nodes ∧
      (a.functions.keys.Disjoint a.methods.keys →
        ∀ n ∈ g.Nodes, n.ID = e.To → n.Entity ≠ "method") := by
    intro callee hcallee
    refine ⟨?_, ?_⟩
    · rw [hn]
      simp only [List.mem_append, List.mem_map]
      exact Or.inr (Or.inr (Or.inl ⟨_, hcallee, rfl⟩))
    · intro hdisj n hnmem hid hent
      rw [hn] at hnmem
      simp only [List.mem_append, List.mem_map] at hnmem
      rcases hnmem with ⟨x, _, rfl⟩ | ⟨x, _, rfl⟩ | ⟨x, _, rfl⟩ | ⟨x, hx, rfl⟩
      · simp [packageNode] at hent
      · rcases typeNode_entity x with h' | h' <;> rw [h'] at hent <;> simp at hent
      · simp [functionNode] at hent
      · refine hdisj (a := e.To) ?_ ?_
        · exact List.mem_map.2 ⟨_, hcallee, rfl⟩
        · exact List.mem_map.2 ⟨x, hx, hid⟩
  rcases mem_passEdges_calls a e he ht with ⟨f, hf, hmem⟩ | ⟨m, hm, hmem⟩
  · obtain ⟨callee, h1, h2, h3, h4⟩ := key f.1 f.2.Package f.2.Calls (hs.2.1 f hf).2.2 hmem
    exact ⟨callee, h1, (fin callee h1).1, h2, Or.inl ⟨f.2, by rw [h3]; exact hf, h4⟩,
      (fin callee h1).2⟩
  · obtain ⟨callee, h1, h2, h3, h4⟩ := key m.1 m.2.Package m.2.Calls (hs.2.2 m hm).2 hmem
    exact ⟨callee, h1, (fin callee h1).1, h2, Or.inr ⟨m.2, by rw [h3]; exact hm, h4⟩,
      (fin callee h1).2⟩

/-- C2, amended, at the tree `clashFs`: the only calls edge, from `m/a.T.N`,
ends at a function of the package of its caller. -/
theorem calls_edges_same_package_witness :
    ∃ callee, ("m/a.T.M", callee) ∈ (Analyze NewGoAnalyzer clashFs).1.functions ∧
      callee.Name = "M" :=
  let ⟨callee, h1, _, h3, _⟩ := calls_edges_same_package clashFs
    { Nodes := (Analyze NewGoAnalyzer clashFs).1.nodes,
      Edges := (Analyze NewGoAnalyzer clashFs).1.edges } rfl
    (by
      intro absDir habs p hp
      have : absDir = "/r" := by
        have h' : (Except.ok "/r" : Except String String) = .ok absDir := habs
        injection h' with h'
        exact h'.symm
      subst this
      have hfiles : analysedFiles "/r" clashFs.root =
          [("/r/a/t.go", clashFileA), ("/r/a.T/f.go", clashFileB)] := by rfl
      rw [hfiles] at hp
      simp only [List.mem_cons, List.mem_singleton, List.not_mem_nil, or_false] at hp
      rcases hp with rfl | rfl <;> rfl)
    { From := "m/a.T.N", To := "m/a.T.M", Method := "M", Type_ := "calls" }
    (by decide) rfl
  ⟨callee, h1, h3⟩


/-! ## Contains edges of methods -/

theorem methodContainsEdge_to (types : GoMap TypeInfo) (k : String) (v : MethodInfo) :
    ∀ e ∈ methodContainsEdge types k v, e.To = k := by
  intro e he
  obtain ⟨_, rfl⟩ := (mem_methodContainsEdge _ _ _ _).1 he
  rfl

theorem countP_methodContains (types : GoMap TypeInfo) (p : Edge → Bool) (id : String)
    (m : MethodInfo) (hc : types.contains (m.Package ++ "." ++ m.Receiver) = true)
    (hself : p { From := m.Package ++ "." ++ m.Receiver, To := id, Method := "",
                 Type_ := "contains" } = true)
    (hother : ∀ e, p e = true → e.To = id) :
    ∀ l : GoMap MethodInfo, l.keys.Nodup → (id, m) ∈ l →
      (l.flatMap (fun e => methodContainsEdge types e.1 e.2)).countP p = 1
  | (k, v) :: l, hnd, hm => by
    simp only [GoMap.keys, List.map_cons, List.nodup_cons] at hnd
    simp only [List.flatMap_cons, List.countP_append]
    rcases List.mem_cons.1 hm with h | h
    · cases h
      have h0 : (l.flatMap (fun e => methodContainsEdge types e.1 e.2)).countP p = 0 := by
        rw [List.countP_eq_zero]
        intro e he hpe
        obtain ⟨x, hx, hex⟩ := List.mem_flatMap.1 he
        have := methodContainsEdge_to types x.1 x.2 e hex
        rw [hother e hpe] at this
        exact hnd.1 (this ▸ List.mem_map_of_mem Prod.fst hx)
      rw [h0]
      simp [methodContainsEdge, hc, hself]
    · have hk : k ≠ id := by
        rintro rfl
        exact hnd.1 (List.mem_map_of_mem Prod.fst h)
      have h0 : (methodContainsEdge types k v).countP p = 0 := by
        rw [List.countP_eq_zero]
        intro e he hpe
        exact hk ((methodContainsEdge_to types k v e he).symm.trans (hother e hpe))
      rw [h0, countP_methodContains types p id m hc hself hother l hnd.2 h]

/-- C3, the claim as stated fails: in the tree `clashFs` the method `T.M` of
package `a` has its receiver type `m/a.T` declared, yet the edge list holds two
contains edges from `m/a.T` to the id `m/a.T.M` of the method: the second one
is the edge from the package `a.T` to its function `M`. -/
theorem method_contains_edge_twice :
    ∃ g, (Analyze NewGoAnalyzer clashFs).2 = .ok g ∧
      ∃ id m, (id, m) ∈ (Analyze NewGoAnalyzer clashFs).1.methods ∧
        (Analyze NewGoAnalyzer clashFs).1.types.contains (m.Package ++ "." ++ m.Receiver) = true ∧
        g.Edges.countP (fun e => e.Type_ = "contains" ∧
          e.From = m.Package ++ "." ++ m.Receiver ∧ e.To = id) = 2 :=
  ⟨_, rfl, "m/a.T.M",
    { Name := "M", Receiver := "T", Package := "m/a", File := "/r/a/t.go", Line := 5,
      Calls := [] },
    by decide, by decide, by decide⟩

/-- C3, amended: for every method `m` of the method table whose id is not
also a key of the type table or of the function table, the Method node of `m`
is emitted; if a TypeDeclaration with identity `m.Package.m.Receiver` exists,
the edge list has exactly one contains edge from that type's id to the id of
`m`, and every contains edge to the id of `m` starts at that type's id; if no
such TypeDeclaration exists, no contains edge has the id of `m` as its `to`. -/
theorem method_contains_edge (fs : FileSystem) (g : Graph)
    (h : (Analyze NewGoAnalyzer fs).2 = .ok g) (id : String) (m : MethodInfo)
    (hm : (id, m) ∈ (Analyze NewGoAnalyzer fs).1.methods)
    (hnt : id ∉ (Analyze NewGoAnalyzer fs).1.types.keys)
    (hnf : id ∉ (Analyze NewGoAnalyzer fs).1.functions.keys) :
    methodNode (id, m) ∈ g.Nodes ∧
    ((Analyze NewGoAnalyzer fs).1.types.contains (m.Package ++ "." ++ m.Receiver) = true →
      g.Edges.countP (fun e => e.Type_ = "contains" ∧
        e.From = m.Package ++ "." ++ m.Receiver ∧ e.To = id) = 1 ∧
      ∀ e ∈ g.Edges, e.Type_ = "contains" → e.To = id →
        e.From = m.Package ++ "." ++ m.Receiver) ∧
    ((Analyze NewGoAnalyzer fs).1.types.contains (m.Package ++ "." ++ m.Receiver) = false →
      ∀ e ∈ g.Edges, e.Type_ = "contains" → e.To ≠ id) := by
  obtain ⟨hn, hedges, hk⟩ := Analyze_fresh_graph fs g h
  generalize (Analyze NewGoAnalyzer fs).1 = a at hn hedges hk hm hnt hnf ⊢
  have hsrc : ∀ e ∈ g.Edges, e.Type_ = "contains" → e.To = id →
      a.types.contains (m.Package ++ "." ++ m.Receiver) = true ∧
        e.From = m.Package ++ "." ++ m.Receiver := by
    intro e he ht hto
    rw [hedges] at he
    rcases (mem_passEdges a e).1 he with h | h | h | h | h | h | h | h
    · obtain ⟨p, _, h⟩ := h
      obtain ⟨_, _, _, rfl⟩ := (mem_importEdgesOf _ _ _ _).1 h
      simp at ht
    · obtain ⟨t, htm, rfl⟩ := h
      exact absurd (List.mem_map.2 ⟨t, htm, hto⟩) hnt
    · obtain ⟨f, hfm, rfl⟩ := h
      exact absurd (List.mem_map.2 ⟨f, hfm, hto⟩) hnf
    · obtain ⟨m', hm', h⟩ := h
      obtain ⟨hc, rfl⟩ := (mem_methodContainsEdge _ _ _ _).1 h
      simp only at hto
      have h1 := GoMap.get?_eq_some_of_mem _ hk.2.2.2 m'.1 m'.2 hm'
      have h2 := GoMap.get?_eq_some_of_mem _ hk.2.2.2 id m hm
      rw [hto, h2] at h1
      injection h1 with h1
      subst h1
      exact ⟨hc, rfl⟩
    · obtain ⟨f, _, h⟩ := h
      obtain ⟨_, _, _, _, rfl⟩ := (mem_callEdgesOf _ _ _ _ _).1 h
      simp [callEdge] at ht
    · obtain ⟨f, _, h⟩ := h
      obtain ⟨_, _, _, _, rfl⟩ := (mem_callEdgesOf _ _ _ _ _).1 h
      simp [callEdge] at ht
    · obtain ⟨t, _, h⟩ := h
      obtain ⟨_, _, _, _, rfl⟩ := (mem_embedEdgesOf _ _ _ _).1 h
      simp at ht
    · obtain ⟨t, _, h⟩ := h
      obtain ⟨_, _, _, _, _, rfl⟩ := (mem_useEdgesOf _ _ _ _).1 h
      simp at ht
  refine ⟨?_, ?_, ?_⟩
  · rw [hn]
    simp only [List.mem_append, List.mem_map]
    exact Or.inr (Or.inr (Or.inr ⟨_, hm, rfl⟩))
  · intro hc
    refine ⟨?_, fun e he ht hto => (hsrc e he ht hto).2⟩
    rw [hedges]
    unfold passEdges
    simp only [List.countP_append]
    have z1 : (a.packages.flatMap (fun e => importEdgesOf a.modulePath e.1 e.2)).countP
        (fun e => e.Type_ = "contains" ∧ e.From = m.Package ++ "." ++ m.Receiver ∧
          e.To = id) = 0 := by
      rw [List.countP_eq_zero]
      intro e he
      obtain ⟨p, _, h⟩ := List.mem_flatMap.1 he
      obtain ⟨_, _, _, rfl⟩ := (mem_importEdgesOf _ _ _ _).1 h
      simp
    have z2 : (a.types.map (fun e =>
        ({ From := e.2.Package, To := e.1, Method := "", Type_ := "contains" } : Edge))).countP
        (fun e => e.Type_ = "contains" ∧ e.From = m.Package ++ "." ++ m.Receiver ∧
          e.To = id) = 0 := by
      rw [List.countP_eq_zero]
      intro e he
      obtain ⟨t, htm, rfl⟩ := List.mem_map.1 he
      have : t.1 ≠ id := fun hto => hnt (List.mem_map.2 ⟨t, htm, hto⟩)
      simp [this]
    have z3 : (a.functions.map (fun e =>
        ({ From := e.2.Package, To := e.1, Method := "", Type_ := "contains" } : Edge))).countP
        (fun e => e.Type_ = "contains" ∧ e.From = m.Package ++ "." ++ m.Receiver ∧
          e.To = id) = 0 := by
      rw [List.countP_eq_zero]
      intro e he
      obtain ⟨f, hfm, rfl⟩ := List.mem_map.1 he
      have : f.1 ≠ id := fun hto => hnf (List.mem_map.2 ⟨f, hfm, hto⟩)
      simp [this]
    have z4 : (a.functions.flatMap
        (fun e => callEdgesOf a e.1 e.2.Package e.2.Calls)).countP
        (fun e => e.Type_ = "contains" ∧ e.From = m.Package ++ "." ++ m.Receiver ∧
          e.To = id) = 0 := by
      rw [List.countP_eq_zero]
      intro e he
      obtain ⟨f, _, h⟩ := List.mem_flatMap.1 he
      obtain ⟨_, _, _, _, rfl⟩ := (mem_callEdgesOf _ _ _ _ _).1 h
      simp [callEdge]
    have z5 : (a.methods.flatMap
        (fun e => callEdgesOf a e.1 e.2.Package e.2.Calls)).countP
        (fun e => e.Type_ = "contains" ∧ e.From = m.Package ++ "." ++ m.Receiver ∧
          e.To = id) = 0 := by
      rw [List.countP_eq_zero]
      intro e he
      obtain ⟨f, _, h⟩ := List.mem_flatMap.1 he
      obtain ⟨_, _, _, _, rfl⟩ := (mem_callEdgesOf _ _ _ _ _).1 h
      simp [callEdge]
    have z6 : (a.types.flatMap
        (fun e => embedEdgesOf a.types e.1 e.2 ++ useEdgesOf a.types e.1 e.2)).countP
        (fun e => e.Type_ = "contains" ∧ e.From = m.Package ++ "." ++ m.Receiver ∧
          e.To = id) = 0 := by
      rw [List.countP_eq_zero]
      intro e he
      obtain ⟨t, _, h⟩ := List.mem_flatMap.1 he
      rcases List.mem_append.1 h with h | h
      · obtain ⟨_, _, _, _, rfl⟩ := (mem_embedEdgesOf _ _ _ _).1 h
        simp
      · obtain ⟨_, _, _, _, _, rfl⟩ := (mem_useEdgesOf _ _ _ _).1 h
        simp
    rw [z1, z2, z3, z4, z5, z6,
      countP_methodContains a.types _ id m hc (by simp) (by intro e he; exact (of_decide_eq_true he).2.2)
        a.methods hk.2.2.2 hm]
  · intro hc e he ht hto
    have := (hsrc e he ht hto).1
    rw [hc] at this
    exact Bool.false_ne_true this

/-- C3, amended, at the module `shapesFs`: the method `Describe` of the
declared type `Shape` has its node and exactly one contains edge from the type. -/
theorem method_contains_edge_witness :
    methodNode ("example.com/m/shapes.Shape.Describe",
      { Name := "Describe", Receiver := "Shape", Package := "example.com/m/shapes",
        File := "/r/shapes/shapes.go", Line := 27,
        Calls := [{ Target := "Println", IsMethod := true, Receiver := "fmt", Line := 28 }] }) ∈
      (Analyze NewGoAnalyzer shapesFs).1.nodes ∧
    (Analyze NewGoAnalyzer shapesFs).1.edges.countP (fun e => e.Type_ = "contains" ∧
      e.From = "example.com/m/shapes.Shape" ∧
      e.To = "example.com/m/shapes.Shape.Describe") = 1 :=
  have h := method_contains_edge shapesFs
    { Nodes := (Analyze NewGoAnalyzer shapesFs).1.nodes,
      Edges := (Analyze NewGoAnalyzer shapesFs).1.edges } rfl
    "example.com/m/shapes.Shape.Describe"
    { Name := "Describe", Receiver := "Shape", Package := "example.com/m/shapes",
      File := "/r/shapes/shapes.go", Line := 27,
      Calls := [{ Target := "Println", IsMethod := true, Receiver := "fmt", Line := 28 }] }
    (by decide) (by decide) (by decide)
  ⟨h.1, (h.2.1 (by decide)).1⟩


/-! ## Type-dependency edges -/

/-- A type name that is resolved in package `pkg` names a type of `pkg`. -/
theorem resolved_type (a : GoAnalyzer) (hs : SymbolsOk a) (pkg n : String)
    (hn : dotFree n = true) (hcon : a.types.contains (pkg ++ "." ++ n) = true) :
    ∃ target, (pkg ++ "." ++ n, target) ∈ a.types ∧ target.Package = pkg ∧
      target.Name = n := by
  unfold GoMap.contains at hcon
  cases hget : a.types.get? (pkg ++ "." ++ n) with
  | none => simp [hget] at hcon
  | some target =>
    have hmem := GoMap.mem_of_get?_eq_some _ _ _ hget
    obtain ⟨hkey, hname, _⟩ := hs.1 _ hmem
    obtain ⟨h1, h2⟩ := dot_key_inj hn hname hkey
    exact ⟨target, hmem, h1.symm, h2.symm⟩

/-- The analysed files of the module `shapesFs` are well formed. -/
theorem shapesFs_wf : ∀ absDir, shapesFs.abs = .ok absDir →
    ∀ p ∈ analysedFiles absDir shapesFs.root, p.2.wf = true := by
  intro absDir habs p hp
  have : absDir = "/r" := by
    have h' : (Except.ok "/r" : Except String String) = .ok absDir := habs
    injection h' with h'
    exact h'.symm
  subst this
  have hfiles : analysedFiles "/r" shapesFs.root = [("/r/shapes/shapes.go", shapesFile)] := by
    rfl
  rw [hfiles] at hp
  simp only [List.mem_singleton] at hp
  subst hp
  rfl

/-- C4: no edge of type embeds or uses in the graph of a fresh analyzer has a
target whose short name is a primitive type name: the `to` of such an edge is
the key `Package.Name` of a type of the owner's package, its short name
(the part of `to` after the package and the dot) is the name of that type,
and that name is not in the primitive set. -/
theorem type_dependency_target_not_primitive (fs : FileSystem) (g : Graph)
    (h : (Analyze NewGoAnalyzer fs).2 = .ok g)
    (hwf : ∀ absDir, fs.abs = .ok absDir → ∀ p ∈ analysedFiles absDir fs.root, p.2.wf = true)
    (e : Edge) (he : e ∈ g.Edges) (ht : e.Type_ = "embeds" ∨ e.Type_ = "uses") :
    ∃ owner target, (e.From, owner) ∈ (Analyze NewGoAnalyzer fs).1.types ∧
      (e.To, target) ∈ (Analyze NewGoAnalyzer fs).1.types ∧
      target.Package = owner.Package ∧
      e.To = target.Package ++ "." ++ target.Name ∧
      (∀ short, e.To = target.Package ++ "." ++ short → primitives short = false) := by
  obtain ⟨_, hedges, _⟩ := Analyze_fresh_graph fs g h
  have hs := Analyze_fresh_symbolsOk fs g h hwf
  generalize (Analyze NewGoAnalyzer fs).1 = a at hedges hs ⊢
  rw [hedges] at he
  have key : ∀ (t : String × TypeInfo) (n : String), t ∈ a.types → dotFree n = true →
      primitives n = false → a.types.contains (t.2.Package ++ "." ++ n) = true →
      e.From = t.1 → e.To = t.2.Package ++ "." ++ n →
      ∃ owner target, (e.From, owner) ∈ a.types ∧ (e.To, target) ∈ a.types ∧
        target.Package = owner.Package ∧ e.To = target.Package ++ "." ++ target.Name ∧
        (∀ short, e.To = target.Package ++ "." ++ short → primitives short = false) := by
    intro t n htm hn hp hcon hfrom hto
    obtain ⟨target, h1, h2, h3⟩ := resolved_type a hs t.2.Package n hn hcon
    refine ⟨t.2, target, by rw [hfrom]; exact htm, by rw [hto]; exact h1, h2, ?_, ?_⟩
    · rw [hto, h2, h3]
    · intro short hshort
      rw [hto, h2] at hshort
      rw [← dot_key_left_cancel hshort]
      exact hp
  rcases (mem_passEdges a e).1 he with h | h | h | h | h | h | h | h
  · obtain ⟨p, _, h⟩ := h
    obtain ⟨_, _, _, rfl⟩ := (mem_importEdgesOf _ _ _ _).1 h
    simp at ht
  · obtain ⟨_, _, rfl⟩ := h
    simp at ht
  · obtain ⟨_, _, rfl⟩ := h
    simp at ht
  · obtain ⟨m, _, h⟩ := h
    obtain ⟨_, rfl⟩ := (mem_methodContainsEdge _ _ _ _).1 h
    simp at ht
  · obtain ⟨f, _, h⟩ := h
    obtain ⟨_, _, _, _, rfl⟩ := (mem_callEdgesOf _ _ _ _ _).1 h
    simp [callEdge] at ht
  · obtain ⟨f, _, h⟩ := h
    obtain ⟨_, _, _, _, rfl⟩ := (mem_callEdgesOf _ _ _ _ _).1 h
    simp [callEdge] at ht
  · obtain ⟨t, htm, h⟩ := h
    obtain ⟨n, hn, hp, hcon, rfl⟩ := (mem_embedEdgesOf _ _ _ _).1 h
    exact key t n htm ((hs.1 t htm).2.2.1 n hn) hp hcon rfl rfl
  · obtain ⟨t, htm, h⟩ := h
    obtain ⟨f, hf, hp, _, hcon, rfl⟩ := (mem_useEdgesOf _ _ _ _).1 h
    exact key t f.TypeName htm ((hs.1 t htm).2.2.2 f hf) hp hcon rfl rfl

/-- C4 at the module `shapesFs`: the embeds edge from `Shape` to `Base` ends
at a declared type with a name that is not primitive. -/
theorem type_dependency_target_not_primitive_witness :
    ∃ target, ("example.com/m/shapes.Base", target) ∈ (Analyze NewGoAnalyzer shapesFs).1.types ∧
      primitives target.Name = false :=
  let ⟨_, target, _, h2, _, h4, h5⟩ := type_dependency_target_not_primitive shapesFs
    { Nodes := (Analyze NewGoAnalyzer shapesFs).1.nodes,
      Edges := (Analyze NewGoAnalyzer shapesFs).1.edges } rfl shapesFs_wf
    { From := "example.com/m/shapes.Shape", To := "example.com/m/shapes.Base", Method := "",
      Type_ := "embeds" }
    (by decide) (Or.inl rfl)
  ⟨target, h2, h5 target.Name h4⟩


/-! ## Node emission -/

theorem foldl_establish_of {α β : Type} (Q P : β → Prop) (f : β → α → β) (x : α)
    (hQ : ∀ b y, Q b → Q (f b y)) (hest : ∀ b, Q b → P (f b x))
    (hpres : ∀ b y, P b → P (f b y)) :
    ∀ (l : List α) (b : β), Q b → x ∈ l → P (l.foldl f b)
  | y :: l, b, hb, h => by
    rcases List.mem_cons.1 h with h | h
    · subst h
      exact foldl_inv P f l _ (fun b y _ hb => hpres b y hb) (hest b hb)
    · exact foldl_establish_of Q P f x hQ hest hpres l (f b y) (hQ b y hb) h

theorem functionKey_parseDecl (k : String) (d : Decl) (pk fn : String) (a : GoAnalyzer)
    (h : k ∈ a.functions.keys) : k ∈ (parseDecl a d pk fn).functions.keys := by
  refine parseDecl_induct (fun b => k ∈ b.functions.keys) d pk fn ?_ ?_ ?_ a h
  · intro b _ _ _ _ hb; exact hb
  · intro b fd _ _ hb
    exact (GoMap.mem_keys_insert _ _ _ _).2 (Or.inr hb)
  · intro b fd r rs _ _ hb; exact hb

theorem typeKey_parseDecl (k : String) (d : Decl) (pk fn : String) (a : GoAnalyzer)
    (h : k ∈ a.types.keys) : k ∈ (parseDecl a d pk fn).types.keys := by
  refine parseDecl_induct (fun b => k ∈ b.types.keys) d pk fn ?_ ?_ ?_ a h
  · intro b _ _ _ _ hb
    exact (GoMap.mem_keys_insert _ _ _ _).2 (Or.inr hb)
  · intro b fd _ _ hb; exact hb
  · intro b fd r rs _ _ hb; exact hb

theorem functionKey_parseFileNode (k fn : String) (node : File) (a : GoAnalyzer)
    (h : k ∈ a.functions.keys) : k ∈ (parseFileNode a fn node).functions.keys := by
  refine parseFileNode_induct (fun b => k ∈ b.functions.keys) a fn node ?_ ?_ ?_ ?_ ?_ h
  · intro b _ hb; exact hb
  · intro b _ _ _ _ _ hb; exact hb
  · intro b _ _ _ _ hb; exact hb
  · intro b fd _ _ hb
    exact (GoMap.mem_keys_insert _ _ _ _).2 (Or.inr hb)
  · intro b fd r rs _ _ hb; exact hb

theorem typeKey_parseFileNode (k fn : String) (node : File) (a : GoAnalyzer)
    (h : k ∈ a.types.keys) : k ∈ (parseFileNode a fn node).types.keys := by
  refine parseFileNode_induct (fun b => k ∈ b.types.keys) a fn node ?_ ?_ ?_ ?_ ?_ h
  · intro b _ hb; exact hb
  · intro b _ _ _ _ _ hb; exact hb
  · intro b _ _ _ _ hb
    exact (GoMap.mem_keys_insert _ _ _ _).2 (Or.inr hb)
  · intro b fd _ _ hb; exact hb
  · intro b fd r rs _ _ hb; exact hb

/-- A function declared in a file is in the function table once the file has
been entered. -/
theorem functionKey_of_decl (a : GoAnalyzer) (fn : String) (node : File) (fd : FuncDecl)
    (hd : Decl.funcDecl fd ∈ node.Decls) (hr : fd.Recv = []) :
    (filePkgPath a fn ++ "." ++ fd.Name) ∈ (parseFileNode a fn node).functions.keys := by
  unfold parseFileNode
  simp only
  refine foldl_establish (fun b : GoAnalyzer => (filePkgPath a fn ++ "." ++ fd.Name) ∈
    b.functions.keys) _ (Decl.funcDecl fd) ?_ ?_ node.Decls _ hd
  · intro b
    simp only [parseDecl]
    rw [parseFuncDecl_function b fd _ fn hr]
    exact (GoMap.mem_keys_insert _ _ _ _).2 (Or.inl rfl)
  · intro b d hb
    exact functionKey_parseDecl _ d _ fn b hb

/-- A type declared in a file is in the type table once the file has been
entered. -/
theorem typeKey_of_decl (a : GoAnalyzer) (fn : String) (node : File) (gd : GenDecl)
    (ts : TypeSpec) (hd : Decl.genDecl gd ∈ node.Decls) (htok : gd.Tok = Token.TYPE)
    (hts : Spec.typeSpec ts ∈ gd.Specs) :
    (filePkgPath a fn ++ "." ++ ts.Name) ∈ (parseFileNode a fn node).types.keys := by
  unfold parseFileNode
  simp only
  refine foldl_establish (fun b : GoAnalyzer => (filePkgPath a fn ++ "." ++ ts.Name) ∈
    b.types.keys) _ (Decl.genDecl gd) ?_ ?_ node.Decls _ hd
  · intro b
    simp only [parseDecl, parseGenDecl, htok, ne_eq, not_true_eq_false, if_false]
    refine foldl_establish (fun b : GoAnalyzer => (filePkgPath a fn ++ "." ++ ts.Name) ∈
      b.types.keys) _ (Spec.typeSpec ts) ?_ ?_ gd.Specs _ hts
    · intro b
      exact (GoMap.mem_keys_insert _ _ _ _).2 (Or.inl rfl)
    · intro b s hb
      split
      · exact (GoMap.mem_keys_insert _ _ _ _).2 (Or.inr hb)
      · exact hb
  · intro b d hb
    exact typeKey_parseDecl _ d _ fn b hb

theorem filePkgPath_congr (a b : GoAnalyzer) (fn : String) (h1 : a.baseDir = b.baseDir)
    (h2 : a.modulePath = b.modulePath) : filePkgPath a fn = filePkgPath b fn := by
  simp [filePkgPath, h1, h2]

/-- After the files have been entered, every function declared in one of them
is in the function table, under the package identity of its file. -/
theorem functionKey_parseFiles (a : GoAnalyzer) (files : List (String × File))
    (p : String × File) (hp : p ∈ files) (fd : FuncDecl) (hd : Decl.funcDecl fd ∈ p.2.Decls)
    (hr : fd.Recv = []) :
    (filePkgPath a p.1 ++ "." ++ fd.Name) ∈ (parseFiles a files).functions.keys := by
  unfold parseFiles
  refine foldl_establish_of
    (fun b : GoAnalyzer => b.baseDir = a.baseDir ∧ b.modulePath = a.modulePath)
    (fun b : GoAnalyzer => (filePkgPath a p.1 ++ "." ++ fd.Name) ∈ b.functions.keys)
    _ p ?_ ?_ ?_ files a ⟨rfl, rfl⟩ hp
  · intro b y hb
    have h := parseFileNode_scalars b y.1 y.2
    exact ⟨h.2.2.1.trans hb.1, h.2.2.2.trans hb.2⟩
  · intro b hb
    rw [← filePkgPath_congr b a p.1 hb.1 hb.2]
    exact functionKey_of_decl b p.1 p.2 fd hd hr
  · intro b y hb
    exact functionKey_parseFileNode _ y.1 y.2 b hb

/-- After the files have been entered, every type declared in one of them is
in the type table, under the package identity of its file. -/
theorem typeKey_parseFiles (a : GoAnalyzer) (files : List (String × File))
    (p : String × File) (hp : p ∈ files) (gd : GenDecl) (ts : TypeSpec)
    (hd : Decl.genDecl gd ∈ p.2.Decls) (htok : gd.Tok = Token.TYPE)
    (hts : Spec.typeSpec ts ∈ gd.Specs) :
    (filePkgPath a p.1 ++ "." ++ ts.Name) ∈ (parseFiles a files).types.keys := by
  unfold parseFiles
  refine foldl_establish_of
    (fun b : GoAnalyzer => b.baseDir = a.baseDir ∧ b.modulePath = a.modulePath)
    (fun b : GoAnalyzer => (filePkgPath a p.1 ++ "." ++ ts.Name) ∈ b.types.keys)
    _ p ?_ ?_ ?_ files a ⟨rfl, rfl⟩ hp
  · intro b y hb
    have h := parseFileNode_scalars b y.1 y.2
    exact ⟨h.2.2.1.trans hb.1, h.2.2.2.trans hb.2⟩
  · intro b hb
    rw [← filePkgPath_congr b a p.1 hb.1 hb.2]
    exact typeKey_of_decl b p.1 p.2 gd ts hd htok hts
  · intro b y hb
    exact typeKey_parseFileNode _ y.1 y.2 b hb

theorem nodup_of_map_ID (l : List Node) (h : (l.map Node.ID).Nodup) : l.Nodup :=
  List.Nodup.of_map Node.ID h

theorem nodes_nodup (a : GoAnalyzer) (hk : KeysNodup a) :
    (a.packages.map packageNode ++ (a.types.map typeNode ++
      (a.functions.map functionNode ++ a.methods.map methodNode))).Nodup := by
  obtain ⟨hkp, hkt, hkf, hkm⟩ := hk
  have hp : (a.packages.map packageNode).Nodup :=
    nodup_of_map_ID _ (by rw [map_ID_packageNode]; exact hkp)
  have ht : (a.types.map typeNode).Nodup :=
    nodup_of_map_ID _ (by rw [map_ID_typeNode]; exact hkt)
  have hf : (a.functions.map functionNode).Nodup :=
    nodup_of_map_ID _ (by rw [map_ID_functionNode]; exact hkf)
  have hm : (a.methods.map methodNode).Nodup :=
    nodup_of_map_ID _ (by rw [map_ID_methodNode]; exact hkm)
  rw [List.nodup_append, List.nodup_append, List.nodup_append]
  refine ⟨hp, ⟨ht, ⟨hf, hm, ?_⟩, ?_⟩, ?_⟩
  · intro n h1 h2
    obtain ⟨x, _, rfl⟩ := List.mem_map.1 h1
    obtain ⟨y, _, hy⟩ := List.mem_map.1 h2
    have := congrArg Node.Entity hy
    simp [functionNode, methodNode] at this
  · intro n h1 h2
    obtain ⟨x, _, rfl⟩ := List.mem_map.1 h1
    rcases List.mem_append.1 h2 with h2 | h2
    · obtain ⟨y, _, hy⟩ := List.mem_map.1 h2
      have := congrArg Node.Entity hy
      rcases typeNode_entity x with h' | h' <;> rw [h'] at this <;>
        simp [functionNode] at this
    · obtain ⟨y, _, hy⟩ := List.mem_map.1 h2
      have := congrArg Node.Entity hy
      rcases typeNode_entity x with h' | h' <;> rw [h'] at this <;>
        simp [methodNode] at this
  · intro n h1 h2
    obtain ⟨x, _, rfl⟩ := List.mem_map.1 h1
    rcases List.mem_append.1 h2 with h2 | h2
    · obtain ⟨y, _, hy⟩ := List.mem_map.1 h2
      have := congrArg Node.Entity hy
      rcases typeNode_entity y with h' | h' <;> rw [h'] at this <;>
        simp [packageNode] at this
    · rcases List.mem_append.1 h2 with h2 | h2
      · obtain ⟨y, _, hy⟩ := List.mem_map.1 h2
        have := congrArg Node.Entity hy
        simp [functionNode, packageNode] at this
      · obtain ⟨y, _, hy⟩ := List.mem_map.1 h2
        have := congrArg Node.Entity hy
        simp [methodNode, packageNode] at this


/-- C5: on a fresh analyzer the node list holds exactly one node for each
entry of the package, type, function and method tables and no other node;
the node of an entry has the table key as id, the short name of the entry as
title, and the entity package, struct or interface (interface exactly when
the kind of the type is interface), function, or method.  Hence every free
function and every type declared in an analysed file (an entry of the
declaration list that the parser hands over for the file) appears as a node
titled with its name. -/
theorem nodes_one_per_entry (fs : FileSystem) (g : Graph)
    (h : (Analyze NewGoAnalyzer fs).2 = .ok g)
    (hwf : ∀ absDir, fs.abs = .ok absDir → ∀ p ∈ analysedFiles absDir fs.root, p.2.wf = true) :
    g.Nodes.Perm ((Analyze NewGoAnalyzer fs).1.packages.map packageNode ++
      ((Analyze NewGoAnalyzer fs).1.types.map typeNode ++
      ((Analyze NewGoAnalyzer fs).1.functions.map functionNode ++
        (Analyze NewGoAnalyzer fs).1.methods.map methodNode))) ∧
    g.Nodes.Nodup ∧ KeysNodup (Analyze NewGoAnalyzer fs).1 ∧
    (∀ e : String × PackageInfo, packageNode e = ⟨e.1, e.2.Name, "package"⟩) ∧
    (∀ e : String × TypeInfo, (typeNode e).ID = e.1 ∧ (typeNode e).Title = e.2.Name ∧
      ((typeNode e).Entity = "interface" ∨ (typeNode e).Entity = "struct") ∧
      ((typeNode e).Entity = "interface" ↔ e.2.Kind = "interface")) ∧
    (∀ e : String × FunctionInfo, functionNode e = ⟨e.1, e.2.Name, "function"⟩) ∧
    (∀ e : String × MethodInfo, methodNode e = ⟨e.1, e.2.Name, "method"⟩) ∧
    (∀ absDir, fs.abs = .ok absDir → ∀ p ∈ analysedFiles absDir fs.root,
      (∀ fd, Decl.funcDecl fd ∈ p.2.Decls → fd.Recv = [] →
        ∃ n ∈ g.Nodes, n.Title = fd.Name ∧ n.Entity = "function" ∧
          n.ID = filePkgPath (Analyze NewGoAnalyzer fs).1 p.1 ++ "." ++ fd.Name) ∧
      (∀ gd ts, Decl.genDecl gd ∈ p.2.Decls → gd.Tok = Token.TYPE →
        Spec.typeSpec ts ∈ gd.Specs →
        ∃ n ∈ g.Nodes, n.Title = ts.Name ∧ (n.Entity = "struct" ∨ n.Entity = "interface") ∧
          n.ID = filePkgPath (Analyze NewGoAnalyzer fs).1 p.1 ++ "." ++ ts.Name)) := by
  obtain ⟨hn, _, hk⟩ := Analyze_fresh_graph fs g h
  obtain ⟨absDir₀, habs₀, _, _, htt, hft, _, hmod, hbase⟩ := Analyze_fresh_tables fs g h
  have hs := Analyze_fresh_symbolsOk fs g h hwf
  generalize (Analyze NewGoAnalyzer fs).1 = a at hn hk htt hft hmod hbase hs ⊢
  refine ⟨by rw [hn], by rw [hn]; exact nodes_nodup a hk, hk, fun _ => rfl, ?_, fun _ => rfl,
    fun _ => rfl, ?_⟩
  · intro e
    refine ⟨rfl, rfl, ?_, ?_⟩
    · rcases typeNode_entity e with h' | h'
      · exact Or.inr h'
      · exact Or.inl h'
    · unfold typeNode
      simp only
      split
      · rename_i hkind; simp [hkind]
      · rename_i hkind; simp [hkind]
  · intro absDir habs p hp
    have habsEq : absDir = absDir₀ := by
      rw [habs₀] at habs
      injection habs with habs
      exact habs.symm
    subst habsEq
    have hpk : filePkgPath (startAnalyzer absDir (detectModulePath fs.goMod)) p.1 =
        filePkgPath a p.1 :=
      filePkgPath_congr _ _ _ (by rw [hbase]; rfl) (by rw [hmod]; rfl)
    have hwfp := hwf absDir habs p hp
    simp only [File.wf, List.all_eq_true] at hwfp
    refine ⟨?_, ?_⟩
    · intro fd hd hr
      have hkey := functionKey_parseFiles (startAnalyzer absDir (detectModulePath fs.goMod))
        (analysedFiles absDir fs.root) p hp fd hd hr
      rw [← hft, hpk] at hkey
      obtain ⟨e, he, hek⟩ := List.mem_map.1 hkey
      obtain ⟨hkeyEq, hname, _⟩ := hs.2.1 e he
      have hfd := hwfp _ hd
      simp only [Decl.wf, Bool.and_eq_true] at hfd
      have := dot_key_inj hname hfd.1 (hkeyEq.symm.trans hek)
      refine ⟨functionNode e, ?_, this.2, rfl, hek⟩
      rw [hn]
      simp only [List.mem_append, List.mem_map]
      exact Or.inr (Or.inr (Or.inl ⟨e, he, rfl⟩))
    · intro gd ts hd htok hts
      have hkey := typeKey_parseFiles (startAnalyzer absDir (detectModulePath fs.goMod))
        (analysedFiles absDir fs.root) p hp gd ts hd htok hts
      rw [← htt, hpk] at hkey
      obtain ⟨e, he, hek⟩ := List.mem_map.1 hkey
      obtain ⟨hkeyEq, hname, _⟩ := hs.1 e he
      have hgd := hwfp _ hd
      simp only [Decl.wf, List.all_eq_true] at hgd
      have hts' := hgd _ hts
      simp only [Spec.wf, Bool.and_eq_true] at hts'
      have := dot_key_inj hname hts'.1 (hkeyEq.symm.trans hek)
      refine ⟨typeNode e, ?_, this.2, typeNode_entity e, hek⟩
      rw [hn]
      simp only [List.mem_append, List.mem_map]
      exact Or.inr (Or.inl ⟨e, he, rfl⟩)

/-- C5 at the module `shapesFs`: the function `Area` of `shapes.go` appears
as a function node titled with its name, and no node occurs twice. -/
theorem nodes_one_per_entry_witness :
    (∃ n ∈ (Analyze NewGoAnalyzer shapesFs).1.nodes, n.Title = "Area" ∧ n.Entity = "function") ∧
    (Analyze NewGoAnalyzer shapesFs).1.nodes.Nodup :=
  have h := nodes_one_per_entry shapesFs
    { Nodes := (Analyze NewGoAnalyzer shapesFs).1.nodes,
      Edges := (Analyze NewGoAnalyzer shapesFs).1.edges } rfl shapesFs_wf
  let ⟨n, hn, ht, he, _⟩ := (h.2.2.2.2.2.2.2 "/r" rfl ("/r/shapes/shapes.go", shapesFile)
    (by
      rw [show analysedFiles "/r" shapesFs.root = [("/r/shapes/shapes.go", shapesFile)] from rfl]
      exact List.mem_singleton.2 rfl)).1
    { Recv := [], Name := "Area",
      Body := some (.other [.other [.callExpr (.ident "helper") [] 20]]), Line := 19 }
    (by simp [shapesFile]) rfl
  ⟨⟨n, hn, ht, he⟩, h.2.1⟩


/-! ## The calls pass and the import pass -/

/-- C6: for every call-site `c` held by a function or method `f` of package
`P`, the calls pass emits an edge for `c` if and only if `c` is a
bare-identifier call and `P.Target` is a key of the function table; the edge
is `{from: id of f, to: P.Target, type: calls, method: Target}`, one edge for
each such call-site.  A selector-style call-site never produces a calls
edge, whatever functions and methods exist. -/
theorem calls_pass_spec (a : GoAnalyzer) :
    (buildCallEdges a).edges.Perm (a.edges ++
      (a.functions.flatMap (fun f =>
          (f.2.Calls.filter (fun c =>
            !c.IsMethod && a.functions.contains (f.2.Package ++ "." ++ c.Target))).map
            (fun c => { From := f.1, To := f.2.Package ++ "." ++ c.Target,
                        Method := c.Target, Type_ := "calls" })) ++
       a.methods.flatMap (fun m =>
          (m.2.Calls.filter (fun c =>
            !c.IsMethod && a.functions.contains (m.2.Package ++ "." ++ c.Target))).map
            (fun c => { From := m.1, To := m.2.Package ++ "." ++ c.Target,
                        Method := c.Target, Type_ := "calls" })))) ∧
    (∀ k, a.functions.contains k = true ↔ k ∈ a.functions.keys) ∧
    (∀ id pkg c, callEdgesOf a id pkg [c] =
      if c.IsMethod = false ∧ (pkg ++ "." ++ c.Target) ∈ a.functions.keys then
        [{ From := id, To := pkg ++ "." ++ c.Target, Method := c.Target, Type_ := "calls" }]
      else []) ∧
    (∀ id pkg target receiver line, callEdgesOf a id pkg
      [{ Target := target, IsMethod := true, Receiver := receiver, Line := line }] = []) := by
  refine ⟨?_, fun k => GoMap.contains_iff _ k, ?_, ?_⟩
  · simp only [buildCallEdges, callEdgesOf_eq]
    exact List.Perm.refl _
  · intro id pkg c
    rw [callEdgesOf_eq]
    by_cases h : c.IsMethod = false ∧ (pkg ++ "." ++ c.Target) ∈ a.functions.keys
    · rw [if_pos h]
      have hc := (GoMap.contains_iff a.functions _).2 h.2
      simp [h.1, hc, callEdge]
    · rw [if_neg h]
      rw [← GoMap.contains_iff] at h
      cases hm : c.IsMethod
      · have : a.functions.contains (pkg ++ "." ++ c.Target) = false := by
          cases hc : a.functions.contains (pkg ++ "." ++ c.Target)
          · rfl
          · exact absurd ⟨hm, hc⟩ h
        simp [hm, this]
      · simp [hm]
  · intro id pkg target receiver line
    rw [callEdgesOf_eq]
    simp

/-- C7: for every analysed package `P` and every import `imp` retained for
`P`, the edge list of the graph of a fresh analyzer contains an import edge
from `P` to `imp` if and only if `imp` starts with the module path; whether
`imp` is the id of a node plays no part. -/
theorem edge_of_import_iff_module_path (fs : FileSystem) (g : Graph)
    (h : (Analyze NewGoAnalyzer fs).2 = .ok g) (P : String) (pkg : PackageInfo)
    (hP : (P, pkg) ∈ (Analyze NewGoAnalyzer fs).1.packages) (imp : String)
    (himp : imp ∈ pkg.Imports) :
    (({ From := P, To := imp, Method := "", Type_ := "import" } : Edge) ∈ g.Edges ↔
      strings.HasPrefix imp (Analyze NewGoAnalyzer fs).1.modulePath = true) ∧
    ((∃ e ∈ g.Edges, e.Type_ = "import" ∧ e.From = P ∧ e.To = imp) ↔
      strings.HasPrefix imp (Analyze NewGoAnalyzer fs).1.modulePath = true) ∧
    (Analyze NewGoAnalyzer fs).1.modulePath = detectModulePath fs.goMod := by
  obtain ⟨_, hedges, _⟩ := Analyze_fresh_graph fs g h
  obtain ⟨_, _, _, _, _, _, _, hmod, _⟩ := Analyze_fresh_tables fs g h
  generalize (Analyze NewGoAnalyzer fs).1 = a at hedges hmod hP ⊢
  have hfwd : ∀ e ∈ g.Edges, e.Type_ = "import" → e.To = imp →
      strings.HasPrefix imp a.modulePath = true := by
    intro e he ht hto
    rw [hedges] at he
    rcases (mem_passEdges a e).1 he with h | h | h | h | h | h | h | h
    · obtain ⟨p, _, h⟩ := h
      obtain ⟨imp', _, hpre, rfl⟩ := (mem_importEdgesOf _ _ _ _).1 h
      simp only at hto
      rw [← hto]
      exact hpre
    · obtain ⟨_, _, rfl⟩ := h
      simp at ht
    · obtain ⟨_, _, rfl⟩ := h
      simp at ht
    · obtain ⟨m, _, h⟩ := h
      obtain ⟨_, rfl⟩ := (mem_methodContainsEdge _ _ _ _).1 h
      simp at ht
    · obtain ⟨f, _, h⟩ := h
      obtain ⟨_, _, _, _, rfl⟩ := (mem_callEdgesOf _ _ _ _ _).1 h
      simp [callEdge] at ht
    · obtain ⟨f, _, h⟩ := h
      obtain ⟨_, _, _, _, rfl⟩ := (mem_callEdgesOf _ _ _ _ _).1 h
      simp [callEdge] at ht
    · obtain ⟨t, _, h⟩ := h
      obtain ⟨_, _, _, _, rfl⟩ := (mem_embedEdgesOf _ _ _ _).1 h
      simp at ht
    · obtain ⟨t, _, h⟩ := h
      obtain ⟨_, _, _, _, _, rfl⟩ := (mem_useEdgesOf _ _ _ _).1 h
      simp at ht
  have hbwd : strings.HasPrefix imp a.modulePath = true →
      ({ From := P, To := imp, Method := "", Type_ := "import" } : Edge) ∈ g.Edges := by
    intro hpre
    rw [hedges]
    exact (mem_passEdges a _).2 (Or.inl ⟨(P, pkg), hP,
      (mem_importEdgesOf _ _ _ _).2 ⟨imp, himp, hpre, rfl⟩⟩)
  refine ⟨⟨fun he => hfwd _ he rfl rfl, hbwd⟩, ⟨?_, ?_⟩, hmod⟩
  · rintro ⟨e, he, ht, _, hto⟩
    exact hfwd e he ht hto
  · intro hpre
    exact ⟨_, hbwd hpre, rfl, rfl, rfl⟩

/-- C7 at the module `shapesFs`: the path `example.com/m/util` gives an edge
of type import although no node has that id. -/
theorem edge_of_import_iff_module_path_witness :
    (({ From := "example.com/m/shapes", To := "example.com/m/util", Method := "",
        Type_ := "import" } : Edge) ∈ (Analyze NewGoAnalyzer shapesFs).1.edges ↔
      strings.HasPrefix "example.com/m/util" (Analyze NewGoAnalyzer shapesFs).1.modulePath = true) ∧
    "example.com/m/util" ∉ (Analyze NewGoAnalyzer shapesFs).1.nodes.map Node.ID :=
  ⟨(edge_of_import_iff_module_path shapesFs
    { Nodes := (Analyze NewGoAnalyzer shapesFs).1.nodes,
      Edges := (Analyze NewGoAnalyzer shapesFs).1.edges } rfl
    "example.com/m/shapes"
    { Name := "shapes", Path := "example.com/m/shapes", Dir := "/r/shapes",
      Imports := ["example.com/m/util", "github.com/other/lib"] }
    (by decide) "example.com/m/util" (by decide)).1, by decide⟩


/-! ## Import filtering -/

theorem containsAux_dot (l : List Char) : strings.containsAux ['.'] l = true ↔ '.' ∈ l := by
  induction l with
  | nil => simp [strings.containsAux, List.isPrefixOf]
  | cons c cs ih =>
    simp only [strings.containsAux, List.isPrefixOf, Bool.and_true, Bool.or_eq_true, ih,
      List.mem_cons, beq_iff_eq]

theorem Contains_dot (s : String) : strings.Contains s "." = true ↔ '.' ∈ s.data := by
  unfold strings.Contains
  exact containsAux_dot s.data

/-- C8, the claim as stated fails: the import path `foo/bar.baz` has a first
path segment `foo` without a dot, so the filter in the words of the
specification discards it, but `isStdLib` returns false for it and the import
is retained. -/
theorem isStdLib_first_segment_counterexample :
    isStdLibSpec "foo/bar.baz" = true ∧ isStdLib "foo/bar.baz" = false ∧
      firstSegment "foo/bar.baz" = "foo" := by
  decide

/-- C8, amended: an import path `p` is discarded (`isStdLib p` is true)
exactly when `p` contains no dot anywhere, or `p` matches one of the prefixes
of the fixed standard-namespace table (it starts with the prefix or equals the
prefix without its trailing slash); every other import is appended unchanged,
as the last element, to the import list of the package, and a discarded one
leaves the package entry as it is. -/
theorem isStdLib_iff (p : String) :
    (isStdLib p = true ↔ '.' ∉ p.data ∨ ∃ pre ∈ stdlibPrefixes,
      strings.HasPrefix p pre = true ∨ p = strings.TrimSuffix pre "/") ∧
    (∀ (a : GoAnalyzer) (pk : String) (pkg : PackageInfo) (q : String),
      a.packages.get? pk = some pkg → strings.Trim q "\"" = p →
      (addImport a pk q).packages.get? pk =
        some (if isStdLib p = true then pkg else { pkg with Imports := pkg.Imports ++ [p] })) := by
  refine ⟨?_, ?_⟩
  · unfold isStdLib
    by_cases hd : '.' ∈ p.data
    · have hc := (Contains_dot p).2 hd
      simp only [hc, Bool.not_true, Bool.false_eq_true, if_false, List.any_eq_true,
        Bool.or_eq_true, beq_iff_eq, hd, not_true_eq_false, false_or]
    · have hc : strings.Contains p "." = false := by
        cases h : strings.Contains p "."
        · rfl
        · exact absurd ((Contains_dot p).1 h) hd
      simp [hc, hd]
  · intro a pk pkg q hget hq
    unfold addImport
    simp only [hq, hget]
    cases hs : isStdLib p
    · simp [GoMap.get?_insert]
    · simp [hget]

/-- C8, amended, at the path `github.com/other/lib` and a package that has no
retained path yet: the path has a dot and matches no table entry, so it is
appended. -/
theorem isStdLib_iff_witness :
    (addImport { NewGoAnalyzer with
        packages := [("p", { Name := "p", Path := "p", Dir := "/r", Imports := [] })] }
      "p" "\"github.com/other/lib\"").packages.get? "p" =
      some (if isStdLib "github.com/other/lib" = true then
          { Name := "p", Path := "p", Dir := "/r", Imports := [] }
        else
          { Name := "p", Path := "p", Dir := "/r", Imports := [] ++ ["github.com/other/lib"] }) :=
  (isStdLib_iff "github.com/other/lib").2
    { NewGoAnalyzer with
        packages := [("p", { Name := "p", Path := "p", Dir := "/r", Imports := [] })] }
    "p" { Name := "p", Path := "p", Dir := "/r", Imports := [] } "\"github.com/other/lib\""
    (by decide) (by decide)


/-! ## Package identities -/

theorem dirChars_none (l : List Char) (h : '/' ∉ l) : filepath.dirChars l = none := by
  induction l with
  | nil => rfl
  | cons c cs ih =>
    simp only [List.mem_cons, not_or] at h
    simp [filepath.dirChars, ih h.2, Ne.symm h.1]

theorem dirChars_append (d name : List Char) (h : '/' ∉ name) :
    filepath.dirChars (d ++ '/' :: name) = some d := by
  induction d with
  | nil => simp [filepath.dirChars, dirChars_none name h]
  | cons c cs ih => simp [filepath.dirChars, ih]

/-- The directory of a file `d/name` is `d`. -/
theorem Dir_Join (d name : String) (hd : d ≠ "") (h : '/' ∉ name.data) :
    filepath.Dir (filepath.Join d name) = d := by
  have hdata : (filepath.Join d name).data = d.data ++ '/' :: name.data := by
    simp [filepath.Join, String.data_append]
  unfold filepath.Dir
  rw [hdata, dirChars_append _ _ h]
  cases hl : d.data with
  | nil => exact absurd (String.ext hl) hd
  | cons c cs =>
    simp only
    exact String.ext hl.symm

theorem splitChars_ne_nil (sep : Char) (l : List Char) : strings.splitChars sep l ≠ [] := by
  cases l with
  | nil => simp [strings.splitChars]
  | cons c cs =>
    simp only [strings.splitChars]
    split
    · simp
    · split <;> simp

theorem splitChars_append (sep : Char) (a b : List Char) :
    strings.splitChars sep (a ++ sep :: b) =
      strings.splitChars sep a ++ strings.splitChars sep b := by
  induction a with
  | nil => simp [strings.splitChars]
  | cons c cs ih =>
    by_cases hc : c = sep
    · simp [strings.splitChars, hc, ih]
    · cases hs : strings.splitChars sep cs with
      | nil => exact absurd hs (splitChars_ne_nil sep cs)
      | cons x xs =>
        simp only [List.cons_append, strings.splitChars, hc, if_false]
        have ih' : strings.splitChars sep (cs.append (sep :: b)) =
            strings.splitChars sep cs ++ strings.splitChars sep b := ih
        rw [ih', hs]
        rfl

theorem dropCommon_append (bs ts : List (List Char)) :
    filepath.dropCommon bs (bs ++ ts) = ([], ts) := by
  induction bs with
  | nil => cases ts <;> simp [filepath.dropCommon]
  | cons b bs ih => simp [filepath.dropCommon, ih]

theorem joinElems_splitChars (l : List Char) :
    filepath.joinElems (strings.splitChars '/' l) = l := by
  induction l with
  | nil => simp [strings.splitChars, filepath.joinElems]
  | cons c cs ih =>
    cases hs : strings.splitChars '/' cs with
    | nil => exact absurd hs (splitChars_ne_nil '/' cs)
    | cons x xs =>
      rw [hs] at ih
      by_cases hc : c = '/'
      · simp only [strings.splitChars, hc, if_true, hs, filepath.joinElems, List.nil_append, ih]
      · simp only [strings.splitChars, hc, if_false, hs]
        cases xs with
        | nil =>
          simp only [filepath.joinElems] at ih ⊢
          rw [ih]
        | cons y ys =>
          simp only [filepath.joinElems, List.cons_append] at ih ⊢
          rw [ih]

/-- The path of `base/rel` relative to `base` is `rel`. -/
theorem Rel_Join (base rel : String) : filepath.Rel base (filepath.Join base rel) = rel := by
  have hdata : (filepath.Join base rel).data = base.data ++ '/' :: rel.data := by
    simp [filepath.Join, String.data_append]
  have hne : filepath.Join base rel ≠ base := by
    intro h
    have := congrArg (fun s => s.data.length) h
    simp only [hdata, List.length_append, List.length_cons] at this
    omega
  unfold filepath.Rel
  rw [if_neg hne]
  simp only [hdata, splitChars_append, dropCommon_append, List.map_nil, List.nil_append,
    joinElems_splitChars]

theorem Rel_self (base : String) : filepath.Rel base base = "." := by
  simp [filepath.Rel]

theorem Join_ne_empty (d name : String) : filepath.Join d name ≠ "" := by
  intro h
  have := congrArg String.data h
  simp [filepath.Join, String.data_append] at this

theorem parseTypeSpec_package (ts : TypeSpec) (pk fn : String) :
    (parseTypeSpec ts pk fn).Package = pk := by
  unfold parseTypeSpec
  simp only
  split
  · rename_i fields _
    refine foldl_inv (fun ti : TypeInfo => ti.Package = pk) _ fields _ ?_ rfl
    intro ti field _ hti
    unfold parseStructField
    simp only
    split <;> exact hti
  · rfl
  · rfl

theorem packageKey_parseFileNode (a : GoAnalyzer) (fn : String) (node : File) :
    (parseFileNode a fn node).packages.contains (filePkgPath a fn) = true := by
  unfold parseFileNode
  simp only
  refine foldl_inv (fun b : GoAnalyzer => b.packages.contains (filePkgPath a fn) = true) _
    node.Decls _ ?_ ?_
  · intro b d _ hb
    rw [(parseDecl_fields b d _ fn).1]
    exact hb
  · refine foldl_inv (fun b : GoAnalyzer => b.packages.contains (filePkgPath a fn) = true) _
      node.Imports _ ?_ ?_
    · intro b imp _ hb
      unfold addImport
      simp only
      split
      · split
        · simp [GoMap.contains, GoMap.get?_insert]
        · exact hb
      · exact hb
    · unfold ensurePackage
      split
      · assumption
      · simp [GoMap.contains, GoMap.get?_insert]

/-- C9: for every parsed file located in a directory `d` under the analysis
root, the package identity used for the file is `modulePrefix/rel`, with `rel`
the path of `d` relative to the root, when `d` is not the root directory, and
exactly `modulePrefix` when `d` is the root directory; the package entry of
the file is stored under that identity and every type, function and method
entry that the file adds or replaces has it as its package. -/
theorem file_package_identity (a : GoAnalyzer) (name : String) (hname : '/' ∉ name.data)
    (hbase : a.baseDir ≠ "") :
    filePkgPath a (filepath.Join a.baseDir name) = a.modulePath ∧
    (∀ rel, rel ≠ "" → rel ≠ "." →
      filePkgPath a (filepath.Join (filepath.Join a.baseDir rel) name) =
        a.modulePath ++ "/" ++ rel) ∧
    (∀ (fn : String) (node : File),
      (parseFileNode a fn node).packages.contains (filePkgPath a fn) = true ∧
      (∀ e ∈ (parseFileNode a fn node).types, e ∈ a.types ∨ e.2.Package = filePkgPath a fn) ∧
      (∀ e ∈ (parseFileNode a fn node).functions,
        e ∈ a.functions ∨ e.2.Package = filePkgPath a fn) ∧
      (∀ e ∈ (parseFileNode a fn node).methods,
        e ∈ a.methods ∨ e.2.Package = filePkgPath a fn)) := by
  refine ⟨?_, ?_, ?_⟩
  · unfold filePkgPath
    simp only [Dir_Join a.baseDir name hbase hname, Rel_self]
    simp
  · intro rel h1 h2
    unfold filePkgPath
    simp only [Dir_Join _ name (Join_ne_empty a.baseDir rel) hname, Rel_Join]
    simp [h1, h2]
  · intro fn node
    refine ⟨packageKey_parseFileNode a fn node, ?_⟩
    refine parseFileNode_induct (fun b : GoAnalyzer =>
      (∀ e ∈ b.types, e ∈ a.types ∨ e.2.Package = filePkgPath a fn) ∧
      (∀ e ∈ b.functions, e ∈ a.functions ∨ e.2.Package = filePkgPath a fn) ∧
      (∀ e ∈ b.methods, e ∈ a.methods ∨ e.2.Package = filePkgPath a fn)) a fn node
      ?_ ?_ ?_ ?_ ?_ ⟨fun e he => Or.inl he, fun e he => Or.inl he, fun e he => Or.inl he⟩
    · intro b _ hb; exact hb
    · intro b _ _ _ _ _ hb; exact hb
    · intro b gd ts _ _ hb
      refine ⟨?_, hb.2⟩
      intro e he
      rcases GoMap.mem_insert _ _ _ _ he with he | he
      · subst he
        exact Or.inr (parseTypeSpec_package ts _ fn)
      · exact hb.1 e he
    · intro b fd _ _ hb
      refine ⟨hb.1, ?_, hb.2.2⟩
      intro e he
      rcases GoMap.mem_insert _ _ _ _ he with he | he
      · subst he
        exact Or.inr rfl
      · exact hb.2.1 e he
    · intro b fd r rs _ _ hb
      refine ⟨hb.1, hb.2.1, ?_⟩
      intro e he
      rcases GoMap.mem_insert _ _ _ _ he with he | he
      · subst he
        exact Or.inr rfl
      · exact hb.2.2 e he

/-- C9 at the root `/r` with module `example.com/m`: a file of the directory
`shapes` gets the identity `example.com/m/shapes`, a file of the root the
identity `example.com/m`. -/
theorem file_package_identity_witness :
    filePkgPath (startAnalyzer "/r" "example.com/m") (filepath.Join "/r" "main.go") =
      "example.com/m" ∧
    filePkgPath (startAnalyzer "/r" "example.com/m")
      (filepath.Join (filepath.Join "/r" "shapes") "shapes.go") = "example.com/m/shapes" :=
  have h := file_package_identity (startAnalyzer "/r" "example.com/m") "main.go"
    (by decide) (by decide)
  have h' := file_package_identity (startAnalyzer "/r" "example.com/m") "shapes.go"
    (by decide) (by decide)
  ⟨h.1, h'.2.1 "shapes" (by decide) (by decide)⟩


/-! ## Analysis without module descriptor -/

theorem moduleLine_none (lines : List String)
    (h : ∀ line ∈ lines, strings.HasPrefix (strings.TrimSpace line) "module " = false) :
    moduleLine lines = "" := by
  induction lines with
  | nil => rfl
  | cons l ls ih =>
    have h1 := h l (List.mem_cons_self _ _)
    simp only [moduleLine, h1, Bool.false_eq_true, if_false]
    exact ih (fun line hl => h line (List.mem_cons_of_mem _ hl))

theorem detectModulePath_empty (goMod : Option String)
    (h : goMod = none ∨ ∃ data, goMod = some data ∧ ∀ line ∈ strings.Split data '\n',
      strings.HasPrefix (strings.TrimSpace line) "module " = false) :
    detectModulePath goMod = "" := by
  rcases h with rfl | ⟨data, rfl, h⟩
  · rfl
  · exact moduleLine_none _ h

theorem filePkgPath_empty (a : GoAnalyzer) (fn : String) (h : a.modulePath = "") :
    filePkgPath a fn = emptyPrefixIdentity (filepath.Rel a.baseDir (filepath.Dir fn)) := by
  unfold filePkgPath emptyPrefixIdentity
  simp only [h]
  split
  · exact String.ext (by simp [String.data_append])
  · rfl

/-- With an empty module path every package is stored under the identity
that its directory gives. -/
theorem packages_emptyPrefix_parseFileNode (a : GoAnalyzer) (fn : String) (node : File)
    (hmod : a.modulePath = "")
    (h : ∀ e ∈ a.packages, e.1 = emptyPrefixIdentity (filepath.Rel a.baseDir e.2.Dir)) :
    ∀ e ∈ (parseFileNode a fn node).packages,
      e.1 = emptyPrefixIdentity (filepath.Rel a.baseDir e.2.Dir) := by
  refine parseFileNode_induct (fun b : GoAnalyzer =>
    ∀ e ∈ b.packages, e.1 = emptyPrefixIdentity (filepath.Rel a.baseDir e.2.Dir)) a fn node
    ?_ ?_ ?_ ?_ ?_ h
  · intro b _ hb e he
    rcases GoMap.mem_insert _ _ _ _ he with he | he
    · subst he
      exact filePkgPath_empty a fn hmod
    · exact hb e he
  · intro b imp pkg _ _ hget hb e he
    rcases GoMap.mem_insert _ _ _ _ he with he | he
    · subst he
      exact hb (filePkgPath a fn, pkg) (GoMap.mem_of_get?_eq_some _ _ _ hget)
    · exact hb e he
  · intro b _ _ _ _ hb; exact hb
  · intro b _ _ _ hb; exact hb
  · intro b _ _ _ _ _ hb; exact hb

theorem packages_emptyPrefix_parseFiles (a : GoAnalyzer) (files : List (String × File))
    (hmod : a.modulePath = "")
    (h : ∀ e ∈ a.packages, e.1 = emptyPrefixIdentity (filepath.Rel a.baseDir e.2.Dir)) :
    ∀ e ∈ (parseFiles a files).packages,
      e.1 = emptyPrefixIdentity (filepath.Rel a.baseDir e.2.Dir) := by
  have key := parseFiles_induct (fun b : GoAnalyzer =>
    (b.modulePath = "" ∧ b.baseDir = a.baseDir) ∧
    ∀ e ∈ b.packages, e.1 = emptyPrefixIdentity (filepath.Rel a.baseDir e.2.Dir)) files
    (fun b p _ hb => by
      have hsc := parseFileNode_scalars b p.1 p.2
      refine ⟨⟨hsc.2.2.2.trans hb.1.1, hsc.2.2.1.trans hb.1.2⟩, ?_⟩
      have := packages_emptyPrefix_parseFileNode b p.1 p.2 hb.1.1 (by rw [hb.1.2]; exact hb.2)
      rw [hb.1.2] at this
      exact this) a ⟨⟨hmod, rfl⟩, h⟩
  exact key.2

/-- C10, the claim as stated fails: in the tree `noModFs`, which has no module
descriptor, the package of the directory `sub` gets the identity `/sub`, not
its relative path `sub`: the separator is prepended to the relative path. -/
theorem empty_prefix_identity_has_slash :
    ∃ g, (Analyze NewGoAnalyzer noModFs).2 = .ok g ∧
      ∃ e ∈ (Analyze NewGoAnalyzer noModFs).1.packages,
        filepath.Rel (Analyze NewGoAnalyzer noModFs).1.baseDir e.2.Dir = "sub" ∧
        e.1 = "/sub" ∧ e.1 ≠ filepath.Rel (Analyze NewGoAnalyzer noModFs).1.baseDir e.2.Dir :=
  ⟨_, rfl, ("/sub", { Name := "sub", Path := "/sub", Dir := "/r/sub", Imports := [] }),
    by decide, by decide, rfl, by decide⟩

/-- C10, amended: when the analysis root has no module descriptor, or the
descriptor has no module line, and the walk meets no error, the analysis
succeeds with an empty module path, and the identity of every package is
derived solely from the path of its directory relative to the root: it is
the empty string for the root directory and the separator `/` followed by
the relative path for any other directory. -/
theorem empty_prefix_identities (fs : FileSystem) (absDir : String)
    (habs : fs.abs = .ok absDir)
    (hmod : fs.goMod = none ∨ ∃ data, fs.goMod = some data ∧
      ∀ line ∈ strings.Split data '\n',
        strings.HasPrefix (strings.TrimSpace line) "module " = false)
    (hwalk : (Walk listFunc [] absDir fs.root).2 = none) :
    ∃ g, (Analyze NewGoAnalyzer fs).2 = .ok g ∧
      (Analyze NewGoAnalyzer fs).1.modulePath = "" ∧
      ∀ e ∈ (Analyze NewGoAnalyzer fs).1.packages,
        e.1 = emptyPrefixIdentity (filepath.Rel absDir e.2.Dir) ∧
        (e.2.Dir = absDir → e.1 = "") ∧
        (∀ rel, rel ≠ "" → rel ≠ "." → e.2.Dir = filepath.Join absDir rel →
          e.1 = "/" ++ rel) := by
  obtain ⟨g, hg⟩ := Analyze_fresh_of_walk fs absDir habs hwalk
  obtain ⟨absDir', habs', _, hp, _, _, _, hm, _⟩ := Analyze_fresh_tables fs g hg
  have habsEq : absDir' = absDir := by
    rw [habs] at habs'
    injection habs' with habs'
    exact habs'.symm
  subst habsEq
  have hempty := detectModulePath_empty fs.goMod hmod
  refine ⟨g, hg, hm.trans hempty, ?_⟩
  intro e he
  rw [hp] at he
  have hid := packages_emptyPrefix_parseFiles
    (startAnalyzer absDir' (detectModulePath fs.goMod)) (analysedFiles absDir' fs.root)
    (by simpa [startAnalyzer] using hempty)
    (by simp [startAnalyzer, NewGoAnalyzer]) e he
  have hid' : e.1 = emptyPrefixIdentity (filepath.Rel absDir' e.2.Dir) := hid
  refine ⟨hid', ?_, ?_⟩
  · intro hdir
    rw [hid', hdir, Rel_self]
    simp [emptyPrefixIdentity]
  · intro rel h1 h2 hdir
    rw [hid', hdir, Rel_Join]
    simp [emptyPrefixIdentity, h1, h2]

/-- C10, amended, at the tree `noModFs`: the analysis succeeds with an empty
module path and every package has the identity that its directory gives. -/
theorem empty_prefix_identities_witness :
    ∃ g, (Analyze NewGoAnalyzer noModFs).2 = .ok g ∧
      (Analyze NewGoAnalyzer noModFs).1.modulePath = "" ∧
      ∀ e ∈ (Analyze NewGoAnalyzer noModFs).1.packages,
        e.1 = emptyPrefixIdentity (filepath.Rel "/r" e.2.Dir) :=
  let ⟨g, hg, hm, hall⟩ := empty_prefix_identities noModFs "/r" rfl (Or.inl rfl) (by decide)
  ⟨g, hg, hm, fun e he => (hall e he).1⟩


/-! ## The module root resolver -/

theorem HasPrefix_append (pre rest : String) : strings.HasPrefix (pre ++ rest) pre = true := by
  simp [strings.HasPrefix, String.data_append, List.isPrefixOf_iff_prefix]

theorem TrimPrefix_append (pre rest : String) : strings.TrimPrefix (pre ++ rest) pre = rest := by
  unfold strings.TrimPrefix
  rw [if_pos (HasPrefix_append pre rest)]
  exact String.ext (by simp [String.data_append])

theorem moduleLine_first (pre post : List String) (line : String)
    (hpre : ∀ l ∈ pre, strings.HasPrefix (strings.TrimSpace l) "module " = false)
    (hline : strings.HasPrefix (strings.TrimSpace line) "module " = true) :
    moduleLine (pre ++ line :: post) =
      strings.TrimSpace (strings.TrimPrefix (strings.TrimSpace line) "module ") := by
  induction pre with
  | nil => simp [moduleLine, hline]
  | cons l ls ih =>
    have h1 := hpre l (List.mem_cons_self _ _)
    simp only [List.cons_append, moduleLine, h1, Bool.false_eq_true, if_false]
    exact ih (fun x hx => hpre x (List.mem_cons_of_mem _ hx))

/-- C11: for every module descriptor content, `detectModulePath` returns the
whitespace-trimmed text that follows the module keyword on the first line
that, after trimming, begins with the module keyword followed by a space; it
returns the empty prefix when the descriptor cannot be read or has no such
line.  The result is a plain string: there is no error to report. -/
theorem detectModulePath_spec :
    detectModulePath none = "" ∧
    (∀ data, (∀ line ∈ strings.Split data '\n',
        strings.HasPrefix (strings.TrimSpace line) "module " = false) →
      detectModulePath (some data) = "") ∧
    (∀ data pre line post rest, strings.Split data '\n' = pre ++ line :: post →
      (∀ l ∈ pre, strings.HasPrefix (strings.TrimSpace l) "module " = false) →
      strings.TrimSpace line = "module " ++ rest →
      detectModulePath (some data) = strings.TrimSpace rest) := by
  refine ⟨rfl, ?_, ?_⟩
  · intro data h
    exact moduleLine_none _ h
  · intro data pre line post rest hsplit hpre hline
    unfold detectModulePath
    simp only
    rw [hsplit, moduleLine_first pre post line hpre (by rw [hline]; exact HasPrefix_append _ _),
      hline, TrimPrefix_append]

/-- C11 at a descriptor with a comment line before the module line: the
module path is the text after the keyword, trimmed. -/
theorem detectModulePath_spec_witness :
    detectModulePath (some "// root\n  module  example.com/m \ngo 1.21\nmodule other") =
      strings.TrimSpace " example.com/m" ∧
    strings.TrimSpace " example.com/m" = "example.com/m" :=
  ⟨detectModulePath_spec.2.2 "// root\n  module  example.com/m \ngo 1.21\nmodule other"
    ["// root"] "  module  example.com/m " ["go 1.21", "module other"] " example.com/m"
    (by decide) (by decide) (by decide), by decide⟩


/-! ## First file wins -/

theorem get?_insert_self {α : Type} (m : GoMap α) (k : String) (v : α) :
    (m.insert k v).get? k = some v := by
  rw [GoMap.get?_insert, if_pos rfl]

theorem get?_insert_ne {α : Type} (m : GoMap α) (k k' : String) (v : α) (h : k' ≠ k) :
    (m.insert k v).get? k' = m.get? k' := by
  rw [GoMap.get?_insert, if_neg (Ne.symm h)]

theorem addImport_packages (a : GoAnalyzer) (pk imp : String) (pkg : PackageInfo)
    (hget : a.packages.get? pk = some pkg) :
    (addImport a pk imp).packages.get? pk =
      some { pkg with Imports := pkg.Imports ++
        ([strings.Trim imp "\""].filter (fun p => !isStdLib p)) } ∧
    ∀ k, k ≠ pk → (addImport a pk imp).packages.get? k = a.packages.get? k := by
  unfold addImport
  simp only [hget]
  cases hs : isStdLib (strings.Trim imp "\"")
  · simp only [Bool.not_false, if_true, get?_insert_self, List.filter_cons, hs,
      List.filter_nil]
    exact ⟨trivial, fun k hk => get?_insert_ne _ _ _ _ hk⟩
  · simp [hget, hs]

theorem foldl_addImport_packages (pk : String) :
    ∀ (imports : List String) (a : GoAnalyzer) (pkg : PackageInfo),
      a.packages.get? pk = some pkg →
      (imports.foldl (fun a imp => addImport a pk imp) a).packages.get? pk =
        some { pkg with Imports := pkg.Imports ++
          ((imports.map (fun imp => strings.Trim imp "\"")).filter (fun p => !isStdLib p)) } ∧
      ∀ k, k ≠ pk →
        (imports.foldl (fun a imp => addImport a pk imp) a).packages.get? k =
          a.packages.get? k
  | [], a, pkg, hget => by simpa using hget
  | imp :: imports, a, pkg, hget => by
    have h1 := addImport_packages a pk imp pkg hget
    have h2 := foldl_addImport_packages pk imports (addImport a pk imp) _ h1.1
    simp only [List.foldl_cons, List.map_cons]
    refine ⟨?_, fun k hk => (h2.2 k hk).trans (h1.2 k hk)⟩
    rw [h2.1]
    simp only [List.filter_cons, List.append_assoc]
    cases isStdLib (strings.Trim imp "\"") <;> simp

theorem foldl_parseDecl_packages (pk fn : String) (decls : List Decl) (a : GoAnalyzer) :
    (decls.foldl (fun a decl => parseDecl a decl pk fn) a).packages = a.packages := by
  refine foldl_inv (fun b : GoAnalyzer => b.packages = a.packages) _ decls a ?_ rfl
  intro b d _ hb
  rw [(parseDecl_fields b d pk fn).1]
  exact hb

/-- The package table after a file has been entered: the entry of the file's
package, created if there was none, with the retained imports appended; every
other entry as before. -/
theorem parseFileNode_packages (a : GoAnalyzer) (fn : String) (node : File) :
    (∀ pkg, a.packages.get? (filePkgPath a fn) = some pkg →
      (parseFileNode a fn node).packages.get? (filePkgPath a fn) =
        some { pkg with Imports := pkg.Imports ++ retainedImports node }) ∧
    (a.packages.get? (filePkgPath a fn) = none →
      (parseFileNode a fn node).packages.get? (filePkgPath a fn) =
        some { Name := node.Name, Path := filePkgPath a fn, Dir := filepath.Dir fn,
               Imports := retainedImports node }) ∧
    (∀ k, k ≠ filePkgPath a fn →
      (parseFileNode a fn node).packages.get? k = a.packages.get? k) := by
  unfold parseFileNode
  simp only [foldl_parseDecl_packages]
  refine ⟨?_, ?_, ?_⟩
  · intro pkg hget
    have hc : a.packages.contains (filePkgPath a fn) = true := by
      simp [GoMap.contains, hget]
    have he : ensurePackage a (filePkgPath a fn) node.Name (filepath.Dir fn) = a := by
      simp [ensurePackage, hc]
    rw [he]
    exact (foldl_addImport_packages _ node.Imports a pkg hget).1
  · intro hget
    have hc : a.packages.contains (filePkgPath a fn) = false := by
      simp [GoMap.contains, hget]
    have hget' : (ensurePackage a (filePkgPath a fn) node.Name (filepath.Dir fn)).packages.get?
        (filePkgPath a fn) = some (PackageInfo.mk node.Name (filePkgPath a fn)
          (filepath.Dir fn) []) := by
      simp [ensurePackage, hc, get?_insert_self]
    have := (foldl_addImport_packages _ node.Imports _ _ hget').1
    rw [this]
    simp [retainedImports]
  · intro k hk
    have h0 : (ensurePackage a (filePkgPath a fn) node.Name (filepath.Dir fn)).packages.get? k =
        a.packages.get? k := by
      unfold ensurePackage
      split
      · rfl
      · exact get?_insert_ne _ _ _ _ hk
    cases hc : (ensurePackage a (filePkgPath a fn) node.Name (filepath.Dir fn)).packages.get?
        (filePkgPath a fn) with
    | none =>
      exfalso
      unfold ensurePackage at hc
      split at hc
      · rename_i hcon
        simp [GoMap.contains, hc] at hcon
      · simp [get?_insert_self] at hc
    | some pkg =>
      exact ((foldl_addImport_packages _ node.Imports _ pkg hc).2 k hk).trans h0


theorem parseFiles_package_kept (files : List (String × File)) (k : String)
    (pkg : PackageInfo) (a : GoAnalyzer) (h : a.packages.get? k = some pkg) :
    ∃ pkg', (parseFiles a files).packages.get? k = some pkg' ∧ pkg'.Name = pkg.Name ∧
      pkg'.Path = pkg.Path ∧ pkg'.Dir = pkg.Dir ∧ pkg.Imports <+: pkg'.Imports := by
  refine parseFiles_induct (fun b : GoAnalyzer =>
    ∃ pkg', b.packages.get? k = some pkg' ∧ pkg'.Name = pkg.Name ∧
      pkg'.Path = pkg.Path ∧ pkg'.Dir = pkg.Dir ∧ pkg.Imports <+: pkg'.Imports) files ?_ a
    ⟨pkg, h, rfl, rfl, rfl, List.prefix_refl _⟩
  rintro b p _ ⟨pkg', hget, h1, h2, h3, h4⟩
  have hp := parseFileNode_packages b p.1 p.2
  by_cases hk : k = filePkgPath b p.1
  · subst hk
    exact ⟨_, hp.1 pkg' hget, h1, h2, h3, h4.trans (List.prefix_append _ _)⟩
  · exact ⟨pkg', (hp.2.2 k hk).trans hget, h1, h2, h3, h4⟩

/-- C12, first file wins: the first file processed for a directory creates the
package entry with its short name and its directory; processing any later
file of the same directory leaves the short name, the path and the directory
of the entry unchanged and only appends the retained imports of that file to
its import list; entries of other packages are not touched. -/
theorem first_file_wins (a : GoAnalyzer) (fn : String) (node : File) :
    (a.packages.get? (filePkgPath a fn) = none →
      (parseFileNode a fn node).packages.get? (filePkgPath a fn) =
        some { Name := node.Name, Path := filePkgPath a fn, Dir := filepath.Dir fn,
               Imports := retainedImports node }) ∧
    (∀ pkg, a.packages.get? (filePkgPath a fn) = some pkg →
      (parseFileNode a fn node).packages.get? (filePkgPath a fn) =
        some { Name := pkg.Name, Path := pkg.Path, Dir := pkg.Dir,
               Imports := pkg.Imports ++ retainedImports node }) ∧
    (∀ k, k ≠ filePkgPath a fn →
      (parseFileNode a fn node).packages.get? k = a.packages.get? k) ∧
    (∀ fn', filepath.Dir fn' = filepath.Dir fn → filePkgPath a fn' = filePkgPath a fn) ∧
    (∀ (files : List (String × File)) (k : String) (pkg : PackageInfo),
      a.packages.get? k = some pkg →
      ∃ pkg', (parseFiles a files).packages.get? k = some pkg' ∧ pkg'.Name = pkg.Name ∧
        pkg'.Path = pkg.Path ∧ pkg'.Dir = pkg.Dir ∧ pkg.Imports <+: pkg'.Imports) := by
  have hp := parseFileNode_packages a fn node
  refine ⟨hp.2.1, hp.1, hp.2.2, ?_, fun files k pkg h => parseFiles_package_kept files k pkg a h⟩
  intro fn' hdir
  simp [filePkgPath, hdir]

/-- C12 at the module `shapesFs`: after `shapes.go`, a second file of the
directory `shapes` with another package name leaves name and directory of
the package entry as they are and appends its one retained path. -/
theorem first_file_wins_witness :
    (parseFileNode (parseFileNode (startAnalyzer "/r" "example.com/m") "/r/shapes/shapes.go"
        shapesFile) "/r/shapes/extra.go" shapesExtraFile).packages.get?
      "example.com/m/shapes" =
      some { Name := "shapes", Path := "example.com/m/shapes", Dir := "/r/shapes",
             Imports := ["example.com/m/util", "github.com/other/lib"] ++
               retainedImports shapesExtraFile } ∧
    retainedImports shapesExtraFile = ["example.com/m/geo"] :=
  ⟨(first_file_wins (parseFileNode (startAnalyzer "/r" "example.com/m") "/r/shapes/shapes.go"
      shapesFile) "/r/shapes/extra.go" shapesExtraFile).2.1
    { Name := "shapes", Path := "example.com/m/shapes", Dir := "/r/shapes",
      Imports := ["example.com/m/util", "github.com/other/lib"] } (by decide), by decide⟩


/-! ## The type-name resolver -/

theorem resolveTypeName_wrapAll (cur : String) (t : Expr) :
    ∀ ws : List Wrapper, resolveTypeName (wrapAll ws t) cur = resolveTypeName t cur
  | [] => rfl
  | w :: ws => by
    cases w <;> simp [wrapAll, Wrapper.apply, resolveTypeName, resolveTypeName_wrapAll cur t ws]

theorem resolveTypeName_unhandled (cur : String) :
    (e : Expr) → e.handled = false → resolveTypeName e cur = ("", "")
  | .ident _, h => by simp [Expr.handled] at h
  | .selectorExpr x _, h => by
    cases x with
    | ident _ => simp [Expr.handled] at h
    | selectorExpr _ _ => simp [resolveTypeName]
    | starExpr _ => simp [resolveTypeName]
    | arrayType _ => simp [resolveTypeName]
    | mapType _ _ => simp [resolveTypeName]
    | chanType _ => simp [resolveTypeName]
    | funcType => simp [resolveTypeName]
    | indexExpr _ _ => simp [resolveTypeName]
    | parenExpr _ => simp [resolveTypeName]
    | structType _ => simp [resolveTypeName]
    | interfaceType => simp [resolveTypeName]
    | otherExpr => simp [resolveTypeName]
  | .starExpr _, h => by simp [Expr.handled] at h
  | .arrayType _, h => by simp [Expr.handled] at h
  | .mapType _ _, h => by simp [Expr.handled] at h
  | .chanType _, _ => by simp [resolveTypeName]
  | .funcType, _ => by simp [resolveTypeName]
  | .indexExpr _ _, _ => by simp [resolveTypeName]
  | .parenExpr _, _ => by simp [resolveTypeName]
  | .structType _, _ => by simp [resolveTypeName]
  | .interfaceType, _ => by simp [resolveTypeName]
  | .otherExpr, _ => by simp [resolveTypeName]

/-- C13: `resolveTypeName(e, cur)` gives `(n, cur)` for a plain identifier
`n` and `(N, pkg)` for a package-qualified name `pkg.N`; pointer, slice/array
and map wrappers are transparent, `resolve(*T) = resolve([]T) =
resolve(map[K]T) = resolve(T)` for every `T` and `K`, at any nesting depth;
every other shape gives the empty pair.  The function is defined by
structural recursion on the type expression, so it returns on every one. -/
theorem resolveTypeName_spec (cur : String) :
    (∀ n, resolveTypeName (.ident n) cur = (n, cur)) ∧
    (∀ pkg N, resolveTypeName (.selectorExpr (.ident pkg) N) cur = (N, pkg)) ∧
    (∀ T, resolveTypeName (.starExpr T) cur = resolveTypeName T cur) ∧
    (∀ T, resolveTypeName (.arrayType T) cur = resolveTypeName T cur) ∧
    (∀ K T, resolveTypeName (.mapType K T) cur = resolveTypeName T cur) ∧
    (∀ (ws : List Wrapper) T, resolveTypeName (wrapAll ws T) cur = resolveTypeName T cur) ∧
    (∀ e : Expr, e.handled = false → resolveTypeName e cur = ("", "")) ∧
    (∀ e : Expr, ∃ name pkg, resolveTypeName e cur = (name, pkg)) := by
  refine ⟨fun _ => rfl, fun _ _ => rfl, fun _ => ?_, fun _ => ?_, fun _ _ => ?_,
    fun ws T => resolveTypeName_wrapAll cur T ws, resolveTypeName_unhandled cur,
    fun e => ⟨_, _, rfl⟩⟩
  · simp [resolveTypeName]
  · simp [resolveTypeName]
  · simp [resolveTypeName]

/-- C13 at the types `map[string][]*model.Node` and `chan int`: the first
resolves to the qualified name below the wrappers, the second to the empty
pair. -/
theorem resolveTypeName_spec_witness :
    resolveTypeName (wrapAll [.mapOf (.ident "string"), .slice, .pointer]
      (.selectorExpr (.ident "model") "Node")) "example.com/m" = ("Node", "model") ∧
    resolveTypeName (.chanType (.ident "int")) "example.com/m" = ("", "") :=
  ⟨((resolveTypeName_spec "example.com/m").2.2.2.2.2.1 _ _).trans
      ((resolveTypeName_spec "example.com/m").2.1 "model" "Node"),
    (resolveTypeName_spec "example.com/m").2.2.2.2.2.2.1 (.chanType (.ident "int")) rfl⟩


/-! ## Kinds of type declarations -/

/-- C14, the code at the top-level declaration `type Celsius float64`: the
entry stored for it has the empty kind, neither struct nor interface, and
its node has the entity struct although the declaration is no record. -/
theorem kind_of_defined_type_is_empty :
    ∃ g, (Analyze NewGoAnalyzer tempFs).2 = .ok g ∧
      (∃ ti, (Analyze NewGoAnalyzer tempFs).1.types.get? "m.Celsius" = some ti ∧
        ti.Kind = "" ∧ ti.Kind ≠ "struct" ∧ ti.Kind ≠ "interface") ∧
      ({ ID := "m.Celsius", Title := "Celsius", Entity := "struct" } : Node) ∈ g.Nodes :=
  ⟨_, rfl, ⟨_, rfl, by decide, by decide, by decide⟩, by decide⟩


/-! ## Repeated invocations -/

/-- The analyzer as `Analyze` sets it up before the walk, whatever it holds. -/
theorem Walk_any (a : GoAnalyzer) (root : String) (tree : FsEntry) :
    Walk walkFunc a root tree =
      (parseFiles a (analysedFiles root tree), (Walk listFunc [] root tree).2) := by
  have h := walk_sim a [] root tree
  simp only [parseFiles, List.foldl_nil] at h
  simp only [Walk, h, analysedFiles, parseFiles]
  split <;> rfl

theorem Analyze_any_ok (a : GoAnalyzer) (fs : FileSystem) (g : Graph)
    (h : (Analyze a fs).2 = .ok g) :
    ∃ absDir, fs.abs = .ok absDir ∧
      (Walk listFunc [] absDir fs.root).2 = none ∧
      (Analyze a fs).1 =
        buildGraph (parseFiles
          { a with baseDir := absDir, modulePath := detectModulePath fs.goMod }
          (analysedFiles absDir fs.root)) ∧
      g = { Nodes := (Analyze a fs).1.nodes, Edges := (Analyze a fs).1.edges } := by
  unfold Analyze at h ⊢
  cases habs : fs.abs with
  | error err => rw [habs] at h; simp at h
  | ok absDir =>
    rw [habs] at h
    refine ⟨absDir, rfl, ?_⟩
    have hw := Walk_any { a with baseDir := absDir, modulePath := detectModulePath fs.goMod }
      absDir fs.root
    simp only [hw] at h ⊢
    cases hr : (Walk listFunc [] absDir fs.root).2 with
    | some err => rw [hr] at h; simp at h
    | none =>
      rw [hr] at h
      simp only [Except.ok.injEq] at h
      simp [h.symm]

theorem keys_mono_parseFileNode (a : GoAnalyzer) (fn : String) (node : File) :
    a.packages.keys ⊆ (parseFileNode a fn node).packages.keys ∧
    a.types.keys ⊆ (parseFileNode a fn node).types.keys ∧
    a.functions.keys ⊆ (parseFileNode a fn node).functions.keys ∧
    a.methods.keys ⊆ (parseFileNode a fn node).methods.keys := by
  refine parseFileNode_induct (fun b : GoAnalyzer =>
    a.packages.keys ⊆ b.packages.keys ∧ a.types.keys ⊆ b.types.keys ∧
    a.functions.keys ⊆ b.functions.keys ∧ a.methods.keys ⊆ b.methods.keys) a fn node
    ?_ ?_ ?_ ?_ ?_ ⟨fun _ h => h, fun _ h => h, fun _ h => h, fun _ h => h⟩
  · intro b _ hb
    exact ⟨fun k hk => (GoMap.mem_keys_insert _ _ _ _).2 (Or.inr (hb.1 hk)), hb.2⟩
  · intro b _ _ _ _ _ hb
    exact ⟨fun k hk => (GoMap.mem_keys_insert _ _ _ _).2 (Or.inr (hb.1 hk)), hb.2⟩
  · intro b _ _ _ _ hb
    exact ⟨hb.1, fun k hk => (GoMap.mem_keys_insert _ _ _ _).2 (Or.inr (hb.2.1 hk)), hb.2.2⟩
  · intro b _ _ _ hb
    exact ⟨hb.1, hb.2.1, fun k hk => (GoMap.mem_keys_insert _ _ _ _).2 (Or.inr (hb.2.2.1 hk)),
      hb.2.2.2⟩
  · intro b _ _ _ _ _ hb
    exact ⟨hb.1, hb.2.1, hb.2.2.1,
      fun k hk => (GoMap.mem_keys_insert _ _ _ _).2 (Or.inr (hb.2.2.2 hk))⟩

theorem keys_mono_parseFiles (a : GoAnalyzer) (files : List (String × File)) :
    a.packages.keys ⊆ (parseFiles a files).packages.keys ∧
    a.types.keys ⊆ (parseFiles a files).types.keys ∧
    a.functions.keys ⊆ (parseFiles a files).functions.keys ∧
    a.methods.keys ⊆ (parseFiles a files).methods.keys := by
  refine parseFiles_induct (fun b : GoAnalyzer =>
    a.packages.keys ⊆ b.packages.keys ∧ a.types.keys ⊆ b.types.keys ∧
    a.functions.keys ⊆ b.functions.keys ∧ a.methods.keys ⊆ b.methods.keys) files ?_ a
    ⟨fun _ h => h, fun _ h => h, fun _ h => h, fun _ h => h⟩
  intro b p _ hb
  have h := keys_mono_parseFileNode b p.1 p.2
  exact ⟨fun k hk => h.1 (hb.1 hk), fun k hk => h.2.1 (hb.2.1 hk),
    fun k hk => h.2.2.1 (hb.2.2.1 hk), fun k hk => h.2.2.2 (hb.2.2.2 hk)⟩

/-- What `Analyze` returns on an analyzer in any state: the nodes and edges
the analyzer already holds, followed by the nodes of the tables and the edges
of the passes; the tables keep every key they had. -/
theorem Analyze_any_graph (a : GoAnalyzer) (fs : FileSystem) (g : Graph)
    (h : (Analyze a fs).2 = .ok g) :
    g.Nodes = a.nodes ++ ((Analyze a fs).1.packages.map packageNode ++
      ((Analyze a fs).1.types.map typeNode ++
      ((Analyze a fs).1.functions.map functionNode ++
        (Analyze a fs).1.methods.map methodNode))) ∧
    g.Edges = a.edges ++ passEdges (Analyze a fs).1 ∧
    (Analyze a fs).1.nodes = g.Nodes ∧ (Analyze a fs).1.edges = g.Edges ∧
    a.packages.keys ⊆ (Analyze a fs).1.packages.keys ∧
    a.types.keys ⊆ (Analyze a fs).1.types.keys ∧
    a.functions.keys ⊆ (Analyze a fs).1.functions.keys ∧
    a.methods.keys ⊆ (Analyze a fs).1.methods.keys := by
  obtain ⟨absDir, _, _, ha, hg⟩ := Analyze_any_ok a fs g h
  have hsc := parseFiles_scalars
    { a with baseDir := absDir, modulePath := detectModulePath fs.goMod }
    (analysedFiles absDir fs.root)
  have hkm := keys_mono_parseFiles
    { a with baseDir := absDir, modulePath := detectModulePath fs.goMod }
    (analysedFiles absDir fs.root)
  have htab := buildGraph_tables (parseFiles
    { a with baseDir := absDir, modulePath := detectModulePath fs.goMod }
    (analysedFiles absDir fs.root))
  rw [hg]
  refine ⟨?_, ?_, rfl, rfl, ?_⟩
  · simp only
    rw [ha, buildGraph_nodes, hsc.1, htab.1, htab.2.1, htab.2.2.1, htab.2.2.2.1]
  · simp only
    rw [ha, buildGraph_edges, hsc.2.1]
    simp only [List.append_cancel_left_eq]
    exact (passEdges_congr _ _ htab.1 htab.2.1 htab.2.2.1 htab.2.2.2.1 htab.2.2.2.2.1).symm
  · rw [ha, htab.1, htab.2.1, htab.2.2.1, htab.2.2.2.1]
    exact hkm


/-! ## C15: a second invocation on the same analyzer -/

theorem table_length_le {α β : Type} (m : GoMap α) (m' : GoMap β)
    (hn : m.keys.Nodup) (hs : m.keys ⊆ m'.keys) : m.length ≤ m'.length := by
  have h := (hn.subperm hs).length_le
  simpa [GoMap.keys] using h

/-- C15, the claim as stated fails: on the module `shapesFs` the second call of
`Analyze` on the same analyzer over the same tree returns the nodes of the
first graph twice and more edges than the first graph has. -/
theorem second_Analyze_differs :
    ∃ g1 g2, (Analyze NewGoAnalyzer shapesFs).2 = .ok g1 ∧
      (Analyze (Analyze NewGoAnalyzer shapesFs).1 shapesFs).2 = .ok g2 ∧
      g2.Nodes ≠ g1.Nodes ∧ g2.Edges ≠ g1.Edges ∧
      g2.Nodes = g1.Nodes ++ g1.Nodes ∧
      g1.Edges.length < g2.Edges.length :=
  ⟨_, _, rfl, rfl, by decide, by decide, by decide, by decide⟩

/-- C15, amended: only the first call, on a fresh analyzer, computes the graph
from the tables alone.  A second call on the same analyzer returns the nodes of
the first graph followed by one node for every table entry again, and the edges
of the first graph followed by the edges of the passes; the tables keep every
key of the first call, so the second graph has at least twice the nodes of the
first and differs from it unless the first is empty. -/
theorem second_Analyze_appends (fs : FileSystem) (g1 g2 : Graph)
    (h1 : (Analyze NewGoAnalyzer fs).2 = .ok g1)
    (h2 : (Analyze (Analyze NewGoAnalyzer fs).1 fs).2 = .ok g2) :
    g2.Nodes = g1.Nodes ++
      ((Analyze (Analyze NewGoAnalyzer fs).1 fs).1.packages.map packageNode ++
      ((Analyze (Analyze NewGoAnalyzer fs).1 fs).1.types.map typeNode ++
      ((Analyze (Analyze NewGoAnalyzer fs).1 fs).1.functions.map functionNode ++
        (Analyze (Analyze NewGoAnalyzer fs).1 fs).1.methods.map methodNode))) ∧
    g2.Edges = g1.Edges ++ passEdges (Analyze (Analyze NewGoAnalyzer fs).1 fs).1 ∧
    (∀ n ∈ g1.Nodes, ∃ n2 ∈ g2.Nodes.drop g1.Nodes.length, n2.ID = n.ID) ∧
    2 * g1.Nodes.length ≤ g2.Nodes.length ∧
    (g1.Nodes ≠ [] → g2.Nodes ≠ g1.Nodes) := by
  obtain ⟨hn1, _, hk1⟩ := Analyze_fresh_graph fs g1 h1
  obtain ⟨hn2, he2, _, _, hkp, hkt, hkf, hkm⟩ :=
    Analyze_any_graph (Analyze NewGoAnalyzer fs).1 fs g2 h2
  obtain ⟨a1n, a1e⟩ := (Analyze_any_graph NewGoAnalyzer fs g1 h1).2.2
  rw [a1n] at hn2
  rw [a1e.1] at he2
  have hlen : 2 * g1.Nodes.length ≤ g2.Nodes.length := by
    have lp := table_length_le _ _ hk1.1 hkp
    have lt := table_length_le _ _ hk1.2.1 hkt
    have lf := table_length_le _ _ hk1.2.2.1 hkf
    have lm := table_length_le _ _ hk1.2.2.2 hkm
    rw [hn2]
    simp only [List.length_append, List.length_map]
    rw [hn1]
    simp only [List.length_append, List.length_map]
    omega
  refine ⟨hn2, he2, ?_, hlen, ?_⟩
  · intro n hn
    rw [hn2, List.drop_left]
    rw [hn1] at hn
    simp only [List.mem_append, List.mem_map] at hn ⊢
    rcases hn with ⟨e, he, rfl⟩ | ⟨e, he, rfl⟩ | ⟨e, he, rfl⟩ | ⟨e, he, rfl⟩
    · have hk : e.1 ∈ (Analyze (Analyze NewGoAnalyzer fs).1 fs).1.packages.keys :=
        hkp (List.mem_map_of_mem Prod.fst he)
      obtain ⟨e2, he2, hfst⟩ := List.mem_map.1 hk
      exact ⟨packageNode e2, Or.inl ⟨e2, he2, rfl⟩, by simpa [packageNode] using hfst⟩
    · have hk : e.1 ∈ (Analyze (Analyze NewGoAnalyzer fs).1 fs).1.types.keys :=
        hkt (List.mem_map_of_mem Prod.fst he)
      obtain ⟨e2, he2, hfst⟩ := List.mem_map.1 hk
      exact ⟨typeNode e2, Or.inr (Or.inl ⟨e2, he2, rfl⟩), by simpa [typeNode] using hfst⟩
    · have hk : e.1 ∈ (Analyze (Analyze NewGoAnalyzer fs).1 fs).1.functions.keys :=
        hkf (List.mem_map_of_mem Prod.fst he)
      obtain ⟨e2, he2, hfst⟩ := List.mem_map.1 hk
      exact ⟨functionNode e2, Or.inr (Or.inr (Or.inl ⟨e2, he2, rfl⟩)),
        by simpa [functionNode] using hfst⟩
    · have hk : e.1 ∈ (Analyze (Analyze NewGoAnalyzer fs).1 fs).1.methods.keys :=
        hkm (List.mem_map_of_mem Prod.fst he)
      obtain ⟨e2, he2, hfst⟩ := List.mem_map.1 hk
      exact ⟨methodNode e2, Or.inr (Or.inr (Or.inr ⟨e2, he2, rfl⟩)),
        by simpa [methodNode] using hfst⟩
  · intro hne heq
    have hpos : 0 < g1.Nodes.length := List.length_pos.2 hne
    rw [heq] at hlen
    omega

theorem second_Analyze_appends_witness :
    ∃ g1 g2, (Analyze NewGoAnalyzer shapesFs).2 = .ok g1 ∧
      (Analyze (Analyze NewGoAnalyzer shapesFs).1 shapesFs).2 = .ok g2 ∧
      g1.Nodes ≠ [] ∧ 2 * g1.Nodes.length ≤ g2.Nodes.length ∧ g2.Nodes ≠ g1.Nodes :=
  ⟨_, _, rfl, rfl, by decide,
    (second_Analyze_appends shapesFs _ _ rfl rfl).2.2.2.1,
    (second_Analyze_appends shapesFs _ _ rfl rfl).2.2.2.2 (by decide)⟩


/-! ## The walker: what it prunes, skips and parses -/

theorem prunedName_iff (name : String) :
    prunedName name = true ↔
      (name = "vendor" ∨ name = "node_modules" ∨ name = ".git" ∨ name = "bin") := by
  simp [prunedName, or_assoc]

/-- The walk function on a directory that was read. -/
theorem walkFunc_dir (a : GoAnalyzer) (path name : String) (children : List FsEntry) :
    walkFunc a path (.dir name none children) none =
      if prunedName name then (a, .skipDir) else (a, .ok) := by
  unfold walkFunc
  simp only [FsEntry.IsDir, FsEntry.Name, if_true]
  by_cases h : prunedName name = true
  · rw [if_pos ((prunedName_iff name).1 h), if_pos h]
  · rw [if_neg (fun h' => h ((prunedName_iff name).2 h')), if_neg h]

/-- The walk function on a file. -/
theorem walkFunc_file (a : GoAnalyzer) (path name : String) (parsed : Except String File) :
    walkFunc a path (.file name parsed) none =
      if isSourcePath path then
        match parsed with
        | .error cause => (a, .error ("failed to parse file " ++ path ++ ": " ++ cause))
        | .ok node => (parseFileNode a path node, .ok)
      else (a, .ok) := by
  unfold walkFunc isSourcePath
  simp only [FsEntry.IsDir, FsEntry.parsed, Bool.false_eq_true, if_false]
  cases h1 : strings.HasSuffix path ".go" <;> cases h2 : strings.HasSuffix path "_test.go" <;>
    cases parsed <;> simp [parseFile]


mutual
theorem walk_issues (path : String) :
    (e : FsEntry) → ∀ a : GoAnalyzer,
      walkResultOk (walkIssues path e) e (walk walkFunc a path e).2
  | .file name parsed, a => by
    simp only [walk, walkIssues, walkFunc_file]
    by_cases hs : isSourcePath path = true
    · simp only [hs, if_true]
      cases parsed with
      | error cause => simp [walkResultOk, WalkIssue.message]
      | ok node => simp [walkResultOk]
    · simp [hs, walkResultOk]
  | .lstatErr name err, a => by
    simp [walk, walkIssues, walkFunc, walkResultOk, WalkIssue.message]
  | .dir name readErr children, a => by
    cases readErr with
    | some err => simp [walk, walkIssues, walkFunc, walkResultOk, WalkIssue.message]
    | none =>
      simp only [walk, walkIssues, walkFunc_dir]
      by_cases hp : prunedName name = true
      · simp [hp, walkResultOk, FsEntry.IsDir]
      · simp only [hp, Bool.false_eq_true, if_false, Option.isSome_none, false_or, ne_eq,
          not_true_eq_false]
        have ih := walkList_issues path children a
        unfold walkListResultOk at ih
        unfold walkResultOk
        split
        · rename_i i rest heq
          rw [heq] at ih
          exact ih
        · rename_i heq
          rw [heq] at ih
          exact Or.inl ih
theorem walkList_issues (path : String) :
    (es : List FsEntry) → ∀ a : GoAnalyzer,
      walkListResultOk (walkIssuesList path es) (walkList walkFunc a path es).2
  | [], a => by simp [walkList, walkIssuesList, walkListResultOk]
  | e :: es, a => by
    have ih := walk_issues (filepath.Join path e.Name) e a
    simp only [walkList, walkIssuesList]
    unfold walkResultOk at ih
    cases hi : walkIssues (filepath.Join path e.Name) e with
    | cons i rest =>
      rw [hi] at ih
      simp only at ih
      rw [ih]
      simp [walkListResultOk]
    | nil =>
      rw [hi] at ih
      simp only at ih
      rw [List.nil_append]
      rcases ih with h | ⟨h, hd⟩
      · rw [h]
        exact walkList_issues path es _
      · rw [h]
        simp only [hd, if_true]
        exact walkList_issues path es _
end

/-- The outcome of `Analyze` in terms of the issues of the tree. -/
theorem Analyze_issues (a : GoAnalyzer) (fs : FileSystem) (absDir : String)
    (habs : fs.abs = .ok absDir) :
    match walkIssues absDir fs.root with
    | i :: _ => (Analyze a fs).2 = .error ("failed to walk directory: " ++ i.message)
    | [] => ∃ g, (Analyze a fs).2 = .ok g := by
  have h := walk_issues absDir fs.root
    { a with baseDir := absDir, modulePath := detectModulePath fs.goMod }
  unfold walkResultOk at h
  unfold Analyze Walk
  rw [habs]
  simp only
  split
  · rename_i i rest heq
    rw [heq] at h
    simp only at h
    rw [h]
  · rename_i heq
    rw [heq] at h
    simp only at h
    rcases h with h | ⟨h, _⟩ <;> rw [h] <;> exact ⟨_, rfl⟩


/-! ## C16: a parse failure aborts the analysis -/

theorem HasSuffix_iff (s suf : String) :
    strings.HasSuffix s suf = true ↔ ∃ stem : String, s = stem ++ suf := by
  unfold strings.HasSuffix
  rw [List.isSuffixOf_iff_suffix]
  constructor
  · rintro ⟨t, ht⟩
    exact ⟨⟨t⟩, String.ext (by simp [ht])⟩
  · rintro ⟨stem, rfl⟩
    exact ⟨stem.data, by simp⟩

/-- C16: for a tree whose directory resolves to `absDir`, on an analyzer in
any state.  The walk stops at the first issue it meets, a traversal error or a
source file that fails to parse; when that is the file `f` failing with the
cause `c`, `Analyze` returns the error that wraps the parse error naming `f`
and `c`, and no graph, whatever was parsed before.  Any failing source file of
the walked tree makes `Analyze` return an error and no graph, and when there
is no traversal error the error wraps the parse error of one of the failing
files.  When no file fails to parse and the traversal reports no error,
`Analyze` returns a graph. -/
theorem parse_failure_aborts (a : GoAnalyzer) (fs : FileSystem) (absDir : String)
    (habs : fs.abs = .ok absDir) :
    (∀ f c rest, walkIssues absDir fs.root = .parse f c :: rest →
      (Analyze a fs).2 =
        .error ("failed to walk directory: " ++ ("failed to parse file " ++ f ++ ": " ++ c))) ∧
    (∀ f c, WalkIssue.parse f c ∈ walkIssues absDir fs.root →
      (∃ msg, (Analyze a fs).2 = .error msg) ∧ ∀ g, (Analyze a fs).2 ≠ .ok g) ∧
    (walkIssues absDir fs.root ≠ [] →
      (∀ i ∈ walkIssues absDir fs.root, i.isParse = true) →
      ∃ f c, WalkIssue.parse f c ∈ walkIssues absDir fs.root ∧
        (Analyze a fs).2 =
          .error ("failed to walk directory: " ++
            ("failed to parse file " ++ f ++ ": " ++ c))) ∧
    (walkIssues absDir fs.root = [] → ∃ g, (Analyze a fs).2 = .ok g) := by
  have h := Analyze_issues a fs absDir habs
  refine ⟨?_, ?_, ?_, ?_⟩
  · intro f c rest heq
    rw [heq] at h
    exact h
  · intro f c hmem
    cases heq : walkIssues absDir fs.root with
    | nil => rw [heq] at hmem; cases hmem
    | cons i rest =>
      rw [heq] at h
      simp only at h
      exact ⟨⟨_, h⟩, fun g hg => by rw [h] at hg; cases hg⟩
  · intro hne hall
    cases heq : walkIssues absDir fs.root with
    | nil => exact absurd heq hne
    | cons i rest =>
      rw [heq] at h hall
      simp only at h
      cases i with
      | traversal msg =>
        have := hall _ (List.mem_cons_self _ _)
        simp [WalkIssue.isParse] at this
      | parse f c => exact ⟨f, c, List.mem_cons_self _ _, h⟩
  · intro heq
    rw [heq] at h
    exact h

theorem parse_failure_aborts_witness :
    brokenFs.abs = .ok "/r" ∧
    ("/r/a.go", ({ Name := "m", Imports := [], Decls := [] } : File)) ∈
      analysedFiles "/r" brokenFs.root ∧
    walkIssues "/r" brokenFs.root =
      [.parse "/r/b.go" "3:1: expected declaration, found x",
       .parse "/r/c.go" "1:1: expected package"] ∧
    (Analyze NewGoAnalyzer brokenFs).2 =
      .error ("failed to walk directory: " ++
        ("failed to parse file " ++ "/r/b.go" ++ ": " ++ "3:1: expected declaration, found x")) ∧
    walkIssues "/r" shapesFs.root = [] ∧
    (∃ g, (Analyze NewGoAnalyzer shapesFs).2 = .ok g) :=
  ⟨rfl,
    (show analysedFiles "/r" brokenFs.root =
      [("/r/a.go", ({ Name := "m", Imports := [], Decls := [] } : File))] from rfl) ▸
        List.mem_singleton.2 rfl,
    by decide,
    (parse_failure_aborts NewGoAnalyzer brokenFs "/r" rfl).1 _ _
      [.parse "/r/c.go" "1:1: expected package"] (by decide),
    by decide,
    (parse_failure_aborts NewGoAnalyzer shapesFs "/r" rfl).2.2.2 (by decide)⟩

/-! ## C17: the classification of the walker -/

/-- C17: the walk from a directory that was read does not descend into it when
it is named `vendor`, `node_modules`, `.git` or `bin`, goes on with the entries
after it, and leaves the tables as they are; it descends into every other
directory.  A file is handed to the parser exactly when its path ends in `.go`
and not in `_test.go`: then the walk returns the parse error, or goes on with
the tables that `parseFile` fills; every other file is skipped without error
and without change. -/
theorem walker_classification (a : GoAnalyzer) (path name : String) :
    (prunedName name = true ↔
      (name = "vendor" ∨ name = "node_modules" ∨ name = ".git" ∨ name = "bin")) ∧
    (∀ children, prunedName name = true →
      walk walkFunc a path (.dir name none children) = (a, .skipDir)) ∧
    (∀ children es, prunedName name = true →
      walkList walkFunc a path (.dir name none children :: es) =
        walkList walkFunc a path es) ∧
    (∀ children, prunedName name = false →
      walk walkFunc a path (.dir name none children) = walkList walkFunc a path children) ∧
    (isSourcePath path = true ↔
      ((∃ stem : String, path = stem ++ ".go") ∧ ¬ ∃ stem : String, path = stem ++ "_test.go")) ∧
    (∀ parsed, isSourcePath path = true →
      walk walkFunc a path (.file name parsed) =
        ((parseFile a path parsed).1,
          match (parseFile a path parsed).2 with
          | some parseErr => .error parseErr
          | none => .ok)) ∧
    (∀ parsed, isSourcePath path = false →
      walk walkFunc a path (.file name parsed) = (a, .ok)) := by
  refine ⟨prunedName_iff name, ?_, ?_, ?_, ?_, ?_, ?_⟩
  · intro children hp
    simp [walk, walkFunc_dir, hp]
  · intro children es hp
    simp [walkList, walk, walkFunc_dir, hp, FsEntry.IsDir]
  · intro children hp
    simp [walk, walkFunc_dir, hp]
  · unfold isSourcePath
    rw [Bool.and_eq_true, HasSuffix_iff, Bool.not_eq_true', ← Bool.not_eq_true, HasSuffix_iff]
  · intro parsed hs
    simp only [walk, walkFunc_file, hs, if_true]
    cases parsed <;> simp [parseFile]
  · intro parsed hs
    simp [walk, walkFunc_file, hs]

theorem walker_classification_witness :
    prunedName "vendor" = true ∧
    walkList walkFunc NewGoAnalyzer "/r"
        [.dir "vendor" none [.file "v.go" (.error "1:1: expected package")]] =
      (NewGoAnalyzer, .ok) ∧
    isSourcePath "/r/a.go" = true ∧ isSourcePath "/r/a_test.go" = false ∧
    walk walkFunc NewGoAnalyzer "/r/a_test.go" (.file "a_test.go" (.error "bad")) =
      (NewGoAnalyzer, .ok) :=
  ⟨by decide,
    ((walker_classification NewGoAnalyzer "/r" "vendor").2.2.1 _ [] (by decide)).trans rfl,
    by decide, by decide,
    (walker_classification NewGoAnalyzer "/r/a_test.go" "a_test.go").2.2.2.2.2.2 _ (by decide)⟩


/-! ## C19: the uses edges of the type-dependency pass -/

theorem useEdgesOf_eq (types : GoMap TypeInfo) (id : String) (ti : TypeInfo) :
    useEdgesOf types id ti =
      (ti.Fields.filter (usesField types ti.Package)).map (useEdge id ti.Package) := by
  unfold useEdgesOf
  induction ti.Fields with
  | nil => simp
  | cons f fs ih =>
    simp only [List.flatMap_cons, List.filter_cons] at ih ⊢
    rw [ih]
    unfold usesField
    cases hp : primitives f.TypeName
    · by_cases hpk : f.TypePkg = ti.Package
      · by_cases hc : types.contains (ti.Package ++ "." ++ f.TypeName) = true
        · simp [hpk, hc, dot_key_ne_empty, useEdge]
        · simp [hpk, hc]
      · simp [hpk]
    · simp

theorem embedEdgesOf_type (types : GoMap TypeInfo) (id : String) (ti : TypeInfo) (e : Edge)
    (he : e ∈ embedEdgesOf types id ti) : e.Type_ = "embeds" := by
  obtain ⟨n, _, _, _, rfl⟩ := (mem_embedEdgesOf types id ti e).1 he
  rfl

/-- C19: the type-dependency pass appends, for every entry `T` of the type
table, the embeds edges of `T` and then one uses edge for each field `f` of
`T` that satisfies the condition, from the id of `T` to
`T.Package + "." + f.TypeName`.  A single field gets its uses edge if and only
if its type name is not primitive, its resolved package is the package of `T`
and `T.Package + "." + f.TypeName` is a key of the type table.  The embeds
edges have the type `embeds`, so the pass emits no other uses edge, and it
changes nothing but the edge list. -/
theorem uses_pass_spec (a : GoAnalyzer) :
    (buildTypeDependencyEdges a).edges.Perm (a.edges ++
      a.types.flatMap (fun t => embedEdgesOf a.types t.1 t.2 ++
        (t.2.Fields.filter (fun f =>
            !primitives f.TypeName && decide (f.TypePkg = t.2.Package) &&
              a.types.contains (t.2.Package ++ "." ++ f.TypeName))).map
          (fun f => { From := t.1, To := t.2.Package ++ "." ++ f.TypeName,
                      Method := "", Type_ := "uses" }))) ∧
    (∀ k, a.types.contains k = true ↔ k ∈ a.types.keys) ∧
    (∀ (id : String) (ti : TypeInfo) (f : FieldInfo), useEdgesOf a.types id { ti with Fields := [f] } =
      if primitives f.TypeName = false ∧ f.TypePkg = ti.Package ∧
          (ti.Package ++ "." ++ f.TypeName) ∈ a.types.keys then
        [{ From := id, To := ti.Package ++ "." ++ f.TypeName, Method := "", Type_ := "uses" }]
      else []) ∧
    (∀ (id : String) (ti : TypeInfo) (f : FieldInfo) (fs : List FieldInfo), useEdgesOf a.types id { ti with Fields := f :: fs } =
      useEdgesOf a.types id { ti with Fields := [f] } ++
        useEdgesOf a.types id { ti with Fields := fs }) ∧
    (∀ (id : String) (ti : TypeInfo), useEdgesOf a.types id { ti with Fields := [] } = []) ∧
    (∀ id ti e, e ∈ embedEdgesOf a.types id ti → e.Type_ = "embeds" ∧ e.Type_ ≠ "uses") ∧
    (buildTypeDependencyEdges a).types = a.types ∧
    (buildTypeDependencyEdges a).nodes = a.nodes := by
  refine ⟨?_, fun k => GoMap.contains_iff _ k, ?_, ?_, ?_, ?_, rfl, rfl⟩
  · simp only [buildTypeDependencyEdges, useEdgesOf_eq]
    exact List.Perm.refl _
  · intro id ti f
    rw [useEdgesOf_eq]
    simp only [List.filter_cons, List.filter_nil, usesField]
    by_cases h : primitives f.TypeName = false ∧ f.TypePkg = ti.Package ∧
        (ti.Package ++ "." ++ f.TypeName) ∈ a.types.keys
    · rw [if_pos h]
      have hc := (GoMap.contains_iff a.types _).2 h.2.2
      simp [h.1, h.2.1, hc, useEdge]
    · rw [if_neg h]
      rw [← GoMap.contains_iff] at h
      have : (!primitives f.TypeName && decide (f.TypePkg = ti.Package) &&
          a.types.contains (ti.Package ++ "." ++ f.TypeName)) = false := by
        cases hp : primitives f.TypeName
        · by_cases hpk : f.TypePkg = ti.Package
          · cases hc : a.types.contains (ti.Package ++ "." ++ f.TypeName)
            · simp
            · exact absurd ⟨hp, hpk, hc⟩ h
          · simp [hpk]
        · simp
      simp [this]
  · intro id ti f fs
    simp [useEdgesOf]
  · intro id ti
    simp [useEdgesOf]
  · intro id ti e he
    have := embedEdgesOf_type a.types id ti e he
    exact ⟨this, by rw [this]; decide⟩


/-! ## C20: fields of a package-qualified type -/

/-- Where a uses edge of the edge passes comes from: a field whose resolved
package is, as a text, the package identity of the owning type. -/
theorem uses_edge_origin (a : GoAnalyzer) (e : Edge) (he : e ∈ passEdges a)
    (ht : e.Type_ = "uses") :
    ∃ t ∈ a.types, ∃ f ∈ t.2.Fields, f.TypePkg = t.2.Package ∧
      primitives f.TypeName = false ∧
      a.types.contains (t.2.Package ++ "." ++ f.TypeName) = true ∧
      e = useEdge t.1 t.2.Package f := by
  rcases (mem_passEdges a e).1 he with h | h | h | h | h | h | h | h
  · obtain ⟨p, _, h⟩ := h
    obtain ⟨_, _, _, rfl⟩ := (mem_importEdgesOf _ _ _ _).1 h
    simp at ht
  · obtain ⟨_, _, rfl⟩ := h
    simp at ht
  · obtain ⟨_, _, rfl⟩ := h
    simp at ht
  · obtain ⟨m, _, h⟩ := h
    obtain ⟨_, rfl⟩ := (mem_methodContainsEdge _ _ _ _).1 h
    simp at ht
  · obtain ⟨f, _, h⟩ := h
    obtain ⟨_, _, _, _, rfl⟩ := (mem_callEdgesOf _ _ _ _ _).1 h
    simp [callEdge] at ht
  · obtain ⟨f, _, h⟩ := h
    obtain ⟨_, _, _, _, rfl⟩ := (mem_callEdgesOf _ _ _ _ _).1 h
    simp [callEdge] at ht
  · obtain ⟨t, htm, h⟩ := h
    obtain ⟨n, hn, hp, hcon, rfl⟩ := (mem_embedEdgesOf _ _ _ _).1 h
    simp at ht
  · obtain ⟨t, htm, h⟩ := h
    obtain ⟨f, hf, hp, hpk, hcon, rfl⟩ := (mem_useEdgesOf _ _ _ _).1 h
    exact ⟨t, htm, f, hf, hpk, hp, hcon, rfl⟩

theorem parseStructField_named (names : List String) (t : Expr) (ti : TypeInfo) (pk : String)
    (hn : names ≠ []) :
    parseStructField { Names := names, Type_ := t } ti pk =
      { ti with Fields := ti.Fields ++ names.map (fun name =>
          { Name := name, TypeName := (resolveTypeName t pk).1,
            TypePkg := (resolveTypeName t pk).2 }) } := by
  unfold parseStructField
  have : ¬ names.length = 0 := fun h => hn (List.length_eq_zero.1 h)
  simp [this]

/-- C20, the claim as stated fails: in the module `geo` the struct `Line` of
the root package has the field `Start` of the type `geo.Point` of an imported
package, and the graph has a uses edge from `Line` to the `Point` that the
root package declares itself. -/
theorem qualified_field_gets_uses_edge :
    ∃ g, (Analyze NewGoAnalyzer geoFs).2 = .ok g ∧
      resolveTypeName (.selectorExpr (.ident "geo") "Point") "geo" = ("Point", "geo") ∧
      ({ From := "geo.Line", To := "geo.Point", Method := "", Type_ := "uses" } : Edge) ∈
        g.Edges :=
  ⟨_, rfl, rfl, by decide⟩

/-- C20, amended: a named field whose type is the qualified name `q.N`,
possibly behind pointer, slice and map wrappers, is recorded with the type name
`N` and the package `q`.  It produces no uses edge when `q` differs from the
package identity of the owning type; when `q` is the same text as that
identity, `N` is not primitive and the owning package declares a type `N`, each
name of the field produces a uses edge to that type.  Every uses edge of a
graph comes from a field whose recorded package is the same text as the
package identity of its owner. -/
theorem qualified_field_uses_edge (types : GoMap TypeInfo) (id : String) (ti : TypeInfo)
    (ws : List Wrapper) (q N : String) (names : List String) (hn : names ≠ []) :
    resolveTypeName (wrapAll ws (.selectorExpr (.ident q) N)) ti.Package = (N, q) ∧
    (parseStructField { Names := names, Type_ := wrapAll ws (.selectorExpr (.ident q) N) }
        { ti with Fields := [] } ti.Package).Fields =
      names.map (fun name => { Name := name, TypeName := N, TypePkg := q }) ∧
    (q ≠ ti.Package →
      useEdgesOf types id
        (parseStructField { Names := names, Type_ := wrapAll ws (.selectorExpr (.ident q) N) }
          { ti with Fields := [] } ti.Package) = []) ∧
    (q = ti.Package → primitives N = false → (ti.Package ++ "." ++ N) ∈ types.keys →
      useEdgesOf types id
        (parseStructField { Names := names, Type_ := wrapAll ws (.selectorExpr (.ident q) N) }
          { ti with Fields := [] } ti.Package) =
        names.map (fun _ =>
          { From := id, To := ti.Package ++ "." ++ N, Method := "", Type_ := "uses" })) ∧
    (∀ (fs : FileSystem) (g : Graph), (Analyze NewGoAnalyzer fs).2 = .ok g →
      ∀ e ∈ g.Edges, e.Type_ = "uses" →
        ∃ t ∈ (Analyze NewGoAnalyzer fs).1.types, ∃ f ∈ t.2.Fields,
          f.TypePkg = t.2.Package ∧ e.From = t.1 ∧
          e.To = t.2.Package ++ "." ++ f.TypeName) := by
  have hr : resolveTypeName (wrapAll ws (.selectorExpr (.ident q) N)) ti.Package = (N, q) := by
    rw [resolveTypeName_wrapAll]
    rfl
  refine ⟨hr, ?_, ?_, ?_, ?_⟩
  · rw [parseStructField_named _ _ _ _ hn, hr]
    simp
  · intro hq
    rw [parseStructField_named _ _ _ _ hn, hr, useEdgesOf_eq]
    simp [usesField, hq]
  · intro hq hp hk
    have hc := (GoMap.contains_iff types _).2 hk
    rw [parseStructField_named _ _ _ _ hn, hr, useEdgesOf_eq]
    rw [hq]
    generalize ti.Package = q at hc
    have hf : ∀ l : List String,
        (l.map (fun name => ({ Name := name, TypeName := N, TypePkg := q } : FieldInfo))).filter
          (usesField types q) =
        l.map (fun name => ({ Name := name, TypeName := N, TypePkg := q } : FieldInfo)) := by
      intro l
      rw [List.filter_eq_self]
      intro f hf
      obtain ⟨_, _, rfl⟩ := List.mem_map.1 hf
      simp [usesField, hp, hc]
    simp only [List.nil_append]
    rw [hf, List.map_map]
    rfl
  · intro fs g h e he ht
    obtain ⟨_, hedges, _⟩ := Analyze_fresh_graph fs g h
    rw [hedges] at he
    obtain ⟨t, htm, f, hf, hpk, _, _, rfl⟩ := uses_edge_origin _ e he ht
    exact ⟨t, htm, f, hf, hpk, rfl, rfl⟩

theorem qualified_field_uses_edge_witness :
    (["Start"] : List String) ≠ [] ∧
    useEdgesOf (Analyze NewGoAnalyzer geoFs).1.types "geo.Line"
      (parseStructField
        { Names := ["Start"], Type_ := wrapAll [.pointer] (.selectorExpr (.ident "fmt") "Point") }
        { Name := "Line", Package := "geo", Kind := "struct", File := "/r/main.go", Line := 7,
          Fields := [], Embeds := [], Implements := [] } "geo") = [] :=
  ⟨by decide,
    (qualified_field_uses_edge (Analyze NewGoAnalyzer geoFs).1.types "geo.Line"
      { Name := "Line", Package := "geo", Kind := "struct", File := "/r/main.go", Line := 7,
        Fields := [], Embeds := [], Implements := [] }
      [.pointer] "fmt" "Point" ["Start"] (by decide)).2.2.1 (by decide)⟩


/-! ## The edges of one type among the edges of the passes -/

theorem dot_key_eq_iff (p n m : String) : p ++ "." ++ n = p ++ "." ++ m ↔ n = m :=
  ⟨dot_key_left_cancel, fun h => by rw [h]⟩

theorem filter_eq_nil_of {α : Type} (p : α → Bool) (l : List α) (h : ∀ x ∈ l, p x = false) :
    l.filter p = [] := by
  rw [List.filter_eq_nil_iff]
  intro x hx
  simp [h x hx]

theorem filter_eq_self_of {α : Type} (p : α → Bool) (l : List α) (h : ∀ x ∈ l, p x = true) :
    l.filter p = l :=
  List.filter_eq_self.2 h

/-- The nodes of the four tables that are function nodes. -/
theorem filter_function_nodes (a : GoAnalyzer) :
    (a.packages.map packageNode ++ (a.types.map typeNode ++
      (a.functions.map functionNode ++ a.methods.map methodNode))).filter
        (fun n => decide (n.Entity = "function")) = a.functions.map functionNode := by
  rw [List.filter_append, List.filter_append, List.filter_append]
  rw [filter_eq_nil_of _ (a.packages.map packageNode), filter_eq_nil_of _ (a.types.map typeNode),
    filter_eq_self_of _ (a.functions.map functionNode),
    filter_eq_nil_of _ (a.methods.map methodNode)]
  · simp
  · intro n hn
    obtain ⟨e, _, rfl⟩ := List.mem_map.1 hn
    simp [methodNode]
  · intro n hn
    obtain ⟨e, _, rfl⟩ := List.mem_map.1 hn
    simp [functionNode]
  · intro n hn
    obtain ⟨e, _, rfl⟩ := List.mem_map.1 hn
    rcases typeNode_entity e with h | h <;> simp [h]
  · intro n hn
    obtain ⟨e, _, rfl⟩ := List.mem_map.1 hn
    simp [packageNode]

/-- The calls edges among the edges of the passes. -/
theorem passEdges_filter_calls (a : GoAnalyzer) :
    (passEdges a).filter (fun e => decide (e.Type_ = "calls")) =
      a.functions.flatMap (fun e => callEdgesOf a e.1 e.2.Package e.2.Calls) ++
      a.methods.flatMap (fun e => callEdgesOf a e.1 e.2.Package e.2.Calls) := by
  unfold passEdges
  simp only [List.filter_append]
  rw [filter_eq_nil_of _ (a.packages.flatMap _), filter_eq_nil_of _ (a.types.map _),
    filter_eq_nil_of _ (a.functions.map _), filter_eq_nil_of _ (a.methods.flatMap _),
    filter_eq_self_of _ (a.functions.flatMap _), filter_eq_self_of _ (a.methods.flatMap _),
    filter_eq_nil_of _ (a.types.flatMap _)]
  · simp
  · intro e he
    obtain ⟨t, _, h⟩ := List.mem_flatMap.1 he
    rcases List.mem_append.1 h with h | h
    · obtain ⟨_, _, _, _, rfl⟩ := (mem_embedEdgesOf _ _ _ _).1 h
      simp
    · obtain ⟨_, _, _, _, _, rfl⟩ := (mem_useEdgesOf _ _ _ _).1 h
      simp
  · intro e he
    obtain ⟨m, _, h⟩ := List.mem_flatMap.1 he
    obtain ⟨_, _, _, _, rfl⟩ := (mem_callEdgesOf _ _ _ _ _).1 h
    simp [callEdge]
  · intro e he
    obtain ⟨f, _, h⟩ := List.mem_flatMap.1 he
    obtain ⟨_, _, _, _, rfl⟩ := (mem_callEdgesOf _ _ _ _ _).1 h
    simp [callEdge]
  · intro e he
    obtain ⟨m, _, h⟩ := List.mem_flatMap.1 he
    obtain ⟨_, rfl⟩ := (mem_methodContainsEdge _ _ _ _).1 h
    simp
  · intro e he
    obtain ⟨f, _, rfl⟩ := List.mem_map.1 he
    simp
  · intro e he
    obtain ⟨t, _, rfl⟩ := List.mem_map.1 he
    simp
  · intro e he
    obtain ⟨p, _, h⟩ := List.mem_flatMap.1 he
    obtain ⟨_, _, _, rfl⟩ := (mem_importEdgesOf _ _ _ _).1 h
    simp

/-- The embeds edges from the type `id` among the type-dependency edges. -/
theorem filter_embeds_types (types : GoMap TypeInfo) (id : String) (l : List (String × TypeInfo)) :
    (l.flatMap (fun e => embedEdgesOf types e.1 e.2 ++ useEdgesOf types e.1 e.2)).filter
        (fun e => decide (e.Type_ = "embeds") && decide (e.From = id)) =
      (l.filter (fun t => decide (t.1 = id))).flatMap
        (fun t => embedEdgesOf types t.1 t.2) := by
  induction l with
  | nil => rfl
  | cons t ts ih =>
    simp only [List.flatMap_cons, List.filter_append, List.filter_cons]
    rw [ih, filter_eq_nil_of _ (useEdgesOf _ _ _)]
    · by_cases ht : t.1 = id
      · rw [filter_eq_self_of _ (embedEdgesOf _ _ _)]
        · simp [ht]
        · intro e he
          obtain ⟨_, _, _, _, rfl⟩ := (mem_embedEdgesOf _ _ _ _).1 he
          simp [ht]
      · rw [filter_eq_nil_of _ (embedEdgesOf _ _ _)]
        · simp [ht]
        · intro e he
          obtain ⟨_, _, _, _, rfl⟩ := (mem_embedEdgesOf _ _ _ _).1 he
          simp [ht]
    · intro e he
      obtain ⟨_, _, _, _, _, rfl⟩ := (mem_useEdgesOf _ _ _ _).1 he
      simp

/-- The embeds edges from the type `id` among the edges of the passes. -/
theorem passEdges_filter_embeds (a : GoAnalyzer) (id : String) :
    (passEdges a).filter (fun e => decide (e.Type_ = "embeds") && decide (e.From = id)) =
      (a.types.filter (fun t => decide (t.1 = id))).flatMap
        (fun t => embedEdgesOf a.types t.1 t.2) := by
  unfold passEdges
  simp only [List.filter_append]
  rw [filter_eq_nil_of _ (a.packages.flatMap _), filter_eq_nil_of _ (a.types.map _),
    filter_eq_nil_of _ (a.functions.map _), filter_eq_nil_of _ (a.methods.flatMap _),
    filter_eq_nil_of _ (a.functions.flatMap _), filter_eq_nil_of _ (a.methods.flatMap _)]
  · simp only [List.nil_append]
    exact filter_embeds_types a.types id a.types
  · intro e he
    obtain ⟨m, _, h⟩ := List.mem_flatMap.1 he
    obtain ⟨_, _, _, _, rfl⟩ := (mem_callEdgesOf _ _ _ _ _).1 h
    simp [callEdge]
  · intro e he
    obtain ⟨f, _, h⟩ := List.mem_flatMap.1 he
    obtain ⟨_, _, _, _, rfl⟩ := (mem_callEdgesOf _ _ _ _ _).1 h
    simp [callEdge]
  · intro e he
    obtain ⟨m, _, h⟩ := List.mem_flatMap.1 he
    obtain ⟨_, rfl⟩ := (mem_methodContainsEdge _ _ _ _).1 h
    simp
  · intro e he
    obtain ⟨f, _, rfl⟩ := List.mem_map.1 he
    simp
  · intro e he
    obtain ⟨t, _, rfl⟩ := List.mem_map.1 he
    simp
  · intro e he
    obtain ⟨p, _, h⟩ := List.mem_flatMap.1 he
    obtain ⟨_, _, _, rfl⟩ := (mem_importEdgesOf _ _ _ _).1 h
    simp


/-! ## Scenario A: the tables and the graph -/

/-- The analysis of a tree that holds one source file. -/
theorem Analyze_single_file (absDir dname fname : String) (goMod : Option String) (file : File)
    (hdir : prunedName dname = false)
    (hsrc : isSourcePath (filepath.Join absDir fname) = true) :
    Analyze NewGoAnalyzer
        { abs := .ok absDir, goMod := goMod, root := .dir dname none [.file fname (.ok file)] } =
      (buildGraph (parseFileNode (startAnalyzer absDir (detectModulePath goMod))
          (filepath.Join absDir fname) file),
        .ok { Nodes := (buildGraph (parseFileNode (startAnalyzer absDir (detectModulePath goMod))
                (filepath.Join absDir fname) file)).nodes,
              Edges := (buildGraph (parseFileNode (startAnalyzer absDir (detectModulePath goMod))
                (filepath.Join absDir fname) file)).edges }) := by
  have hstart : ({ ({ NewGoAnalyzer with baseDir := absDir } : GoAnalyzer) with
      modulePath := detectModulePath goMod } : GoAnalyzer) =
      startAnalyzer absDir (detectModulePath goMod) := rfl
  simp only [Analyze, Walk, walk, walkFunc_dir, hdir, walkList, FsEntry.Name, walkFunc_file,
    hsrc, hstart, Bool.false_eq_true, if_false, if_true, Option.isSome_none, false_or, ne_eq,
    not_true_eq_false]

/-- The tables are empty before the declarations of the first file. -/
theorem tables_before_decls (a : GoAnalyzer) (pk name dir : String) (imps : List String) :
    (imps.foldl (fun a imp => addImport a pk imp) (ensurePackage a pk name dir)).types =
      a.types ∧
    (imps.foldl (fun a imp => addImport a pk imp) (ensurePackage a pk name dir)).functions =
      a.functions ∧
    (imps.foldl (fun a imp => addImport a pk imp) (ensurePackage a pk name dir)).methods =
      a.methods := by
  refine foldl_inv (fun b : GoAnalyzer => b.types = a.types ∧ b.functions = a.functions ∧
    b.methods = a.methods) _ imps _ ?_ ?_
  · intro b imp _ hb
    have h := addImport_fields b pk imp
    exact ⟨h.1.trans hb.1, h.2.1.trans hb.2.1, h.2.2.1.trans hb.2.2⟩
  · have h := ensurePackage_fields a pk name dir
    exact ⟨h.1, h.2.1, h.2.2.1⟩

/-- The function and method tables of scenario A. -/
theorem scenario_functions (s : ScenarioA) (a : GoAnalyzer) (fn : String)
    (hf : a.functions = []) (hm : a.methods = []) (hne : s.caller ≠ s.callee) :
    (parseFileNode a fn s.file).functions =
      [ (filePkgPath a fn ++ "." ++ s.caller,
          { Name := s.caller, Package := filePkgPath a fn, File := fn, Line := 20,
            Calls := bodyCalls s.callerBody }),
        (filePkgPath a fn ++ "." ++ s.callee,
          { Name := s.callee, Package := filePkgPath a fn, File := fn, Line := 30,
            Calls := bodyCalls s.calleeBody }) ] ∧
    (parseFileNode a fn s.file).methods = [] := by
  have h0 := tables_before_decls a (filePkgPath a fn) s.pkgName (filepath.Dir fn) s.pkgImports
  rw [hf, hm] at h0
  have hk : ¬ filePkgPath a fn ++ "." ++ s.caller = filePkgPath a fn ++ "." ++ s.callee :=
    fun h => hne (dot_key_left_cancel h)
  unfold parseFileNode
  simp only [ScenarioA.file, ScenarioA.decls]
  cases s.other <;>
    simp [parseDecl, parseGenDecl, parseFuncDecl, GoMap.insert, h0.2.1, h0.2.2, hk]

/-- The type table of scenario A. -/
theorem scenario_types (s : ScenarioA) (a : GoAnalyzer) (fn : String) (ht : a.types = [])
    (hother : ∀ ts, s.other = some ts → ts.Name ≠ s.record) :
    (parseFileNode a fn s.file).types =
      (filePkgPath a fn ++ "." ++ s.record, parseTypeSpec s.recordSpec (filePkgPath a fn) fn) ::
        (match s.other with
         | some ts => [(filePkgPath a fn ++ "." ++ ts.Name, parseTypeSpec ts (filePkgPath a fn) fn)]
         | none => []) := by
  have h0 := tables_before_decls a (filePkgPath a fn) s.pkgName (filepath.Dir fn) s.pkgImports
  rw [ht] at h0
  unfold parseFileNode
  simp only [ScenarioA.file, ScenarioA.decls]
  cases ho : s.other with
  | none =>
    simp [parseDecl, parseGenDecl, parseFuncDecl, GoMap.insert, h0.1, ScenarioA.recordSpec]
  | some ts =>
    have hk : ¬ filePkgPath a fn ++ "." ++ s.record = filePkgPath a fn ++ "." ++ ts.Name :=
      fun h => hother ts ho (dot_key_left_cancel h).symm
    simp [parseDecl, parseGenDecl, parseFuncDecl, GoMap.insert, h0.1, hk, ScenarioA.recordSpec]

/-- The record of scenario A is stored with the short name of its embedded
field. -/
theorem scenario_record (s : ScenarioA) (pk fn : String) :
    (parseTypeSpec s.recordSpec pk fn).Embeds = [s.embeddedName pk] ∧
    (parseTypeSpec s.recordSpec pk fn).Package = pk ∧
    (parseTypeSpec s.recordSpec pk fn).Kind = "struct" := by
  simp [parseTypeSpec, ScenarioA.recordSpec, parseStructField, ScenarioA.embeddedName]


/-! ## C18: scenario A -/

/-- Whether a key is in the function table of scenario A. -/
theorem scenario_function_key (s : ScenarioA) (pk fn : String) (target : String) :
    GoMap.contains
      [ (pk ++ "." ++ s.caller,
          ({ Name := s.caller, Package := pk, File := fn, Line := 20,
             Calls := bodyCalls s.callerBody } : FunctionInfo)),
        (pk ++ "." ++ s.callee,
          { Name := s.callee, Package := pk, File := fn, Line := 30,
            Calls := bodyCalls s.calleeBody }) ] (pk ++ "." ++ target) =
      (decide (target = s.caller) || decide (target = s.callee)) := by
  by_cases h1 : target = s.caller
  · simp [GoMap.contains, GoMap.get?, h1]
  · by_cases h2 : target = s.callee
    · simp only [GoMap.contains, GoMap.get?, h2]
      split <;> simp
    · have h1' : ¬ s.caller = target := fun h => h1 h.symm
      have h2' : ¬ s.callee = target := fun h => h2 h.symm
      simp [GoMap.contains, GoMap.get?, dot_key_eq_iff, h1, h2, h1', h2']

/-- C18, the code at a record whose embedded type is not declared in the
file: the record `Client` embeds the type `http.Client` of another package,
the file declares no further type, and the graph has an embeds edge all the
same, from `Client` to itself, where scenario A expects none. -/
theorem embeds_edge_without_declaration :
    ∃ g, (Analyze NewGoAnalyzer
        (clientScenario.fs "/r" "r" "client.go" (some "module example.com/api\n"))).2 = .ok g ∧
      clientScenario.embedded = .selectorExpr (.ident "http") "Client" ∧
      clientScenario.other = none ∧
      g.Edges.filter (fun e => decide (e.Type_ = "embeds")) =
        [{ From := "example.com/api.Client", To := "example.com/api.Client", Method := "",
           Type_ := "embeds" }] :=
  ⟨_, rfl, rfl, rfl, by decide⟩

/-- The graph that the code builds in scenario A, a package of one file with
a record that has one embedded field and two typed fields, possibly one
further type of another name, and two free functions of which the first calls
the second once and neither calls any other way one of the two: exactly the
two function nodes, the package node, a contains edge from the package to each
function, and exactly one calls edge, from the caller to the callee.  The
embedded field is looked up by its short name in the package of the record:
the record gets its embeds edge when that name is not primitive and a type of
that name is declared in the file. -/
theorem scenario_A_graph (s : ScenarioA) (absDir dname fname : String) (goMod : Option String)
    (hdir : prunedName dname = false)
    (hsrc : isSourcePath (filepath.Join absDir fname) = true)
    (hne : s.caller ≠ s.callee)
    (hother : ∀ ts, s.other = some ts → ts.Name ≠ s.record)
    (c : CallInfo) (hc : (bodyCalls s.callerBody).filter s.bare = [c])
    (hct : c.Target = s.callee)
    (hg : (bodyCalls s.calleeBody).filter s.bare = []) :
    ∃ g, (Analyze NewGoAnalyzer (s.fs absDir dname fname goMod)).2 = .ok g ∧
      g.Nodes.filter (fun n => decide (n.Entity = "function")) =
        [ { ID := ScenarioA.pkg absDir fname goMod ++ "." ++ s.caller, Title := s.caller,
            Entity := "function" },
          { ID := ScenarioA.pkg absDir fname goMod ++ "." ++ s.callee, Title := s.callee,
            Entity := "function" } ] ∧
      ({ ID := ScenarioA.pkg absDir fname goMod, Title := s.pkgName, Entity := "package" } :
        Node) ∈ g.Nodes ∧
      ({ From := ScenarioA.pkg absDir fname goMod,
         To := ScenarioA.pkg absDir fname goMod ++ "." ++ s.caller,
         Method := "", Type_ := "contains" } : Edge) ∈ g.Edges ∧
      ({ From := ScenarioA.pkg absDir fname goMod,
         To := ScenarioA.pkg absDir fname goMod ++ "." ++ s.callee,
         Method := "", Type_ := "contains" } : Edge) ∈ g.Edges ∧
      g.Edges.filter (fun e => decide (e.Type_ = "calls")) =
        [ { From := ScenarioA.pkg absDir fname goMod ++ "." ++ s.caller,
            To := ScenarioA.pkg absDir fname goMod ++ "." ++ s.callee,
            Method := s.callee, Type_ := "calls" } ] ∧
      g.Edges.filter (fun e => decide (e.Type_ = "embeds") &&
          decide (e.From = ScenarioA.pkg absDir fname goMod ++ "." ++ s.record)) =
        if primitives (s.embeddedName (ScenarioA.pkg absDir fname goMod)) = false ∧
            (s.embeddedName (ScenarioA.pkg absDir fname goMod) = s.record ∨
              s.other.map TypeSpec.Name =
                some (s.embeddedName (ScenarioA.pkg absDir fname goMod))) then
          [ { From := ScenarioA.pkg absDir fname goMod ++ "." ++ s.record,
              To := ScenarioA.pkg absDir fname goMod ++ "." ++
                s.embeddedName (ScenarioA.pkg absDir fname goMod),
              Method := "", Type_ := "embeds" } ]
        else [] := by
  have hA := Analyze_single_file absDir dname fname goMod s.file hdir hsrc
  have hfs : s.fs absDir dname fname goMod =
      { abs := .ok absDir, goMod := goMod,
        root := .dir dname none [.file fname (.ok s.file)] } := rfl
  rw [hfs, hA]
  refine ⟨_, rfl, ?_⟩
  simp only
  have hsc := parseFileNode_scalars (startAnalyzer absDir (detectModulePath goMod))
    (filepath.Join absDir fname) s.file
  have hfun := scenario_functions s (startAnalyzer absDir (detectModulePath goMod))
    (filepath.Join absDir fname) rfl rfl hne
  have hty := scenario_types s (startAnalyzer absDir (detectModulePath goMod))
    (filepath.Join absDir fname) rfl hother
  have hpk := (parseFileNode_packages (startAnalyzer absDir (detectModulePath goMod))
    (filepath.Join absDir fname) s.file).2.1 rfl
  have hrec := scenario_record s (ScenarioA.pkg absDir fname goMod) (filepath.Join absDir fname)
  have hpkdef : filePkgPath (startAnalyzer absDir (detectModulePath goMod))
      (filepath.Join absDir fname) = ScenarioA.pkg absDir fname goMod := rfl
  rw [hpkdef] at hfun hty hpk
  rw [buildGraph_nodes, buildGraph_edges, hsc.1, hsc.2.1]
  generalize parseFileNode (startAnalyzer absDir (detectModulePath goMod))
    (filepath.Join absDir fname) s.file = a1 at hfun hty hpk
  generalize ScenarioA.pkg absDir fname goMod = pk at hfun hty hpk hrec
  have hn0 : (startAnalyzer absDir (detectModulePath goMod)).nodes = [] := rfl
  have he0 : (startAnalyzer absDir (detectModulePath goMod)).edges = [] := rfl
  rw [hn0, he0]
  simp only [List.nil_append]
  refine ⟨?_, ?_, ?_, ?_, ?_, ?_⟩
  · rw [filter_function_nodes, hfun.1]
    rfl
  · have hmem := GoMap.mem_of_get?_eq_some _ _ _ hpk
    exact List.mem_append_left _ (List.mem_map.2 ⟨_, hmem, rfl⟩)
  · refine (mem_passEdges a1 _).2 (Or.inr (Or.inr (Or.inl
      ⟨(pk ++ "." ++ s.caller,
        { Name := s.caller, Package := pk, File := filepath.Join absDir fname, Line := 20,
          Calls := bodyCalls s.callerBody }), ?_, rfl⟩)))
    rw [hfun.1]
    exact List.mem_cons_self _ _
  · refine (mem_passEdges a1 _).2 (Or.inr (Or.inr (Or.inl
      ⟨(pk ++ "." ++ s.callee,
        { Name := s.callee, Package := pk, File := filepath.Join absDir fname, Line := 30,
          Calls := bodyCalls s.calleeBody }), ?_, rfl⟩)))
    rw [hfun.1]
    exact List.mem_cons_of_mem _ (List.mem_cons_self _ _)
  · rw [passEdges_filter_calls, hfun.2, hfun.1]
    simp only [List.flatMap_cons, List.flatMap_nil, List.append_nil, callEdgesOf_eq, hfun.1]
    have hpred : (fun c : CallInfo => !c.IsMethod &&
        GoMap.contains
          [ (pk ++ "." ++ s.caller,
              ({ Name := s.caller, Package := pk, File := filepath.Join absDir fname, Line := 20,
                 Calls := bodyCalls s.callerBody } : FunctionInfo)),
            (pk ++ "." ++ s.callee,
              { Name := s.callee, Package := pk, File := filepath.Join absDir fname, Line := 30,
                Calls := bodyCalls s.calleeBody }) ] (pk ++ "." ++ c.Target)) = s.bare := by
      funext c
      rw [scenario_function_key]
      rfl
    rw [hpred, hc, hg]
    simp [callEdge, hct]
  · rw [passEdges_filter_embeds, hty]
    have hfilter : ((pk ++ "." ++ s.record,
          parseTypeSpec s.recordSpec pk (filepath.Join absDir fname)) ::
        (match s.other with
         | some ts => [(pk ++ "." ++ ts.Name, parseTypeSpec ts pk (filepath.Join absDir fname))]
         | none => [])).filter (fun t => decide (t.1 = pk ++ "." ++ s.record)) =
        [(pk ++ "." ++ s.record, parseTypeSpec s.recordSpec pk (filepath.Join absDir fname))] := by
      cases ho : s.other with
      | none => simp
      | some ts =>
        have := hother ts ho
        simp [dot_key_eq_iff, this]
    rw [hfilter]
    simp only [List.flatMap_cons, List.flatMap_nil, List.append_nil, embedEdgesOf, hrec.1,
      hrec.2.1]
    cases hp : primitives (s.embeddedName pk)
    · cases ho : s.other with
      | none =>
        by_cases hE : s.embeddedName pk = s.record
        · simp [GoMap.contains, GoMap.get?, hE]
        · have hE' : ¬ s.record = s.embeddedName pk := fun h => hE h.symm
          simp [GoMap.contains, GoMap.get?, dot_key_eq_iff, hE, hE']
      | some ts =>
        by_cases hE : s.embeddedName pk = s.record
        · simp [GoMap.contains, GoMap.get?, hE]
        · have hE' : ¬ s.record = s.embeddedName pk := fun h => hE h.symm
          by_cases hT : ts.Name = s.embeddedName pk
          · simp [GoMap.contains, GoMap.get?, dot_key_eq_iff, hE, hE', hT]
          · simp [GoMap.contains, GoMap.get?, dot_key_eq_iff, hE, hE', hT]
    · simp

theorem scenario_A_graph_witness :
    prunedName "r" = false ∧ isSourcePath (filepath.Join "/r" "shapes.go") = true ∧
    baseScenario.caller ≠ baseScenario.callee ∧
    ∃ g, (Analyze NewGoAnalyzer
        (baseScenario.fs "/r" "r" "shapes.go" (some "module example.com/m\n"))).2 = .ok g ∧
      g.Edges.filter (fun e => decide (e.Type_ = "calls")) =
        [ { From := "example.com/m.Area", To := "example.com/m.helper", Method := "helper",
            Type_ := "calls" } ] ∧
      g.Edges.filter (fun e => decide (e.Type_ = "embeds") &&
          decide (e.From = "example.com/m.Shape")) =
        [ { From := "example.com/m.Shape", To := "example.com/m.Base", Method := "",
            Type_ := "embeds" } ] :=
  ⟨by decide, by decide, by decide,
    let ⟨g, h, _, _, _, _, hcalls, hembeds⟩ :=
      scenario_A_graph baseScenario "/r" "r" "shapes.go" (some "module example.com/m\n")
        (by decide) (by decide) (by decide)
        (by intro ts h; cases h; decide)
        { Target := "helper", IsMethod := false, Receiver := "", Line := 21 } rfl rfl rfl
    ⟨g, h, hcalls, hembeds.trans (by decide)⟩⟩


/-! ## C21: embedded fields of a package-qualified type -/

/-- C21, the code at a record that embeds a type of another package: an
embedded field of the qualified type `q.N`, behind any pointer, slice or map
wrappers, is stored in `Embeds` as the short name `N` alone, the qualifier is
not kept; in the module `example.com/app` the record `Service` of the package
`store` embeds `config.Config`, and the graph has an embeds edge from `Service`
to the `Config` that `store` declares itself. -/
theorem embedded_qualified_type_gets_edge :
    (∀ (ws : List Wrapper) (q N : String) (ti : TypeInfo) (pk : String),
      (parseStructField { Names := [], Type_ := wrapAll ws (.selectorExpr (.ident q) N) }
        ti pk).Embeds = ti.Embeds ++ [N]) ∧
    (∃ ti, (Analyze NewGoAnalyzer storeFs).1.types.get? "example.com/app/store.Service" =
        some ti ∧ ti.Embeds = ["Config"] ∧ ti.Fields = []) ∧
    ∃ g, (Analyze NewGoAnalyzer storeFs).2 = .ok g ∧
      g.Edges.filter (fun e => decide (e.Type_ = "embeds")) =
        [{ From := "example.com/app/store.Service", To := "example.com/app/store.Config",
           Method := "", Type_ := "embeds" }] := by
  refine ⟨?_, ⟨_, rfl, rfl, rfl⟩, _, rfl, by decide⟩
  intro ws q N ti pk
  simp [parseStructField, resolveTypeName_wrapAll, resolveTypeName]


/-! ## C22: the call-sites of a body -/

theorem classifyCall_eq (fn : AstNode) (line : Nat) :
    classifyCall fn line = (callSite fn line).toList := by
  unfold classifyCall callSite
  split
  · rename_i name
    cases h : isBuiltin name <;> simp
  · rfl
  · rfl

mutual
theorem collectCalls_eq : (n : AstNode) →
    collectCalls n = (callExprs n).filterMap (fun p => callSite p.1 p.2)
  | .ident _ => by simp [collectCalls, callExprs]
  | .selectorExpr x _ => by
    simp only [collectCalls, callExprs]
    exact collectCalls_eq x
  | .callExpr fn args line => by
    simp only [collectCalls, callExprs, List.filterMap_cons, List.filterMap_append,
      classifyCall_eq, ← collectCalls_eq fn, ← collectCallsList_eq args]
    cases callSite fn line <;> simp
  | .other children => by
    simp only [collectCalls, callExprs]
    exact collectCallsList_eq children
theorem collectCallsList_eq : (ns : List AstNode) →
    collectCallsList ns = (callExprsList ns).filterMap (fun p => callSite p.1 p.2)
  | [] => by simp [collectCallsList, callExprsList]
  | n :: ns => by
    simp only [collectCallsList, callExprsList, List.filterMap_append,
      ← collectCalls_eq n, ← collectCallsList_eq ns]
end

/-- C22: for every body, `collectCalls` returns the call-sites of the call
expressions of the body in pre-order, at most one for each call expression,
wherever the call expression occurs: in a nested block or statement, inside a
function literal, in the callee or among the arguments of another call.  A
bare identifier that is no builtin name gives a free-function call-site with
that name; a selector on a simple identifier gives a method-style call-site
with the selector name and the identifier; a builtin callee, a deeper selector
chain and every other callee give none.  A declaration without a body has no
call-sites. -/
theorem collectCalls_spec :
    (∀ body, collectCalls body = (callExprs body).filterMap (fun p => callSite p.1 p.2)) ∧
    (∀ fn args line, callExprs (.callExpr fn args line) =
      (fn, line) :: (callExprs fn ++ callExprsList args)) ∧
    (∀ children, callExprs (.other children) = children.flatMap callExprs) ∧
    (∀ name line, isBuiltin name = false → callSite (.ident name) line =
      some { Target := name, IsMethod := false, Receiver := "", Line := line }) ∧
    (∀ name line, isBuiltin name = true → callSite (.ident name) line = none) ∧
    (∀ x sel line, callSite (.selectorExpr (.ident x) sel) line =
      some { Target := sel, IsMethod := true, Receiver := x, Line := line }) ∧
    (∀ x sel sel2 line, callSite (.selectorExpr (.selectorExpr x sel) sel2) line = none) ∧
    (∀ fn args l sel line, callSite (.selectorExpr (.callExpr fn args l) sel) line = none) ∧
    (∀ children sel line, callSite (.selectorExpr (.other children) sel) line = none) ∧
    (∀ fn args l line, callSite (.callExpr fn args l) line = none) ∧
    (∀ children line, callSite (.other children) line = none) ∧
    bodyCalls none = [] ∧ (∀ body, bodyCalls (some body) = collectCalls body) := by
  refine ⟨collectCalls_eq, fun _ _ _ => by simp [callExprs], ?_, ?_, ?_, fun _ _ _ => rfl,
    fun _ _ _ _ => rfl, fun _ _ _ _ _ => rfl, fun _ _ _ => rfl, fun _ _ _ _ => rfl,
    fun _ _ => rfl, rfl, fun _ => rfl⟩
  · intro children
    simp only [callExprs]
    induction children with
    | nil => simp [callExprsList]
    | cons n ns ih => simp [callExprsList, ih]
  · intro name line h
    simp [callSite, h]
  · intro name line h
    simp [callSite, h]

theorem collectCalls_spec_witness :
    isBuiltin "run" = false ∧ isBuiltin "len" = true ∧
    collectCalls nestedBody =
      [ { Target := "run", IsMethod := false, Receiver := "", Line := 4 },
        { Target := "Println", IsMethod := true, Receiver := "fmt", Line := 9 },
        { Target := "helper", IsMethod := false, Receiver := "", Line := 9 } ] :=
  ⟨by decide, by decide, (collectCalls_spec.1 nestedBody).trans (by decide)⟩


/-! ## C27: fields of an unhandled shape -/

/-- No key of the type table ends in a dot when every declared type has a
name. -/
theorem no_empty_type_key (a : GoAnalyzer) (hs : SymbolsOk a)
    (hne : ∀ t ∈ a.types, t.2.Name ≠ "") (pk : String) :
    a.types.contains (pk ++ "." ++ "") = false := by
  cases hc : a.types.contains (pk ++ "." ++ "") with
  | false => rfl
  | true =>
    obtain ⟨target, hmem, _, hname⟩ := resolved_type a hs pk "" (by decide) hc
    exact absurd hname (hne _ hmem)

/-- C27, the claim as stated fails: the record `Hub` embeds the generic type
`Base[int]` and has fields of a channel type and of a function type; its
entry has one field entry for each of the three names and one embedding entry,
all with the empty type name. -/
theorem unhandled_field_not_dropped :
    (Expr.indexExpr (.ident "Base") (.ident "int")).handled = false ∧
    (Expr.chanType (.ident "Event")).handled = false ∧ Expr.funcType.handled = false ∧
    ∃ ti, (Analyze NewGoAnalyzer hubFs).1.types.get? "m.Hub" = some ti ∧
      ti.Fields =
        [ { Name := "events", TypeName := "", TypePkg := "" },
          { Name := "done", TypeName := "", TypePkg := "" },
          { Name := "quit", TypeName := "", TypePkg := "" } ] ∧
      ti.Embeds = [""] :=
  ⟨rfl, rfl, rfl, _, rfl, rfl, rfl⟩

/-- C27, amended: a record field whose type `resolveTypeName` maps to the
empty pair (a channel, a function type, an instantiated generic type and every
other unhandled shape) is not dropped from the lists: an embedded field adds
the empty name to the embedding list, a named field adds one field entry with
the empty type name and package for each of its names.  It is dropped only
downstream: when every declared type has a name, the entry gets no embeds and
no uses edge from it. -/
theorem unhandled_field_recorded_empty (e : Expr) (pk : String) (ti : TypeInfo)
    (names : List String) (hr : resolveTypeName e pk = ("", "")) :
    (∀ x : Expr, x.handled = false → resolveTypeName x pk = ("", "")) ∧
    (parseStructField { Names := [], Type_ := e } ti pk =
      { ti with Embeds := ti.Embeds ++ [""] }) ∧
    (names ≠ [] → parseStructField { Names := names, Type_ := e } ti pk =
      { ti with Fields := ti.Fields ++
          names.map (fun name => { Name := name, TypeName := "", TypePkg := "" }) }) ∧
    (∀ (a : GoAnalyzer) (id : String), SymbolsOk a → (∀ t ∈ a.types, t.2.Name ≠ "") →
      embedEdgesOf a.types id (parseStructField { Names := [], Type_ := e } ti pk) =
        embedEdgesOf a.types id ti ∧
      useEdgesOf a.types id (parseStructField { Names := names, Type_ := e } ti pk) =
        useEdgesOf a.types id ti) := by
  have hemb : parseStructField { Names := [], Type_ := e } ti pk =
      { ti with Embeds := ti.Embeds ++ [""] } := by
    simp [parseStructField, hr]
  refine ⟨fun x hx => resolveTypeName_unhandled pk x hx, hemb, ?_, ?_⟩
  · intro hn
    rw [parseStructField_named _ _ _ _ hn, hr]
  · intro a id hs hne
    have hkey := no_empty_type_key a hs hne ti.Package
    have hkey' : a.types.contains (ti.Package ++ ".") = false := by simpa using hkey
    constructor
    · rw [hemb]
      simp [embedEdgesOf, hkey', primitives]
    · by_cases hn : names = []
      · subst hn
        have : parseStructField { Names := [], Type_ := e } ti pk =
            { ti with Embeds := ti.Embeds ++ [""] } := hemb
        rw [this]
        rfl
      · rw [parseStructField_named _ _ _ _ hn, hr, useEdgesOf_eq, useEdgesOf_eq]
        simp only [List.filter_append]
        rw [filter_eq_nil_of _ (names.map _)]
        · simp
        · intro f hf
          obtain ⟨n, _, rfl⟩ := List.mem_map.1 hf
          simp only [usesField, hkey, Bool.and_false]

theorem unhandled_field_recorded_empty_witness :
    resolveTypeName (.chanType (.ident "Event")) "m" = ("", "") ∧
    (parseStructField { Names := ["events"], Type_ := .chanType (.ident "Event") }
        { Name := "Hub", Package := "m", Kind := "struct", File := "/r/hub.go", Line := 3,
          Fields := [], Embeds := [], Implements := [] } "m").Fields =
      [{ Name := "events", TypeName := "", TypePkg := "" }] ∧
    useEdgesOf (Analyze NewGoAnalyzer shapesFs).1.types "m.Hub"
      (parseStructField { Names := ["events"], Type_ := .chanType (.ident "Event") }
        { Name := "Hub", Package := "m", Kind := "struct", File := "/r/hub.go", Line := 3,
          Fields := [], Embeds := [], Implements := [] } "m") = [] :=
  ⟨rfl,
    congrArg TypeInfo.Fields
      ((unhandled_field_recorded_empty (.chanType (.ident "Event")) "m"
        { Name := "Hub", Package := "m", Kind := "struct", File := "/r/hub.go", Line := 3,
          Fields := [], Embeds := [], Implements := [] } ["events"] rfl).2.2.1 (by decide)),
    ((unhandled_field_recorded_empty (.chanType (.ident "Event")) "m"
        { Name := "Hub", Package := "m", Kind := "struct", File := "/r/hub.go", Line := 3,
          Fields := [], Embeds := [], Implements := [] } ["events"] rfl).2.2.2
      (Analyze NewGoAnalyzer shapesFs).1 "m.Hub"
      (Analyze_fresh_symbolsOk shapesFs _ rfl shapesFs_wf) (by decide)).2⟩


/-! ## The keys of the type table -/

theorem keys_insert_addKey {α : Type} (m : GoMap α) (k : String) (v : α) :
    (m.insert k v).keys = addKey m.keys k :=
  GoMap.keys_insert m k v

theorem foldl_addKey_append (ks l1 l2 : List String) :
    (l1 ++ l2).foldl addKey ks = l2.foldl addKey (l1.foldl addKey ks) :=
  List.foldl_append _ _ _ _

theorem foldl_addKey_nodup : ∀ (l ks : List String), ks.Nodup → (l.foldl addKey ks).Nodup
  | [], _, h => h
  | k :: l, ks, h => by
    refine foldl_addKey_nodup l (addKey ks k) ?_
    unfold addKey
    split
    · exact h
    · rename_i hk
      exact List.Nodup.append h (List.nodup_singleton k) (by simpa using hk)

theorem mem_foldl_addKey : ∀ (l ks : List String) (x : String),
    x ∈ l.foldl addKey ks ↔ x ∈ ks ∨ x ∈ l
  | [], _, _ => by simp
  | k :: l, ks, x => by
    rw [List.foldl_cons, mem_foldl_addKey l (addKey ks k) x]
    unfold addKey
    split
    · rename_i hk
      constructor
      · rintro (h | h)
        · exact Or.inl h
        · exact Or.inr (List.mem_cons_of_mem _ h)
      · rintro (h | h)
        · exact Or.inl h
        · rcases List.mem_cons.1 h with h | h
          · exact Or.inl (h ▸ hk)
          · exact Or.inr h
    · simp only [List.mem_append, List.mem_singleton, List.mem_cons]
      tauto

/-- The keys added from the empty table: as many as there are distinct ones. -/
theorem length_foldl_addKey (l : List String) :
    (l.foldl addKey []).length = l.dedup.length := by
  have h1 := foldl_addKey_nodup l [] List.nodup_nil
  have h2 : (l.foldl addKey []).Perm l.dedup := by
    rw [List.perm_ext_iff_of_nodup h1 (List.nodup_dedup l)]
    intro x
    rw [mem_foldl_addKey, List.mem_dedup]
    simp
  exact h2.length_eq

theorem parseGenDecl_typeKeys (a : GoAnalyzer) (d : GenDecl) (pk fn : String) :
    (parseGenDecl a d pk fn).types.keys =
      (declTypeKeys pk (.genDecl d)).foldl addKey a.types.keys := by
  unfold parseGenDecl declTypeKeys
  by_cases htok : d.Tok ≠ Token.TYPE
  · simp [htok]
  · simp only [htok, if_false, specTypeKeys]
    generalize d.Specs = specs
    induction specs generalizing a with
    | nil => rfl
    | cons s ss ih =>
      simp only [List.foldl_cons]
      rw [ih]
      cases s with
      | typeSpec ts => simp [List.filterMap_cons, keys_insert_addKey]
      | importSpec => simp [List.filterMap_cons]
      | valueSpec => simp [List.filterMap_cons]

theorem parseDecl_typeKeys (a : GoAnalyzer) (d : Decl) (pk fn : String) :
    (parseDecl a d pk fn).types.keys = (declTypeKeys pk d).foldl addKey a.types.keys := by
  cases d with
  | genDecl gd => exact parseGenDecl_typeKeys a gd pk fn
  | funcDecl fd =>
    simp only [parseDecl, declTypeKeys, List.foldl_nil]
    rw [(parseFuncDecl_fields a fd pk fn).2.1]
  | badDecl => rfl

theorem foldl_parseDecl_typeKeys (pk fn : String) : ∀ (decls : List Decl) (a : GoAnalyzer),
    (decls.foldl (fun a decl => parseDecl a decl pk fn) a).types.keys =
      (decls.flatMap (declTypeKeys pk)).foldl addKey a.types.keys
  | [], _ => rfl
  | d :: ds, a => by
    simp only [List.foldl_cons, List.flatMap_cons]
    rw [foldl_parseDecl_typeKeys pk fn ds, parseDecl_typeKeys, foldl_addKey_append]

theorem parseFileNode_typeKeys (a : GoAnalyzer) (fn : String) (node : File) :
    (parseFileNode a fn node).types.keys =
      (fileTypeKeys (filePkgPath a fn) node).foldl addKey a.types.keys := by
  unfold parseFileNode fileTypeKeys
  simp only
  rw [foldl_parseDecl_typeKeys, (tables_before_decls a _ _ _ _).1]

theorem parseFiles_typeKeys : ∀ (files : List (String × File)) (a : GoAnalyzer),
    (parseFiles a files).types.keys = (declaredTypeKeys a files).foldl addKey a.types.keys
  | [], _ => rfl
  | p :: ps, a => by
    have hsc := parseFileNode_scalars a p.1 p.2
    have hcongr : declaredTypeKeys (parseFileNode a p.1 p.2) ps = declaredTypeKeys a ps := by
      unfold declaredTypeKeys
      congr 1
      funext q
      rw [filePkgPath_congr _ a q.1 hsc.2.2.1 hsc.2.2.2]
    have ih := parseFiles_typeKeys ps (parseFileNode a p.1 p.2)
    unfold parseFiles at ih ⊢
    simp only [List.foldl_cons]
    rw [ih, hcongr, parseFileNode_typeKeys]
    unfold declaredTypeKeys
    simp only [List.flatMap_cons]
    rw [foldl_addKey_append]


/-! ## C28: one type entry for each identity -/

/-- The nodes of the four tables that are type nodes. -/
theorem filter_type_nodes (a : GoAnalyzer) :
    (a.packages.map packageNode ++ (a.types.map typeNode ++
      (a.functions.map functionNode ++ a.methods.map methodNode))).filter
        (fun n => decide (n.Entity = "struct") || decide (n.Entity = "interface")) =
      a.types.map typeNode := by
  rw [List.filter_append, List.filter_append, List.filter_append]
  rw [filter_eq_nil_of _ (a.packages.map packageNode), filter_eq_self_of _ (a.types.map typeNode),
    filter_eq_nil_of _ (a.functions.map functionNode),
    filter_eq_nil_of _ (a.methods.map methodNode)]
  · simp
  · intro n hn
    obtain ⟨e, _, rfl⟩ := List.mem_map.1 hn
    simp [methodNode]
  · intro n hn
    obtain ⟨e, _, rfl⟩ := List.mem_map.1 hn
    simp [functionNode]
  · intro n hn
    obtain ⟨e, _, rfl⟩ := List.mem_map.1 hn
    rcases typeNode_entity e with h | h <;> simp [h]
  · intro n hn
    obtain ⟨e, _, rfl⟩ := List.mem_map.1 hn
    simp [packageNode]

/-- C28, the claim as stated fails: the two files of the directory `netx`
each declare the record `Conn`.  The entry stored for the first file is
replaced when the second is processed, and the two declarations leave one
entry and one type node. -/
theorem type_entry_replaced :
    declaredTypeKeys (startAnalyzer "/r" "m") (analysedFiles "/r" connFs.root) =
      ["m/netx.Conn", "m/netx.Conn"] ∧
    (∃ ti, (parseFileNode (startAnalyzer "/r" "m") "/r/netx/conn_linux.go"
        connLinuxFile).types.get? "m/netx.Conn" = some ti ∧
      ti.File = "/r/netx/conn_linux.go" ∧
      ti.Fields = [{ Name := "fd", TypeName := "int", TypePkg := "m/netx" }]) ∧
    (∃ ti, (Analyze NewGoAnalyzer connFs).1.types.get? "m/netx.Conn" = some ti ∧
      ti.File = "/r/netx/conn_windows.go" ∧
      ti.Fields = [{ Name := "handle", TypeName := "uintptr", TypePkg := "m/netx" }]) ∧
    (Analyze NewGoAnalyzer connFs).1.types.length = 1 ∧
    ∃ g, (Analyze NewGoAnalyzer connFs).2 = .ok g ∧
      (g.Nodes.filter (fun n => decide (n.Entity = "struct") ||
        decide (n.Entity = "interface"))).length = 1 :=
  ⟨by decide, ⟨_, rfl, rfl, rfl⟩, ⟨_, rfl, rfl, rfl⟩, rfl, _, rfl, by decide⟩

/-- C28, amended: a type declaration stores its entry under the identity
`pkg.Name`, whether or not an entry is stored there already: a later
declaration of the same identity replaces the entry, and the entries of all
other identities stay as they are.  So the number of type entries, and of type
nodes, of a fresh analyzer equals the number of distinct identities among the
type declarations encountered; it is at most the number of declarations and
equals it when their identities are pairwise distinct. -/
theorem type_entry_last_wins (fs : FileSystem) (g : Graph)
    (h : (Analyze NewGoAnalyzer fs).2 = .ok g) :
    (∀ (a : GoAnalyzer) (ts : TypeSpec) (pk fn : String),
      (parseGenDecl a { Tok := .TYPE, Specs := [.typeSpec ts] } pk fn).types.get?
          (pk ++ "." ++ ts.Name) = some (parseTypeSpec ts pk fn) ∧
      ∀ k, k ≠ pk ++ "." ++ ts.Name →
        (parseGenDecl a { Tok := .TYPE, Specs := [.typeSpec ts] } pk fn).types.get? k =
          a.types.get? k) ∧
    (g.Nodes.filter (fun n => decide (n.Entity = "struct") ||
        decide (n.Entity = "interface"))).length = (Analyze NewGoAnalyzer fs).1.types.length ∧
    ∀ absDir, fs.abs = .ok absDir →
      (Analyze NewGoAnalyzer fs).1.types.length =
        (declaredTypeKeys (startAnalyzer absDir (detectModulePath fs.goMod))
          (analysedFiles absDir fs.root)).dedup.length ∧
      (Analyze NewGoAnalyzer fs).1.types.length ≤
        (declaredTypeKeys (startAnalyzer absDir (detectModulePath fs.goMod))
          (analysedFiles absDir fs.root)).length ∧
      ((declaredTypeKeys (startAnalyzer absDir (detectModulePath fs.goMod))
          (analysedFiles absDir fs.root)).Nodup →
        (Analyze NewGoAnalyzer fs).1.types.length =
          (declaredTypeKeys (startAnalyzer absDir (detectModulePath fs.goMod))
            (analysedFiles absDir fs.root)).length) := by
  refine ⟨?_, ?_, ?_⟩
  · intro a ts pk fn
    simp only [parseGenDecl, ne_eq, not_true_eq_false, if_false, List.foldl_cons, List.foldl_nil]
    exact ⟨get?_insert_self _ _ _, fun k hk => get?_insert_ne _ _ _ _ hk⟩
  · obtain ⟨hn, _, _⟩ := Analyze_fresh_graph fs g h
    rw [hn, filter_type_nodes, List.length_map]
  · intro absDir habs
    obtain ⟨absDir', habs', _, _, ht, _⟩ := Analyze_fresh_tables fs g h
    have heq : absDir' = absDir := by
      rw [habs] at habs'
      injection habs' with h'
      exact h'.symm
    subst heq
    have hk := parseFiles_typeKeys (analysedFiles absDir' fs.root)
      (startAnalyzer absDir' (detectModulePath fs.goMod))
    have h0 : (startAnalyzer absDir' (detectModulePath fs.goMod)).types.keys = [] := rfl
    rw [h0] at hk
    have hlen : (Analyze NewGoAnalyzer fs).1.types.length =
        (declaredTypeKeys (startAnalyzer absDir' (detectModulePath fs.goMod))
          (analysedFiles absDir' fs.root)).dedup.length := by
      rw [ht, ← length_foldl_addKey, ← hk]
      simp [GoMap.keys]
    refine ⟨hlen, ?_, ?_⟩
    · rw [hlen]
      exact (List.dedup_sublist _).length_le
    · intro hnd
      rw [hlen, List.Nodup.dedup hnd]

theorem type_entry_last_wins_witness :
    ∃ g, (Analyze NewGoAnalyzer shapesFs).2 = .ok g ∧
      (declaredTypeKeys (startAnalyzer "/r" (detectModulePath shapesFs.goMod))
        (analysedFiles "/r" shapesFs.root)).Nodup ∧
      (Analyze NewGoAnalyzer shapesFs).1.types.length =
        (declaredTypeKeys (startAnalyzer "/r" (detectModulePath shapesFs.goMod))
          (analysedFiles "/r" shapesFs.root)).length ∧
      (Analyze NewGoAnalyzer shapesFs).1.types.length = 3 :=
  ⟨_, rfl, by decide,
    ((type_entry_last_wins shapesFs _ rfl).2.2 "/r" rfl).2.2 (by decide), rfl⟩


/-! ## C29: the import list of a package -/

theorem retainedOf_congr (a b : GoAnalyzer) (key : String) (files : List (String × File))
    (h1 : a.baseDir = b.baseDir) (h2 : a.modulePath = b.modulePath) :
    retainedOf a key files = retainedOf b key files := by
  unfold retainedOf
  congr 2
  funext p
  rw [filePkgPath_congr a b p.1 h1 h2]

theorem storedImports_parseFileNode (a : GoAnalyzer) (fn : String) (node : File) (key : String) :
    storedImports (parseFileNode a fn node) key =
      storedImports a key ++ (if filePkgPath a fn = key then retainedImports node else []) := by
  have h := parseFileNode_packages a fn node
  unfold storedImports
  by_cases hk : filePkgPath a fn = key
  · subst hk
    rw [if_pos rfl]
    cases hget : a.packages.get? (filePkgPath a fn) with
    | none => rw [h.2.1 hget]; simp
    | some pkg => rw [h.1 pkg hget]
  · rw [if_neg hk, h.2.2 key (fun h' => hk h'.symm)]
    simp

/-- The import list of a package after a list of files: what was stored
before, then the retained imports of its files, entry by entry. -/
theorem storedImports_parseFiles (key : String) : ∀ (files : List (String × File))
    (a : GoAnalyzer), storedImports (parseFiles a files) key =
      storedImports a key ++ retainedOf a key files
  | [], a => by simp [parseFiles, retainedOf]
  | p :: ps, a => by
    have hsc := parseFileNode_scalars a p.1 p.2
    have ih := storedImports_parseFiles key ps (parseFileNode a p.1 p.2)
    unfold parseFiles at ih ⊢
    simp only [List.foldl_cons]
    rw [ih, storedImports_parseFileNode, retainedOf_congr _ a key ps hsc.2.2.1 hsc.2.2.2]
    unfold retainedOf
    by_cases hk : filePkgPath a p.1 = key
    · simp [hk, List.filter_cons]
    · simp [hk, List.filter_cons]

/-- The import edges among the edges of the passes. -/
theorem passEdges_filter_import (a : GoAnalyzer) :
    (passEdges a).filter (fun e => decide (e.Type_ = "import")) =
      a.packages.flatMap (fun e => importEdgesOf a.modulePath e.1 e.2) := by
  unfold passEdges
  simp only [List.filter_append]
  rw [filter_eq_self_of _ (a.packages.flatMap _), filter_eq_nil_of _ (a.types.map _),
    filter_eq_nil_of _ (a.functions.map _), filter_eq_nil_of _ (a.methods.flatMap _),
    filter_eq_nil_of _ (a.functions.flatMap _), filter_eq_nil_of _ (a.methods.flatMap _),
    filter_eq_nil_of _ (a.types.flatMap _)]
  · simp
  · intro e he
    obtain ⟨t, _, h⟩ := List.mem_flatMap.1 he
    rcases List.mem_append.1 h with h | h
    · obtain ⟨_, _, _, _, rfl⟩ := (mem_embedEdgesOf _ _ _ _).1 h
      simp
    · obtain ⟨_, _, _, _, _, rfl⟩ := (mem_useEdgesOf _ _ _ _).1 h
      simp
  · intro e he
    obtain ⟨m, _, h⟩ := List.mem_flatMap.1 he
    obtain ⟨_, _, _, _, rfl⟩ := (mem_callEdgesOf _ _ _ _ _).1 h
    simp [callEdge]
  · intro e he
    obtain ⟨f, _, h⟩ := List.mem_flatMap.1 he
    obtain ⟨_, _, _, _, rfl⟩ := (mem_callEdgesOf _ _ _ _ _).1 h
    simp [callEdge]
  · intro e he
    obtain ⟨m, _, h⟩ := List.mem_flatMap.1 he
    obtain ⟨_, rfl⟩ := (mem_methodContainsEdge _ _ _ _).1 h
    simp
  · intro e he
    obtain ⟨f, _, rfl⟩ := List.mem_map.1 he
    simp
  · intro e he
    obtain ⟨t, _, rfl⟩ := List.mem_map.1 he
    simp
  · intro e he
    obtain ⟨p, _, h⟩ := List.mem_flatMap.1 he
    obtain ⟨_, _, _, rfl⟩ := (mem_importEdgesOf _ _ _ _).1 h
    simp


/-- The number of import edges from `path` to `q` that one package entry
gives: the number of entries `q` of its import list when `q` starts with the
module path, none otherwise. -/
theorem count_importEdgesOf (modulePath path : String) (pkg : PackageInfo) (q : String) :
    (importEdgesOf modulePath path pkg).count (importEdge path q) =
      if strings.HasPrefix q modulePath then pkg.Imports.count q else 0 := by
  have hinj : Function.Injective (fun imp : String =>
      ({ From := path, To := imp, Method := "", Type_ := "import" } : Edge)) := by
    intro x y hxy
    injection hxy
  unfold importEdgesOf importEdge
  rw [List.count_map_of_injective _ _ hinj]
  by_cases hp : strings.HasPrefix q modulePath = true
  · rw [if_pos hp]
    exact List.count_filter (p := fun imp => strings.HasPrefix imp modulePath) hp
  · rw [if_neg hp]
    apply List.count_eq_zero_of_not_mem
    intro hmem
    exact hp (List.mem_filter.1 hmem).2

/-- C29, the claim as stated fails: the files `a.go` and `b.go` of the package
`api` both name `example.com/m/util`; the import list of the package has that
path twice and the graph has two import edges from `api` to it. -/
theorem imports_listed_twice :
    ∃ g, (Analyze NewGoAnalyzer sharedImportFs).2 = .ok g ∧
      storedImports (Analyze NewGoAnalyzer sharedImportFs).1 "example.com/m/api" =
        ["example.com/m/util", "example.com/m/util"] ∧
      g.Edges.count (importEdge "example.com/m/api" "example.com/m/util") = 2 :=
  ⟨_, rfl, by decide, by decide⟩

/-- C29, amended: the import list of a package is a list, not a set: after
the files of a tree have been processed by a fresh analyzer it holds one entry
for each retained import of each file of the package, in the order of
processing, so a path named by several files occurs several times.  The pass
for the import edges emits one edge for each entry that starts with the module
path: the graph has these edges for the entries of all packages, and a package
entry gives as many edges to a path as its list has entries of it. -/
theorem imports_form_a_list (fs : FileSystem) (g : Graph)
    (h : (Analyze NewGoAnalyzer fs).2 = .ok g) :
    (∀ absDir, fs.abs = .ok absDir → ∀ key,
      storedImports (Analyze NewGoAnalyzer fs).1 key =
        retainedOf (startAnalyzer absDir (detectModulePath fs.goMod)) key
          (analysedFiles absDir fs.root)) ∧
    g.Edges.filter (fun e => decide (e.Type_ = "import")) =
      (Analyze NewGoAnalyzer fs).1.packages.flatMap (fun e =>
        (e.2.Imports.filter (fun imp =>
          strings.HasPrefix imp (Analyze NewGoAnalyzer fs).1.modulePath)).map
          (importEdge e.1)) ∧
    (∀ modulePath path pkg q, (importEdgesOf modulePath path pkg).count (importEdge path q) =
      if strings.HasPrefix q modulePath then pkg.Imports.count q else 0) := by
  refine ⟨?_, ?_, count_importEdgesOf⟩
  · intro absDir habs key
    obtain ⟨absDir', habs', _, hp, _⟩ := Analyze_fresh_tables fs g h
    have heq : absDir' = absDir := by
      rw [habs] at habs'
      injection habs' with h'
      exact h'.symm
    subst heq
    have hst := storedImports_parseFiles key (analysedFiles absDir' fs.root)
      (startAnalyzer absDir' (detectModulePath fs.goMod))
    have h0 : storedImports (startAnalyzer absDir' (detectModulePath fs.goMod)) key = [] := rfl
    rw [h0, List.nil_append] at hst
    rw [← hst]
    unfold storedImports
    rw [hp]
  · obtain ⟨_, hedges, _⟩ := Analyze_fresh_graph fs g h
    rw [hedges, passEdges_filter_import]
    rfl

theorem imports_form_a_list_witness :
    ∃ g, (Analyze NewGoAnalyzer sharedImportFs).2 = .ok g ∧
      storedImports (Analyze NewGoAnalyzer sharedImportFs).1 "example.com/m/api" =
        retainedOf (startAnalyzer "/r" (detectModulePath sharedImportFs.goMod))
          "example.com/m/api" (analysedFiles "/r" sharedImportFs.root) ∧
      retainedOf (startAnalyzer "/r" (detectModulePath sharedImportFs.goMod))
          "example.com/m/api" (analysedFiles "/r" sharedImportFs.root) =
        ["example.com/m/util", "example.com/m/util"] :=
  ⟨_, rfl, (imports_form_a_list sharedImportFs _ rfl).1 "/r" rfl "example.com/m/api",
    by decide⟩


/-! ## Facts about prefixes, suffixes and single characters -/

theorem containsAux_char (c : Char) (l : List Char) :
    strings.containsAux [c] l = true ↔ c ∈ l := by
  induction l with
  | nil => simp [strings.containsAux, List.isPrefixOf]
  | cons x xs ih =>
    simp only [strings.containsAux, List.isPrefixOf, Bool.and_true, Bool.or_eq_true, ih,
      List.mem_cons, beq_iff_eq]

theorem Contains_star (s : String) : strings.Contains s "*" = true ↔ '*' ∈ s.data := by
  unfold strings.Contains
  exact containsAux_char '*' s.data

theorem HasPrefix_iff (s pre : String) :
    strings.HasPrefix s pre = true ↔ ∃ rest : String, s = pre ++ rest := by
  unfold strings.HasPrefix
  rw [List.isPrefixOf_iff_prefix]
  constructor
  · rintro ⟨t, ht⟩
    exact ⟨⟨t⟩, String.ext (by simp [ht])⟩
  · rintro ⟨rest, rfl⟩
    exact ⟨rest.data, by simp⟩

theorem HasSuffix_append (stem suf : String) : strings.HasSuffix (stem ++ suf) suf = true :=
  (HasSuffix_iff _ _).2 ⟨stem, rfl⟩

theorem TrimSuffix_append (stem suf : String) : strings.TrimSuffix (stem ++ suf) suf = stem := by
  unfold strings.TrimSuffix
  rw [if_pos (HasSuffix_append stem suf)]
  exact String.ext (by simp [String.data_append])

/-- A pattern that ends in `.*` does not end in `.**`. -/
theorem not_HasSuffix_star (p : String) : strings.HasSuffix (p ++ ".*") ".**" = false := by
  cases h : strings.HasSuffix (p ++ ".*") ".**" with
  | false => rfl
  | true =>
    obtain ⟨stem, hs⟩ := (HasSuffix_iff _ _).1 h
    have := congrArg (fun s : String => s.data.reverse) hs
    simp [String.data_append] at this


/-! ## C24: the three documented pattern forms -/

theorem Match_exact (re : String → String → Bool) (c pattern : String)
    (h : strings.Contains pattern "*" = false) :
    tracer.MatchComponentPattern re c pattern = true ↔ c = pattern := by
  simp [tracer.MatchComponentPattern, h]

theorem Match_recursive (re : String → String → Bool) (c p : String) :
    tracer.MatchComponentPattern re c (p ++ ".**") = true ↔
      ∃ rest : String, c = p ++ "." ++ rest := by
  have hstar : strings.Contains (p ++ ".**") "*" = true := by
    rw [Contains_star]
    simp [String.data_append]
  unfold tracer.MatchComponentPattern
  simp only [hstar, Bool.not_true, Bool.false_eq_true, if_false, HasSuffix_append, if_true,
    TrimSuffix_append]
  exact HasPrefix_iff c (p ++ ".")

theorem Match_single (re : String → String → Bool) (c p : String) :
    tracer.MatchComponentPattern re c (p ++ ".*") = true ↔
      ∃ s : String, c = p ++ "." ++ s ∧ '.' ∉ s.data := by
  have hstar : strings.Contains (p ++ ".*") "*" = true := by
    rw [Contains_star]
    simp [String.data_append]
  unfold tracer.MatchComponentPattern
  simp only [hstar, Bool.not_true, Bool.false_eq_true, if_false, not_HasSuffix_star,
    HasSuffix_append, if_true, TrimSuffix_append]
  constructor
  · intro h
    by_cases hp : strings.HasPrefix c (p ++ ".") = true
    · obtain ⟨s, rfl⟩ := (HasPrefix_iff _ _).1 hp
      refine ⟨s, rfl, ?_⟩
      simp only [hp, Bool.not_true, Bool.false_eq_true, if_false, TrimPrefix_append,
        Bool.not_eq_true'] at h
      intro hmem
      rw [(Contains_dot s).2 hmem] at h
      exact Bool.noConfusion h
    · simp [hp] at h
  · rintro ⟨s, rfl, hs⟩
    have hc : strings.Contains s "." = false := by
      cases hc : strings.Contains s "." with
      | false => rfl
      | true => exact absurd ((Contains_dot s).1 hc) hs
    simp [HasPrefix_append, TrimPrefix_append, hc]

/-- C24: for every component id `c`, whatever the regular-expression library
does.  A pattern without `*` matches exactly the id equal to it; the pattern
`p.*` matches exactly the ids `p.s` with `s` free of dots, one level below `p`;
the pattern `p.**` matches exactly the ids that begin with `p.`, at any depth
below `p`; so every id that `p.*` matches is matched by `p.**`.  The last three
hold for every `p`, wildcard-free or not. -/
theorem MatchComponentPattern_documented (re : String → String → Bool) (c : String) :
    (∀ pattern, '*' ∉ pattern.data →
      (tracer.MatchComponentPattern re c pattern = true ↔ c = pattern)) ∧
    (∀ p, tracer.MatchComponentPattern re c (p ++ ".*") = true ↔
      ∃ s : String, c = p ++ "." ++ s ∧ '.' ∉ s.data) ∧
    (∀ p, tracer.MatchComponentPattern re c (p ++ ".**") = true ↔
      ∃ rest : String, c = p ++ "." ++ rest) ∧
    (∀ p, tracer.MatchComponentPattern re c (p ++ ".*") = true →
      tracer.MatchComponentPattern re c (p ++ ".**") = true) := by
  refine ⟨?_, Match_single re c, Match_recursive re c, ?_⟩
  · intro pattern hp
    apply Match_exact
    cases hc : strings.Contains pattern "*" with
    | false => rfl
    | true => exact absurd ((Contains_star pattern).1 hc) hp
  · intro p h
    obtain ⟨s, hs, _⟩ := (Match_single re c p).1 h
    exact (Match_recursive re c p).2 ⟨s, hs⟩

theorem MatchComponentPattern_documented_witness :
    tracer.MatchComponentPattern (fun _ _ => false) "svc.order" "svc.order" = true ∧
    tracer.MatchComponentPattern (fun _ _ => false) "svc.order" "svc.*" = true ∧
    tracer.MatchComponentPattern (fun _ _ => false) "svc.order.item" "svc.*" = false ∧
    tracer.MatchComponentPattern (fun _ _ => false) "svc.order.item" "svc.**" = true :=
  ⟨((MatchComponentPattern_documented (fun _ _ => false) "svc.order").1 "svc.order"
      (by decide)).2 rfl,
    ((MatchComponentPattern_documented (fun _ _ => false) "svc.order").2.1 "svc").2
      ⟨"order", by decide, by decide⟩,
    by decide,
    ((MatchComponentPattern_documented (fun _ _ => false) "svc.order.item").2.2.1 "svc").2
      ⟨"order.item", by decide⟩⟩


/-! ## The order of strings and the sort -/

theorem char_eq_of_toNat {a b : Char} (h1 : ¬ a.toNat < b.toNat) (h2 : ¬ b.toNat < a.toNat) :
    a = b := by
  have h : a.toNat = b.toNat := by omega
  exact Char.ext (UInt32.ext h)

theorem lessChars_irrefl : ∀ l : List Char, strings.lessChars l l = false
  | [] => rfl
  | a :: as => by simp [strings.lessChars, lessChars_irrefl as]

theorem lessChars_trans : ∀ {l1 l2 l3 : List Char}, strings.lessChars l1 l2 = true →
    strings.lessChars l2 l3 = true → strings.lessChars l1 l3 = true
  | [], [], _, h, _ => by simp [strings.lessChars] at h
  | [], _ :: _, [], _, h => by simp [strings.lessChars] at h
  | [], _ :: _, _ :: _, _, _ => rfl
  | _ :: _, [], _, h, _ => by simp [strings.lessChars] at h
  | _ :: _, _ :: _, [], _, h => by simp [strings.lessChars] at h
  | a :: as, b :: bs, c :: cs, h1, h2 => by
    simp only [strings.lessChars] at h1 h2 ⊢
    by_cases hab : a.toNat < b.toNat
    · by_cases hbc : b.toNat < c.toNat
      · have : a.toNat < c.toNat := by omega
        simp [this]
      · by_cases hcb : c.toNat < b.toNat
        · simp [hbc, hcb] at h2
        · have : a.toNat < c.toNat := by omega
          simp [this]
    · by_cases hba : b.toNat < a.toNat
      · simp [hab, hba] at h1
      · simp only [hab, hba, if_false] at h1
        by_cases hbc : b.toNat < c.toNat
        · have : a.toNat < c.toNat := by omega
          simp [this]
        · by_cases hcb : c.toNat < b.toNat
          · simp [hbc, hcb] at h2
          · simp only [hbc, hcb, if_false] at h2
            have h3 : ¬ a.toNat < c.toNat := by omega
            have h4 : ¬ c.toNat < a.toNat := by omega
            simp only [h3, h4, if_false]
            exact lessChars_trans h1 h2

theorem lessChars_total : ∀ {l1 l2 : List Char}, strings.lessChars l1 l2 = false →
    l1 ≠ l2 → strings.lessChars l2 l1 = true
  | [], [], _, h => absurd rfl h
  | [], _ :: _, h, _ => by simp [strings.lessChars] at h
  | _ :: _, [], _, _ => rfl
  | a :: as, b :: bs, h, hne => by
    simp only [strings.lessChars] at h ⊢
    by_cases hab : a.toNat < b.toNat
    · simp [hab] at h
    · by_cases hba : b.toNat < a.toNat
      · simp [hba]
      · simp only [hab, hba, if_false] at h ⊢
        have heq := char_eq_of_toNat hab hba
        subst heq
        exact lessChars_total h (fun h' => hne (by rw [h']))

theorem Less_trans {a b c : String} (h1 : strings.Less a b = true)
    (h2 : strings.Less b c = true) : strings.Less a c = true :=
  lessChars_trans h1 h2

theorem Less_total {a b : String} (h : strings.Less a b = false) (hne : a ≠ b) :
    strings.Less b a = true :=
  lessChars_total h (fun h' => hne (String.ext h'))

theorem Less_irrefl (a : String) : strings.Less a a = false := lessChars_irrefl a.data

theorem mem_insertSorted (x y : String) : ∀ l : List String,
    y ∈ strings.insertSorted x l ↔ y = x ∨ y ∈ l
  | [] => by simp [strings.insertSorted]
  | z :: zs => by
    simp only [strings.insertSorted]
    split
    · simp only [List.mem_cons, mem_insertSorted x y zs]
      tauto
    · simp

theorem mem_sortStrings (y : String) : ∀ l : List String, y ∈ strings.sortStrings l ↔ y ∈ l
  | [] => by simp [strings.sortStrings]
  | x :: xs => by
    simp only [strings.sortStrings, mem_insertSorted, mem_sortStrings y xs, List.mem_cons]

theorem insertSorted_sorted (x : String) : ∀ l : List String,
    l.Pairwise (fun a b => strings.Less a b = true) → x ∉ l →
    (strings.insertSorted x l).Pairwise (fun a b => strings.Less a b = true)
  | [], _, _ => by simp [strings.insertSorted]
  | z :: zs, hs, hx => by
    have hz := List.pairwise_cons.1 hs
    simp only [strings.insertSorted]
    by_cases hlt : strings.Less z x = true
    · rw [if_pos hlt]
      refine List.pairwise_cons.2 ⟨?_, insertSorted_sorted x zs hz.2
        (fun h => hx (List.mem_cons_of_mem _ h))⟩
      intro y hy
      rcases (mem_insertSorted x y zs).1 hy with h | h
      · rw [h]; exact hlt
      · exact hz.1 y h
    · rw [if_neg hlt]
      have hxz : strings.Less x z = true :=
        Less_total (by simpa using hlt) (fun h => hx (h ▸ List.mem_cons_self _ _))
      refine List.pairwise_cons.2 ⟨?_, hs⟩
      intro y hy
      rcases List.mem_cons.1 hy with h | h
      · rw [h]; exact hxz
      · exact Less_trans hxz (hz.1 y h)

theorem sortStrings_sorted : ∀ l : List String, l.Nodup →
    (strings.sortStrings l).Pairwise (fun a b => strings.Less a b = true)
  | [], _ => by simp [strings.sortStrings]
  | x :: xs, h => by
    have hx := List.nodup_cons.1 h
    simp only [strings.sortStrings]
    exact insertSorted_sorted x _ (sortStrings_sorted xs hx.2)
      (fun hm => hx.1 ((mem_sortStrings x xs).1 hm))


/-! ## C25: the expansion of component patterns -/

theorem expand_inner_keys (re : String → String → Bool) (pattern : String) (k : String) :
    ∀ (all : List String) (result : GoMap Bool),
      (k ∈ (all.foldl (fun result comp =>
          if tracer.MatchComponentPattern re comp pattern then result.insert comp true
          else result) result).keys ↔
        k ∈ result.keys ∨ (k ∈ all ∧ tracer.MatchComponentPattern re k pattern = true)) ∧
      (result.keys.Nodup → (all.foldl (fun result comp =>
          if tracer.MatchComponentPattern re comp pattern then result.insert comp true
          else result) result).keys.Nodup)
  | [], result => by simp
  | comp :: all, result => by
    simp only [List.foldl_cons]
    by_cases hm : tracer.MatchComponentPattern re comp pattern = true
    · have ih := expand_inner_keys re pattern k all (result.insert comp true)
      simp only [hm, if_true]
      refine ⟨?_, fun hn => ih.2 (GoMap.nodup_keys_insert _ _ _ hn)⟩
      rw [ih.1, GoMap.mem_keys_insert, List.mem_cons]
      constructor
      · rintro ((h | h) | h)
        · exact Or.inr ⟨Or.inl h, h ▸ hm⟩
        · exact Or.inl h
        · exact Or.inr ⟨Or.inr h.1, h.2⟩
      · rintro (h | ⟨h | h, h2⟩)
        · exact Or.inl (Or.inr h)
        · exact Or.inl (Or.inl h)
        · exact Or.inr ⟨h, h2⟩
    · have ih := expand_inner_keys re pattern k all result
      simp only [hm, Bool.false_eq_true, if_false]
      refine ⟨?_, ih.2⟩
      rw [ih.1, List.mem_cons]
      constructor
      · rintro (h | h)
        · exact Or.inl h
        · exact Or.inr ⟨Or.inr h.1, h.2⟩
      · rintro (h | ⟨h | h, h2⟩)
        · exact Or.inl h
        · exact absurd (h ▸ h2) hm
        · exact Or.inr ⟨h, h2⟩

theorem expand_outer_keys (re : String → String → Bool) (all : List String) (k : String) :
    ∀ (patterns : List String) (result : GoMap Bool),
      (k ∈ (patterns.foldl (fun result pattern =>
          if !strings.Contains pattern "*" then result.insert pattern true
          else
            all.foldl (fun result comp =>
              if tracer.MatchComponentPattern re comp pattern then result.insert comp true
              else result) result) result).keys ↔
        k ∈ result.keys ∨ (k ∈ patterns ∧ '*' ∉ k.data) ∨
          (k ∈ all ∧ ∃ q ∈ patterns, '*' ∈ q.data ∧
            tracer.MatchComponentPattern re k q = true)) ∧
      (result.keys.Nodup → (patterns.foldl (fun result pattern =>
          if !strings.Contains pattern "*" then result.insert pattern true
          else
            all.foldl (fun result comp =>
              if tracer.MatchComponentPattern re comp pattern then result.insert comp true
              else result) result) result).keys.Nodup)
  | [], result => by simp
  | pattern :: patterns, result => by
    simp only [List.foldl_cons]
    by_cases hs : '*' ∈ pattern.data
    · have hc := (Contains_star pattern).2 hs
      have hin := expand_inner_keys re pattern k all result
      have ih := expand_outer_keys re all k patterns
        (all.foldl (fun result comp =>
          if tracer.MatchComponentPattern re comp pattern then result.insert comp true
          else result) result)
      simp only [hc, Bool.not_true, Bool.false_eq_true, if_false]
      refine ⟨?_, fun hn => ih.2 ((expand_inner_keys re pattern k all result).2 hn)⟩
      rw [ih.1, hin.1]
      constructor
      · rintro ((h | h) | h | h)
        · exact Or.inl h
        · exact Or.inr (Or.inr ⟨h.1, pattern, List.mem_cons_self _ _, hs, h.2⟩)
        · exact Or.inr (Or.inl ⟨List.mem_cons_of_mem _ h.1, h.2⟩)
        · obtain ⟨h1, q, hq, h2⟩ := h
          exact Or.inr (Or.inr ⟨h1, q, List.mem_cons_of_mem _ hq, h2⟩)
      · rintro (h | ⟨h1, h2⟩ | ⟨h1, q, hq, h2, h3⟩)
        · exact Or.inl (Or.inl h)
        · rcases List.mem_cons.1 h1 with h | h
          · exact absurd (h ▸ hs) h2
          · exact Or.inr (Or.inl ⟨h, h2⟩)
        · rcases List.mem_cons.1 hq with h | h
          · subst h
            exact Or.inl (Or.inr ⟨h1, h3⟩)
          · exact Or.inr (Or.inr ⟨h1, q, h, h2, h3⟩)
    · have hc : strings.Contains pattern "*" = false := by
        cases hc : strings.Contains pattern "*" with
        | false => rfl
        | true => exact absurd ((Contains_star pattern).1 hc) hs
      have ih := expand_outer_keys re all k patterns (result.insert pattern true)
      simp only [hc, Bool.not_false, if_true]
      refine ⟨?_, fun hn => ih.2 (GoMap.nodup_keys_insert _ _ _ hn)⟩
      rw [ih.1, GoMap.mem_keys_insert]
      constructor
      · rintro ((h | h) | h | h)
        · exact Or.inr (Or.inl ⟨h ▸ List.mem_cons_self _ _, h ▸ hs⟩)
        · exact Or.inl h
        · exact Or.inr (Or.inl ⟨List.mem_cons_of_mem _ h.1, h.2⟩)
        · obtain ⟨h1, q, hq, h2⟩ := h
          exact Or.inr (Or.inr ⟨h1, q, List.mem_cons_of_mem _ hq, h2⟩)
      · rintro (h | ⟨h1, h2⟩ | ⟨h1, q, hq, h2, h3⟩)
        · exact Or.inl (Or.inr h)
        · rcases List.mem_cons.1 h1 with h | h
          · exact Or.inl (Or.inl h)
          · exact Or.inr (Or.inl ⟨h, h2⟩)
        · rcases List.mem_cons.1 hq with h | h
          · subst h
            exact absurd h2 hs
          · exact Or.inr (Or.inr ⟨h1, q, h, h2, h3⟩)

/-- C25: for all lists `patterns` and `allComponents`, whatever the
regular-expression library does, `ExpandComponentPatterns` returns a strictly
ascending list, hence sorted and free of duplicates, whose elements are exactly
the patterns without `*`, in `allComponents` or not, and the elements of
`allComponents` that `MatchComponentPattern` matches against some pattern with
a `*`. -/
theorem ExpandComponentPatterns_spec (re : String → String → Bool)
    (patterns allComponents : List String) :
    (tracer.ExpandComponentPatterns re patterns allComponents).Pairwise
      (fun a b => strings.Less a b = true) ∧
    (tracer.ExpandComponentPatterns re patterns allComponents).Nodup ∧
    (∀ c, c ∈ tracer.ExpandComponentPatterns re patterns allComponents ↔
      (c ∈ patterns ∧ '*' ∉ c.data) ∨
      (c ∈ allComponents ∧ ∃ q ∈ patterns, '*' ∈ q.data ∧
        tracer.MatchComponentPattern re c q = true)) := by
  have hsorted : (tracer.ExpandComponentPatterns re patterns allComponents).Pairwise
      (fun a b => strings.Less a b = true) :=
    sortStrings_sorted _
      ((expand_outer_keys re allComponents "" patterns []).2 List.nodup_nil)
  refine ⟨hsorted, ?_, ?_⟩
  · refine List.Pairwise.imp ?_ hsorted
    intro a b hab heq
    rw [heq, Less_irrefl] at hab
    exact Bool.noConfusion hab
  · intro c
    unfold tracer.ExpandComponentPatterns tracer.expandSet
    rw [mem_sortStrings, (expand_outer_keys re allComponents c patterns []).1]
    simp [GoMap.keys]

theorem ExpandComponentPatterns_spec_witness :
    tracer.ExpandComponentPatterns (fun _ _ => false) ["svc.*", "db", "svc.a", "db"]
        ["svc.b", "svc.a", "web", "svc.b.c"] = ["db", "svc.a", "svc.b"] ∧
    ("db" ∈ tracer.ExpandComponentPatterns (fun _ _ => false) ["svc.*", "db", "svc.a", "db"]
        ["svc.b", "svc.a", "web", "svc.b.c"] ↔
      ("db" ∈ ["svc.*", "db", "svc.a", "db"] ∧ '*' ∉ "db".data) ∨
      ("db" ∈ ["svc.b", "svc.a", "web", "svc.b.c"] ∧
        ∃ q ∈ ["svc.*", "db", "svc.a", "db"], '*' ∈ q.data ∧
          tracer.MatchComponentPattern (fun _ _ => false) "db" q = true)) :=
  ⟨by decide,
    (ExpandComponentPatterns_spec (fun _ _ => false) ["svc.*", "db", "svc.a", "db"]
      ["svc.b", "svc.a", "web", "svc.b.c"]).2.2 "db"⟩


/-! ## C30: the context id of a test name -/

/-- C30, the code at the test name `TestProcessOrder`, whatever the lower-case
table of the `unicode` package is: `camelToSnake` joins the words with
underscores and `sanitizeContextID` only lowers the case, so the result is
`test_process_order`, not the `test-process-order` that the comment of the
function states; it has no hyphen at any word boundary. -/
theorem sanitizeContextID_underscores (unicodeLower : Char → Char) :
    tracer.camelToSnake "TestProcessOrder" = "test_process_order" ∧
    tracer.sanitizeContextID unicodeLower "TestProcessOrder" = "test_process_order" ∧
    tracer.sanitizeContextID unicodeLower "TestProcessOrder" ≠ "test-process-order" ∧
    '-' ∉ (tracer.sanitizeContextID unicodeLower "TestProcessOrder").data := by
  have h : tracer.sanitizeContextID unicodeLower "TestProcessOrder" = "test_process_order" := by
    simp only [tracer.sanitizeContextID, show tracer.camelToSnake "TestProcessOrder" =
      "test_process_order" from by decide]
    rfl
  refine ⟨by decide, h, ?_, ?_⟩
  · rw [h]; decide
  · rw [h]; decide


/-! ## C23: recording a trace, saving it and loading it -/

open tracer in
/-- A time as it is read back from a file: without monotonic reading. -/
theorem unmarshalCall_marshalCall (c : Call) :
    unmarshalCall (marshalCall c) =
      .ok { c with Timestamp := { wall := c.Timestamp.wall, mono := none } } := by
  unfold marshalCall unmarshalCall
  by_cases he : c.Error = ""
  · simp [he, List.lookup, unmarshalString, unmarshalTime, unmarshalInt, bind, Except.bind,
      pure, Except.pure]
  · simp [he, List.lookup, unmarshalString, unmarshalTime, unmarshalInt, bind, Except.bind,
      pure, Except.pure]

open tracer in
theorem unmarshalCalls_marshal : ∀ cs : List Call,
    unmarshalCallList (cs.map marshalCall) =
      .ok (cs.map (fun c => { c with Timestamp := { wall := c.Timestamp.wall, mono := none } }))
  | [] => rfl
  | c :: cs => by
    simp only [List.map_cons, unmarshalCallList, unmarshalCall_marshalCall,
      unmarshalCalls_marshal cs]

open tracer in
theorem unmarshalTrace_marshalTrace (t : Trace) :
    unmarshalTrace (marshalTrace t) =
      .ok { TestName := t.TestName,
            StartTime := { wall := t.StartTime.wall, mono := none },
            EndTime := { wall := t.EndTime.wall, mono := none },
            Calls := t.Calls.map (fun c =>
              { c with Timestamp := { wall := c.Timestamp.wall, mono := none } }) } := by
  unfold marshalTrace unmarshalTrace
  simp [List.lookup, unmarshalString, unmarshalTime, unmarshalCalls, unmarshalCalls_marshal,
    bind, Except.bind, pure, Except.pure]

open tracer in
/-- Every event on an active trace appends its record and keeps the trace
active under its name. -/
theorem apply_active (op : Op) (now : Time) (s : State) (t : Trace)
    (h : s.currentTrace = some t) :
    ∃ c, (op.apply now s).currentTrace = some { t with Calls := t.Calls ++ [c] } ∧
      (c.Event, c.Function, c.Error) = op.expected ∧ c.Timestamp = now := by
  cases op with
  | enter fn =>
    exact ⟨{ Event := "enter", Function := fn, Timestamp := now, Error := "",
             Depth := s.callDepth }, by simp [Op.apply, Enter, h], rfl, rfl⟩
  | exitSuccess fn =>
    exact ⟨{ Event := "exit_success", Function := fn, Timestamp := now, Error := "",
             Depth := if s.callDepth - 1 < 0 then 0 else s.callDepth - 1 },
      by simp [Op.apply, ExitSuccess, h], rfl, rfl⟩
  | exitError fn err =>
    cases err with
    | none =>
      exact ⟨{ Event := "exit_error", Function := fn, Timestamp := now, Error := "",
               Depth := if s.callDepth - 1 < 0 then 0 else s.callDepth - 1 },
        by simp [Op.apply, ExitError, h], rfl, rfl⟩
    | some e =>
      exact ⟨{ Event := "exit_error", Function := fn, Timestamp := now, Error := e,
               Depth := if s.callDepth - 1 < 0 then 0 else s.callDepth - 1 },
        by simp [Op.apply, ExitError, h], rfl, rfl⟩

open tracer in
theorem record_active : ∀ (ops : List (Op × Time)) (s : State) (t : Trace),
    s.currentTrace = some t →
    ∃ cs, (record s ops).currentTrace = some { t with Calls := t.Calls ++ cs } ∧
      cs.map (fun c => (c.Event, c.Function, c.Error)) = ops.map (fun p => p.1.expected) ∧
      cs.map Call.Timestamp = ops.map Prod.snd
  | [], s, t, h => ⟨[], by simpa [record] using h, rfl, rfl⟩
  | p :: ps, s, t, h => by
    obtain ⟨c, hc, hexp, htime⟩ := apply_active p.1 p.2 s t h
    obtain ⟨cs, hcs, hmap, htimes⟩ := record_active ps (p.1.apply p.2 s) _ hc
    refine ⟨c :: cs, ?_, ?_, ?_⟩
    · simp only [record, List.foldl_cons] at hcs ⊢
      rw [hcs]
      simp
    · simp [hexp, hmap]
    · simp [htime, htimes]

open tracer in
theorem LoadTrace_Save (t : Trace) (filename : String) (now : Time) (disk : Disk) :
    (t.Save filename now none disk).2.2 = none ∧
    ∃ loaded, LoadTrace filename (t.Save filename now none disk).2.1 = .ok loaded ∧
      loaded.TestName = t.TestName ∧ loaded.Calls.map Call.view = t.Calls.map Call.view ∧
      loaded.Calls.length = t.Calls.length := by
  refine ⟨rfl,
    { TestName := t.TestName, StartTime := { wall := t.StartTime.wall, mono := none },
      EndTime := { wall := now.wall, mono := none },
      Calls := t.Calls.map (fun c =>
        { c with Timestamp := { wall := c.Timestamp.wall, mono := none } }) },
    ?_, rfl, ?_, ?_⟩
  · simp only [Trace.Save, LoadTrace, get?_insert_self, unmarshalTrace_marshalTrace]
  · simp [Call.view, Function.comp_def]
  · simp

open tracer in
/-- C23: a trace started with `StartTrace(name)`, in any state of the package,
on which `k` events are then recorded holds exactly `k` calls in recording
order, each with the event name, the function, the error text and the time of
its event.  Saving it, with `Save` or with the method `Save` of the trace,
succeeds when the file can be written, and `LoadTrace` of that file returns a
trace with the test name `name` and the same `k` calls: same event, function,
error text and depth, in the same order. -/
theorem trace_round_trip (name : String) (t0 : Time) (s0 : State) (ops : List (Op × Time))
    (filename : String) (now : Time) (disk : Disk) :
    ∃ tr, (record (StartTrace name t0 s0) ops).currentTrace = some tr ∧
      tr.TestName = name ∧ tr.Calls.length = ops.length ∧
      tr.Calls.map (fun c => (c.Event, c.Function, c.Error)) =
        ops.map (fun p => p.1.expected) ∧
      tr.Calls.map Call.Timestamp = ops.map Prod.snd ∧
      (Save filename now none (record (StartTrace name t0 s0) ops) disk).2.2 = none ∧
      (Save filename now none (record (StartTrace name t0 s0) ops) disk).2.1 =
        (tr.Save filename now none disk).2.1 ∧
      (tr.Save filename now none disk).2.2 = none ∧
      ∃ loaded, LoadTrace filename
          (Save filename now none (record (StartTrace name t0 s0) ops) disk).2.1 = .ok loaded ∧
        loaded.TestName = name ∧ loaded.Calls.length = ops.length ∧
        loaded.Calls.map Call.view = tr.Calls.map Call.view := by
  obtain ⟨cs, hcs, hmap, htimes⟩ := record_active ops (StartTrace name t0 s0)
    { TestName := name, StartTime := t0, EndTime := zeroTime, Calls := [] } rfl
  simp only [List.nil_append] at hcs
  have hlen : cs.length = ops.length := by
    have := congrArg List.length hmap
    simpa using this
  obtain ⟨hnone, loaded, hload, hname, hview, hl⟩ :=
    LoadTrace_Save { TestName := name, StartTime := t0, EndTime := zeroTime, Calls := cs }
      filename now disk
  have hsave : (Save filename now none (record (StartTrace name t0 s0) ops) disk).2 =
      (Trace.Save { TestName := name, StartTime := t0, EndTime := zeroTime, Calls := cs }
        filename now none disk).2 := by
    simp only [Save, hcs]
  refine ⟨_, hcs, rfl, hlen, hmap, htimes, ?_, ?_, hnone, loaded, ?_, hname, ?_, hview⟩
  · rw [hsave]; exact hnone
  · rw [hsave]
  · rw [hsave]; exact hload
  · rw [hl]; exact hlen

open tracer in
/-- C23 at the events of `TestTracerRoundTrip`: two nested invocations give
four calls, with the depths 0, 1, 1, 0, and the trace loaded from the saved
file has the test name and these four calls. -/
theorem trace_round_trip_witness :
    ∃ loaded, LoadTrace "output/roundtrip_trace.json"
        (Save "output/roundtrip_trace.json" { wall := 105, mono := some 5 } none
          (record (StartTrace "TestTracerRoundTrip" { wall := 100, mono := some 0 }
              { currentTrace := none, callDepth := 0 })
            [ (.enter "tests.function1", { wall := 101, mono := some 1 }),
              (.enter "tests.function2", { wall := 102, mono := some 2 }),
              (.exitSuccess "tests.function2", { wall := 103, mono := some 3 }),
              (.exitSuccess "tests.function1", { wall := 104, mono := some 4 }) ]) []).2.1 =
        .ok loaded ∧
      loaded.TestName = "TestTracerRoundTrip" ∧ loaded.Calls.length = 4 ∧
      loaded.Calls.map Call.view =
        [ ("enter", "tests.function1", "", 0), ("enter", "tests.function2", "", 1),
          ("exit_success", "tests.function2", "", 1),
          ("exit_success", "tests.function1", "", 0) ] :=
  let ⟨_, htr, _, _, _, _, _, _, _, loaded, hload, hname, hlen, hview⟩ :=
    trace_round_trip "TestTracerRoundTrip" { wall := 100, mono := some 0 }
      { currentTrace := none, callDepth := 0 }
      [ (.enter "tests.function1", { wall := 101, mono := some 1 }),
        (.enter "tests.function2", { wall := 102, mono := some 2 }),
        (.exitSuccess "tests.function2", { wall := 103, mono := some 3 }),
        (.exitSuccess "tests.function1", { wall := 104, mono := some 4 }) ]
      "output/roundtrip_trace.json" { wall := 105, mono := some 5 } []
  ⟨loaded, hload, hname, hlen,
    hview.trans (by rw [Option.some.inj (htr.symm.trans (by rfl))]; rfl)⟩


/-! ## The return check of the tracer lint -/

section ReturnCheck

open linter

theorem isTarget_iff (stmt : Stmt) (target : Nat) :
    isTarget stmt target = true ↔ stmt = .returnStmt target := by
  cases stmt <;> simp [isTarget]

mutual
theorem map_fst_returnsOfStmt : ∀ (s : Stmt) (prev : Option Stmt),
    (returnsOfStmt prev s).map Prod.fst = visitedReturns s
  | .returnStmt _, _ => rfl
  | .blockStmt list, _ => by
    simp only [returnsOfStmt, visitedReturns]; exact map_fst_returnsOfBlock list none
  | .ifStmt body, _ => by
    simp only [returnsOfStmt, visitedReturns]; exact map_fst_returnsOfBlock body none
  | .ifElseStmt body els, _ => by
    simp only [returnsOfStmt, visitedReturns, List.map_append, map_fst_returnsOfBlock body none,
      map_fst_returnsOfStmt els none]
  | .forStmt body, _ => by
    simp only [returnsOfStmt, visitedReturns]; exact map_fst_returnsOfBlock body none
  | .rangeStmt body, _ => by
    simp only [returnsOfStmt, visitedReturns]; exact map_fst_returnsOfBlock body none
  | .switchStmt body, _ => by
    simp only [returnsOfStmt, visitedReturns]; exact map_fst_returnsOfBlock body none
  | .typeSwitchStmt body, _ => by
    simp only [returnsOfStmt, visitedReturns]; exact map_fst_returnsOfBlock body none
  | .selectStmt body, _ => by
    simp only [returnsOfStmt, visitedReturns]; exact map_fst_returnsOfBlock body none
  | .clause _ body, _ => by
    simp only [returnsOfStmt, visitedReturns]; exact map_fst_returnsOfBlock body none
  | .labeledStmt stmt, prev => by
    simp only [returnsOfStmt, visitedReturns]; exact map_fst_returnsOfStmt stmt prev
  | .exprStmt _, _ => rfl
  | .other, _ => rfl
theorem map_fst_returnsOfBlock : ∀ (l : List Stmt) (prev : Option Stmt),
    (returnsOfBlock prev l).map Prod.fst = visitedReturnsList l
  | [], _ => rfl
  | s :: rest, prev => by
    simp only [returnsOfBlock, visitedReturnsList, List.map_append, map_fst_returnsOfStmt s prev,
      map_fst_returnsOfBlock rest (some s)]
end

mutual
theorem findPrevInBlock_none : ∀ (l : List Stmt) (prev : Option Stmt) (target : Nat),
    target ∉ visitedReturnsList l → findPrevInBlock prev l target = none
  | [], _, _, _ => rfl
  | s :: rest, prev, target, h => by
    simp only [visitedReturnsList, List.mem_append, not_or] at h
    have hne : isTarget s target = false := by
      cases ht : isTarget s target with
      | false => rfl
      | true =>
        rw [(isTarget_iff s target).1 ht] at h
        simp [visitedReturns] at h
    simp only [findPrevInBlock, hne, Bool.false_and, Bool.false_eq_true, if_false,
      findPrevNested_none s target h.1, findPrevInBlock_none rest (some s) target h.2]
theorem findPrevNested_none : ∀ (s : Stmt) (target : Nat),
    target ∉ visitedReturns s → findPrevNested s target = none
  | .returnStmt _, _, _ => rfl
  | .blockStmt list, target, h => by
    simp only [visitedReturns] at h
    simp only [findPrevNested, findPrevInBlock_none list none target h]
  | .ifStmt body, target, h => by
    simp only [visitedReturns] at h
    simp only [findPrevNested, findPrevInBlock_none body none target h]
  | .ifElseStmt body els, target, h => by
    simp only [visitedReturns, List.mem_append, not_or] at h
    have hb := findPrevInBlock_none body none target h.1
    cases els with
    | blockStmt list =>
      simp only [visitedReturns] at h
      simp only [findPrevNested, hb, findPrevInBlock_none list none target h.2]
    | exprStmt _ => simp only [findPrevNested, hb]
    | returnStmt _ => simp only [findPrevNested, hb]
    | ifStmt _ => simp only [findPrevNested, hb]
    | ifElseStmt _ _ => simp only [findPrevNested, hb]
    | forStmt _ => simp only [findPrevNested, hb]
    | rangeStmt _ => simp only [findPrevNested, hb]
    | switchStmt _ => simp only [findPrevNested, hb]
    | typeSwitchStmt _ => simp only [findPrevNested, hb]
    | selectStmt _ => simp only [findPrevNested, hb]
    | clause _ _ => simp only [findPrevNested, hb]
    | labeledStmt _ => simp only [findPrevNested, hb]
    | other => simp only [findPrevNested, hb]
  | .forStmt body, target, h => by
    simp only [visitedReturns] at h
    simp only [findPrevNested, findPrevInBlock_none body none target h]
  | .rangeStmt body, target, h => by
    simp only [visitedReturns] at h
    simp only [findPrevNested, findPrevInBlock_none body none target h]
  | .switchStmt body, target, h => by
    simp only [visitedReturns] at h
    simp only [findPrevNested, findPrevInClauses_none false body target h]
  | .typeSwitchStmt body, target, h => by
    simp only [visitedReturns] at h
    simp only [findPrevNested, findPrevInClauses_none false body target h]
  | .selectStmt body, target, h => by
    simp only [visitedReturns] at h
    simp only [findPrevNested, findPrevInClauses_none true body target h]
  | .clause _ _, _, _ => rfl
  | .labeledStmt _, _, _ => rfl
  | .exprStmt _, _, _ => rfl
  | .other, _, _ => rfl
theorem findPrevInClauses_none : ∀ (comm : Bool) (l : List Stmt) (target : Nat),
    target ∉ visitedReturnsList l → findPrevInClauses comm l target = none
  | _, [], _, _ => rfl
  | comm, s :: rest, target, h => by
    simp only [visitedReturnsList, List.mem_append, not_or] at h
    have hr := findPrevInClauses_none comm rest target h.2
    cases s with
    | clause c body =>
      simp only [visitedReturns] at h
      simp only [findPrevInClauses, findPrevInBlock_none body none target h.1, hr]
      split <;> rfl
    | exprStmt _ => simp only [findPrevInClauses, hr]
    | returnStmt _ => simp only [findPrevInClauses, hr]
    | blockStmt _ => simp only [findPrevInClauses, hr]
    | ifStmt _ => simp only [findPrevInClauses, hr]
    | ifElseStmt _ _ => simp only [findPrevInClauses, hr]
    | forStmt _ => simp only [findPrevInClauses, hr]
    | rangeStmt _ => simp only [findPrevInClauses, hr]
    | switchStmt _ => simp only [findPrevInClauses, hr]
    | typeSwitchStmt _ => simp only [findPrevInClauses, hr]
    | selectStmt _ => simp only [findPrevInClauses, hr]
    | labeledStmt _ => simp only [findPrevInClauses, hr]
    | other => simp only [findPrevInClauses, hr]
end

theorem mem_visited_of_mem_returnsOfStmt (s : Stmt) (prev : Option Stmt) (target : Nat)
    (pv : Option Stmt) (h : (target, pv) ∈ returnsOfStmt prev s) : target ∈ visitedReturns s := by
  rw [← map_fst_returnsOfStmt s prev]
  exact List.mem_map.2 ⟨_, h, rfl⟩

theorem mem_visited_of_mem_returnsOfBlock (l : List Stmt) (prev : Option Stmt) (target : Nat)
    (pv : Option Stmt) (h : (target, pv) ∈ returnsOfBlock prev l) :
    target ∈ visitedReturnsList l := by
  rw [← map_fst_returnsOfBlock l prev]
  exact List.mem_map.2 ⟨_, h, rfl⟩

mutual
theorem findPrevInBlock_found : ∀ (l : List Stmt) (prev : Option Stmt) (target : Nat)
    (pv : Option Stmt), reachedList l = true → (visitedReturnsList l).Nodup →
    (target, pv) ∈ returnsOfBlock prev l → findPrevInBlock prev l target = pv
  | [], _, _, _, _, _, h => by simp [returnsOfBlock] at h
  | s :: rest, prev, target, pv, hr, hnd, hm => by
    simp only [reachedList, Bool.and_eq_true] at hr
    simp only [visitedReturnsList] at hnd
    have hdisj := List.disjoint_of_nodup_append hnd
    have hnd1 := (List.nodup_append.1 hnd).1
    have hnd2 := (List.nodup_append.1 hnd).2.1
    simp only [returnsOfBlock, List.mem_append] at hm
    rcases hm with hm | hm
    · have hv := mem_visited_of_mem_returnsOfStmt s prev target pv hm
      have hrest := findPrevInBlock_none rest (some s) target (fun h => hdisj hv h)
      by_cases ht : isTarget s target = true
      · have hs := (isTarget_iff s target).1 ht
        subst hs
        simp only [returnsOfStmt, List.mem_singleton, Prod.mk.injEq, true_and] at hm
        subst hm
        cases pv with
        | none => simp [findPrevInBlock, isTarget, findPrevNested, hrest]
        | some x => simp [findPrevInBlock, isTarget]
      · have hnr : ∀ p, s ≠ .returnStmt p := by
          intro p hp
          subst hp
          simp only [returnsOfStmt, List.mem_singleton, Prod.mk.injEq] at hm
          exact ht ((isTarget_iff _ _).2 (by rw [hm.1]))
        have hn := findPrevNested_found s prev target pv hr.1 hnd1 hnr hm
        simp only [findPrevInBlock, ht, Bool.false_and, Bool.false_eq_true, if_false, hn, hrest]
        cases pv <;> rfl
    · have hv := mem_visited_of_mem_returnsOfBlock rest (some s) target pv hm
      have hns : target ∉ visitedReturns s := fun h => hdisj h hv
      have ht : isTarget s target = false := by
        cases ht : isTarget s target with
        | false => rfl
        | true =>
          rw [(isTarget_iff s target).1 ht] at hns
          simp [visitedReturns] at hns
      simp only [findPrevInBlock, ht, Bool.false_and, Bool.false_eq_true, if_false,
        findPrevNested_none s target hns]
      exact findPrevInBlock_found rest (some s) target pv hr.2 hnd2 hm
theorem findPrevNested_found : ∀ (s : Stmt) (prev : Option Stmt) (target : Nat)
    (pv : Option Stmt), reached s = true → (visitedReturns s).Nodup →
    (∀ p, s ≠ .returnStmt p) → (target, pv) ∈ returnsOfStmt prev s →
    findPrevNested s target = pv
  | .returnStmt p, _, _, _, _, _, hnr, _ => absurd rfl (hnr p)
  | .blockStmt list, _, target, pv, hr, hnd, _, hm => by
    simp only [reached] at hr
    simp only [visitedReturns] at hnd
    simp only [returnsOfStmt] at hm
    simp only [findPrevNested]
    exact findPrevInBlock_found list none target pv hr hnd hm
  | .ifStmt body, _, target, pv, hr, hnd, _, hm => by
    simp only [reached] at hr
    simp only [visitedReturns] at hnd
    simp only [returnsOfStmt] at hm
    simp only [findPrevNested]
    exact findPrevInBlock_found body none target pv hr hnd hm
  | .forStmt body, _, target, pv, hr, hnd, _, hm => by
    simp only [reached] at hr
    simp only [visitedReturns] at hnd
    simp only [returnsOfStmt] at hm
    simp only [findPrevNested]
    exact findPrevInBlock_found body none target pv hr hnd hm
  | .rangeStmt body, _, target, pv, hr, hnd, _, hm => by
    simp only [reached] at hr
    simp only [visitedReturns] at hnd
    simp only [returnsOfStmt] at hm
    simp only [findPrevNested]
    exact findPrevInBlock_found body none target pv hr hnd hm
  | .switchStmt body, _, target, pv, hr, hnd, _, hm => by
    simp only [reached] at hr
    simp only [visitedReturns] at hnd
    simp only [returnsOfStmt] at hm
    simp only [findPrevNested]
    exact findPrevInClauses_found false body none target pv hr hnd hm
  | .typeSwitchStmt body, _, target, pv, hr, hnd, _, hm => by
    simp only [reached] at hr
    simp only [visitedReturns] at hnd
    simp only [returnsOfStmt] at hm
    simp only [findPrevNested]
    exact findPrevInClauses_found false body none target pv hr hnd hm
  | .selectStmt body, _, target, pv, hr, hnd, _, hm => by
    simp only [reached] at hr
    simp only [visitedReturns] at hnd
    simp only [returnsOfStmt] at hm
    simp only [findPrevNested]
    exact findPrevInClauses_found true body none target pv hr hnd hm
  | .ifElseStmt body (.blockStmt list), _, target, pv, hr, hnd, _, hm => by
    simp only [reached, Bool.and_eq_true] at hr
    simp only [visitedReturns] at hnd
    have hdisj := List.disjoint_of_nodup_append hnd
    have hnd1 := (List.nodup_append.1 hnd).1
    have hnd2 := (List.nodup_append.1 hnd).2.1
    simp only [returnsOfStmt, List.mem_append] at hm
    simp only [findPrevNested]
    rcases hm with hm | hm
    · have hv := mem_visited_of_mem_returnsOfBlock body none target pv hm
      rw [findPrevInBlock_found body none target pv hr.1 hnd1 hm,
        findPrevInBlock_none list none target (fun h => hdisj hv h)]
      cases pv <;> rfl
    · have hv := mem_visited_of_mem_returnsOfBlock list none target pv hm
      rw [findPrevInBlock_none body none target (fun h => hdisj h hv)]
      exact findPrevInBlock_found list none target pv hr.2 hnd2 hm
  | .ifElseStmt _ (.exprStmt _), _, _, _, hr, _, _, _ => by simp [reached] at hr
  | .ifElseStmt _ (.returnStmt _), _, _, _, hr, _, _, _ => by simp [reached] at hr
  | .ifElseStmt _ (.ifStmt _), _, _, _, hr, _, _, _ => by simp [reached] at hr
  | .ifElseStmt _ (.ifElseStmt _ _), _, _, _, hr, _, _, _ => by simp [reached] at hr
  | .ifElseStmt _ (.forStmt _), _, _, _, hr, _, _, _ => by simp [reached] at hr
  | .ifElseStmt _ (.rangeStmt _), _, _, _, hr, _, _, _ => by simp [reached] at hr
  | .ifElseStmt _ (.switchStmt _), _, _, _, hr, _, _, _ => by simp [reached] at hr
  | .ifElseStmt _ (.typeSwitchStmt _), _, _, _, hr, _, _, _ => by simp [reached] at hr
  | .ifElseStmt _ (.selectStmt _), _, _, _, hr, _, _, _ => by simp [reached] at hr
  | .ifElseStmt _ (.clause _ _), _, _, _, hr, _, _, _ => by simp [reached] at hr
  | .ifElseStmt _ (.labeledStmt _), _, _, _, hr, _, _, _ => by simp [reached] at hr
  | .ifElseStmt _ .other, _, _, _, hr, _, _, _ => by simp [reached] at hr
  | .clause _ _, _, _, _, hr, _, _, _ => by simp [reached] at hr
  | .labeledStmt _, _, _, _, hr, _, _, _ => by simp [reached] at hr
  | .exprStmt _, _, _, _, _, _, _, hm => by simp [returnsOfStmt] at hm
  | .other, _, _, _, _, _, _, hm => by simp [returnsOfStmt] at hm
theorem findPrevInClauses_found : ∀ (comm : Bool) (l : List Stmt) (prev : Option Stmt)
    (target : Nat) (pv : Option Stmt), reachedClauses comm l = true →
    (visitedReturnsList l).Nodup → (target, pv) ∈ returnsOfBlock prev l →
    findPrevInClauses comm l target = pv
  | _, [], _, _, _, _, _, h => by simp [returnsOfBlock] at h
  | comm, .clause c body :: rest, prev, target, pv, hr, hnd, hm => by
    simp only [reachedClauses, Bool.and_eq_true, decide_eq_true_eq] at hr
    simp only [visitedReturnsList, visitedReturns] at hnd
    have hdisj := List.disjoint_of_nodup_append hnd
    have hnd1 := (List.nodup_append.1 hnd).1
    have hnd2 := (List.nodup_append.1 hnd).2.1
    simp only [returnsOfBlock, returnsOfStmt, List.mem_append] at hm
    simp only [findPrevInClauses, hr.1.1, if_true]
    rcases hm with hm | hm
    · have hv := mem_visited_of_mem_returnsOfBlock body none target pv hm
      rw [findPrevInBlock_found body none target pv hr.1.2 hnd1 hm,
        findPrevInClauses_none comm rest target (fun h => hdisj hv h)]
      cases pv <;> rfl
    · have hv := mem_visited_of_mem_returnsOfBlock rest _ target pv hm
      rw [findPrevInBlock_none body none target (fun h => hdisj h hv)]
      exact findPrevInClauses_found comm rest _ target pv hr.2 hnd2 hm
  | _, .exprStmt _ :: _, _, _, _, hr, _, _ => by simp [reachedClauses] at hr
  | _, .returnStmt _ :: _, _, _, _, hr, _, _ => by simp [reachedClauses] at hr
  | _, .blockStmt _ :: _, _, _, _, hr, _, _ => by simp [reachedClauses] at hr
  | _, .ifStmt _ :: _, _, _, _, hr, _, _ => by simp [reachedClauses] at hr
  | _, .ifElseStmt _ _ :: _, _, _, _, hr, _, _ => by simp [reachedClauses] at hr
  | _, .forStmt _ :: _, _, _, _, hr, _, _ => by simp [reachedClauses] at hr
  | _, .rangeStmt _ :: _, _, _, _, hr, _, _ => by simp [reachedClauses] at hr
  | _, .switchStmt _ :: _, _, _, _, hr, _, _ => by simp [reachedClauses] at hr
  | _, .typeSwitchStmt _ :: _, _, _, _, hr, _, _ => by simp [reachedClauses] at hr
  | _, .selectStmt _ :: _, _, _, _, hr, _, _ => by simp [reachedClauses] at hr
  | _, .labeledStmt _ :: _, _, _, _, hr, _, _ => by simp [reachedClauses] at hr
  | _, .other :: _, _, _, _, hr, _, _ => by simp [reachedClauses] at hr
end

end ReturnCheck


/-! ## C26: the lint rule for returns -/

section ReturnRule

open linter

theorem isTracerCall_iff (stmt : Stmt) (methodName : String) :
    isTracerCall stmt methodName = true ↔
      ∃ args line, stmt =
        .exprStmt (.callExpr (.selectorExpr (.ident "tracer") methodName) args line) := by
  constructor
  · intro h
    unfold isTracerCall at h
    split at h
    · rename_i name sel args line
      simp only [Bool.and_eq_true, beq_iff_eq] at h
      exact ⟨args, line, by rw [h.1, h.2]⟩
    · exact Bool.noConfusion h
  · rintro ⟨args, line, rfl⟩
    simp [isTracerCall]

theorem checkReturns_mem (body : List Stmt) (hr : reachedList body = true)
    (hnd : (visitedReturnsList body).Nodup) (target : Nat) (pv : Option Stmt)
    (hm : (target, pv) ∈ returnsOfBlock none body) :
    target ∈ checkReturns body ↔ unguarded pv = true := by
  have hf := findPrevInBlock_found body none target pv hr hnd hm
  have hv := mem_visited_of_mem_returnsOfBlock body none target pv hm
  unfold checkReturns
  rw [List.mem_filter, hf]
  simp only [hv, true_and]
  cases pv <;> simp [unguarded]

theorem checkReturns_eq (body : List Stmt) (hr : reachedList body = true)
    (hnd : (visitedReturnsList body).Nodup) :
    checkReturns body =
      ((returnsOfBlock none body).filter (fun p => unguarded p.2)).map Prod.fst := by
  unfold checkReturns
  rw [← map_fst_returnsOfBlock body none, List.filter_map]
  congr 1
  apply List.filter_congr
  intro p hp
  have hf := findPrevInBlock_found body none p.1 p.2 hr hnd hp
  simp only [Function.comp, hf]
  cases p.2 <;> simp [unguarded]

/-- The `else if` chain: the return at 7 stands right after
`tracer.ExitError` in the block of the `else if`, and is reported, since
`findPrevInBlock` enters an `else` only when it is a block. -/
theorem else_if_return_reported :
    reachedList elseIfBody = false ∧ visitedReturnsList elseIfBody = [4, 7, 10] ∧
    checkReturns elseIfBody = [7] := by
  decide

/-- C26, the claim as stated fails: the only return of the body stands right
after a call of `tracer.Exit`, which is neither `tracer.ExitSuccess` nor
`tracer.ExitError`, and it is not reported. -/
theorem return_after_Exit_not_reported :
    isTracerCall (tracerCallStmt "Exit") "ExitSuccess" = false ∧
    isTracerCall (tracerCallStmt "Exit") "ExitError" = false ∧
    visitedReturnsList exitBody = [7] ∧
    findPrevInBlock none exitBody 7 = some (tracerCallStmt "Exit") ∧
    returnReports [] "/src/svc/order.go" { Doc := none, Body := some exitBody } = [] :=
  ⟨by decide, by decide, by decide, rfl, by decide⟩

end ReturnRule


/-! ## C33: the endpoints of the edges -/

/-- The entries of the tables after one file: those from before, and entries
whose package is the identity of the file. -/
theorem entries_parseFileNode (a : GoAnalyzer) (fn : String) (node : File) :
    (∀ e ∈ (parseFileNode a fn node).types, e ∈ a.types ∨ e.2.Package = filePkgPath a fn) ∧
    (∀ e ∈ (parseFileNode a fn node).functions,
      e ∈ a.functions ∨ e.2.Package = filePkgPath a fn) ∧
    (∀ e ∈ (parseFileNode a fn node).methods,
      e ∈ a.methods ∨ e.2.Package = filePkgPath a fn) := by
  refine parseFileNode_induct (fun b : GoAnalyzer =>
    (∀ e ∈ b.types, e ∈ a.types ∨ e.2.Package = filePkgPath a fn) ∧
    (∀ e ∈ b.functions, e ∈ a.functions ∨ e.2.Package = filePkgPath a fn) ∧
    (∀ e ∈ b.methods, e ∈ a.methods ∨ e.2.Package = filePkgPath a fn)) a fn node
    ?_ ?_ ?_ ?_ ?_ ⟨fun e he => Or.inl he, fun e he => Or.inl he, fun e he => Or.inl he⟩
  · intro b _ hb; exact hb
  · intro b _ _ _ _ _ hb; exact hb
  · intro b gd ts _ _ hb
    refine ⟨?_, hb.2⟩
    intro e he
    rcases GoMap.mem_insert _ _ _ _ he with he | he
    · subst he
      exact Or.inr (parseTypeSpec_package ts _ fn)
    · exact hb.1 e he
  · intro b fd _ _ hb
    refine ⟨hb.1, ?_, hb.2.2⟩
    intro e he
    rcases GoMap.mem_insert _ _ _ _ he with he | he
    · subst he
      exact Or.inr rfl
    · exact hb.2.1 e he
  · intro b fd r rs _ _ hb
    refine ⟨hb.1, hb.2.1, ?_⟩
    intro e he
    rcases GoMap.mem_insert _ _ _ _ he with he | he
    · subst he
      exact Or.inr rfl
    · exact hb.2.2 e he

theorem packagesOk_parseFileNode (a : GoAnalyzer) (fn : String) (node : File)
    (h : PackagesOk a) : PackagesOk (parseFileNode a fn node) := by
  have hent := entries_parseFileNode a fn node
  have hmono := (keys_mono_parseFileNode a fn node).1
  have hkey := (GoMap.contains_iff _ _).1 (packageKey_parseFileNode a fn node)
  refine ⟨?_, ?_, ?_⟩
  · intro e he
    rcases hent.1 e he with h' | h'
    · exact hmono (h.1 e h')
    · rw [h']; exact hkey
  · intro e he
    rcases hent.2.1 e he with h' | h'
    · exact hmono (h.2.1 e h')
    · rw [h']; exact hkey
  · intro e he
    rcases hent.2.2 e he with h' | h'
    · exact hmono (h.2.2 e h')
    · rw [h']; exact hkey

theorem packagesOk_parseFiles (a : GoAnalyzer) (files : List (String × File))
    (h : PackagesOk a) : PackagesOk (parseFiles a files) :=
  parseFiles_induct PackagesOk files
    (fun b p _ hb => packagesOk_parseFileNode b p.1 p.2 hb) a h

/-- After `Analyze` on a fresh analyzer every entry has a package that is a
key of the package table. -/
theorem Analyze_fresh_packagesOk (fs : FileSystem) (g : Graph)
    (h : (Analyze NewGoAnalyzer fs).2 = .ok g) : PackagesOk (Analyze NewGoAnalyzer fs).1 := by
  obtain ⟨absDir, _, _, hp, ht, hf, hm, _, _⟩ := Analyze_fresh_tables fs g h
  have hs := packagesOk_parseFiles (startAnalyzer absDir (detectModulePath fs.goMod))
    (analysedFiles absDir fs.root)
    ⟨fun e he => by simp [startAnalyzer, NewGoAnalyzer] at he,
     fun e he => by simp [startAnalyzer, NewGoAnalyzer] at he,
     fun e he => by simp [startAnalyzer, NewGoAnalyzer] at he⟩
  unfold PackagesOk at hs ⊢
  rw [hp, ht, hf, hm]
  exact hs

/-- The node ids of the graph of a fresh analyzer are the keys of the four
tables, the ids of its package nodes the keys of the package table. -/
theorem Analyze_fresh_nodeIDs (fs : FileSystem) (g : Graph)
    (h : (Analyze NewGoAnalyzer fs).2 = .ok g) :
    (∀ k, k ∈ nodeIDs g ↔ k ∈ (Analyze NewGoAnalyzer fs).1.packages.keys ∨
      k ∈ (Analyze NewGoAnalyzer fs).1.types.keys ∨
      k ∈ (Analyze NewGoAnalyzer fs).1.functions.keys ∨
      k ∈ (Analyze NewGoAnalyzer fs).1.methods.keys) ∧
    (∀ k, k ∈ (Analyze NewGoAnalyzer fs).1.packages.keys → k ∈ packageNodeIDs g) := by
  obtain ⟨hnodes, _, _⟩ := Analyze_fresh_graph fs g h
  generalize (Analyze NewGoAnalyzer fs).1 = a at hnodes ⊢
  refine ⟨?_, ?_⟩
  · intro k
    unfold nodeIDs
    rw [hnodes]
    simp only [List.map_append, List.map_map, List.mem_append, GoMap.keys]
    have h1 : (Node.ID ∘ packageNode) = Prod.fst := rfl
    have h2 : (Node.ID ∘ typeNode) = Prod.fst := rfl
    have h3 : (Node.ID ∘ functionNode) = Prod.fst := rfl
    have h4 : (Node.ID ∘ methodNode) = Prod.fst := rfl
    rw [h1, h2, h3, h4]
  · intro k hk
    unfold packageNodeIDs
    rw [hnodes]
    obtain ⟨p, hp, rfl⟩ := List.mem_map.1 hk
    refine List.mem_map.2 ⟨packageNode p, ?_, rfl⟩
    refine List.mem_filter.2 ⟨List.mem_append_left _ (List.mem_map_of_mem _ hp), ?_⟩
    simp [packageNode]

/-- C33: in the graph produced by a fresh analyzer every edge of type
contains, calls, uses or embeds has both its from and its to equal to the id
of a node of the graph, and every edge of type import has its from equal to
the id of a package node of the graph; every type, function and method entry
has a package that is a key of the package table. -/
theorem only_import_edges_dangle (fs : FileSystem) (g : Graph)
    (h : (Analyze NewGoAnalyzer fs).2 = .ok g) :
    (∀ e ∈ g.Edges, innerEdgeType e.Type_ → e.From ∈ nodeIDs g ∧ e.To ∈ nodeIDs g) ∧
    (∀ e ∈ g.Edges, e.Type_ = "import" → e.From ∈ packageNodeIDs g) ∧
    PackagesOk (Analyze NewGoAnalyzer fs).1 := by
  obtain ⟨_, hedges, _⟩ := Analyze_fresh_graph fs g h
  obtain ⟨hids, hpids⟩ := Analyze_fresh_nodeIDs fs g h
  have hok := Analyze_fresh_packagesOk fs g h
  generalize (Analyze NewGoAnalyzer fs).1 = a at hedges hids hpids hok ⊢
  have hfst : ∀ {α : Type} (m : GoMap α) (x : String × α), x ∈ m → x.1 ∈ m.keys :=
    fun m x hx => List.mem_map_of_mem _ hx
  refine ⟨?_, ?_, hok⟩
  · intro e he hty
    rw [hedges] at he
    rcases (mem_passEdges a e).1 he with h | h | h | h | h | h | h | h
    · obtain ⟨p, _, h⟩ := h
      obtain ⟨_, _, _, rfl⟩ := (mem_importEdgesOf _ _ _ _).1 h
      simp [innerEdgeType] at hty
    · obtain ⟨t, ht, rfl⟩ := h
      exact ⟨(hids _).2 (Or.inl (hok.1 t ht)), (hids _).2 (Or.inr (Or.inl (hfst _ t ht)))⟩
    · obtain ⟨f, hf, rfl⟩ := h
      exact ⟨(hids _).2 (Or.inl (hok.2.1 f hf)),
        (hids _).2 (Or.inr (Or.inr (Or.inl (hfst _ f hf))))⟩
    · obtain ⟨m, hm, h⟩ := h
      obtain ⟨hc, rfl⟩ := (mem_methodContainsEdge _ _ _ _).1 h
      exact ⟨(hids _).2 (Or.inr (Or.inl ((GoMap.contains_iff _ _).1 hc))),
        (hids _).2 (Or.inr (Or.inr (Or.inr (hfst _ m hm))))⟩
    · obtain ⟨f, hf, h⟩ := h
      obtain ⟨c, _, _, hc, rfl⟩ := (mem_callEdgesOf _ _ _ _ _).1 h
      exact ⟨(hids _).2 (Or.inr (Or.inr (Or.inl (hfst _ f hf)))),
        (hids _).2 (Or.inr (Or.inr (Or.inl ((GoMap.contains_iff _ _).1 hc))))⟩
    · obtain ⟨m, hm, h⟩ := h
      obtain ⟨c, _, _, hc, rfl⟩ := (mem_callEdgesOf _ _ _ _ _).1 h
      exact ⟨(hids _).2 (Or.inr (Or.inr (Or.inr (hfst _ m hm)))),
        (hids _).2 (Or.inr (Or.inr (Or.inl ((GoMap.contains_iff _ _).1 hc))))⟩
    · obtain ⟨t, ht, h⟩ := h
      obtain ⟨n, _, _, hc, rfl⟩ := (mem_embedEdgesOf _ _ _ _).1 h
      exact ⟨(hids _).2 (Or.inr (Or.inl (hfst _ t ht))),
        (hids _).2 (Or.inr (Or.inl ((GoMap.contains_iff _ _).1 hc)))⟩
    · obtain ⟨t, ht, h⟩ := h
      obtain ⟨f, _, _, _, hc, rfl⟩ := (mem_useEdgesOf _ _ _ _).1 h
      exact ⟨(hids _).2 (Or.inr (Or.inl (hfst _ t ht))),
        (hids _).2 (Or.inr (Or.inl ((GoMap.contains_iff _ _).1 hc)))⟩
  · intro e he hty
    rw [hedges] at he
    rcases (mem_passEdges a e).1 he with h | h | h | h | h | h | h | h
    · obtain ⟨p, hp, h⟩ := h
      obtain ⟨_, _, _, rfl⟩ := (mem_importEdgesOf _ _ _ _).1 h
      exact hpids _ (hfst _ p hp)
    · obtain ⟨_, _, rfl⟩ := h
      simp at hty
    · obtain ⟨_, _, rfl⟩ := h
      simp at hty
    · obtain ⟨m, _, h⟩ := h
      obtain ⟨_, rfl⟩ := (mem_methodContainsEdge _ _ _ _).1 h
      simp at hty
    · obtain ⟨f, _, h⟩ := h
      obtain ⟨_, _, _, _, rfl⟩ := (mem_callEdgesOf _ _ _ _ _).1 h
      simp [callEdge] at hty
    · obtain ⟨f, _, h⟩ := h
      obtain ⟨_, _, _, _, rfl⟩ := (mem_callEdgesOf _ _ _ _ _).1 h
      simp [callEdge] at hty
    · obtain ⟨t, _, h⟩ := h
      obtain ⟨_, _, _, _, rfl⟩ := (mem_embedEdgesOf _ _ _ _).1 h
      simp at hty
    · obtain ⟨t, _, h⟩ := h
      obtain ⟨_, _, _, _, _, rfl⟩ := (mem_useEdgesOf _ _ _ _).1 h
      simp at hty

/-- C33 at the module `shapesFs`: the contains edge of the method `Describe`
runs between two nodes, the import edge to `example.com/m/util` starts at a
package node and ends at no node. -/
theorem only_import_edges_dangle_witness :
    ("example.com/m/shapes.Shape" ∈ nodeIDs
        { Nodes := (Analyze NewGoAnalyzer shapesFs).1.nodes,
          Edges := (Analyze NewGoAnalyzer shapesFs).1.edges } ∧
      "example.com/m/shapes.Shape.Describe" ∈ nodeIDs
        { Nodes := (Analyze NewGoAnalyzer shapesFs).1.nodes,
          Edges := (Analyze NewGoAnalyzer shapesFs).1.edges }) ∧
    "example.com/m/shapes" ∈ packageNodeIDs
        { Nodes := (Analyze NewGoAnalyzer shapesFs).1.nodes,
          Edges := (Analyze NewGoAnalyzer shapesFs).1.edges } ∧
    "example.com/m/util" ∉ nodeIDs
        { Nodes := (Analyze NewGoAnalyzer shapesFs).1.nodes,
          Edges := (Analyze NewGoAnalyzer shapesFs).1.edges } :=
  ⟨(only_import_edges_dangle shapesFs
      { Nodes := (Analyze NewGoAnalyzer shapesFs).1.nodes,
        Edges := (Analyze NewGoAnalyzer shapesFs).1.edges } rfl).1
      { From := "example.com/m/shapes.Shape", To := "example.com/m/shapes.Shape.Describe",
        Method := "", Type_ := "contains" } (by decide) (Or.inl rfl),
   (only_import_edges_dangle shapesFs
      { Nodes := (Analyze NewGoAnalyzer shapesFs).1.nodes,
        Edges := (Analyze NewGoAnalyzer shapesFs).1.edges } rfl).2.1
      { From := "example.com/m/shapes", To := "example.com/m/util", Method := "",
        Type_ := "import" } (by decide) rfl,
   by decide⟩


/-! ## C34: the import pass with an empty module path -/

theorem HasPrefix_empty (s : String) : strings.HasPrefix s "" = true := by
  simp [strings.HasPrefix]

theorem importEdgesOf_empty (path : String) (pkg : PackageInfo) :
    (importEdgesOf "" path pkg) = pkg.Imports.map (importEdge path) := by
  unfold importEdgesOf
  rw [List.filter_eq_self.2 (fun imp _ => HasPrefix_empty imp)]
  rfl

theorem length_flatMap_map {α β γ : Type} (f : α → List β) (g : α → β → γ) (l : List α) :
    (l.flatMap (fun e => (f e).map (g e))).length = (l.map (fun e => (f e).length)).sum := by
  induction l with
  | nil => rfl
  | cons x xs ih => simp [List.flatMap_cons, ih]

/-- C34: when the module path is empty (there is no module descriptor, or it
has no module line), every import path passes the test of the import pass:
the import edges of the graph of a fresh analyzer are one edge for each entry
of the import list of each package, from the package to the entry, so their
number is the total number of entries of the import lists; these lists hold
the retained imports of the files of the package. -/
theorem empty_module_path_import_edges (fs : FileSystem) (g : Graph)
    (h : (Analyze NewGoAnalyzer fs).2 = .ok g) (hmod : detectModulePath fs.goMod = "") :
    (∀ imp, strings.HasPrefix imp (Analyze NewGoAnalyzer fs).1.modulePath = true) ∧
    g.Edges.filter (fun e => decide (e.Type_ = "import")) =
      (Analyze NewGoAnalyzer fs).1.packages.flatMap (fun e =>
        e.2.Imports.map (importEdge e.1)) ∧
    (g.Edges.filter (fun e => decide (e.Type_ = "import"))).length =
      ((Analyze NewGoAnalyzer fs).1.packages.map (fun e => e.2.Imports.length)).sum ∧
    (∀ p ∈ (Analyze NewGoAnalyzer fs).1.packages,
      ∀ imp ∈ p.2.Imports, importEdge p.1 imp ∈ g.Edges) ∧
    (∀ absDir, fs.abs = .ok absDir → ∀ key,
      storedImports (Analyze NewGoAnalyzer fs).1 key =
        retainedOf (startAnalyzer absDir "") key (analysedFiles absDir fs.root)) := by
  obtain ⟨_, hedges, _⟩ := Analyze_fresh_graph fs g h
  obtain ⟨absDir', habs', _, hp, _, _, _, hmp, _⟩ := Analyze_fresh_tables fs g h
  rw [hmod] at hmp
  have hfil : g.Edges.filter (fun e => decide (e.Type_ = "import")) =
      (Analyze NewGoAnalyzer fs).1.packages.flatMap (fun e =>
        e.2.Imports.map (importEdge e.1)) := by
    rw [hedges, passEdges_filter_import, hmp]
    simp only [importEdgesOf_empty]
  refine ⟨?_, hfil, ?_, ?_, ?_⟩
  · intro imp
    rw [hmp]
    exact HasPrefix_empty imp
  · rw [hfil]
    exact length_flatMap_map (fun e : String × PackageInfo => e.2.Imports)
      (fun e => importEdge e.1) _
  · intro p hp' imp himp
    have hmem : importEdge p.1 imp ∈ g.Edges.filter (fun e => decide (e.Type_ = "import")) := by
      rw [hfil]
      exact List.mem_flatMap.2 ⟨p, hp', List.mem_map_of_mem _ himp⟩
    exact (List.mem_filter.1 hmem).1
  · intro absDir habs key
    have heq : absDir' = absDir := by
      rw [habs] at habs'
      injection habs' with h'
      exact h'.symm
    subst heq
    have hst := storedImports_parseFiles key (analysedFiles absDir' fs.root)
      (startAnalyzer absDir' (detectModulePath fs.goMod))
    have h0 : storedImports (startAnalyzer absDir' (detectModulePath fs.goMod)) key = [] := rfl
    rw [h0, List.nil_append, hmod] at hst
    rw [← hst]
    unfold storedImports
    rw [hp, hmod]

/-- C34 at the tree `bareFs`, which has no module descriptor: the root file
retains two imports and the file of `sub` one, and the graph has the three
edges of type import. -/
theorem empty_module_path_import_edges_witness :
    ((Analyze NewGoAnalyzer bareFs).1.edges.filter
        (fun e => decide (e.Type_ = "import"))).length =
      ((Analyze NewGoAnalyzer bareFs).1.packages.map (fun e => e.2.Imports.length)).sum ∧
    (Analyze NewGoAnalyzer bareFs).1.edges.filter (fun e => decide (e.Type_ = "import")) =
      [importEdge "" "github.com/x/y", importEdge "" "gopkg.in/yaml.v3",
        (importEdge "/sub" "github.com/x/y")] :=
  ⟨(empty_module_path_import_edges bareFs
      { Nodes := (Analyze NewGoAnalyzer bareFs).1.nodes,
        Edges := (Analyze NewGoAnalyzer bareFs).1.edges } rfl
      (detectModulePath_empty _ (Or.inl rfl))).2.2.1, by decide⟩


/-! ## C35: the call depth -/

section CallDepth

open tracer

theorem depthOk_exit (t : Trace) (d : Int) (c : Call)
    (h : DepthOk { currentTrace := some t, callDepth := d })
    (hc : c.Depth = if d - 1 < 0 then 0 else d - 1) :
    DepthOk { currentTrace := some { t with Calls := t.Calls ++ [c] },
              callDepth := if d - 1 < 0 then 0 else d - 1 } := by
  obtain ⟨h0, hlen, hall⟩ := h
  simp only at h0 hlen
  have hd : 0 ≤ (if d - 1 < 0 then 0 else d - 1) := by
    split <;> omega
  refine ⟨hd, ?_, ?_⟩
  · simp only [List.length_append, List.length_singleton, Nat.cast_add, Nat.cast_one]
    split <;> omega
  · intro x hx
    rcases List.mem_append.1 hx with hx | hx
    · exact hall x hx
    · rw [List.mem_singleton.1 hx, hc]
      exact hd

theorem depthOk_Enter (fn : String) (now : Time) (s : State) (h : DepthOk s) :
    DepthOk (Enter fn now s) := by
  obtain ⟨ct, d⟩ := s
  cases ct with
  | none => exact h
  | some t =>
    obtain ⟨h0, hlen, hall⟩ := h
    simp only at h0 hlen
    refine ⟨by simp only [Enter]; omega, ?_, ?_⟩
    · simp only [Enter, List.length_append, List.length_singleton, Nat.cast_add, Nat.cast_one]
      omega
    · intro x hx
      rcases List.mem_append.1 hx with hx | hx
      · exact hall x hx
      · rw [List.mem_singleton.1 hx]
        exact h0

theorem depthOk_ExitSuccess (fn : String) (now : Time) (s : State) (h : DepthOk s) :
    DepthOk (ExitSuccess fn now s) := by
  obtain ⟨ct, d⟩ := s
  cases ct with
  | none => exact h
  | some t => exact depthOk_exit t d _ h rfl

theorem depthOk_ExitError (fn : String) (err : Option String) (now : Time) (s : State)
    (h : DepthOk s) : DepthOk (ExitError fn err now s) := by
  obtain ⟨ct, d⟩ := s
  cases ct with
  | none => exact h
  | some t => exact depthOk_exit t d _ h rfl

theorem depthOk_apply (act : Action) (now : Time) (s : State) (h : DepthOk s) :
    DepthOk (act.apply now s) := by
  cases act with
  | startTrace testName =>
    exact ⟨le_refl _, by simp [Action.apply, StartTrace], by simp [Action.apply, StartTrace]⟩
  | stopTrace => exact ⟨le_refl _, rfl⟩
  | enter fn => exact depthOk_Enter fn now s h
  | exitSuccess fn => exact depthOk_ExitSuccess fn now s h
  | exitError fn err => exact depthOk_ExitError fn err now s h
  | exit fn err =>
    simp only [Action.apply, Exit]
    split
    · exact depthOk_ExitError fn err now s h
    · exact depthOk_ExitSuccess fn now s h

theorem depthOk_run : ∀ (acts : List (Action × Time)) (s : State), DepthOk s →
    DepthOk (run s acts)
  | [], _, h => h
  | p :: ps, s, h => by
    simp only [run, List.foldl_cons]
    exact depthOk_run ps _ (depthOk_apply p.1 p.2 s h)

theorem record_append (s : State) (a b : List (Op × Time)) :
    record s (a ++ b) = record (record s a) b := by
  simp [record, List.foldl_append]

theorem record_closing (closing : Closing) (closed : Time) (t : Trace) (d : Int)
    (hd : 0 ≤ d) :
    record { currentTrace := some t, callDepth := d + 1 } [(closing.op, closed)] =
      { currentTrace := some { t with Calls := t.Calls ++ [closing.call d closed] },
        callDepth := d } := by
  have h1 : d + 1 - 1 = d := by omega
  have h2 : ¬ d < 0 := by omega
  cases closing with
  | success fn =>
    simp [record, Closing.op, Op.apply, ExitSuccess, Closing.call, h1, h2]
  | failure fn err =>
    cases err <;> simp [record, Closing.op, Op.apply, ExitError, Closing.call, h1, h2]

mutual
/-- Recording the events of an invocation on an active trace at depth `d`
appends its records for the depth `d` and leaves the depth at `d`. -/
theorem record_invocation : ∀ (i : Invocation) (t : Trace) (d : Int), 0 ≤ d →
    record { currentTrace := some t, callDepth := d } i.events =
      { currentTrace := some { t with Calls := t.Calls ++ i.calls d }, callDepth := d }
  | .mk fn entered inner closing closed, t, d, hd => by
    have hin := record_invocations inner
      { t with Calls := t.Calls ++
        [{ Event := "enter", Function := fn, Timestamp := entered, Error := "", Depth := d }] }
      (d + 1) (by omega)
    have hcl := record_closing closing closed
      { t with Calls := (t.Calls ++
        [{ Event := "enter", Function := fn, Timestamp := entered, Error := "", Depth := d }]) ++
        callsList (d + 1) inner } d hd
    simp only [Invocation.events, Invocation.calls]
    have hstep : record { currentTrace := some t, callDepth := d }
        ((Op.enter fn, entered) :: (eventsList inner ++ [(closing.op, closed)])) =
        record (record { currentTrace := some { t with Calls := t.Calls ++
          [{ Event := "enter", Function := fn, Timestamp := entered, Error := "",
             Depth := d }] }, callDepth := d + 1 } (eventsList inner)) [(closing.op, closed)] := by
      rw [← record_append]
      simp [record, Op.apply, Enter]
    rw [hstep, hin, hcl]
    simp
theorem record_invocations : ∀ (l : List Invocation) (t : Trace) (d : Int), 0 ≤ d →
    record { currentTrace := some t, callDepth := d } (eventsList l) =
      { currentTrace := some { t with Calls := t.Calls ++ callsList d l }, callDepth := d }
  | [], t, d, _ => by simp [eventsList, callsList, record]
  | i :: rest, t, d, hd => by
    simp only [eventsList, callsList]
    rw [record_append, record_invocation i t d hd,
      record_invocations rest { t with Calls := t.Calls ++ i.calls d } d hd]
    simp
end

end CallDepth


section CallDepthClaim

open tracer

/-- C35: the depth invariant of the tracer.  In every state reached from the
initial state of the package through `StartTrace`, `StopTrace`, `Enter`,
`ExitSuccess`, `ExitError` and `Exit`, in any order, the call depth is not
negative and no recorded call has a negative depth, whatever exits are
unmatched.  The events of a well-nested sequence, a forest of invocations,
recorded on an active trace give the records `callsList`: the exit record of
an invocation has the depth of its enter record, the invocations inside it
that depth plus 1, and the top-level invocations the depth at which the
sequence starts, which is 0 for a sequence that follows `StartTrace`. -/
theorem call_depth_invariant :
    (∀ acts : List (Action × Time),
      0 ≤ (run initState acts).callDepth ∧ DepthOk (run initState acts) ∧
      ∀ t, (run initState acts).currentTrace = some t → ∀ c ∈ t.Calls, 0 ≤ c.Depth) ∧
    (∀ (testName : String) (now : Time) (s : State) (forest : List Invocation),
      record (StartTrace testName now s) (eventsList forest) =
        { currentTrace := some { TestName := testName, StartTime := now, EndTime := zeroTime,
                                 Calls := callsList 0 forest },
          callDepth := 0 }) ∧
    (∀ (acts : List (Action × Time)) (t : Trace) (forest : List Invocation),
      (run initState acts).currentTrace = some t →
      record (run initState acts) (eventsList forest) =
        { currentTrace := some { t with Calls :=
            (t.Calls ++ callsList (run initState acts).callDepth forest) },
          callDepth := (run initState acts).callDepth }) ∧
    (∀ (d : Int) (fn : String) (entered closed : Time) (inner : List Invocation)
      (closing : Closing),
      (Invocation.mk fn entered inner closing closed).calls d =
        { Event := "enter", Function := fn, Timestamp := entered, Error := "", Depth := d } ::
          (callsList (d + 1) inner ++ [closing.call d closed]) ∧
      (closing.call d closed).Depth = d) := by
  have hinit : DepthOk initState := ⟨le_refl _, rfl⟩
  refine ⟨?_, ?_, ?_, ?_⟩
  · intro acts
    have h := depthOk_run acts initState hinit
    refine ⟨h.1, h, ?_⟩
    intro t ht c hc
    have h2 := h.2
    rw [ht] at h2
    exact h2.2 c hc
  · intro testName now s forest
    have h := record_invocations forest
      { TestName := testName, StartTime := now, EndTime := zeroTime, Calls := [] } 0 (le_refl _)
    simpa [StartTrace] using h
  · intro acts t forest ht
    have h := depthOk_run acts initState hinit
    generalize run initState acts = s at ht h ⊢
    obtain ⟨ct, d⟩ := s
    simp only at ht
    subst ht
    exact record_invocations forest t d h.1
  · intro d fn entered closed inner closing
    refine ⟨by simp [Invocation.calls], ?_⟩
    cases closing with
    | success fn => rfl
    | failure fn err => cases err <;> rfl

/-- C35 on examples: two exits without enter leave the depth at 0, and the
records of `sampleForest` after `StartTrace` have the depths 0, 1, 1, 1, 1, 0
for `svc.Outer` with its two inner invocations and 0, 0 for `svc.Other`. -/
theorem call_depth_invariant_witness :
    (run initState [(.startTrace "T", ⟨1, none⟩), (.exitSuccess "f", ⟨2, none⟩),
        (.exit "g" (some "e"), ⟨3, none⟩)]).callDepth = 0 ∧
    0 ≤ (run initState [(.startTrace "T", ⟨1, none⟩), (.exitSuccess "f", ⟨2, none⟩),
        (.exit "g" (some "e"), ⟨3, none⟩)]).callDepth ∧
    (record (StartTrace "T" ⟨1, none⟩ initState) (eventsList sampleForest)).currentTrace =
      some { TestName := "T", StartTime := ⟨1, none⟩, EndTime := zeroTime,
             Calls := callsList 0 sampleForest } ∧
    (callsList 0 sampleForest).map Call.Depth = [0, 1, 1, 1, 1, 0, 0, 0] :=
  ⟨by decide,
   (call_depth_invariant.1 [(.startTrace "T", ⟨1, none⟩), (.exitSuccess "f", ⟨2, none⟩),
        (.exit "g" (some "e"), ⟨3, none⟩)]).1,
   congrArg State.currentTrace
     (call_depth_invariant.2.1 "T" ⟨1, none⟩ initState sampleForest),
   by decide⟩

end CallDepthClaim


/-! ## C36: the sequence diagram of a well-nested trace -/

section Diagram

open tracer

theorem registerParticipant_stack (st : DiagramState) (c : Call) :
    (registerParticipant st c).callStack = st.callStack ∧
    (registerParticipant st c).diagram.Calls = st.diagram.Calls ∧
    (registerParticipant st c).diagram.TestName = st.diagram.TestName := by
  unfold registerParticipant
  simp only
  split <;> exact ⟨rfl, rfl, rfl⟩

theorem switchEvent_participants (st : DiagramState) (c : Call) :
    (switchEvent st c).diagram.Participants = st.diagram.Participants ∧
    (switchEvent st c).participantSet = st.participantSet ∧
    (switchEvent st c).diagram.TestName = st.diagram.TestName := by
  unfold switchEvent
  simp only
  split
  · exact ⟨rfl, rfl, rfl⟩
  · split
    · split <;> split <;> exact ⟨rfl, rfl, rfl⟩
    · exact ⟨rfl, rfl, rfl⟩

theorem diagramStep_enter (st : DiagramState) (c : Call) (h : c.Event = "enter") :
    (diagramStep st c).callStack = st.callStack ++ [sanitizeAlias c.Function] ∧
    (diagramStep st c).diagram.Calls = st.diagram.Calls := by
  have hr := registerParticipant_stack st c
  unfold diagramStep switchEvent
  simp only [h, if_true]
  exact ⟨by rw [hr.1], hr.2.1⟩

theorem diagramStep_exit (st : DiagramState) (c : Call) (S : List String) (a : String)
    (h : c.Event = "exit_success" ∨ c.Event = "exit_error") (hS : st.callStack = S ++ [a]) :
    (diagramStep st c).callStack = S ∧
    (diagramStep st c).diagram.Calls = st.diagram.Calls ++
      (match S.getLast? with
       | some p => [{ From := p, To := a, Success := decide (c.Event = "exit_success"),
                      Error := c.Error }]
       | none => []) := by
  have hr := registerParticipant_stack st c
  have hne : c.Event ≠ "enter" := by
    rcases h with h | h <;> rw [h] <;> decide
  unfold diagramStep
  rw [← hr.2.1]
  rw [← hr.1] at hS
  generalize registerParticipant st c = st' at hS ⊢
  obtain ⟨dg, ps, cs⟩ := st'
  simp only at hS
  subst hS
  unfold switchEvent
  simp only [hne, if_false, h, if_true]
  rcases S.eq_nil_or_concat with rfl | ⟨S', p, rfl⟩
  · simp
  · have h1 : (S' ++ [p, a]).getD S'.length "" = p := by
      rw [List.getD_append_right _ _ _ _ (le_refl _)]
      simp
    have h2 : (S' ++ [p, a]).getD (S'.length + 1) "" = a := by
      rw [List.getD_append_right _ _ _ _ (by omega)]
      simp
    have h3 : List.take (S'.length + 1) (S' ++ [p, a]) = S' ++ [p] := by
      rw [List.take_append_eq_append_take]
      simp
    simp only [List.concat_eq_append, List.append_assoc, List.singleton_append,
      List.length_append, List.length_cons, List.length_nil, Nat.zero_add,
      show S'.length + (0 + 1 + 1) - 2 = S'.length from by omega,
      show S'.length + (0 + 1 + 1) - 1 = S'.length + 1 from by omega, h1, h2, h3]
    simp [List.getLast?_append, h3]

mutual
theorem foldl_diagramStep_tree : ∀ (t : CallTree) (st : DiagramState),
    t.wellNested = true →
    (t.calls.foldl diagramStep st).callStack = st.callStack ∧
    (t.calls.foldl diagramStep st).diagram.Calls =
      st.diagram.Calls ++ t.sequenceCalls st.callStack.getLast?
  | .node entered inner closed, st, h => by
    simp only [CallTree.wellNested, Bool.and_eq_true, Bool.or_eq_true, decide_eq_true_eq] at h
    obtain ⟨⟨he, hx⟩, hin⟩ := h
    have h1 := diagramStep_enter st entered he
    have h2 := foldl_diagramStep_forest inner (diagramStep st entered) hin
    have h3 := diagramStep_exit ((callsOfTrees inner).foldl diagramStep (diagramStep st entered))
      closed st.callStack (sanitizeAlias entered.Function) hx (by rw [h2.1, h1.1])
    simp only [CallTree.calls, List.foldl_cons, List.foldl_append, List.foldl_nil,
      CallTree.sequenceCalls]
    refine ⟨h3.1, ?_⟩
    rw [h3.2, h2.2, h1.2, h1.1]
    simp [List.append_assoc]
theorem foldl_diagramStep_forest : ∀ (l : List CallTree) (st : DiagramState),
    wellNestedList l = true →
    ((callsOfTrees l).foldl diagramStep st).callStack = st.callStack ∧
    ((callsOfTrees l).foldl diagramStep st).diagram.Calls =
      st.diagram.Calls ++ sequenceCallsOfTrees st.callStack.getLast? l
  | [], st, _ => by simp [callsOfTrees, sequenceCallsOfTrees]
  | t :: rest, st, h => by
    simp only [wellNestedList, Bool.and_eq_true] at h
    have h1 := foldl_diagramStep_tree t st h.1
    have h2 := foldl_diagramStep_forest rest (t.calls.foldl diagramStep st) h.2
    simp only [callsOfTrees, List.foldl_append, sequenceCallsOfTrees]
    refine ⟨by rw [h2.1, h1.1], ?_⟩
    rw [h2.2, h1.2, h1.1]
    simp [List.append_assoc]
end

end Diagram


section DiagramClaim

open tracer

theorem getD_get?_insert (m : GoMap Bool) (k a : String) :
    ((m.insert k true).get? a).getD false = true ↔ a = k ∨ (m.get? a).getD false = true := by
  rw [GoMap.get?_insert]
  by_cases h : k = a
  · simp [h]
  · have h' : ¬ a = k := fun e => h e.symm
    simp [h, h']

theorem diagramStep_seen (st : DiagramState) (c : Call)
    (h : (st.participantSet.get? (sanitizeAlias c.Function)).getD false = true) :
    (diagramStep st c).diagram.Participants = st.diagram.Participants ∧
    (diagramStep st c).participantSet = st.participantSet := by
  have hs := switchEvent_participants (registerParticipant st c) c
  have hr : registerParticipant st c = st := by
    unfold registerParticipant
    simp [h]
  unfold diagramStep
  rw [hs.1, hs.2.1, hr]
  exact ⟨rfl, rfl⟩

theorem diagramStep_new (st : DiagramState) (c : Call)
    (h : ¬ (st.participantSet.get? (sanitizeAlias c.Function)).getD false = true) :
    (diagramStep st c).diagram.Participants = st.diagram.Participants ++ [participantEntry c] ∧
    (diagramStep st c).participantSet =
      st.participantSet.insert (sanitizeAlias c.Function) true := by
  have hs := switchEvent_participants (registerParticipant st c) c
  unfold diagramStep
  rw [hs.1, hs.2.1]
  unfold registerParticipant
  simp only [Bool.not_eq_true] at h
  simp [h, participantEntry]

theorem diagramStep_testName (st : DiagramState) (c : Call) :
    (diagramStep st c).diagram.TestName = st.diagram.TestName := by
  unfold diagramStep
  rw [(switchEvent_participants _ c).2.2, (registerParticipant_stack st c).2.2]

theorem foldl_diagramStep_testName : ∀ (cs : List Call) (st : DiagramState),
    (cs.foldl diagramStep st).diagram.TestName = st.diagram.TestName
  | [], _ => rfl
  | c :: cs, st => by
    simp only [List.foldl_cons]
    rw [foldl_diagramStep_testName cs, diagramStep_testName]

/-- The participants after the loop: those from before, then the entries of
the calls that are the first of their alias and whose alias was not in the set
before. -/
theorem foldl_diagramStep_participants : ∀ (cs : List Call) (st : DiagramState)
    (seen : List String),
    (∀ a, (st.participantSet.get? a).getD false = true ↔ a ∈ seen) →
    (cs.foldl diagramStep st).diagram.Participants =
      st.diagram.Participants ++
        ((firstAppearances cs).filter
          (fun c => decide (sanitizeAlias c.Function ∉ seen))).map participantEntry
  | [], st, seen, _ => by simp [firstAppearances]
  | c :: cs, st, seen, hseen => by
    simp only [List.foldl_cons, firstAppearances]
    by_cases hc : (st.participantSet.get? (sanitizeAlias c.Function)).getD false = true
    · have hstep := diagramStep_seen st c hc
      have hmem : sanitizeAlias c.Function ∈ seen := (hseen _).1 hc
      have ih := foldl_diagramStep_participants cs (diagramStep st c) seen
        (by intro a; rw [hstep.2]; exact hseen a)
      rw [ih, hstep.1, List.filter_cons_of_neg (by simpa using hmem), List.filter_filter]
      congr 2
      apply List.filter_congr
      intro x _
      by_cases hx : sanitizeAlias x.Function ∈ seen
      · simp [hx]
      · have hne : sanitizeAlias x.Function ≠ sanitizeAlias c.Function := by
          intro he
          exact hx (he ▸ hmem)
        simp [hx, hne]
    · have hstep := diagramStep_new st c hc
      have hmem : sanitizeAlias c.Function ∉ seen := fun hm => hc ((hseen _).2 hm)
      have ih := foldl_diagramStep_participants cs (diagramStep st c)
        (sanitizeAlias c.Function :: seen)
        (by
          intro a
          rw [hstep.2, getD_get?_insert, List.mem_cons, hseen a])
      rw [ih, hstep.1, List.filter_cons_of_pos (by simpa using hmem), List.filter_filter,
        List.map_cons, List.append_assoc, List.singleton_append]
      congr 3
      apply List.filter_congr
      intro x _
      simp only [List.mem_cons, not_or, ne_eq, Bool.decide_and, decide_not]
      rw [Bool.and_comm]

theorem firstAppearances_sublist : ∀ cs : List Call, (firstAppearances cs).Sublist cs
  | [] => List.Sublist.slnil
  | c :: cs => by
    simp only [firstAppearances]
    exact List.Sublist.cons₂ c ((List.filter_sublist _).trans (firstAppearances_sublist cs))

theorem firstAppearances_nodup : ∀ cs : List Call,
    ((firstAppearances cs).map (fun c => sanitizeAlias c.Function)).Nodup
  | [] => List.nodup_nil
  | c :: cs => by
    simp only [firstAppearances, List.map_cons]
    refine List.nodup_cons.2 ⟨?_, ?_⟩
    · intro hmem
      obtain ⟨x, hx, hxe⟩ := List.mem_map.1 hmem
      have := (List.mem_filter.1 hx).2
      simp only [ne_eq, decide_not, Bool.not_eq_true', decide_eq_false_iff_not] at this
      exact this hxe
    · exact (firstAppearances_nodup cs).sublist ((List.filter_sublist _).map _)

theorem firstAppearances_complete : ∀ (cs : List Call) (c : Call), c ∈ cs →
    sanitizeAlias c.Function ∈ (firstAppearances cs).map (fun c => sanitizeAlias c.Function)
  | [], _, h => absurd h (List.not_mem_nil _)
  | c₀ :: cs, c, h => by
    simp only [firstAppearances, List.map_cons, List.mem_cons]
    by_cases he : sanitizeAlias c.Function = sanitizeAlias c₀.Function
    · exact Or.inl he
    · right
      rcases List.mem_cons.1 h with h | h
      · exact absurd (h ▸ rfl) he
      · obtain ⟨x, hx, hxe⟩ := List.mem_map.1 (firstAppearances_complete cs c h)
        refine List.mem_map.2 ⟨x, List.mem_filter.2 ⟨hx, ?_⟩, hxe⟩
        have hxe' : sanitizeAlias x.Function = sanitizeAlias c.Function := hxe
        simp only [ne_eq, decide_not, Bool.not_eq_true', decide_eq_false_iff_not]
        rw [hxe']
        exact he

mutual
theorem length_sequenceCalls : ∀ (t : CallTree) (parent : Option String),
    (t.sequenceCalls parent).length = (t.size - 1) + (if parent.isSome then 1 else 0)
  | .node entered inner closed, parent => by
    simp only [CallTree.sequenceCalls, CallTree.size, List.length_append,
      length_sequenceCallsOfTrees inner (sanitizeAlias entered.Function)]
    cases parent <;> simp
theorem length_sequenceCallsOfTrees : ∀ (l : List CallTree) (p : String),
    (sequenceCallsOfTrees (some p) l).length = sizeOfTrees l
  | [], _ => rfl
  | t :: rest, p => by
    have hpos : 1 ≤ t.size := by
      cases t with
      | node _ _ _ => simp [CallTree.size]
    simp only [sequenceCallsOfTrees, sizeOfTrees, List.length_append,
      length_sequenceCalls t (some p), length_sequenceCallsOfTrees rest p, Option.isSome_some,
      if_true]
    omega
end

theorem length_sequenceCalls_top : ∀ l : List CallTree,
    (sequenceCallsOfTrees none l).length + l.length = sizeOfTrees l
  | [] => rfl
  | t :: rest => by
    have hpos : 1 ≤ t.size := by
      cases t with
      | node _ _ _ => simp [CallTree.size]
    have ih := length_sequenceCalls_top rest
    simp only [sequenceCallsOfTrees, sizeOfTrees, List.length_append, List.length_cons,
      length_sequenceCalls t none, Option.isSome_none, Bool.false_eq_true, if_false]
    omega

theorem closing_call_event (closing : Closing) (d : Int) (closed : Time) :
    (closing.call d closed).Event = "exit_success" ∨
      (closing.call d closed).Event = "exit_error" := by
  cases closing with
  | success fn => exact Or.inl rfl
  | failure fn err => cases err <;> exact Or.inr rfl

mutual
/-- The records of an invocation recorded at depth `d` are those of its tree,
which is well nested. -/
theorem calls_tree : ∀ (i : Invocation) (d : Int),
    (i.tree d).calls = i.calls d ∧ (i.tree d).wellNested = true
  | .mk fn entered inner closing closed, d => by
    have h := calls_treesOf inner (d + 1)
    simp only [Invocation.tree, CallTree.calls, Invocation.calls, h.1, CallTree.wellNested, h.2,
      decide_True, Bool.true_and, Bool.and_true, Bool.or_eq_true, decide_eq_true_eq, true_and]
    exact closing_call_event closing d closed
theorem calls_treesOf : ∀ (l : List Invocation) (d : Int),
    callsOfTrees (treesOf d l) = callsList d l ∧ wellNestedList (treesOf d l) = true
  | [], _ => ⟨rfl, rfl⟩
  | i :: rest, d => by
    have h1 := calls_tree i d
    have h2 := calls_treesOf rest d
    simp [treesOf, callsOfTrees, callsList, wellNestedList, h1.1, h1.2, h2.1, h2.2]
end

end DiagramClaim


section DiagramTheorem

open tracer

/-- C36: for every well-nested trace, one whose calls are those of a forest of
invocations, `buildSequenceDiagram` gives the calls `sequenceCallsOfTrees`:
one call for each invocation that has an enclosing invocation, from the alias
of the enclosing function to the alias of the invoked function, successful
exactly when the closing event is `exit_success`, none for the top-level
invocations, in the order of the exit events; so their number is the number of
invocations that are not top-level.  The participants are the entries
`alias|shortName` of the calls that are the first of their alias, in the order
of the trace: every alias of the trace occurs, and none twice. -/
theorem buildSequenceDiagram_well_nested (trace : Trace) (forest : List CallTree)
    (hw : wellNestedList forest = true) (hc : trace.Calls = callsOfTrees forest) :
    (buildSequenceDiagram trace).Calls = sequenceCallsOfTrees none forest ∧
    (∀ (parent : Option String) (entered closed : Call) (inner : List CallTree),
      (CallTree.node entered inner closed).sequenceCalls parent =
        sequenceCallsOfTrees (some (sanitizeAlias entered.Function)) inner ++
          (match parent with
           | some p => [{ From := p, To := sanitizeAlias entered.Function,
                          Success := decide (closed.Event = "exit_success"),
                          Error := closed.Error }]
           | none => [])) ∧
    (buildSequenceDiagram trace).Calls.length + forest.length = sizeOfTrees forest ∧
    (buildSequenceDiagram trace).Participants =
      (firstAppearances trace.Calls).map participantEntry ∧
    ((firstAppearances trace.Calls).map (fun c => sanitizeAlias c.Function)).Nodup ∧
    (∀ c ∈ trace.Calls, sanitizeAlias c.Function ∈
      (firstAppearances trace.Calls).map (fun c => sanitizeAlias c.Function)) ∧
    (firstAppearances trace.Calls).Sublist trace.Calls ∧
    (buildSequenceDiagram trace).TestName = trace.TestName := by
  have hcalls : (buildSequenceDiagram trace).Calls = sequenceCallsOfTrees none forest := by
    unfold buildSequenceDiagram
    rw [hc]
    have h := (foldl_diagramStep_forest forest
      { diagram := { TestName := trace.TestName, Participants := [], Calls := [] },
        participantSet := [], callStack := [] } hw).2
    simpa using h
  refine ⟨hcalls, ?_, ?_, ?_, firstAppearances_nodup _, firstAppearances_complete _,
    firstAppearances_sublist _, ?_⟩
  · intro parent entered closed inner
    simp [CallTree.sequenceCalls]
  · rw [hcalls]
    exact length_sequenceCalls_top forest
  · unfold buildSequenceDiagram
    have h := foldl_diagramStep_participants trace.Calls
      { diagram := { TestName := trace.TestName, Participants := [], Calls := [] },
        participantSet := [], callStack := [] } []
      (by intro a; simp [GoMap.get?])
    rw [h]
    simp
  · unfold buildSequenceDiagram
    rw [foldl_diagramStep_testName]

/-- C36 on the records of `sampleForest`: `svc.Outer` calls `svc.Inner` twice,
the second call fails, `svc.Other` is a top-level invocation of its own. -/
theorem buildSequenceDiagram_well_nested_witness :
    (buildSequenceDiagram { TestName := "T", StartTime := ⟨1, none⟩, EndTime := zeroTime,
                            Calls := callsList 0 sampleForest }).Calls =
      sequenceCallsOfTrees none (treesOf 0 sampleForest) ∧
    sequenceCallsOfTrees none (treesOf 0 sampleForest) =
      [ { From := "svc_Outer", To := "svc_Inner", Success := true, Error := "" },
        { From := "svc_Outer", To := "svc_Inner", Success := false, Error := "boom" } ] ∧
    (buildSequenceDiagram { TestName := "T", StartTime := ⟨1, none⟩, EndTime := zeroTime,
                            Calls := callsList 0 sampleForest }).Participants =
      ["svc_Outer|Outer", "svc_Inner|Inner", "svc_Other|Other"] :=
  ⟨(buildSequenceDiagram_well_nested
      { TestName := "T", StartTime := ⟨1, none⟩, EndTime := zeroTime,
        Calls := callsList 0 sampleForest }
      (treesOf 0 sampleForest) (by decide) (by decide)).1,
   by decide, by decide⟩

end DiagramTheorem


/-! ## C31: the id and the title of a generated context -/

section Contexts

open tracer

theorem mem_dropWhile_of_false {α : Type} (p : α → Bool) (x : α) : ∀ l : List α,
    x ∈ l → p x = false → x ∈ l.dropWhile p
  | [], h, _ => h
  | y :: ys, h, hx => by
    by_cases hy : p y = true
    · rw [List.dropWhile_cons_of_pos hy]
      rcases List.mem_cons.1 h with h | h
      · rw [h, hy] at hx
        exact Bool.noConfusion hx
      · exact mem_dropWhile_of_false p x ys h hx
    · rw [List.dropWhile_cons_of_neg hy]
      exact h

/-- `TrimSpace` leaves something exactly when the text has a character that is
not white space. -/
theorem TrimSpace_ne_empty (s : String) :
    strings.TrimSpace s ≠ "" ↔ ∃ c ∈ s.data, strings.isSpace c = false := by
  have hne : strings.TrimSpace s ≠ "" ↔
      ((s.data.dropWhile strings.isSpace).reverse.dropWhile strings.isSpace) ≠ [] := by
    unfold strings.TrimSpace
    constructor
    · intro h h'
      apply h
      rw [h']
      rfl
    · intro h h'
      apply h
      have := congrArg String.data h'
      simpa using this
  rw [hne, Ne, List.dropWhile_eq_nil_iff]
  constructor
  · intro h
    by_contra hno
    apply h
    intro x hx
    have hx' : x ∈ s.data := (List.dropWhile_sublist _).subset (List.mem_reverse.1 hx)
    cases hsp : strings.isSpace x with
    | true => rfl
    | false => exact absurd ⟨x, hx', hsp⟩ hno
  · rintro ⟨c, hc, hsp⟩ h
    have := h c (List.mem_reverse.2 (mem_dropWhile_of_false _ c _ hc hsp))
    rw [hsp] at this
    exact Bool.noConfusion this

theorem mem_humanizeChars (x : Char) : ∀ (l : List Char) (first : Bool),
    (x ∈ l → x ∈ humanizeChars first l) ∧ (x ∈ humanizeChars first l → x ∈ l ∨ x = ' ')
  | [], _ => by simp [humanizeChars]
  | r :: rs, first => by
    have ih := mem_humanizeChars x rs false
    simp only [humanizeChars, List.mem_append, List.mem_cons]
    constructor
    · rintro (h | h)
      · exact Or.inr (Or.inl h)
      · exact Or.inr (Or.inr (ih.1 h))
    · rintro (h | h | h)
      · split at h
        · exact Or.inr (List.mem_singleton.1 h)
        · exact absurd h (List.not_mem_nil _)
      · exact Or.inl (Or.inl h)
      · rcases ih.2 h with h | h
        · exact Or.inl (Or.inr h)
        · exact Or.inr h

/-- The title is not empty exactly when the test name without a leading
`Test` has a character that is not white space. -/
theorem humanizeTestName_ne_empty (testName : String) :
    humanizeTestName testName ≠ "" ↔
      ∃ c ∈ (strings.TrimPrefix testName "Test").data, strings.isSpace c = false := by
  unfold humanizeTestName
  simp only
  rw [TrimSpace_ne_empty]
  constructor
  · rintro ⟨c, hc, hsp⟩
    rcases (mem_humanizeChars c _ true).2 hc with h | h
    · exact ⟨c, h, hsp⟩
    · rw [h] at hsp
      exact absurd hsp (by decide)
  · rintro ⟨c, hc, hsp⟩
    exact ⟨c, (mem_humanizeChars c _ true).1 hc, hsp⟩

theorem contextID_ne_empty (unicodeLower : Char → Char) (testName : String) :
    "tests." ++ sanitizeContextID unicodeLower testName ≠ "" ∧
    strings.HasPrefix ("tests." ++ sanitizeContextID unicodeLower testName) "tests." = true := by
  refine ⟨?_, HasPrefix_append _ _⟩
  intro h
  have := congrArg (fun s => s.data.length) h
  simp [String.data_append] at this

/-- Every context that the loop adds has the id and the title of a trace. -/
theorem generateContexts_entries (unicodeLower : Char → Char) (traceDir : String)
    (writeErr : String → Option String) : ∀ (files : List String) (contexts : GoMap Context)
    (disk : Disk) (result : GoMap Context),
    (generateContexts unicodeLower traceDir writeErr files contexts disk).2 = .ok result →
    ∀ e ∈ result, e ∈ contexts ∨ ∃ trace : Trace,
      e.1 = "tests." ++ sanitizeContextID unicodeLower trace.TestName ∧
      e.2.Title = humanizeTestName trace.TestName
  | [], contexts, disk, result, h => by
    simp only [generateContexts] at h
    injection h with h
    subst h
    exact fun e he => Or.inl he
  | file :: files, contexts, disk, result, h => by
    unfold generateContexts at h
    split at h
    · exact Except.noConfusion h
    · rename_i trace _
      simp only [GenerateContextFromTrace] at h
      split at h
      · exact Except.noConfusion h
      · intro e he
        rcases generateContexts_entries unicodeLower traceDir writeErr files _ _ result h e he
          with h' | h'
        · rcases GoMap.mem_insert _ _ _ _ h' with h'' | h''
          · subst h''
            exact Or.inr ⟨trace, rfl, rfl⟩
          · exact Or.inl h''
        · exact Or.inr h'

end Contexts


section ContextsClaim

open tracer

/-- C31, the code at a trace whose test name is `Test`: the test name is not
empty and the context generated from the trace has the empty title; generated
from the directory `/out` of `sampleTraceDisk`, the context of that trace has
the id `tests.test` and the empty title, the context of `TestProcessOrder` the
title `Process Order`. -/
theorem context_title_empty :
    "Test" ≠ "" ∧
    (∃ ctx, GenerateContextFromTrace
        { TestName := "Test", StartTime := ⟨1, none⟩, EndTime := ⟨5, none⟩,
          Calls := callsList 0 sampleForest } = .ok ctx ∧ ctx.Title = "") ∧
    (∃ contexts,
      (GenerateContextsFromTraces id "/out" (.ok ["/out/a.json", "/out/b.json"])
        (fun _ => none) sampleTraceDisk).2 = .ok contexts ∧
      contexts.map (fun e => (e.1, e.2.Title)) =
        [("tests.test", ""), ("tests.test_process_order", "Process Order")]) :=
  ⟨by decide, ⟨_, rfl, by decide⟩, ⟨_, rfl, by decide⟩⟩

/-- The ids and titles that the code gives: every context that
`GenerateContextsFromTraces` returns has a non-empty id, `tests.` followed by
the sanitized test name of a trace, and as title `humanizeTestName` of that
test name: the leading `Test` removed, a space inserted before each later
capital letter, and the white space at both ends trimmed.  The title is
non-empty exactly when the test name without a leading `Test` has a character
that is not white space. -/
theorem context_id_and_title (unicodeLower : Char → Char) (traceDir : String)
    (glob : Except String (List String)) (writeErr : String → Option String) (disk : Disk)
    (contexts : GoMap Context)
    (h : (GenerateContextsFromTraces unicodeLower traceDir glob writeErr disk).2 =
      .ok contexts) :
    (∀ e ∈ contexts, e.1 ≠ "" ∧ strings.HasPrefix e.1 "tests." = true ∧
      ∃ trace : Trace,
        e.1 = "tests." ++ sanitizeContextID unicodeLower trace.TestName ∧
        e.2.Title = humanizeTestName trace.TestName ∧
        (e.2.Title ≠ "" ↔
          ∃ c ∈ (strings.TrimPrefix trace.TestName "Test").data, strings.isSpace c = false)) ∧
    (∀ trace : Trace, ∃ ctx, GenerateContextFromTrace trace = .ok ctx ∧
      ctx.Title = humanizeTestName trace.TestName) ∧
    (∀ testName : String,
      humanizeTestName testName =
        strings.TrimSpace ⟨humanizeChars true (strings.TrimPrefix testName "Test").data⟩ ∧
      (humanizeTestName testName ≠ "" ↔
        ∃ c ∈ (strings.TrimPrefix testName "Test").data, strings.isSpace c = false)) := by
  refine ⟨?_, ?_, ?_⟩
  · intro e he
    have hent : ∃ trace : Trace,
        e.1 = "tests." ++ sanitizeContextID unicodeLower trace.TestName ∧
        e.2.Title = humanizeTestName trace.TestName := by
      unfold GenerateContextsFromTraces at h
      split at h
      · exact Except.noConfusion h
      · rename_i files
        split at h
        · exact Except.noConfusion h
        · rcases generateContexts_entries unicodeLower traceDir writeErr files [] disk contexts
            h e he with h' | h'
          · exact absurd h' (List.not_mem_nil _)
          · exact h'
    obtain ⟨trace, hid, htitle⟩ := hent
    have hne := contextID_ne_empty unicodeLower trace.TestName
    refine ⟨by rw [hid]; exact hne.1, by rw [hid]; exact hne.2, trace, hid, htitle, ?_⟩
    rw [htitle]
    exact humanizeTestName_ne_empty trace.TestName
  · intro trace
    exact ⟨_, rfl, rfl⟩
  · intro testName
    exact ⟨rfl, humanizeTestName_ne_empty testName⟩

/-- At the directory `/out` of `sampleTraceDisk` the context of the test
`TestProcessOrder` has a non-empty id, and the title `Process Order`. -/
theorem context_id_and_title_witness :
    "tests.test_process_order" ≠ "" ∧ humanizeTestName "TestProcessOrder" = "Process Order" :=
  ⟨((context_id_and_title id "/out" (.ok ["/out/a.json", "/out/b.json"]) (fun _ => none)
      sampleTraceDisk _ rfl).1
      ("tests.test_process_order",
        { Title := "Process Order", Location := "Tests/Process Order",
          Presentation := "plantuml", ExtraLinks := false, Components := [],
          UML := some { Before := "", After := "", File := "/out/b.puml" } })
      (by decide)).1,
   by decide⟩

end ContextsClaim


/-! ## C32: wildcards at other places of a pattern -/

section Wildcards

open tracer

/-- The match of `[^.]*` followed by `k`: a run without dot, then `k`. -/
theorem matchNoDots_iff (k : List Char → Bool) : ∀ s : List Char,
    matchNoDots k s = true ↔ ∃ a b, s = a ++ b ∧ '.' ∉ a ∧ k b = true
  | [] => by
    simp only [matchNoDots]
    constructor
    · intro h
      exact ⟨[], [], rfl, List.not_mem_nil _, h⟩
    · rintro ⟨a, b, hab, _, hk⟩
      have hb : b = [] := (List.append_eq_nil.1 hab.symm).2
      rw [hb] at hk
      exact hk
  | c :: cs => by
    have ih := matchNoDots_iff k cs
    simp only [matchNoDots, Bool.or_eq_true, Bool.and_eq_true, bne_iff_ne, ne_eq]
    constructor
    · rintro (h | ⟨hc, h⟩)
      · exact ⟨[], c :: cs, rfl, List.not_mem_nil _, h⟩
      · obtain ⟨a, b, hab, ha, hk⟩ := ih.1 h
        refine ⟨c :: a, b, by rw [hab]; rfl, ?_, hk⟩
        simp only [List.mem_cons, not_or]
        exact ⟨fun e => hc e.symm, ha⟩
    · rintro ⟨a, b, hab, ha, hk⟩
      cases a with
      | nil =>
        left
        rw [hab]
        exact hk
      | cons x xs =>
        right
        simp only [List.cons_append, List.cons.injEq] at hab
        simp only [List.mem_cons, not_or] at ha
        refine ⟨?_, ih.2 ⟨xs, b, hab.2, ha.2, hk⟩⟩
        rw [hab.1]
        exact fun e => ha.1 e.symm

theorem matchNoDots_twice (k : List Char → Bool) (s : List Char) :
    matchNoDots (matchNoDots k) s = matchNoDots k s := by
  rw [Bool.eq_iff_iff, matchNoDots_iff, matchNoDots_iff]
  constructor
  · rintro ⟨a, b, hab, ha, hk⟩
    obtain ⟨a', b', hab', ha', hk'⟩ := (matchNoDots_iff k b).1 hk
    refine ⟨a ++ a', b', by rw [hab, hab', List.append_assoc], ?_, hk'⟩
    simp only [List.mem_append, not_or]
    exact ⟨ha, ha'⟩
  · rintro ⟨a, b, hab, ha, hk⟩
    exact ⟨a, b, hab, ha, (matchNoDots_iff k b).2 ⟨[], b, rfl, List.not_mem_nil _, hk⟩⟩

theorem matchItems_lit (ch : Char) (items : List RegexItem) (s : List Char) :
    matchItems (.lit ch :: items) s = true ↔
      ∃ rest, s = ch :: rest ∧ matchItems items rest = true := by
  cases s with
  | nil => simp [matchItems]
  | cons x xs =>
    simp only [matchItems, Bool.and_eq_true, beq_iff_eq, List.cons.injEq]
    constructor
    · rintro ⟨rfl, h⟩
      exact ⟨xs, ⟨rfl, rfl⟩, h⟩
    · rintro ⟨rest, ⟨rfl, rfl⟩, h⟩
      exact ⟨rfl, h⟩

/-- The text of the expression that the fallback builds, piece by piece. -/
theorem regex_body_chars : ∀ l : List Char,
    ((l.flatMap (fun c => if c = '.' then "\\.".data else [c])).flatMap
        (fun c => if c = '*' then "[^.]*".data else [c])) =
      l.flatMap (fun c =>
        if c = '.' then ['\\', '.']
        else if c = '*' then ['[', '^', '.', ']', '*'] else [c])
  | [] => rfl
  | c :: cs => by
    have ih := regex_body_chars cs
    simp only [List.flatMap_cons, List.flatMap_append, ih]
    congr 1
    by_cases h1 : c = '.'
    · subst h1
      decide
    · by_cases h2 : c = '*'
      · subst h2
        decide
      · simp [h1, h2]

theorem regexMeta_false (c : Char) (h : regexMeta c = false) :
    c ≠ '$' ∧ c ≠ '\\' ∧ c ≠ '[' := by
  refine ⟨?_, ?_, ?_⟩ <;> intro e <;> subst e <;> exact absurd h (by decide)

/-- Reading the expression of a plain pattern back gives one piece for each
character of the pattern. -/
theorem parseItems_body : ∀ l : List Char,
    (∀ c ∈ l, c = '.' ∨ c = '*' ∨ regexMeta c = false) →
    parseItems (l.flatMap (fun c =>
        if c = '.' then ['\\', '.']
        else if c = '*' then ['[', '^', '.', ']', '*'] else [c]) ++ ['$']) =
      some (l.map patternItem)
  | [], _ => by decide
  | c :: cs, h => by
    have ih := parseItems_body cs (fun x hx => h x (List.mem_cons_of_mem _ hx))
    simp only [List.flatMap_cons, List.map_cons, List.append_assoc]
    by_cases h1 : c = '.'
    · subst h1
      simp only [if_true, List.cons_append, List.nil_append]
      unfold parseItems
      simp only [show ('\\' : Char) ≠ '$' from by decide, if_false, if_true, ih, Option.map_some']
      rfl
    · by_cases h2 : c = '*'
      · subst h2
        simp only [h1, if_false, if_true, List.cons_append, List.nil_append]
        unfold parseItems
        simp only [show ('[' : Char) ≠ '$' from by decide, show ('[' : Char) ≠ '\\' from by decide,
          if_false, if_true, ih, Option.map_some']
        rfl
      · have hm : regexMeta c = false := by
          rcases h c (List.mem_cons_self _ _) with h' | h' | h'
          · exact absurd h' h1
          · exact absurd h' h2
          · exact h'
        obtain ⟨m1, m2, m3⟩ := regexMeta_false c hm
        simp only [h1, h2, if_false, List.cons_append, List.nil_append]
        unfold parseItems
        simp only [m1, m2, m3, if_false, hm, Bool.false_eq_true, ih, Option.map_some',
          patternItem, h2]

/-- A pattern with a star that has neither of the two final forms is matched
as a regular expression. -/
theorem Match_fallback (re : String → String → Bool) (c pattern : String)
    (hstar : '*' ∈ pattern.data) (h1 : strings.HasSuffix pattern ".**" = false)
    (h2 : strings.HasSuffix pattern ".*" = false) :
    MatchComponentPattern re c pattern =
      re ("^" ++ strings.ReplaceAll (strings.ReplaceAll pattern '.' "\\.") '*' "[^.]*" ++ "$")
        c := by
  have hs : strings.Contains pattern "*" = true := (Contains_star pattern).2 hstar
  simp [MatchComponentPattern, hs, h1, h2]

/-- On a plain pattern the expression of the fallback has one piece for each
character of the pattern: `[^.]*` for a star, the character itself otherwise. -/
theorem Match_fallback_plain (c pattern : String)
    (hstar : '*' ∈ pattern.data) (h1 : strings.HasSuffix pattern ".**" = false)
    (h2 : strings.HasSuffix pattern ".*" = false) (hp : plainPattern pattern = true) :
    MatchComponentPattern globRegex c pattern =
      matchItems (pattern.data.map patternItem) c.data := by
  rw [Match_fallback globRegex c pattern hstar h1 h2]
  have hplain : ∀ x ∈ pattern.data, x = '.' ∨ x = '*' ∨ regexMeta x = false := by
    intro x hx
    have := List.all_eq_true.1 hp x hx
    simpa [or_assoc] using this
  have hdata : ("^" ++ strings.ReplaceAll (strings.ReplaceAll pattern '.' "\\.") '*' "[^.]*" ++
      "$").data = '^' :: (pattern.data.flatMap (fun c =>
        if c = '.' then ['\\', '.']
        else if c = '*' then ['[', '^', '.', ']', '*'] else [c]) ++ ['$']) := by
    simp only [String.data_append, strings.ReplaceAll, regex_body_chars]
    rfl
  unfold globRegex
  rw [hdata]
  simp only [parseItems_body pattern.data hplain]

end Wildcards


section WildcardsClaim

open tracer

theorem matchItems_noDots_only (s : List Char) :
    matchItems [.noDots, .noDots] s = true ↔ '.' ∉ s := by
  have h : matchItems [.noDots, .noDots] s = matchNoDots (matchItems []) s := by
    simp only [matchItems]
    exact matchNoDots_twice _ s
  rw [h, matchNoDots_iff]
  constructor
  · rintro ⟨a, b, hab, ha, hb⟩
    have hb' : b = [] := by
      cases b with
      | nil => rfl
      | cons x xs => simp [matchItems] at hb
    rw [hab, hb', List.append_nil]
    exact ha
  · intro hs
    exact ⟨s, [], (List.append_nil s).symm, hs, rfl⟩

/-- C32, the code at wildcards that are not at the end of the pattern: the
pattern `**` does not match `a.b`, the pattern `a.**.b` does not match
`a.x.y.b` although it matches `a.x.b`, and the pattern `*.svc.*` does not
match `a.svc.b`, whatever the regular-expression library answers, but matches
the id `*.svc.b`. -/
theorem wildcards_not_everywhere :
    MatchComponentPattern globRegex "a.b" "**" = false ∧
    MatchComponentPattern globRegex "a.x.y.b" "a.**.b" = false ∧
    MatchComponentPattern globRegex "a.x.b" "a.**.b" = true ∧
    MatchComponentPattern globRegex "a.svc.b" "*.svc.*" = false ∧
    MatchComponentPattern (fun _ _ => true) "a.svc.b" "*.svc.*" = false ∧
    MatchComponentPattern (fun _ _ => true) "*.svc.b" "*.svc.*" = true := by
  decide

/-- What the code does with wildcards: they have their documented meaning at
the end of the pattern.  The pattern `p.**` matches the ids that begin with
`p.` and the pattern `p.*` those that continue `p.` by one level, and `p` is
compared character by character, also where it has a star.  Every other pattern with a
star is matched as the regular expression `^…$` in which `\.` is written for
each dot and `[^.]*` for each star, the other characters being handed over as
they are.  For a pattern whose other characters mean themselves in a regular
expression, the expression has one piece for each character of the pattern: a
star matches a run of characters other than the dot, also each star of `**`,
so that two stars match what one star matches, and any other character
matches itself; the pattern `**` matches exactly the ids without a dot. -/
theorem MatchComponentPattern_wildcards (re : String → String → Bool) (c : String) :
    (∀ p, MatchComponentPattern re c (p ++ ".**") = true ↔
      ∃ rest : String, c = p ++ "." ++ rest) ∧
    (∀ p, MatchComponentPattern re c (p ++ ".*") = true ↔
      ∃ s : String, c = p ++ "." ++ s ∧ '.' ∉ s.data) ∧
    (∀ pattern, '*' ∈ pattern.data → strings.HasSuffix pattern ".**" = false →
      strings.HasSuffix pattern ".*" = false →
      MatchComponentPattern re c pattern =
        re ("^" ++ strings.ReplaceAll (strings.ReplaceAll pattern '.' "\\.") '*' "[^.]*" ++
          "$") c) ∧
    (∀ pattern, '*' ∈ pattern.data → strings.HasSuffix pattern ".**" = false →
      strings.HasSuffix pattern ".*" = false → plainPattern pattern = true →
      MatchComponentPattern globRegex c pattern =
        matchItems (pattern.data.map patternItem) c.data) ∧
    (∀ (items : List RegexItem) (s : List Char),
      (matchItems (.noDots :: items) s = true ↔
        ∃ a b, s = a ++ b ∧ '.' ∉ a ∧ matchItems items b = true) ∧
      (∀ ch, matchItems (.lit ch :: items) s = true ↔
        ∃ rest, s = ch :: rest ∧ matchItems items rest = true) ∧
      matchItems (.noDots :: .noDots :: items) s = matchItems (.noDots :: items) s) ∧
    (∀ s : List Char, matchItems [] s = true ↔ s = []) ∧
    (MatchComponentPattern globRegex c "**" = true ↔ '.' ∉ c.data) := by
  refine ⟨Match_recursive re c, Match_single re c, Match_fallback re c,
    Match_fallback_plain c, ?_, ?_, ?_⟩
  · intro items s
    refine ⟨?_, fun ch => matchItems_lit ch items s, ?_⟩
    · simp only [matchItems]
      exact matchNoDots_iff _ s
    · simp only [matchItems]
      exact matchNoDots_twice _ s
  · intro s
    cases s <;> simp [matchItems]
  · rw [Match_fallback_plain c "**" (by decide) (by decide) (by decide) (by decide)]
    exact matchItems_noDots_only c.data

/-- On examples: `a.**.b` is matched through the pieces `a`, `.`, `[^.]*`,
`[^.]*`, `.`, `b`, which match `a.x.b`; and `**` matches `ab`, which has no
dot. -/
theorem MatchComponentPattern_wildcards_witness :
    MatchComponentPattern globRegex "a.x.b" "a.**.b" =
      matchItems [.lit 'a', .lit '.', .noDots, .noDots, .lit '.', .lit 'b'] "a.x.b".data ∧
    MatchComponentPattern globRegex "ab" "**" = true :=
  ⟨(MatchComponentPattern_wildcards globRegex "a.x.b").2.2.2.1 "a.**.b" (by decide) (by decide)
      (by decide) (by decide),
   ((MatchComponentPattern_wildcards globRegex "ab").2.2.2.2.2.2).2 (by decide)⟩

end WildcardsClaim


/-! ## C26: the returns in covered blocks -/

section CoveredReturns

open linter

mutual
/-- A covered return is a return of the body, with the same preceding
statement. -/
theorem covered_sub_stmt : ∀ (s : Stmt) (prev : Option Stmt) (p : Nat × Option Stmt),
    p ∈ coveredOfStmt prev s → p ∈ returnsOfStmt prev s
  | .returnStmt _, _, _, h => by
    simp only [coveredOfStmt] at h
    simp only [returnsOfStmt]
    exact h
  | .blockStmt list, _, p, h => by
    simp only [coveredOfStmt] at h
    simp only [returnsOfStmt]
    exact covered_sub_block list none p h
  | .ifStmt body, _, p, h => by
    simp only [coveredOfStmt] at h
    simp only [returnsOfStmt]
    exact covered_sub_block body none p h
  | .forStmt body, _, p, h => by
    simp only [coveredOfStmt] at h
    simp only [returnsOfStmt]
    exact covered_sub_block body none p h
  | .rangeStmt body, _, p, h => by
    simp only [coveredOfStmt] at h
    simp only [returnsOfStmt]
    exact covered_sub_block body none p h
  | .switchStmt body, _, p, h => by
    simp only [coveredOfStmt] at h
    simp only [returnsOfStmt]
    exact covered_sub_clauses false body none p h
  | .typeSwitchStmt body, _, p, h => by
    simp only [coveredOfStmt] at h
    simp only [returnsOfStmt]
    exact covered_sub_clauses false body none p h
  | .selectStmt body, _, p, h => by
    simp only [coveredOfStmt] at h
    simp only [returnsOfStmt]
    exact covered_sub_clauses true body none p h
  | .ifElseStmt body els, _, p, h => by
    simp only [returnsOfStmt, List.mem_append]
    cases els
    case blockStmt list =>
      simp only [coveredOfStmt, List.mem_append] at h
      rcases h with h | h
      · exact Or.inl (covered_sub_block body none p h)
      · exact Or.inr (by simp only [returnsOfStmt]; exact covered_sub_block list none p h)
    all_goals
      simp only [coveredOfStmt] at h
      exact Or.inl (covered_sub_block body none p h)
  | .clause _ _, _, _, h => by simp [coveredOfStmt] at h
  | .labeledStmt _, _, _, h => by simp [coveredOfStmt] at h
  | .exprStmt _, _, _, h => by simp [coveredOfStmt] at h
  | .other, _, _, h => by simp [coveredOfStmt] at h
theorem covered_sub_block : ∀ (l : List Stmt) (prev : Option Stmt) (p : Nat × Option Stmt),
    p ∈ coveredOfBlock prev l → p ∈ returnsOfBlock prev l
  | [], _, _, h => by simp [coveredOfBlock] at h
  | s :: rest, prev, p, h => by
    simp only [coveredOfBlock, List.mem_append] at h
    simp only [returnsOfBlock, List.mem_append]
    rcases h with h | h
    · exact Or.inl (covered_sub_stmt s prev p h)
    · exact Or.inr (covered_sub_block rest (some s) p h)
theorem covered_sub_clauses : ∀ (comm : Bool) (l : List Stmt) (prev : Option Stmt)
    (p : Nat × Option Stmt), p ∈ coveredOfClauses comm l → p ∈ returnsOfBlock prev l
  | _, [], _, _, h => by simp [coveredOfClauses] at h
  | comm, s :: rest, prev, p, h => by
    simp only [returnsOfBlock, List.mem_append]
    cases s
    case clause c body =>
      simp only [coveredOfClauses, List.mem_append] at h
      rcases h with h | h
      · split at h
        · exact Or.inl (by simp only [returnsOfStmt]; exact covered_sub_block body none p h)
        · exact absurd h (List.not_mem_nil _)
      · exact Or.inr (covered_sub_clauses comm rest _ p h)
    all_goals
      simp only [coveredOfClauses] at h
      exact Or.inr (covered_sub_clauses comm rest _ p h)
end

theorem mem_visited_of_covered_stmt (s : Stmt) (prev : Option Stmt) (target : Nat)
    (pv : Option Stmt) (h : (target, pv) ∈ coveredOfStmt prev s) : target ∈ visitedReturns s :=
  mem_visited_of_mem_returnsOfStmt s prev target pv (covered_sub_stmt s prev _ h)

theorem mem_visited_of_covered_block (l : List Stmt) (prev : Option Stmt) (target : Nat)
    (pv : Option Stmt) (h : (target, pv) ∈ coveredOfBlock prev l) :
    target ∈ visitedReturnsList l :=
  mem_visited_of_mem_returnsOfBlock l prev target pv (covered_sub_block l prev _ h)

theorem mem_visited_of_covered_clauses (comm : Bool) (l : List Stmt) (target : Nat)
    (pv : Option Stmt) (h : (target, pv) ∈ coveredOfClauses comm l) :
    target ∈ visitedReturnsList l :=
  mem_visited_of_mem_returnsOfBlock l none target pv (covered_sub_clauses comm l none _ h)

mutual
/-- For a covered return, `findPrevInBlock` gives the statement that precedes
it in its block, wherever else the body has statements that are not covered. -/
theorem findPrevInBlock_covered : ∀ (l : List Stmt) (prev : Option Stmt) (target : Nat)
    (pv : Option Stmt), (visitedReturnsList l).Nodup →
    (target, pv) ∈ coveredOfBlock prev l → findPrevInBlock prev l target = pv
  | [], _, _, _, _, h => by simp [coveredOfBlock] at h
  | s :: rest, prev, target, pv, hnd, hm => by
    simp only [visitedReturnsList] at hnd
    have hdisj := List.disjoint_of_nodup_append hnd
    have hnd1 := (List.nodup_append.1 hnd).1
    have hnd2 := (List.nodup_append.1 hnd).2.1
    simp only [coveredOfBlock, List.mem_append] at hm
    rcases hm with hm | hm
    · have hv := mem_visited_of_covered_stmt s prev target pv hm
      have hrest := findPrevInBlock_none rest (some s) target (fun h => hdisj hv h)
      by_cases ht : isTarget s target = true
      · have hs := (isTarget_iff s target).1 ht
        subst hs
        simp only [coveredOfStmt, List.mem_singleton, Prod.mk.injEq, true_and] at hm
        subst hm
        cases pv with
        | none => simp [findPrevInBlock, isTarget, findPrevNested, hrest]
        | some x => simp [findPrevInBlock, isTarget]
      · have hnr : ∀ p, s ≠ .returnStmt p := by
          intro p hp
          subst hp
          simp only [coveredOfStmt, List.mem_singleton, Prod.mk.injEq] at hm
          exact ht ((isTarget_iff _ _).2 (by rw [hm.1]))
        have hn := findPrevNested_covered s prev target pv hnd1 hnr hm
        simp only [findPrevInBlock, ht, Bool.false_and, Bool.false_eq_true, if_false, hn, hrest]
        cases pv <;> rfl
    · have hv := mem_visited_of_covered_block rest (some s) target pv hm
      have hns : target ∉ visitedReturns s := fun h => hdisj h hv
      have ht : isTarget s target = false := by
        cases ht : isTarget s target with
        | false => rfl
        | true =>
          rw [(isTarget_iff s target).1 ht] at hns
          simp [visitedReturns] at hns
      simp only [findPrevInBlock, ht, Bool.false_and, Bool.false_eq_true, if_false,
        findPrevNested_none s target hns]
      exact findPrevInBlock_covered rest (some s) target pv hnd2 hm
theorem findPrevNested_covered : ∀ (s : Stmt) (prev : Option Stmt) (target : Nat)
    (pv : Option Stmt), (visitedReturns s).Nodup →
    (∀ p, s ≠ .returnStmt p) → (target, pv) ∈ coveredOfStmt prev s →
    findPrevNested s target = pv
  | .returnStmt p, _, _, _, _, hnr, _ => absurd rfl (hnr p)
  | .blockStmt list, _, target, pv, hnd, _, hm => by
    simp only [visitedReturns] at hnd
    simp only [coveredOfStmt] at hm
    simp only [findPrevNested]
    exact findPrevInBlock_covered list none target pv hnd hm
  | .ifStmt body, _, target, pv, hnd, _, hm => by
    simp only [visitedReturns] at hnd
    simp only [coveredOfStmt] at hm
    simp only [findPrevNested]
    exact findPrevInBlock_covered body none target pv hnd hm
  | .forStmt body, _, target, pv, hnd, _, hm => by
    simp only [visitedReturns] at hnd
    simp only [coveredOfStmt] at hm
    simp only [findPrevNested]
    exact findPrevInBlock_covered body none target pv hnd hm
  | .rangeStmt body, _, target, pv, hnd, _, hm => by
    simp only [visitedReturns] at hnd
    simp only [coveredOfStmt] at hm
    simp only [findPrevNested]
    exact findPrevInBlock_covered body none target pv hnd hm
  | .switchStmt body, _, target, pv, hnd, _, hm => by
    simp only [visitedReturns] at hnd
    simp only [coveredOfStmt] at hm
    simp only [findPrevNested]
    exact findPrevInClauses_covered false body target pv hnd hm
  | .typeSwitchStmt body, _, target, pv, hnd, _, hm => by
    simp only [visitedReturns] at hnd
    simp only [coveredOfStmt] at hm
    simp only [findPrevNested]
    exact findPrevInClauses_covered false body target pv hnd hm
  | .selectStmt body, _, target, pv, hnd, _, hm => by
    simp only [visitedReturns] at hnd
    simp only [coveredOfStmt] at hm
    simp only [findPrevNested]
    exact findPrevInClauses_covered true body target pv hnd hm
  | .ifElseStmt body els, _, target, pv, hnd, hnr, hm => by
    simp only [visitedReturns] at hnd
    clear hnr
    have hdisj := List.disjoint_of_nodup_append hnd
    have hnd1 := (List.nodup_append.1 hnd).1
    have hnd2 := (List.nodup_append.1 hnd).2.1
    cases els
    case blockStmt list =>
      simp only [visitedReturns] at hdisj hnd2
      simp only [coveredOfStmt, List.mem_append] at hm
      simp only [findPrevNested]
      rcases hm with hm | hm
      · have hv := mem_visited_of_covered_block body none target pv hm
        rw [findPrevInBlock_covered body none target pv hnd1 hm,
          findPrevInBlock_none list none target (fun h => hdisj hv h)]
        cases pv <;> rfl
      · have hv := mem_visited_of_covered_block list none target pv hm
        rw [findPrevInBlock_none body none target (fun h => hdisj h hv)]
        exact findPrevInBlock_covered list none target pv hnd2 hm
    all_goals
      simp only [coveredOfStmt] at hm
      simp only [findPrevNested]
      exact findPrevInBlock_covered body none target pv hnd1 hm
  | .clause _ _, _, _, _, _, _, hm => by simp [coveredOfStmt] at hm
  | .labeledStmt _, _, _, _, _, _, hm => by simp [coveredOfStmt] at hm
  | .exprStmt _, _, _, _, _, _, hm => by simp [coveredOfStmt] at hm
  | .other, _, _, _, _, _, hm => by simp [coveredOfStmt] at hm
theorem findPrevInClauses_covered : ∀ (comm : Bool) (l : List Stmt)
    (target : Nat) (pv : Option Stmt), (visitedReturnsList l).Nodup →
    (target, pv) ∈ coveredOfClauses comm l → findPrevInClauses comm l target = pv
  | _, [], _, _, _, h => by simp [coveredOfClauses] at h
  | comm, s :: rest, target, pv, hnd, hm => by
    simp only [visitedReturnsList] at hnd
    have hdisj := List.disjoint_of_nodup_append hnd
    have hnd1 := (List.nodup_append.1 hnd).1
    have hnd2 := (List.nodup_append.1 hnd).2.1
    cases s
    case clause c body =>
      simp only [visitedReturns] at hdisj hnd1
      simp only [coveredOfClauses, List.mem_append] at hm
      simp only [findPrevInClauses]
      by_cases hc : c = comm
      · simp only [hc, if_true] at hm ⊢
        rcases hm with hm | hm
        · have hv := mem_visited_of_covered_block body none target pv hm
          rw [findPrevInBlock_covered body none target pv hnd1 hm,
            findPrevInClauses_none comm rest target (fun h => hdisj hv h)]
          cases pv <;> rfl
        · have hv := mem_visited_of_covered_clauses comm rest target pv hm
          rw [findPrevInBlock_none body none target (fun h => hdisj h hv)]
          exact findPrevInClauses_covered comm rest target pv hnd2 hm
      · simp only [hc, if_false] at hm ⊢
        rcases hm with hm | hm
        · exact absurd hm (List.not_mem_nil _)
        · exact findPrevInClauses_covered comm rest target pv hnd2 hm
    all_goals
      simp only [coveredOfClauses] at hm
      simp only [findPrevInClauses]
      exact findPrevInClauses_covered comm rest target pv hnd2 hm
end

mutual
/-- In a body of reached statements every return is covered. -/
theorem covered_eq_stmt : ∀ (s : Stmt) (prev : Option Stmt), reached s = true →
    coveredOfStmt prev s = returnsOfStmt prev s
  | .returnStmt _, _, _ => by simp only [coveredOfStmt, returnsOfStmt]
  | .blockStmt list, _, h => by
    simp only [reached] at h
    simp only [coveredOfStmt, returnsOfStmt]
    exact covered_eq_block list none h
  | .ifStmt body, _, h => by
    simp only [reached] at h
    simp only [coveredOfStmt, returnsOfStmt]
    exact covered_eq_block body none h
  | .forStmt body, _, h => by
    simp only [reached] at h
    simp only [coveredOfStmt, returnsOfStmt]
    exact covered_eq_block body none h
  | .rangeStmt body, _, h => by
    simp only [reached] at h
    simp only [coveredOfStmt, returnsOfStmt]
    exact covered_eq_block body none h
  | .switchStmt body, _, h => by
    simp only [reached] at h
    simp only [coveredOfStmt, returnsOfStmt]
    exact covered_eq_clauses false body none h
  | .typeSwitchStmt body, _, h => by
    simp only [reached] at h
    simp only [coveredOfStmt, returnsOfStmt]
    exact covered_eq_clauses false body none h
  | .selectStmt body, _, h => by
    simp only [reached] at h
    simp only [coveredOfStmt, returnsOfStmt]
    exact covered_eq_clauses true body none h
  | .ifElseStmt body els, _, h => by
    cases els
    case blockStmt list =>
      simp only [reached, Bool.and_eq_true] at h
      simp only [coveredOfStmt, returnsOfStmt, covered_eq_block body none h.1,
        covered_eq_block list none h.2]
    all_goals simp [reached] at h
  | .clause _ _, _, h => by simp [reached] at h
  | .labeledStmt _, _, h => by simp [reached] at h
  | .exprStmt _, _, _ => by simp only [coveredOfStmt, returnsOfStmt]
  | .other, _, _ => by simp only [coveredOfStmt, returnsOfStmt]
theorem covered_eq_block : ∀ (l : List Stmt) (prev : Option Stmt), reachedList l = true →
    coveredOfBlock prev l = returnsOfBlock prev l
  | [], _, _ => by simp only [coveredOfBlock, returnsOfBlock]
  | s :: rest, prev, h => by
    simp only [reachedList, Bool.and_eq_true] at h
    simp only [coveredOfBlock, returnsOfBlock, covered_eq_stmt s prev h.1,
      covered_eq_block rest (some s) h.2]
theorem covered_eq_clauses : ∀ (comm : Bool) (l : List Stmt) (prev : Option Stmt),
    reachedClauses comm l = true → coveredOfClauses comm l = returnsOfBlock prev l
  | _, [], _, _ => by simp only [coveredOfClauses, returnsOfBlock]
  | comm, s :: rest, prev, h => by
    cases s
    case clause c body =>
      simp only [reachedClauses, Bool.and_eq_true, decide_eq_true_eq] at h
      obtain ⟨⟨hc, hb⟩, hrest⟩ := h
      subst hc
      simp only [coveredOfClauses, returnsOfBlock, returnsOfStmt, if_true,
        covered_eq_block body none hb,
        covered_eq_clauses c rest (some (.clause c body)) hrest]
    all_goals simp [reachedClauses] at h
end

/-- A covered return is reported exactly when it is not guarded. -/
theorem checkReturns_covered (body : List Stmt) (hnd : (visitedReturnsList body).Nodup)
    (target : Nat) (pv : Option Stmt) (hm : (target, pv) ∈ coveredOfBlock none body) :
    target ∈ checkReturns body ↔ unguarded pv = true := by
  have hf := findPrevInBlock_covered body none target pv hnd hm
  have hv := mem_visited_of_covered_block body none target pv hm
  unfold checkReturns
  rw [List.mem_filter, hf]
  simp only [hv, true_and]
  cases pv <;> simp [unguarded]

end CoveredReturns


section ReturnRuleClaim

open linter

/-- C26, amended: in a checked function (the file is not excluded, there is a
body and no `@skip-tracer` doc tag) the return reports are those of
`checkReturns`.  Every return of the body that lies in a block nested through
`if`, `else` blocks, `for`, `range`, `switch`, type switch, `select` and plain
blocks is reported if and only if it has no preceding statement in its
enclosing block or that statement is no call of `tracer.ExitSuccess`,
`tracer.ExitError` or `tracer.Exit`, whatever else the body contains.  These
are returns of the body with their preceding statements, and all returns of
the body when it has no `else if` and no labeled statement; the returns below
an `else if` or a labeled statement are not covered. -/
theorem returns_reported_iff (body : List Stmt) (hnd : (visitedReturnsList body).Nodup) :
    (∀ (excludePackages : List String) (filename : String) (doc : Option (List String)),
      isExcluded excludePackages filename = false →
      hasSkipTracerComment { Doc := doc, Body := some body } = false →
      returnReports excludePackages filename { Doc := doc, Body := some body } =
        checkReturns body) ∧
    (∀ target pv, (target, pv) ∈ coveredOfBlock none body →
      (target ∈ checkReturns body ↔ unguarded pv = true)) ∧
    (∀ p ∈ coveredOfBlock none body, p ∈ returnsOfBlock none body) ∧
    (reachedList body = true →
      coveredOfBlock none body = returnsOfBlock none body ∧
      checkReturns body =
        ((returnsOfBlock none body).filter (fun p => unguarded p.2)).map Prod.fst) ∧
    unguarded none = true ∧
    (∀ stmt, unguarded (some stmt) = false ↔
      ∃ name args line, (name = "ExitSuccess" ∨ name = "ExitError" ∨ name = "Exit") ∧
        stmt = .exprStmt (.callExpr (.selectorExpr (.ident "tracer") name) args line)) := by
  refine ⟨?_, checkReturns_covered body hnd, covered_sub_block body none,
    fun hr => ⟨covered_eq_block body none hr, checkReturns_eq body hr hnd⟩, rfl, ?_⟩
  · intro excl filename doc hex hskip
    simp only [returnReports, hex, hskip, Bool.false_eq_true, if_false]
  · intro stmt
    simp only [unguarded, Bool.not_eq_false', isTracerExitCall, Bool.or_eq_true,
      isTracerCall_iff]
    constructor
    · rintro ((⟨args, line, h⟩ | ⟨args, line, h⟩) | ⟨args, line, h⟩)
      · exact ⟨_, args, line, Or.inl rfl, h⟩
      · exact ⟨_, args, line, Or.inr (Or.inl rfl), h⟩
      · exact ⟨_, args, line, Or.inr (Or.inr rfl), h⟩
    · rintro ⟨name, args, line, h | h | h, hs⟩
      · subst h; exact Or.inl (Or.inl ⟨args, line, hs⟩)
      · subst h; exact Or.inl (Or.inr ⟨args, line, hs⟩)
      · subst h; exact Or.inr ⟨args, line, hs⟩

/-- C26 on `elseIfBody`, which has an `else if`: the returns at 4 and 10 are
covered, each stands right after `tracer.ExitSuccess`, and neither is
reported; and on `nestedReturnsBody`: the return at 8, the first statement of
an `else` block, is reported. -/
theorem returns_reported_iff_witness :
    (visitedReturnsList elseIfBody).Nodup ∧
    coveredOfBlock none elseIfBody =
      [(4, some (tracerCallStmt "ExitSuccess")), (10, some (tracerCallStmt "ExitSuccess"))] ∧
    4 ∉ checkReturns elseIfBody ∧ 10 ∉ checkReturns elseIfBody ∧
    8 ∈ checkReturns nestedReturnsBody :=
  ⟨by decide, rfl,
   fun h => Bool.noConfusion
     (((returns_reported_iff elseIfBody (by decide)).2.1 4
        (some (tracerCallStmt "ExitSuccess"))
        ((show coveredOfBlock none elseIfBody =
          [(4, some (tracerCallStmt "ExitSuccess")),
           (10, some (tracerCallStmt "ExitSuccess"))] from rfl) ▸
          List.mem_cons_self _ _)).1 h),
   fun h => Bool.noConfusion
     (((returns_reported_iff elseIfBody (by decide)).2.1 10
        (some (tracerCallStmt "ExitSuccess"))
        ((show coveredOfBlock none elseIfBody =
          [(4, some (tracerCallStmt "ExitSuccess")),
           (10, some (tracerCallStmt "ExitSuccess"))] from rfl) ▸
          List.mem_cons_of_mem _ (List.mem_cons_self _ _))).1 h),
   ((returns_reported_iff nestedReturnsBody (by decide)).2.1 8 none
      ((show coveredOfBlock none nestedReturnsBody =
        [(5, some (tracerCallStmt "ExitSuccess")), (8, none), (12, some .other),
         (16, some (tracerCallStmt "ExitError")),
         (20, some (tracerCallStmt "ExitSuccess"))] from rfl) ▸
        List.mem_cons_of_mem _ (List.mem_cons_self _ _))).2 rfl⟩

end ReturnRuleClaim

end Archlint
